import Mathlib

/-!
# Array-backed sparse matrix (`src/arrayImplementation.cpp`)

A shallow embedding of the class `SparseMatrixArray` and a verification of its
contract.

Modelling conventions.

* The C++ `int` fields and loop counters are integers (`Int`).  Signed overflow is
  undefined behaviour in C++; the only arithmetic that can grow without bound is
  `capacity *= 2`, which is modelled exactly in `Int`.
* The three heap arrays `rowIndices`, `colIndices`, `values` are lists whose length
  is the allocated length (`capacity`).  A freshly allocated cell holds `0`.  A
  write outside the allocated length is lost, so any property proved here also
  shows that the code never depends on such a write.
* The element type `double` is a parameter `V`: the contract reads the stored
  values as exact numbers, so `V` is any type with a zero and decidable equality
  (plus `+` and `*` for `add` and `multiply`).
* `throw` is modelled with `Except Error`.
* `while` loops carry a fuel argument that is an upper bound on the number of
  iterations (the length of the searched interval); counted `for` loops use the
  combinators `forUp`, `forDown` and `forUpE`, whose fuel is the trip count.
-/

namespace ArrayImpl

/-- The two exception classes thrown by the class. -/
inductive Error where
  | outOfRange
  | invalidArgument
  deriving DecidableEq

/-- Array read `a[i]` with an `int` index. -/
def readAt {α : Type} [Zero α] (a : List α) (i : Int) : α :=
  a.getD i.toNat 0

/-- Array write `a[i] = x` with an `int` index. -/
def writeAt {α : Type} (a : List α) (i : Int) (x : α) : List α :=
  a.set i.toNat x

/-- Loop `for (int i = lo; i < hi; i++) body`, started at `i` with `fuel` iterations left. -/
def forUp {σ : Type} (hi : Int) (body : Int → σ → σ) : Nat → Int → σ → σ
  | 0, _, st => st
  | fuel + 1, i, st => if i < hi then forUp hi body fuel (i + 1) (body i st) else st

/-- Loop `for (int i = hi; i > lo; i--) body`, started at `i` with `fuel` iterations left. -/
def forDown {σ : Type} (lo : Int) (body : Int → σ → σ) : Nat → Int → σ → σ
  | 0, _, st => st
  | fuel + 1, i, st => if i > lo then forDown lo body fuel (i - 1) (body i st) else st

/-- Loop `for (int i = lo; i < hi; i++) body` whose body may throw. -/
def forUpE {σ : Type} (hi : Int) (body : Int → σ → Except Error σ) :
    Nat → Int → σ → Except Error σ
  | 0, _, st => .ok st
  | fuel + 1, i, st =>
    if i < hi then
      match body i st with
      | .ok st' => forUpE hi body fuel (i + 1) st'
      | .error e => .error e
    else .ok st

/-- The data members of `class SparseMatrixArray`. -/
structure SparseMatrixArray (V : Type) where
  rows : Int
  cols : Int
  capacity : Int
  size : Int
  rowIndices : List Int
  colIndices : List Int
  values : List V
  deriving DecidableEq

namespace SparseMatrixArray

variable {V : Type}

/-- Loop of `findInsertionPoint`: `while (left < right)`. -/
def findInsertionPointLoop (s : SparseMatrixArray V) (row col : Int) : Nat → Int → Int → Int
  | 0, left, _ => left
  | fuel + 1, left, right =>
    if left < right then
      let mid := left + (right - left).tdiv 2
      if readAt s.rowIndices mid < row ∨
          (readAt s.rowIndices mid = row ∧ readAt s.colIndices mid < col) then
        findInsertionPointLoop s row col fuel (mid + 1) right
      else
        findInsertionPointLoop s row col fuel left mid
    else left

/-- Method `int findInsertionPoint(int row, int col) const`. -/
def findInsertionPoint (s : SparseMatrixArray V) (row col : Int) : Int :=
  findInsertionPointLoop s row col s.size.toNat 0 s.size

/-- Loop of `findElementIndex`: `while (left <= right)`. -/
def findElementIndexLoop (s : SparseMatrixArray V) (row col : Int) : Nat → Int → Int → Int
  | 0, _, _ => -1
  | fuel + 1, left, right =>
    if left ≤ right then
      let mid := left + (right - left).tdiv 2
      if readAt s.rowIndices mid = row ∧ readAt s.colIndices mid = col then
        mid
      else if readAt s.rowIndices mid < row ∨
          (readAt s.rowIndices mid = row ∧ readAt s.colIndices mid < col) then
        findElementIndexLoop s row col fuel (mid + 1) right
      else
        findElementIndexLoop s row col fuel left (mid - 1)
    else -1

/-- Method `int findElementIndex(int row, int col) const`; `-1` when not found. -/
def findElementIndex (s : SparseMatrixArray V) (row col : Int) : Int :=
  findElementIndexLoop s row col s.size.toNat 0 (s.size - 1)

/-- Method `void resize()`: double the capacity, allocate new arrays, copy `[0, size)`. -/
def resize [Zero V] (s : SparseMatrixArray V) : SparseMatrixArray V :=
  let capacity := s.capacity * 2
  let newRowIndices : List Int := List.replicate capacity.toNat 0
  let newColIndices : List Int := List.replicate capacity.toNat 0
  let newValues : List V := List.replicate capacity.toNat 0
  let copied := forUp s.size
    (fun i (n : List Int × List Int × List V) =>
      (writeAt n.1 i (readAt s.rowIndices i),
       writeAt n.2.1 i (readAt s.colIndices i),
       writeAt n.2.2 i (readAt s.values i)))
    s.size.toNat 0 (newRowIndices, newColIndices, newValues)
  { s with capacity := capacity, rowIndices := copied.1, colIndices := copied.2.1,
           values := copied.2.2 }

/-- Method `void shiftRight(int index)`. -/
def shiftRight [Zero V] (s : SparseMatrixArray V) (index : Int) : SparseMatrixArray V :=
  forDown index
    (fun i (t : SparseMatrixArray V) =>
      { t with rowIndices := writeAt t.rowIndices i (readAt t.rowIndices (i - 1)),
               colIndices := writeAt t.colIndices i (readAt t.colIndices (i - 1)),
               values := writeAt t.values i (readAt t.values (i - 1)) })
    (s.size - index).toNat s.size s

/-- Method `void shiftLeft(int index)`. -/
def shiftLeft [Zero V] (s : SparseMatrixArray V) (index : Int) : SparseMatrixArray V :=
  forUp (s.size - 1)
    (fun i (t : SparseMatrixArray V) =>
      { t with rowIndices := writeAt t.rowIndices i (readAt t.rowIndices (i + 1)),
               colIndices := writeAt t.colIndices i (readAt t.colIndices (i + 1)),
               values := writeAt t.values i (readAt t.values (i + 1)) })
    (s.size - 1 - index).toNat index s

/-- Constructor `SparseMatrixArray(int r, int c)`: capacity 10, size 0. -/
def new [Zero V] (r c : Int) : SparseMatrixArray V :=
  { rows := r, cols := c, capacity := 10, size := 0,
    rowIndices := List.replicate 10 0, colIndices := List.replicate 10 0,
    values := List.replicate 10 0 }

/-- Method `void remove(int row, int col)`. -/
def remove [Zero V] (s : SparseMatrixArray V) (row col : Int) : SparseMatrixArray V :=
  let index := findElementIndex s row col
  if index ≠ -1 then
    let s1 := shiftLeft s index
    { s1 with size := s1.size - 1 }
  else s

/-- Method `void insert(int row, int col, double value)`. -/
def insert [Zero V] [DecidableEq V] (s : SparseMatrixArray V) (row col : Int) (value : V) :
    Except Error (SparseMatrixArray V) :=
  if row < 0 ∨ row ≥ s.rows ∨ col < 0 ∨ col ≥ s.cols then
    .error .outOfRange
  else if value = 0 then
    .ok (remove s row col)
  else
    let index := findElementIndex s row col
    if index ≠ -1 then
      .ok { s with values := writeAt s.values index value }
    else
      let s1 := if s.size ≥ s.capacity then resize s else s
      let insertPos := findInsertionPoint s1 row col
      let s2 := shiftRight s1 insertPos
      .ok { s2 with rowIndices := writeAt s2.rowIndices insertPos row,
                    colIndices := writeAt s2.colIndices insertPos col,
                    values := writeAt s2.values insertPos value,
                    size := s2.size + 1 }

/-- Method `double get(int row, int col) const`. -/
def get [Zero V] (s : SparseMatrixArray V) (row col : Int) : Except Error V :=
  if row < 0 ∨ row ≥ s.rows ∨ col < 0 ∨ col ≥ s.cols then
    .error .outOfRange
  else
    let index := findElementIndex s row col
    .ok (if index ≠ -1 then readAt s.values index else 0)

/-- Method `void set(int row, int col, double value)`: alias for `insert`. -/
def set [Zero V] [DecidableEq V] (s : SparseMatrixArray V) (row col : Int) (value : V) :
    Except Error (SparseMatrixArray V) :=
  insert s row col value

/-- Method `SparseMatrixArray add(const SparseMatrixArray& other) const`. -/
def add [Zero V] [DecidableEq V] [Add V] (s other : SparseMatrixArray V) :
    Except Error (SparseMatrixArray V) :=
  if s.rows ≠ other.rows ∨ s.cols ≠ other.cols then
    .error .invalidArgument
  else
    match forUpE s.size
        (fun i result => insert result (readAt s.rowIndices i) (readAt s.colIndices i)
          (readAt s.values i))
        s.size.toNat 0 (new s.rows s.cols) with
    | .error e => .error e
    | .ok result =>
      forUpE other.size
        (fun i result =>
          match get result (readAt other.rowIndices i) (readAt other.colIndices i) with
          | .error e => .error e
          | .ok currentValue =>
            insert result (readAt other.rowIndices i) (readAt other.colIndices i)
              (currentValue + readAt other.values i))
        other.size.toNat 0 result

/-- Method `SparseMatrixArray multiply(const SparseMatrixArray& other) const`. -/
def multiply [Zero V] [DecidableEq V] [Add V] [Mul V] (s other : SparseMatrixArray V) :
    Except Error (SparseMatrixArray V) :=
  if s.cols ≠ other.rows then
    .error .invalidArgument
  else
    forUpE s.size
      (fun i result =>
        forUpE other.size
          (fun j result =>
            if readAt s.colIndices i = readAt other.rowIndices j then
              let product := readAt s.values i * readAt other.values j
              match get result (readAt s.rowIndices i) (readAt other.colIndices j) with
              | .error e => .error e
              | .ok existingValue =>
                insert result (readAt s.rowIndices i) (readAt other.colIndices j)
                  (existingValue + product)
            else .ok result)
          other.size.toNat 0 result)
      s.size.toNat 0 (new s.rows other.cols)

/-- Method `SparseMatrixArray transpose() const`. -/
def transpose [Zero V] [DecidableEq V] (s : SparseMatrixArray V) :
    Except Error (SparseMatrixArray V) :=
  forUpE s.size
    (fun i result => insert result (readAt s.colIndices i) (readAt s.rowIndices i)
      (readAt s.values i))
    s.size.toNat 0 (new s.cols s.rows)

/-- Method `int getNonZeroCount() const`. -/
def getNonZeroCount (s : SparseMatrixArray V) : Int := s.size

/-- Method `bool isEmpty() const`. -/
def isEmpty (s : SparseMatrixArray V) : Bool := s.size == 0

/-- Method `void clear()`. -/
def clear (s : SparseMatrixArray V) : SparseMatrixArray V := { s with size := 0 }

/-- Method `pair<int, int> getDimensions() const`. -/
def getDimensions (s : SparseMatrixArray V) : Int × Int := (s.rows, s.cols)

/-- Method `int getCapacity() const`. -/
def getCapacity (s : SparseMatrixArray V) : Int := s.capacity

/-! ### Specification-level vocabulary -/

/-- Row-major (lexicographic) strict order on `(row, col)` keys: the comparison the two
binary searches test. -/
def keyLess (a b : Int × Int) : Prop :=
  a.1 < b.1 ∨ (a.1 = b.1 ∧ a.2 < b.2)

instance (a b : Int × Int) : Decidable (keyLess a b) := by
  unfold keyLess; infer_instance

/-- Key `(rowIndices[i], colIndices[i])` stored at index `i`. -/
def keyAt (s : SparseMatrixArray V) (i : Int) : Int × Int :=
  (readAt s.rowIndices i, readAt s.colIndices i)

/-- Triple `(rowIndices[i], colIndices[i], values[i])` stored at index `i`. -/
def tripleAt [Zero V] (s : SparseMatrixArray V) (i : Int) : Int × Int × V :=
  (readAt s.rowIndices i, readAt s.colIndices i, readAt s.values i)

/-- Stored triples at the indices `[0, size)`, in internal order. -/
def entries [Zero V] (s : SparseMatrixArray V) : List (Int × Int × V) :=
  (List.range s.size.toNat).map (fun (i : Nat) => tripleAt s (i : Int))

/-- Stored keys are strictly increasing in row-major order over `[0, size)`. -/
def SortedKeys (s : SparseMatrixArray V) : Prop :=
  ∀ i j : Int, 0 ≤ i → i < j → j < s.size → keyLess (keyAt s i) (keyAt s j)

/-- Value that `get` reads once its bounds check has passed: the stored value at the
index found by `findElementIndex`, `0` when the key is not found. -/
def cell [Zero V] (s : SparseMatrixArray V) (row col : Int) : V :=
  let index := findElementIndex s row col
  if index ≠ -1 then readAt s.values index else 0

/-- The arrays are allocated with `capacity` cells and hold `size ≤ capacity` entries. -/
structure Alloc (s : SparseMatrixArray V) : Prop where
  cap_pos : 0 < s.capacity
  size_nonneg : 0 ≤ s.size
  size_le : s.size ≤ s.capacity
  len_row : (s.rowIndices.length : Int) = s.capacity
  len_col : (s.colIndices.length : Int) = s.capacity
  len_val : (s.values.length : Int) = s.capacity

/-- No stored value is zero. -/
def NonZeroValues [Zero V] (s : SparseMatrixArray V) : Prop :=
  ∀ e ∈ entries s, e.2.2 ≠ 0

/-- Every stored key lies inside the matrix. -/
def InBounds [Zero V] (s : SparseMatrixArray V) : Prop :=
  ∀ e ∈ entries s, 0 ≤ e.1 ∧ e.1 < s.rows ∧ 0 ≤ e.2.1 ∧ e.2.1 < s.cols

/-- Representation invariant of the class. -/
structure WF [Zero V] (s : SparseMatrixArray V) : Prop where
  alloc : Alloc s
  sorted : SortedKeys s
  nonzero : NonZeroValues s
  inb : InBounds s

/-- Matrix states that client code can obtain: a newly constructed matrix, the state
after a `set`/`insert` that returns, after `remove`, after `clear`, and the matrices
returned by `add`, `multiply` and `transpose` on such operands.  (A call that throws
leaves the object as it was.) -/
inductive Reachable [Zero V] [DecidableEq V] [Add V] [Mul V] : SparseMatrixArray V → Prop
  | new (r c : Int) : Reachable (new r c)
  | insert {s t : SparseMatrixArray V} (r c : Int) (v : V) :
      Reachable s → insert s r c v = .ok t → Reachable t
  | remove {s : SparseMatrixArray V} (r c : Int) : Reachable s → Reachable (remove s r c)
  | clear {s : SparseMatrixArray V} : Reachable s → Reachable (clear s)
  | add {a b t : SparseMatrixArray V} : Reachable a → Reachable b → add a b = .ok t →
      Reachable t
  | multiply {a b t : SparseMatrixArray V} : Reachable a → Reachable b →
      multiply a b = .ok t → Reachable t
  | transpose {s t : SparseMatrixArray V} : Reachable s → transpose s = .ok t → Reachable t

/-- One call of the mutating interface. -/
inductive Op (V : Type) where
  | set (row col : Int) (value : V)
  | insert (row col : Int) (value : V)
  | remove (row col : Int)
  | clear

/-- The call `op` is aimed at position `(row, col)`. -/
def Op.targets : Op V → Int → Int → Prop
  | .set r c _, row, col => r = row ∧ c = col
  | .insert r c _, row, col => r = row ∧ c = col
  | .remove r c, row, col => r = row ∧ c = col
  | .clear, _, _ => False

/-- State of the object after the call `op`; a call that throws leaves it unchanged. -/
def applyOp [Zero V] [DecidableEq V] (s : SparseMatrixArray V) : Op V → SparseMatrixArray V
  | .set r c v =>
    match set s r c v with
    | .ok t => t
    | .error _ => s
  | .insert r c v =>
    match insert s r c v with
    | .ok t => t
    | .error _ => s
  | .remove r c => remove s r c
  | .clear => clear s

/-- State of the object after a sequence of calls. -/
def runOps [Zero V] [DecidableEq V] (s : SparseMatrixArray V) (ops : List (Op V)) :
    SparseMatrixArray V :=
  ops.foldl applyOp s

/-- Exception thrown by the call `op` in state `s`, `none` when the call returns. -/
def callError [Zero V] [DecidableEq V] (s : SparseMatrixArray V) : Op V → Option Error
  | .set r c v =>
    match set s r c v with
    | .ok _ => none
    | .error e => some e
  | .insert r c v =>
    match insert s r c v with
    | .ok _ => none
    | .error e => some e
  | .remove _ _ => none
  | .clear => none

/-- State of the object after the calls `set(r, c, v)` for `(r, c, v)` in `calls`, in order. -/
def setAll [Zero V] [DecidableEq V] (s : SparseMatrixArray V) (calls : List (Int × Int × V)) :
    SparseMatrixArray V :=
  calls.foldl (fun t x => applyOp t (.set x.1 x.2.1 x.2.2)) s

/-- Value passed by the most recent call in `calls` that targets `p`; `0` when no call
targets `p`. -/
def lastValue [Zero V] (calls : List (Int × Int × V)) (p : Int × Int) : V :=
  match calls.reverse.find? (fun x => decide ((x.1, x.2.1) = p)) with
  | some x => x.2.2
  | none => 0

/-- Number of distinct positions whose most recent `set` in `calls` had a non-zero value. -/
def liveCount [Zero V] [DecidableEq V] (calls : List (Int × Int × V)) : Nat :=
  ((calls.map (fun x => (x.1, x.2.1))).toFinset.filter (fun p => lastValue calls p ≠ 0)).card

/-! ### Concrete matrices used in the worked examples -/

/-- The 3x3 example matrix of the demo `main`: five `set` calls on a new matrix. -/
def exampleM : SparseMatrixArray ℤ :=
  setAll (new 3 3) [(0, 0, 1), (0, 2, 2), (1, 1, 3), (2, 0, 4), (2, 2, 5)]

/-- A 3x3 matrix holding the single entry `(0,0) = 1`. -/
def exampleN : SparseMatrixArray ℤ :=
  setAll (new 3 3) [(0, 0, 1)]

/-- A 4x4 matrix with ten stored entries: `size` equals the initial `capacity`. -/
def exampleFull : SparseMatrixArray ℤ :=
  setAll (new 4 4) [(3, 2, 1), (0, 0, 2), (2, 1, 3), (1, 1, 4), (0, 3, 5), (2, 2, 6),
    (1, 0, 7), (3, 0, 8), (0, 1, 9), (2, 3, 10)]

/-- A 1x3 row of ones. -/
def exampleRow : SparseMatrixArray ℤ :=
  setAll (new 1 3) [(0, 0, 1), (0, 1, 1), (0, 2, 1)]

/-- A 3x1 column `1, -1, 5`: the running dot product with a row of ones passes
through zero. -/
def exampleCol : SparseMatrixArray ℤ :=
  setAll (new 3 1) [(0, 0, 1), (1, 0, -1), (2, 0, 5)]

/-- Ten `set` calls at distinct positions of a 4x4 matrix: they fill the initial capacity
of ten slots. -/
def exampleOps : List (Op ℤ) :=
  [Op.set 3 2 1, Op.set 0 0 2, Op.set 2 1 3, Op.set 1 1 4, Op.set 0 3 5, Op.set 2 2 6,
    Op.set 1 0 7, Op.set 3 0 8, Op.set 0 1 9, Op.set 2 3 10]

/-- A 3x3 matrix built by three `set` calls in row-major order. -/
def exampleOrderA : SparseMatrixArray ℤ :=
  runOps (new 3 3) [Op.set 0 0 1, Op.set 1 1 2, Op.set 2 0 3]

/-- The same 3x3 matrix built in another order, with a stray entry that is overwritten
and one that is removed again. -/
def exampleOrderB : SparseMatrixArray ℤ :=
  runOps (new 3 3) [Op.set 2 0 7, Op.set 1 1 2, Op.set 0 2 9, Op.set 2 0 3, Op.set 0 0 1,
    Op.remove 0 2]

/-- Lookup by a naive linear scan over the stored triples: the value of the first stored
triple whose key is `(row, col)`, and `0` when there is none. -/
def linearLookup [Zero V] (s : SparseMatrixArray V) (row col : Int) : V :=
  match (entries s).find? (fun e => decide (e.1 = row ∧ e.2.1 = col)) with
  | some e => e.2.2
  | none => 0

end SparseMatrixArray

end ArrayImpl

/-!
# Dijkstra's shortest path (`src/dijkstra.cpp`)

A shallow embedding of the classes `Graph` and `DijkstraAlgorithm`.

Modelling conventions.

* Vertex indices and `numVertices` are integers (`Int`); the `vector`s are lists read
  and written with `readAt`/`writeAt`, the `map<string,int>` is an association list.
* The weight type `double` is a parameter `W` that carries the operations of `double`
  which the code uses: the comparisons (a linear order: the weights are non-negative, so
  no NaN occurs), the constants `0.0` and `-1.0`, and the addition.  The addition `+` of
  `W` is the machine addition, which rounds its result; nothing is assumed of it but the
  two laws of `DoubleLaws`, which hold both for IEEE 754 addition (in every rounding
  direction, with overflow to infinity) and for exact arithmetic.  The type `Double`
  below is binary64 itself, with the addition that rounds to nearest; the laws are proved
  for it (`doubleLaws_double`) and for exact numbers (`doubleLaws_exact`).  The constant
  `numeric_limits<double>::max()`, which the code uses as the distance of a vertex that
  has not been reached, is the explicit argument `dblMax` of `findShortestPath` and
  `findShortestDistances`.
* The weight of a path is the sum that the code computes along it: starting from `0.0`
  at the source, the weights of the edges are added one after the other in path order,
  each partial sum being a `double` (`Walk`, `PathCost`).
* The `priority_queue` with `greater<>` is the list of its elements; `top()` is a least
  element under `operator<` of pairs, `pop()` erases it, `push` adds an element.
* The `while` loops carry a fuel argument that bounds the number of iterations;
  `findShortestPath` and `findShortestDistances` return `none` when the fuel does not
  suffice.
-/

namespace DijkstraImpl

open ArrayImpl

/-- The exception class thrown by `findShortestPath`: `std::invalid_argument`. -/
inductive Error where
  | invalidArgument
  deriving DecidableEq

/-- Record `struct Edge`. -/
structure Edge (W : Type) where
  destination : Int
  weight : W
  deriving DecidableEq

/-- The data members of `class Graph`; the `map<string,int>` is an association list. -/
structure Graph (W : Type) where
  numVertices : Int
  adjacencyList : List (List (Edge W))
  nodeToIndex : List (String × Int)
  indexToNode : List String

variable {W : Type}

/-- Lookup `nodeToIndex.find(name)`; `none` stands for `end()`. -/
def mapFind : List (String × Int) → String → Option Int
  | [], _ => none
  | (k, v) :: m, name => if k = name then some v else mapFind m name

/-- Library call `vector::resize(n)` on a vector of vectors: truncate, or pad with empty
vectors. -/
def resizeTo {α : Type} (l : List (List α)) (n : Int) : List (List α) :=
  l.take n.toNat ++ List.replicate (n.toNat - l.length) []

/-- Statement `adjacencyList[i].push_back(e)`. -/
def pushBackAt {α : Type} (l : List (List α)) (i : Int) (e : α) : List (List α) :=
  l.set i.toNat (l.getD i.toNat [] ++ [e])

namespace Graph

/-- Constructor `Graph()`. -/
def empty : Graph W :=
  { numVertices := 0, adjacencyList := [], nodeToIndex := [], indexToNode := [] }

/-- Method `void addVertex(const string& name)`. -/
def addVertex (g : Graph W) (name : String) : Graph W :=
  if mapFind g.nodeToIndex name = none then
    { numVertices := g.numVertices + 1
      adjacencyList := resizeTo g.adjacencyList (g.numVertices + 1)
      nodeToIndex := (name, g.numVertices) :: g.nodeToIndex
      indexToNode := g.indexToNode ++ [name] }
  else g

/-- Method `void addEdge(const string& from, const string& to, double weight)`. -/
def addEdge (g : Graph W) (fromName toName : String) (weight : W) : Graph W :=
  let g1 := addVertex g fromName
  let g2 := addVertex g1 toName
  let fromIndex := (mapFind g2.nodeToIndex fromName).getD 0
  let toIndex := (mapFind g2.nodeToIndex toName).getD 0
  let adj1 := pushBackAt g2.adjacencyList fromIndex (Edge.mk toIndex weight)
  let adj2 := pushBackAt adj1 toIndex (Edge.mk fromIndex weight)
  { g2 with adjacencyList := adj2 }

/-- Method `int getNumVertices() const`. -/
def getNumVertices (g : Graph W) : Int := g.numVertices

/-- Method `string getVertexName(int index) const`. -/
def getVertexName (g : Graph W) (index : Int) : String :=
  if index ≥ 0 ∧ index < g.numVertices then g.indexToNode.getD index.toNat "" else ""

/-- Method `int getVertexIndex(const string& name) const`. -/
def getVertexIndex (g : Graph W) (name : String) : Int :=
  match mapFind g.nodeToIndex name with
  | some i => i
  | none => -1

/-- Method `const vector<Edge>& getNeighbors(int vertexIndex) const`. -/
def getNeighbors (g : Graph W) (vertexIndex : Int) : List (Edge W) :=
  if vertexIndex ≥ 0 ∧ vertexIndex < g.numVertices then
    g.adjacencyList.getD vertexIndex.toNat []
  else []

end Graph

/-- Comparison `operator<` of `pair<double,int>`. -/
def pairLt [LT W] (a b : W × Int) : Prop :=
  a.1 < b.1 ∨ (¬ b.1 < a.1 ∧ a.2 < b.2)

instance [LT W] [DecidableRel (fun a b : W => a < b)] (a b : W × Int) :
    Decidable (pairLt a b) := by
  unfold pairLt; infer_instance

/-- Library model of `priority_queue<pair<double,int>, ..., greater<>>::top()`: a least
element of the queue under `operator<`; `none` when the queue is empty. -/
def pqTop [LT W] [DecidableRel (fun a b : W => a < b)] : List (W × Int) → Option (W × Int)
  | [] => none
  | x :: xs =>
    match pqTop xs with
    | none => some x
    | some y => if pairLt y x then some y else some x

/-- Library model of `priority_queue::pop()`: remove the element `top()` returns. -/
def pqPop [LT W] [DecidableRel (fun a b : W => a < b)] [DecidableEq W] (q : List (W × Int)) :
    List (W × Int) :=
  match pqTop q with
  | none => q
  | some x => q.erase x

/-- Library model of `priority_queue::push(x)`. -/
def pqPush (q : List (W × Int)) (x : W × Int) : List (W × Int) :=
  x :: q

/-- The local variables `distances`, `parent` and `pq` of `findShortestPath`. -/
structure SearchState (W : Type) where
  distances : List W
  parent : List Int
  pq : List (W × Int)

/-- Body of the loop `for (const Edge& edge : graph->getNeighbors(currentVertex))`. -/
def relax [LinearOrder W] [Zero W] [Add W] (currentDist : W) (currentVertex : Int) (st : SearchState W)
    (edge : Edge W) : SearchState W :=
  let neighbor := edge.destination
  let newDist := currentDist + edge.weight
  if newDist < readAt st.distances neighbor then
    { distances := writeAt st.distances neighbor newDist
      parent := writeAt st.parent neighbor currentVertex
      pq := pqPush st.pq (newDist, neighbor) }
  else st

/-- Loop `while (!pq.empty())` of `findShortestPath`, with at most `fuel` iterations;
`none` when the fuel runs out before the loop exits. -/
def searchLoop [LinearOrder W] [Zero W] [Add W] (g : Graph W) (destIndex : Int) :
    Nat → SearchState W → Option (SearchState W)
  | 0, _ => none
  | fuel + 1, st =>
    match pqTop st.pq with
    | none => some st
    | some (currentDist, currentVertex) =>
      let st1 : SearchState W := { st with pq := pqPop st.pq }
      if currentDist > readAt st1.distances currentVertex then
        searchLoop g destIndex fuel st1
      else if currentVertex = destIndex then
        some st1
      else
        searchLoop g destIndex fuel
          ((g.getNeighbors currentVertex).foldl (relax currentDist currentVertex) st1)

/-- Loop `while (current != -1)` that collects the path, with at most `fuel` iterations. -/
def pathLoop (g : Graph W) (parent : List Int) : Nat → Int → List String → Option (List String)
  | 0, _, _ => none
  | fuel + 1, current, path =>
    if current ≠ -1 then
      pathLoop g parent fuel (readAt parent current) (path ++ [g.getVertexName current])
    else some path

/-- Method `pair<double, vector<string>> findShortestPath(source, destination)`.
`dblMax` is the constant `numeric_limits<double>::max()`; `fuel` bounds the iterations
of each of the two `while` loops (`none`: not finished within `fuel`). -/
def findShortestPath [LinearOrder W] [Zero W] [One W] [Neg W] [Add W] (dblMax : W) (g : Graph W) (fuel : Nat)
    (source destination : String) : Option (Except Error (W × List String)) :=
  let sourceIndex := g.getVertexIndex source
  let destIndex := g.getVertexIndex destination
  if sourceIndex = -1 then
    some (.error .invalidArgument)
  else if destIndex = -1 then
    some (.error .invalidArgument)
  else if sourceIndex = destIndex then
    some (.ok (0, [source]))
  else
    let numVertices := g.getNumVertices
    let distances : List W := List.replicate numVertices.toNat dblMax
    let parent : List Int := List.replicate numVertices.toNat (-1)
    let distances := writeAt distances sourceIndex 0
    let pq : List (W × Int) := pqPush [] (0, sourceIndex)
    match searchLoop g destIndex fuel { distances := distances, parent := parent, pq := pq } with
    | none => none
    | some st =>
      if readAt st.distances destIndex = dblMax then
        some (.ok (-1, []))
      else
        match pathLoop g st.parent fuel destIndex [] with
        | none => none
        | some path => some (.ok (readAt st.distances destIndex, path.reverse))

/-- The local variables `distances` and `pq` of `findShortestDistances`. -/
structure DistState (W : Type) where
  distances : List W
  pq : List (W × Int)

/-- Body of the loop `for (const Edge& edge : graph->getNeighbors(currentVertex))` of
`findShortestDistances`. -/
def relaxDist [LinearOrder W] [Zero W] [Add W] (currentDist : W) (st : DistState W) (edge : Edge W) :
    DistState W :=
  let neighbor := edge.destination
  let newDist := currentDist + edge.weight
  if newDist < readAt st.distances neighbor then
    { distances := writeAt st.distances neighbor newDist
      pq := pqPush st.pq (newDist, neighbor) }
  else st

/-- Loop `while (!pq.empty())` of `findShortestDistances`, with at most `fuel` iterations;
`none` when the fuel runs out before the loop exits. -/
def distLoop [LinearOrder W] [Zero W] [Add W] (g : Graph W) : Nat → DistState W → Option (DistState W)
  | 0, _ => none
  | fuel + 1, st =>
    match pqTop st.pq with
    | none => some st
    | some (currentDist, currentVertex) =>
      let st1 : DistState W := { st with pq := pqPop st.pq }
      if currentDist > readAt st1.distances currentVertex then
        distLoop g fuel st1
      else
        distLoop g fuel ((g.getNeighbors currentVertex).foldl (relaxDist currentDist) st1)

/-- Method `vector<double> findShortestDistances(const string& source)`.
`dblMax` is the constant `numeric_limits<double>::max()`; `fuel` bounds the iterations
of the `while` loop (`none`: not finished within `fuel`). -/
def findShortestDistances [LinearOrder W] [Zero W] [Add W] (dblMax : W) (g : Graph W) (fuel : Nat)
    (source : String) : Option (Except Error (List W)) :=
  let sourceIndex := g.getVertexIndex source
  if sourceIndex = -1 then
    some (.error .invalidArgument)
  else
    let numVertices := g.getNumVertices
    let distances : List W := List.replicate numVertices.toNat dblMax
    let distances := writeAt distances sourceIndex 0
    let pq : List (W × Int) := pqPush [] (0, sourceIndex)
    match distLoop g fuel { distances := distances, pq := pq } with
    | none => none
    | some st => some (.ok st.distances)

/-- Function `createSampleGraph()`, with the weights as integers. -/
def createSampleGraph : Graph ℤ :=
  let graph : Graph ℤ := Graph.empty
  let graph := graph.addVertex "A"
  let graph := graph.addVertex "B"
  let graph := graph.addVertex "C"
  let graph := graph.addVertex "D"
  let graph := graph.addVertex "E"
  let graph := graph.addVertex "F"
  let graph := graph.addEdge "A" "B" 4
  let graph := graph.addEdge "A" "C" 2
  let graph := graph.addEdge "B" "C" 1
  let graph := graph.addEdge "B" "D" 5
  let graph := graph.addEdge "C" "D" 8
  let graph := graph.addEdge "C" "E" 10
  let graph := graph.addEdge "D" "E" 2
  let graph := graph.addEdge "D" "F" 6
  graph.addEdge "E" "F" 3

/-! ### Specification-level vocabulary -/

/-- Graphs that client code can build: `Graph()` followed by any sequence of `addVertex`
and `addEdge` calls. -/
inductive Built : Graph W → Prop
  | empty : Built Graph.empty
  | addVertex {g : Graph W} (name : String) : Built g → Built (g.addVertex name)
  | addEdge {g : Graph W} (fromName toName : String) (weight : W) :
      Built g → Built (g.addEdge fromName toName weight)

/-- The laws of the arithmetic of `double` on which the contract rests, for the machine
addition `+` and comparison of `W`: adding a non-negative number to a non-negative number
gives a number that is not smaller (`le_add`), and the addition is monotone in its first
argument (`add_le_add`).  Rounding to a nearest (or directed) neighbour is monotone and
keeps representable numbers, so IEEE 754 addition has both properties, also when the sum
overflows to infinity; exact addition has them too.  No other property of `+` is used:
in particular a sum may equal one of its summands although the other is positive. -/
structure DoubleLaws (W : Type) [LinearOrder W] [Zero W] [One W] [Neg W] [Add W] : Prop where
  le_add : ∀ a w : W, 0 ≤ a → 0 ≤ w → a ≤ a + w
  add_le_add : ∀ a b w : W, 0 ≤ a → a ≤ b → 0 ≤ w → a + w ≤ b + w
  neg_one_lt_zero : (-1 : W) < 0

/-- Every edge weight of the graph is non-negative. -/
def NonNegWeights [LinearOrder W] [Zero W] (g : Graph W) : Prop :=
  ∀ l ∈ g.adjacencyList, ∀ e ∈ l, 0 ≤ e.weight

/-- There is a path from `u` to `v` (a sequence of consecutive edges, vertices may
repeat) whose edge weights, added in path order with the addition of `W` starting from
`0`, sum to `c`. -/
inductive Walk [Zero W] [Add W] (g : Graph W) (u : Int) : Int → W → Prop
  | refl : 0 ≤ u → u < g.numVertices → Walk g u u 0
  | step {v : Int} {c : W} (e : Edge W) :
      Walk g u v c → e ∈ g.getNeighbors v → Walk g u e.destination (c + e.weight)

/-- The vertex names `path` are known vertices, every two consecutive ones are joined by an
edge of the graph, and one such edge per consecutive pair can be chosen so that the
weights, added in path order with the addition of `W` starting from `0`, sum to `c`. -/
inductive PathCost [Zero W] [Add W] (g : Graph W) : List String → W → Prop
  | single (name : String) : g.getVertexIndex name ≠ -1 → PathCost g [name] 0
  | snoc (l : List String) (a b : String) (c : W) (e : Edge W) :
      PathCost g (l ++ [a]) c → e ∈ g.getNeighbors (g.getVertexIndex a) →
      e.destination = g.getVertexIndex b → PathCost g (l ++ [a, b]) (c + e.weight)

/-- Number of loop iterations that is enough for `findShortestPath` on `g` when the
weights are non-negative. -/
def fuelBound (g : Graph W) : Nat :=
  (g.adjacencyList.map List.length).sum + g.numVertices.toNat + 3

/-- Representation invariant of `Graph`. -/
structure GraphWF (g : Graph W) : Prop where
  n_nonneg : 0 ≤ g.numVertices
  adj_len : (g.adjacencyList.length : Int) = g.numVertices
  names_len : (g.indexToNode.length : Int) = g.numVertices
  find_iff : ∀ name i, mapFind g.nodeToIndex name = some i ↔
    (0 ≤ i ∧ i < g.numVertices ∧ g.indexToNode[i.toNat]? = some name)
  edge_valid : ∀ l ∈ g.adjacencyList, ∀ e ∈ l,
    0 ≤ e.destination ∧ e.destination < g.numVertices

/-- What the path reconstruction needs of the state left by the search loop; `done` lists
the vertices whose edges have been relaxed, most recent first. -/
structure PathInv [LinearOrder W] [Zero W] [Add W] (g : Graph W) (s : Int) (M : W) (done : List Int)
    (st : SearchState W) : Prop where
  len_d : (st.distances.length : Int) = g.numVertices
  len_p : (st.parent.length : Int) = g.numVertices
  d_src : readAt st.distances s = 0
  p_src : readAt st.parent s = -1
  walk_of_d : ∀ v, 0 ≤ v → v < g.numVertices → readAt st.distances v < M →
    Walk g s v (readAt st.distances v)
  done_valid : ∀ u ∈ done, 0 ≤ u ∧ u < g.numVertices ∧ readAt st.distances u < M
  done_nodup : done.Nodup
  parent_ok : ∀ v, 0 ≤ v → v < g.numVertices → readAt st.distances v < M → v ≠ s →
    readAt st.parent v ∈ done ∧ ∃ e ∈ g.getNeighbors (readAt st.parent v),
      e.destination = v ∧
      readAt st.distances (readAt st.parent v) + e.weight = readAt st.distances v
  parent_order : ∀ l1 u l2, done = l1 ++ u :: l2 → u ≠ s → readAt st.parent u ∈ l2

/-- Loop invariant of the search loop. `todo` lists the edges of the vertex at the head of
`done` that the inner loop has not relaxed yet (empty at the head of the outer loop). -/
structure SearchInv [LinearOrder W] [Zero W] [Add W] (g : Graph W) (s : Int) (M : W) (done : List Int)
    (todo : List (Edge W)) (st : SearchState W) extends PathInv g s M done st : Prop where
  d_le : ∀ v, 0 ≤ v → v < g.numVertices → readAt st.distances v ≤ M
  pq_valid : ∀ x ∈ st.pq, 0 ≤ x.2 ∧ x.2 < g.numVertices ∧
    readAt st.distances x.2 ≤ x.1 ∧ x.1 < M
  pq_nodup : st.pq.Nodup
  cover : ∀ v, 0 ≤ v → v < g.numVertices → readAt st.distances v < M →
    v ∈ done ∨ (readAt st.distances v, v) ∈ st.pq
  done_opt : ∀ u ∈ done, ∀ c, Walk g s u c → readAt st.distances u ≤ c
  done_stale : ∀ u ∈ done, ∀ x ∈ st.pq, x.2 = u → readAt st.distances u < x.1
  relaxed : ∀ u ∈ done, ∀ e ∈ g.getNeighbors u,
    (done.head? = some u ∧ e ∈ todo) ∨
    readAt st.distances e.destination ≤ readAt st.distances u + e.weight

/-- Number of adjacency-list entries of the vertices not in `done`: the edges the search
loop may still relax. -/
def pendingEdges (g : Graph W) (done : List Int) : Nat :=
  ∑ v ∈ (Finset.range g.numVertices.toNat).filter (fun (v : Nat) => (v : Int) ∉ done),
    (g.getNeighbors (v : Int)).length

/-- The part of the state of `findShortestPath` that `findShortestDistances` also keeps. -/
def SearchState.toDist (st : SearchState W) : DistState W :=
  { distances := st.distances, pq := st.pq }

/-! ### The arithmetic of `double`: IEEE 754 binary64

A concrete weight type: the numbers of binary64 with their comparison and their addition,
rounding to nearest with ties to even (the default rounding mode).  A number is kept as
its sign times the bit pattern of its absolute value; the magnitudes are counted in units
of `2^-1074`, the smallest positive `double`, so that every finite `double` is a natural
number of units and sums of them are exact natural numbers before they are rounded. -/

/-- Bit pattern of the infinity of binary64, `0x7FF0000000000000`: exponent field 2047,
fraction 0. -/
def infBits : Nat := 0x7FF0000000000000

/-- Magnitude, in units of `2^-1074`, of the non-negative binary64 number with bit pattern
`n`: with exponent field `e = n / 2^52` and fraction `m = n % 2^52`, a subnormal number
(`e = 0`) is `m * 2^-1074` and a normal one is `(2^52 + m) * 2^(e - 1075)`.  The pattern
`infBits` gets the magnitude of `2^1024`, from which on sums round to infinity. -/
def magnitude (n : Nat) : Nat :=
  let e := n / 4503599627370496
  let m := n % 4503599627370496
  if e = 0 then m else (4503599627370496 + m) <<< (e - 1)

/-- Binary search, from bit `p - 1` down to bit 0, for the greatest bit pattern from `acc`
on whose magnitude is at most `s`. -/
def floorLoop (s : Nat) : Nat → Nat → Nat
  | 0, acc => acc
  | p + 1, acc => floorLoop s p (if magnitude (acc + 2 ^ p) ≤ s then acc + 2 ^ p else acc)

/-- Bit pattern of the greatest binary64 number whose magnitude is at most `s`. -/
def floorBits (s : Nat) : Nat := floorLoop s 63 0

/-- Rounding to nearest, ties to even: the bit pattern of the binary64 number nearest to
the magnitude `s`, of two nearest numbers the one with an even fraction, and infinity from
the magnitude of `2^1024` on (which is where the midpoint rule sends a sum that lies
halfway between the greatest finite number and `2^1024`, or above). -/
def roundBits (s : Nat) : Nat :=
  if magnitude infBits ≤ s then infBits
  else
    let n := floorBits s
    let mid := magnitude n + magnitude (n + 1)
    if 2 * s < mid then n
    else if mid < 2 * s then n + 1
    else if n % 2 = 0 then n else n + 1

/-- Sum of two binary64 numbers given as signed bit patterns: an infinite summand is the
sum; otherwise the exact sum of the two numbers is rounded to nearest. -/
def addBits (a b : Int) : Int :=
  if a.natAbs = infBits then a
  else if b.natAbs = infBits then b
  else
    let z : Int := a.sign * magnitude a.natAbs + b.sign * magnitude b.natAbs
    z.sign * roundBits z.natAbs

/-- The numbers of IEEE 754 binary64 (`double`) without the NaNs: the sign times the bit
pattern of the absolute value, at most that of infinity.  The order of the signed bit
patterns is the order of the numbers, and the two zeros are one number, as they are for
`==` and `<`. -/
structure Double where
  bits : Int
  range : -9218868437227405312 ≤ bits ∧ bits ≤ 9218868437227405312

namespace Double

/-- The number with the given signed bit pattern (`0` when the pattern is out of range). -/
def ofBits (z : Int) : Double :=
  if h : -9218868437227405312 ≤ z ∧ z ≤ 9218868437227405312 then ⟨z, h⟩ else ⟨0, by decide⟩

instance : LinearOrder Double :=
  LinearOrder.lift' Double.bits (fun a b h => by cases a; cases b; cases h; rfl)

instance : Zero Double := ⟨ofBits 0⟩

/-- The number `1.0` has the bit pattern `0x3FF0000000000000`. -/
instance : One Double := ⟨ofBits 0x3FF0000000000000⟩

instance : Neg Double := ⟨fun a => ofBits (-a.bits)⟩

/-- The addition of `double`.  The sum of the two infinities of opposite sign, a NaN, is
not a number of the type (the first summand stands for it); it does not occur when
non-negative numbers are added. -/
instance : Add Double := ⟨fun a b => ofBits (addBits a.bits b.bits)⟩

/-- The constant `numeric_limits<double>::max()`, bit pattern `0x7FEFFFFFFFFFFFFF`. -/
def maxValue : Double := ofBits 0x7FEFFFFFFFFFFFFF

end Double

/-! ### Concrete graphs used in the worked examples -/

/-- The constant `numeric_limits<double>::max()` of an IEEE 754 binary64 `double`, which is
`2^1024 - 2^971`: 53 one bits followed by 971 zero bits. -/
def dblMaxValue : ℤ :=
  0xFFFFFFFFFFFFF800000000000000000000000000000000000000000000000000000000000000000000000000000000000000000000000000000000000000000000000000000000000000000000000000000000000000000000000000000000000000000000000000000000000000000000000000000000000000000000000000

/-- Two vertices joined by one edge whose weight is `numeric_limits<double>::max()`. -/
def maxEdgeGraph : Graph ℤ :=
  (Graph.empty : Graph ℤ).addEdge "A" "B" dblMaxValue

/-- Three vertices, of which `A` and `B` are joined by an edge and `C` is isolated. -/
def islandGraph : Graph ℤ :=
  ((Graph.empty : Graph ℤ).addEdge "A" "B" 1).addVertex "C"

/-- The edges `A`-`B` of weight `max() - 2^971`, the greatest `double` below
`numeric_limits<double>::max()`, and `B`-`C` of weight `3 * 2^969`: the exact sum of the
two weights is below `max()`, their `double` sum is `max()`. -/
def roundUpGraph : Graph Double :=
  ((Graph.empty : Graph Double).addEdge "A" "B" (Double.ofBits 0x7FEFFFFFFFFFFFFE)).addEdge
    "B" "C" (Double.ofBits 0x7C98000000000000)

/-- The edges `A`-`B` of weight `1`, `B`-`C` of weight `1e16` (bit pattern
`0x4341C37937E08000`), `A`-`D` of weight `1e16` and `D`-`C` of weight `0`: the `double` sum
`1 + 1e16` is `1e16`. -/
def absorbGraph : Graph Double :=
  ((((Graph.empty : Graph Double).addEdge "A" "B" 1).addEdge
    "B" "C" (Double.ofBits 0x4341C37937E08000)).addEdge
    "A" "D" (Double.ofBits 0x4341C37937E08000)).addEdge "D" "C" 0

end DijkstraImpl

/-!
# Two-sum search (`src/two_sum.cpp`)

A shallow embedding of `Solution::twoSum`.

Modelling conventions.

* The vector `nums` is a list of integers; its elements are `int` values, so the theorems
  assume that they lie in `[-2^31, 2^31)`.  The loop counters are integers.
* The sum `static_cast<long long>(nums[i]) + nums[j]` is computed in the 64-bit type
  `long long`: the exact sum reduced to `[-2^63, 2^63)` by `wrapLongLong`.
* A `return` inside the loops is modelled by `some`; the fuel of each loop is
  `nums.size()`, an upper bound on its trip count.
-/

namespace TwoSumImpl

open ArrayImpl

/-- The value of an arithmetic result in the two's complement 64-bit type `long long`. -/
def wrapLongLong (x : Int) : Int :=
  (x + 2 ^ 63) % 2 ^ 64 - 2 ^ 63

/-- Loop `for (int j = i + 1; j < nums.size(); j++)` of `twoSum`, started at `j`; `some r`
when the loop executes `return r`, `none` when it runs to its end. -/
def innerLoop (nums : List Int) (target : Int) (i : Int) : Nat → Int → Option (List Int)
  | 0, _ => none
  | fuel + 1, j =>
    if j < nums.length then
      if wrapLongLong (readAt nums i + readAt nums j) = target then
        some (([] ++ [i]) ++ [j])
      else innerLoop nums target i fuel (j + 1)
    else none

/-- Loop `for (int i = 0; i < nums.size(); i++)` of `twoSum`, started at `i`. -/
def outerLoop (nums : List Int) (target : Int) : Nat → Int → Option (List Int)
  | 0, _ => none
  | fuel + 1, i =>
    if i < nums.length then
      match innerLoop nums target i nums.length (i + 1) with
      | some r => some r
      | none => outerLoop nums target fuel (i + 1)
    else none

/-- Method `vector<int> twoSum(vector<int>& nums, int target)`. -/
def twoSum (nums : List Int) (target : Int) : List Int :=
  match outerLoop nums target nums.length 0 with
  | some r => r
  | none => []

/-- A vector in which several pairs sum to `6`. -/
def exampleNums : List Int :=
  [3, 2, 4, 2, 3]

end TwoSumImpl

/-!
# Linked-list sparse matrix (`src/linkedList.cpp`)

A shallow embedding of the class `SparseMatrix`.

Modelling conventions.

* The singly linked list that starts at `head` is the list of its nodes, in link order;
  a node is its `row`, `col` and `value` (the `next` pointer is the rest of the list).
* The element type `double` is a parameter `V` with a zero and decidable equality.
* `throw` is modelled with `Except Error`.
* A loop over `current->next` is a structural recursion over the nodes after `current`.
* A sequence of client calls is a list of `ArrayImpl.SparseMatrixArray.Op`: the class has
  the same mutating interface as the array-backed one.
-/

namespace LinkedListImpl

/-- The two exception classes thrown by the class: `out_of_range`, `invalid_argument`. -/
inductive Error where
  | outOfRange
  | invalidArgument
  deriving DecidableEq

/-- Record `struct Node`, without its `next` pointer. -/
structure Node (V : Type) where
  row : Int
  col : Int
  value : V
  deriving DecidableEq

/-- The data members of `class SparseMatrix`. -/
structure SparseMatrix (V : Type) where
  rows : Int
  cols : Int
  head : List (Node V)
  deriving DecidableEq

namespace SparseMatrix

variable {V : Type}

/-- Constructor `SparseMatrix(int r, int c)`. -/
def new (r c : Int) : SparseMatrix V :=
  { rows := r, cols := c, head := [] }

/-- Loop `while (current->next != nullptr)` of `remove`; the argument is the list that
starts at `current->next`, the result is what `current->next` points to afterwards. -/
def removeLoop (row col : Int) : List (Node V) → List (Node V)
  | [] => []
  | n :: rest =>
    if n.row = row ∧ n.col = col then rest
    else n :: removeLoop row col rest

/-- Method `void remove(int row, int col)`. -/
def remove (m : SparseMatrix V) (row col : Int) : SparseMatrix V :=
  match m.head with
  | [] => m
  | h :: rest =>
    if h.row = row ∧ h.col = col then { m with head := rest }
    else { m with head := h :: removeLoop row col rest }

/-- Loop `while (current->next != nullptr)` of `insert` followed by the insertion of the
new node after `current`; the argument is the list that starts at `current->next`, the
result is what `current->next` points to afterwards. -/
def insertLoop (row col : Int) (value : V) : List (Node V) → List (Node V)
  | [] => [Node.mk row col value]
  | n :: rest =>
    if row < n.row ∨ (row = n.row ∧ col < n.col) then
      Node.mk row col value :: n :: rest
    else if row = n.row ∧ col = n.col then
      { n with value := value } :: rest
    else n :: insertLoop row col value rest

/-- Method `void insert(int row, int col, double value)`. -/
def insert [Zero V] [DecidableEq V] (m : SparseMatrix V) (row col : Int) (value : V) :
    Except Error (SparseMatrix V) :=
  if row < 0 ∨ row ≥ m.rows ∨ col < 0 ∨ col ≥ m.cols then
    .error .outOfRange
  else if value = 0 then
    .ok (remove m row col)
  else
    match m.head with
    | [] => .ok { m with head := [Node.mk row col value] }
    | h :: rest =>
      if row < h.row ∨ (row = h.row ∧ col < h.col) then
        .ok { m with head := Node.mk row col value :: h :: rest }
      else if row = h.row ∧ col = h.col then
        .ok { m with head := { h with value := value } :: rest }
      else
        .ok { m with head := h :: insertLoop row col value rest }

/-- Loop `while (current != nullptr)` of `get`; the argument is the list that starts at
`current`. -/
def getLoop [Zero V] (row col : Int) : List (Node V) → V
  | [] => 0
  | n :: rest =>
    if n.row = row ∧ n.col = col then n.value
    else if n.row > row ∨ (n.row = row ∧ n.col > col) then 0
    else getLoop row col rest

/-- Method `double get(int row, int col) const`. -/
def get [Zero V] (m : SparseMatrix V) (row col : Int) : Except Error V :=
  if row < 0 ∨ row ≥ m.rows ∨ col < 0 ∨ col ≥ m.cols then
    .error .outOfRange
  else
    .ok (getLoop row col m.head)

/-- Method `void set(int row, int col, double value)`: alias for `insert`. -/
def set [Zero V] [DecidableEq V] (m : SparseMatrix V) (row col : Int) (value : V) :
    Except Error (SparseMatrix V) :=
  insert m row col value

/-- Loop `while (current != nullptr)` of `getNonZeroCount`; the first argument is the list
that starts at `current`, the second the running `count`. -/
def countLoop : List (Node V) → Int → Int
  | [], count => count
  | _ :: rest, count => countLoop rest (count + 1)

/-- Method `int getNonZeroCount() const`. -/
def getNonZeroCount (m : SparseMatrix V) : Int :=
  countLoop m.head 0

/-- Method `bool isEmpty() const`. -/
def isEmpty (m : SparseMatrix V) : Bool :=
  m.head.isEmpty

/-- Loop `while (head != nullptr)` of `clear`; the argument is the list that starts at
`head`, the result is what `head` points to afterwards. -/
def clearLoop : List (Node V) → List (Node V)
  | [] => []
  | _ :: rest => clearLoop rest

/-- Method `void clear()`. -/
def clear (m : SparseMatrix V) : SparseMatrix V :=
  { m with head := clearLoop m.head }

/-- The state after a call of `insert`: the new state when the call returns, the old one
when it throws. -/
def afterInsert [Zero V] [DecidableEq V] (m : SparseMatrix V) (row col : Int) (value : V) :
    SparseMatrix V :=
  match insert m row col value with
  | .ok t => t
  | .error _ => m

/-- The 3x3 matrix `matrix1` of `runTests` after its first five `insert` calls, with
integer values. -/
def exampleList : SparseMatrix ℤ :=
  afterInsert (afterInsert (afterInsert (afterInsert (afterInsert (new 3 3) 0 0 1) 0 2 2)
    1 1 3) 2 0 4) 2 2 5

/-! ### Specification vocabulary -/

/-- The `(row, col, value)` triple held by a node. -/
def toTriple (n : Node V) : Int × Int × V :=
  (n.row, n.col, n.value)

/-- The triples of the nodes reachable from `head`, in link order. -/
def nodes (m : SparseMatrix V) : List (Int × Int × V) :=
  m.head.map toTriple

/-- Lexicographic order on the `(row, col)` keys of two nodes. -/
def keyBefore (a b : Node V) : Prop :=
  a.row < b.row ∨ (a.row = b.row ∧ a.col < b.col)

instance (a b : Node V) : Decidable (keyBefore a b) := by
  unfold keyBefore; infer_instance

/-- Representation invariant of the class: along the links the keys are strictly
increasing, every key is inside the matrix, and no node holds the value `0`. -/
structure SortedList [Zero V] (m : SparseMatrix V) : Prop where
  sorted : m.head.Pairwise keyBefore
  inb : ∀ n ∈ m.head, 0 ≤ n.row ∧ n.row < m.rows ∧ 0 ≤ n.col ∧ n.col < m.cols
  nonzero : ∀ n ∈ m.head, n.value ≠ 0

/-- State of the object after the call `op`; a call that throws leaves it unchanged. -/
def applyOp [Zero V] [DecidableEq V] (m : SparseMatrix V) :
    ArrayImpl.SparseMatrixArray.Op V → SparseMatrix V
  | .set r c v =>
    match set m r c v with
    | .ok t => t
    | .error _ => m
  | .insert r c v =>
    match insert m r c v with
    | .ok t => t
    | .error _ => m
  | .remove r c => remove m r c
  | .clear => clear m

/-- State of the object after a sequence of calls. -/
def runOps [Zero V] [DecidableEq V] (m : SparseMatrix V)
    (ops : List (ArrayImpl.SparseMatrixArray.Op V)) : SparseMatrix V :=
  ops.foldl applyOp m

/-- Exception thrown by the call `op` in state `m`, `none` when the call returns. -/
def callError [Zero V] [DecidableEq V] (m : SparseMatrix V) :
    ArrayImpl.SparseMatrixArray.Op V → Option Error
  | .set r c v =>
    match set m r c v with
    | .ok _ => none
    | .error e => some e
  | .insert r c v =>
    match insert m r c v with
    | .ok _ => none
    | .error e => some e
  | .remove _ _ => none
  | .clear => none

/-- The two representations hold the same matrix: both satisfy their representation
invariant, have the same shape, and the array's triples in index order are the list's
nodes in link order. -/
structure SameMatrix [Zero V] (a : ArrayImpl.SparseMatrixArray V) (l : SparseMatrix V) :
    Prop where
  wf : ArrayImpl.SparseMatrixArray.WF a
  sl : SortedList l
  rows : a.rows = l.rows
  cols : a.cols = l.cols
  same : ArrayImpl.SparseMatrixArray.entries a = nodes l

/-- The calls of `runTests` on `matrix1`, followed by an out-of-range `insert`, an
overwrite, an `insert` of `0` and a `remove`. -/
def exampleCalls : List (ArrayImpl.SparseMatrixArray.Op ℤ) :=
  [.insert 0 0 1, .insert 0 2 2, .insert 1 1 3, .insert 2 0 4, .insert 2 2 5,
    .insert 3 0 6, .set 1 1 7, .insert 0 2 0, .remove 2 0]

end SparseMatrix

end LinkedListImpl

/-!
# Longest common substring (`src/longest_common_substring.cpp`)

A shallow embedding of the class `StringMatcher`.

Modelling conventions.

* A `string` is the list of its characters; `text[i]` is `charAt`, `substr` is `substr`.
* The `vector<vector<int>> table` is a list of rows; the loop counters and the table
  entries are integers (they are bounded by the lengths of the two strings).
* The counted `for` loops use the combinator `forUp`, whose fuel is the trip count.
* The local `set<string> uniqueMatches` is the list of its elements.
* Output to `cout` and the time measurement are not modelled.
-/

namespace LcsImpl

open ArrayImpl

/-- The data members of `class StringMatcher` (without the colour constants). -/
structure StringMatcher where
  text1 : List Char
  text2 : List Char
  table : List (List Int)
  longestMatch : Int
  foundMatches : List (List Char)
  matchLocations : List (Int × Int)
  deriving DecidableEq

/-- Element access `text[i]` of a `string`. -/
def charAt (text : List Char) (i : Int) : Char :=
  text.getD i.toNat default

/-- Library call `text.substr(pos, len)`. -/
def substr (text : List Char) (pos len : Int) : List Char :=
  (text.drop pos.toNat).take len.toNat

/-- Element read `table[i][j]`. -/
def tableAt (table : List (List Int)) (i j : Int) : Int :=
  readAt (table.getD i.toNat []) j

/-- Element write `table[i][j] = v`. -/
def tableSet (table : List (List Int)) (i j : Int) (v : Int) : List (List Int) :=
  table.set i.toNat (writeAt (table.getD i.toNat []) j v)

namespace StringMatcher

/-- Constructor `StringMatcher(const string& first, const string& second)`. -/
def new (first second : List Char) : StringMatcher :=
  let rows : Int := first.length
  let cols : Int := second.length
  { text1 := first
    text2 := second
    longestMatch := 0
    table := List.replicate (rows + 1).toNat (List.replicate (cols + 1).toNat 0)
    foundMatches := []
    matchLocations := [] }

/-- Body of the first pair of loops of `findMatches`: fill `table[i][j]`. -/
def fillCell (i j : Int) (m : StringMatcher) : StringMatcher :=
  if charAt m.text1 (i - 1) = charAt m.text2 (j - 1) then
    let table := tableSet m.table i j (tableAt m.table (i - 1) (j - 1) + 1)
    { m with table := table, longestMatch := max m.longestMatch (tableAt table i j) }
  else
    { m with table := tableSet m.table i j 0 }

/-- Body of the second pair of loops of `findMatches`: collect the match that ends at
`(i, j)`; the second component is the local variable `uniqueMatches`. -/
def collectCell (i j : Int) (st : StringMatcher × List (List Char)) :
    StringMatcher × List (List Char) :=
  if tableAt st.1.table i j = st.1.longestMatch ∧ st.1.longestMatch > 0 then
    let startPos := i - st.1.longestMatch
    let found := substr st.1.text1 startPos st.1.longestMatch
    if found ∉ st.2 then
      ({ st.1 with foundMatches := st.1.foundMatches ++ [found]
                   matchLocations := st.1.matchLocations ++ [(startPos, j - st.1.longestMatch)] },
        found :: st.2)
    else st
  else st

/-- Method `void findMatches()`. -/
def findMatches (m : StringMatcher) : StringMatcher :=
  let rows : Int := m.text1.length
  let cols : Int := m.text2.length
  let m : StringMatcher := { m with longestMatch := 0, foundMatches := [], matchLocations := [] }
  let m := forUp (rows + 1)
    (fun i m => forUp (cols + 1) (fun j m => fillCell i j m) cols.toNat 1 m) rows.toNat 1 m
  let uniqueMatches : List (List Char) := []
  let st := forUp (rows + 1)
    (fun i st => forUp (cols + 1) (fun j st => collectCell i j st) cols.toNat 1 st)
    rows.toNat 1 (m, uniqueMatches)
  st.1

/-- Method `string getResult() const`. -/
def getResult (m : StringMatcher) : List Char :=
  match m.foundMatches with
  | [] => []
  | first :: _ => first

/-- Method `int getMaxLength() const`. -/
def getMaxLength (m : StringMatcher) : Int :=
  m.longestMatch

end StringMatcher

/-! ### Specification-level vocabulary -/

/-- Length of the longest common suffix of the first `i` characters of `text1` and the
first `j` characters of `text2`. -/
def commonSuffix (text1 text2 : List Char) : Nat → Nat → Nat
  | 0, _ => 0
  | _ + 1, 0 => 0
  | i + 1, j + 1 =>
    if text1.getD i default = text2.getD j default then commonSuffix text1 text2 i j + 1 else 0

/-- The table has `rows + 1` rows of `cols + 1` entries. -/
def TableShape (table : List (List Int)) (rows cols : Int) : Prop :=
  (table.length : Int) = rows + 1 ∧ ∀ r ∈ table, (r.length : Int) = cols + 1

/-- Cell `(i', j')` is visited before cell `(i, j)` by a pair of loops `i = 1 .. rows`,
`j = 1 .. cols`. -/
def Before (cols i j i' j' : Int) : Prop :=
  1 ≤ i' ∧ 1 ≤ j' ∧ j' ≤ cols ∧ (i' < i ∨ (i' = i ∧ j' < j))

/-- Loop invariant of the first pair of loops of `findMatches`, at cell `(i, j)`. -/
structure FillInv (t1 t2 : List Char) (i j : Int) (m : StringMatcher) : Prop where
  text1 : m.text1 = t1
  text2 : m.text2 = t2
  found : m.foundMatches = []
  locs : m.matchLocations = []
  shape : TableShape m.table t1.length t2.length
  known : ∀ i' j' : Int, 0 ≤ i' → i' ≤ t1.length → 0 ≤ j' → j' ≤ t2.length →
    (i' = 0 ∨ j' = 0 ∨ i' < i ∨ (i' = i ∧ j' < j)) →
    tableAt m.table i' j' = commonSuffix t1 t2 i'.toNat j'.toNat
  best_nonneg : 0 ≤ m.longestMatch
  best_ub : ∀ i' j' : Int, Before t2.length i j i' j' →
    (commonSuffix t1 t2 i'.toNat j'.toNat : Int) ≤ m.longestMatch
  best_attained : m.longestMatch = 0 ∨ ∃ i' j' : Int, Before t2.length i j i' j' ∧
    (commonSuffix t1 t2 i'.toNat j'.toNat : Int) = m.longestMatch

/-- Loop invariant of the second pair of loops of `findMatches`, at cell `(i, j)`. -/
structure CollectInv (t1 t2 : List Char) (table : List (List Int)) (best : Int) (i j : Int)
    (st : StringMatcher × List (List Char)) : Prop where
  text1 : st.1.text1 = t1
  text2 : st.1.text2 = t2
  table_eq : st.1.table = table
  best_eq : st.1.longestMatch = best
  uniq : ∀ w, w ∈ st.2 ↔ w ∈ st.1.foundMatches
  nodup : st.1.foundMatches.Nodup
  mem : ∀ w, w ∈ st.1.foundMatches ↔ ∃ i' j' : Int, Before t2.length i j i' j' ∧
    tableAt table i' j' = best ∧ 0 < best ∧ w = substr t1 (i' - best) best
  locs : st.1.matchLocations.length = st.1.foundMatches.length

/-- Loop invariant of the second pair of loops of `findMatches` about the recorded
locations: the `k`-th location is where the `k`-th match was collected. -/
structure LocInv (t1 t2 : List Char) (table : List (List Int)) (best : Int)
    (st : StringMatcher × List (List Char)) : Prop where
  text1 : st.1.text1 = t1
  table_eq : st.1.table = table
  best_eq : st.1.longestMatch = best
  pairs : List.Forall₂ (fun (w : List Char) (p : Int × Int) =>
    ∃ i j : Int, 1 ≤ i ∧ i ≤ t1.length ∧ 1 ≤ j ∧ j ≤ t2.length ∧ tableAt table i j = best ∧
      0 < best ∧ w = substr t1 (i - best) best ∧ p = (i - best, j - best))
    st.1.foundMatches st.1.matchLocations

end LcsImpl

/-!
# Huffman coding (`src/huffman_coding.cpp`)

A shallow embedding of the classes `HuffmanNode` and `HuffmanCoding`.

Modelling conventions.

* A `HuffmanNode*` is a value of the type `HuffmanNode`: `null` for `nullptr`, otherwise
  the fields of the node it points to, with the two child pointers as subtrees.
* A `string` is the list of its characters, so a code is a list of `'0'` and `'1'`.
* The frequencies are `int` values.  The sum `left->frequency + right->frequency` is an
  `int` addition: the exact sum reduced to `[-2^31, 2^31)` by `wrapInt` (the result on a
  two's complement machine; the C++ standard leaves an overflowing sum undefined).
* The standard fixes which element `priority_queue::top()` returns only up to elements of
  equal priority.  The queue is therefore a parameter: any type `Q` with the operations
  `PriorityQueue Q` that satisfies the laws `QueueLaws`; what is proved for every such
  queue holds whatever the library does with equal frequencies.  Two queues are defined.
  `heapQueue` is the queue of the compiled program: the binary heap of libstdc++ (GCC),
  transcribed from `std::push_heap` and `std::pop_heap` of `bits/stl_heap.h`; it fixes the
  tree that the program builds also when frequencies are equal.  `listQueue` is a simple
  queue that satisfies `QueueLaws`; among equal frequencies its `top()` is not that of
  libstdc++.
* The `map<char,string>` is an association list.
* The `while` loop carries a fuel argument, the number of queued nodes plus one.
  `buildTree` returns `none` where the C++ behaviour is undefined: `top()` of an empty
  queue, which happens for an empty `characters`.
-/

namespace HuffmanImpl

open ArrayImpl

/-- The value of an arithmetic result in the two's complement 32-bit type `int`. -/
def wrapInt (x : Int) : Int :=
  (x + 2 ^ 31) % 2 ^ 32 - 2 ^ 31

/-- A pointer to an object of `class HuffmanNode`: `null`, or the fields `data`,
`frequency`, `left`, `right`, `isLeaf` of the node. -/
inductive HuffmanNode where
  | null
  | mk (data : Char) (frequency : Int) (left right : HuffmanNode) (isLeaf : Bool)
  deriving DecidableEq

namespace HuffmanNode

/-- Constructor for leaf nodes `HuffmanNode(char ch, int freq)`. -/
def leafNode (ch : Char) (freq : Int) : HuffmanNode :=
  mk ch freq null null true

/-- Constructor for internal nodes `HuffmanNode(int freq, HuffmanNode* l, HuffmanNode* r)`. -/
def internalNode (freq : Int) (l r : HuffmanNode) : HuffmanNode :=
  mk (Char.ofNat 0) freq l r false

/-- Field access `node->frequency`. -/
def frequency : HuffmanNode → Int
  | null => 0
  | mk _ f _ _ _ => f

end HuffmanNode

open HuffmanNode

/-- Comparator `CompareNodes::operator()`. -/
def CompareNodes (a b : HuffmanNode) : Bool :=
  decide (a.frequency > b.frequency)

/-- The operations of `priority_queue<HuffmanNode*, vector<HuffmanNode*>, CompareNodes>`
that `buildTree` uses. -/
structure PriorityQueue (Q : Type) where
  empty : Q
  push : Q → HuffmanNode → Q
  top : Q → HuffmanNode
  pop : Q → Q
  size : Q → Nat

/-- Library contract of `priority_queue` with the comparator `CompareNodes`; `elems` gives
the queued elements.  `top()` is a queued element that the comparator puts before no
other one, `pop()` removes it. -/
structure QueueLaws {Q : Type} (pq : PriorityQueue Q) (elems : Q → Multiset HuffmanNode) :
    Prop where
  elems_empty : elems pq.empty = 0
  elems_push : ∀ q x, elems (pq.push q x) = x ::ₘ elems q
  size_eq : ∀ q, pq.size q = Multiset.card (elems q)
  top_mem : ∀ q, elems q ≠ 0 → pq.top q ∈ elems q
  top_first : ∀ q, ∀ x ∈ elems q, CompareNodes (pq.top q) x = false
  elems_pop : ∀ q, elems q ≠ 0 → elems (pq.pop q) = (elems q).erase (pq.top q)

/-- The first element of a list that the comparator puts before no other one. -/
def listTop : List HuffmanNode → HuffmanNode
  | [] => null
  | [x] => x
  | x :: y :: rest => if CompareNodes x (listTop (y :: rest)) then listTop (y :: rest) else x

/-- A priority queue that satisfies `QueueLaws`: the list of the queued nodes, most recent
first, with `top()` its first least element.  It is not the queue of a particular library:
among nodes of equal frequency it returns the most recently pushed one, where the heap of
libstdc++ (`heapQueue`) may return another one. -/
def listQueue : PriorityQueue (List HuffmanNode) where
  empty := []
  push q x := x :: q
  top q := listTop q
  pop q := q.erase (listTop q)
  size q := q.length

/-- Function `std::__push_heap(first, holeIndex, topIndex, value, comp)` of libstdc++
(`bits/stl_heap.h`), on the vector `c` with the comparator `CompareNodes`: the loop
`while (holeIndex > topIndex && comp(first + parent, value))` followed by
`*(first + holeIndex) = value`.  Every iteration decreases `holeIndex`, so `holeIndex`
iterations of fuel are enough. -/
def pushHeapLoop (value : HuffmanNode) (topIndex : Nat) :
    Nat → List HuffmanNode → Nat → List HuffmanNode
  | 0, c, holeIndex => c.set holeIndex value
  | fuel + 1, c, holeIndex =>
    let parent := (holeIndex - 1) / 2
    if holeIndex > topIndex ∧ CompareNodes (c.getD parent null) value then
      pushHeapLoop value topIndex fuel (c.set holeIndex (c.getD parent null)) parent
    else c.set holeIndex value

/-- Function `std::push_heap(first, last, comp)` of libstdc++ on the whole vector `c`. -/
def pushHeap (c : List HuffmanNode) : List HuffmanNode :=
  let value := c.getD (c.length - 1) null
  pushHeapLoop value 0 (c.length - 1) c (c.length - 1)

/-- Loop `while (secondChild < (len - 1) / 2)` of `std::__adjust_heap` of libstdc++; the
state is the vector with `holeIndex` and `secondChild`.  Every iteration at least doubles
`secondChild + 1`, so `len` iterations of fuel are enough. -/
def adjustHeapLoop (len : Nat) :
    Nat → List HuffmanNode × Nat × Nat → List HuffmanNode × Nat × Nat
  | 0, st => st
  | fuel + 1, (c, holeIndex, secondChild) =>
    if secondChild < (len - 1) / 2 then
      let secondChild := 2 * (secondChild + 1)
      let secondChild :=
        if CompareNodes (c.getD secondChild null) (c.getD (secondChild - 1) null) then
          secondChild - 1
        else secondChild
      adjustHeapLoop len fuel (c.set holeIndex (c.getD secondChild null), secondChild, secondChild)
    else (c, holeIndex, secondChild)

/-- Function `std::__adjust_heap(first, holeIndex, len, value, comp)` of libstdc++. -/
def adjustHeap (c : List HuffmanNode) (holeIndex len : Nat) (value : HuffmanNode) :
    List HuffmanNode :=
  let topIndex := holeIndex
  let st := adjustHeapLoop len len (c, holeIndex, holeIndex)
  let st : List HuffmanNode × Nat :=
    if len % 2 = 0 ∧ st.2.2 = (len - 2) / 2 then
      let secondChild := 2 * (st.2.2 + 1)
      (st.1.set st.2.1 (st.1.getD (secondChild - 1) null), secondChild - 1)
    else (st.1, st.2.1)
  pushHeapLoop value topIndex st.2 st.1 st.2

/-- Function `std::pop_heap(first, last, comp)` of libstdc++ on the whole vector `c`: the
first element goes to the last position and the other elements are made a heap. -/
def popHeap (c : List HuffmanNode) : List HuffmanNode :=
  if c.length > 1 then
    let last := c.length - 1
    let value := c.getD last null
    let c := c.set last (c.getD 0 null)
    adjustHeap c 0 last value
  else c

/-- The `priority_queue` of libstdc++ (GCC): the vector `c` kept as a binary heap.
`push` is `c.push_back(x); push_heap(...)`, `top` is `c.front()`, `pop` is
`pop_heap(...); c.pop_back()`. -/
def heapQueue : PriorityQueue (List HuffmanNode) where
  empty := []
  push c x := pushHeap (c ++ [x])
  top c := c.getD 0 null
  pop c := (popHeap c).dropLast
  size c := c.length

/-- The data members of `class HuffmanCoding`. -/
structure HuffmanCoding where
  root : HuffmanNode
  huffmanCodes : List (Char × List Char)
  deriving DecidableEq

/-- Assignment `huffmanCodes[key] = code`. -/
def mapAssign : List (Char × List Char) → Char → List Char → List (Char × List Char)
  | [], key, code => [(key, code)]
  | (k, v) :: rest, key, code =>
    if k = key then (key, code) :: rest else (k, v) :: mapAssign rest key code

/-- Lookup `huffmanCodes.find(key)`; `none` stands for `end()`. -/
def mapFind : List (Char × List Char) → Char → Option (List Char)
  | [], _ => none
  | (k, v) :: rest, key => if k = key then some v else mapFind rest key

/-- Element access `characters[i]` of a `string`. -/
def charAt (text : List Char) (i : Int) : Char :=
  text.getD i.toNat default

namespace HuffmanCoding

/-- Method `void generateCodes(HuffmanNode* node, string code)`, as a function of the map
`huffmanCodes`. -/
def generateCodes : HuffmanNode → List Char → List (Char × List Char) →
    List (Char × List Char)
  | .null, _, codes => codes
  | .mk data _ left right isLeaf, code, codes =>
    if isLeaf then mapAssign codes data code
    else generateCodes right (code ++ ['1']) (generateCodes left (code ++ ['0']) codes)

/-- Method `void preorderTraversal(HuffmanNode* node, vector<string>& codes, string
currentCode)`, as a function of the vector `codes`. -/
def preorderTraversal : HuffmanNode → List (List Char) → List Char → List (List Char)
  | .null, codes, _ => codes
  | .mk _ _ left right isLeaf, codes, currentCode =>
    if isLeaf then codes ++ [currentCode]
    else preorderTraversal right (preorderTraversal left codes (currentCode ++ ['0']))
      (currentCode ++ ['1'])

/-- Constructor `HuffmanCoding()`. -/
def new : HuffmanCoding :=
  { root := .null, huffmanCodes := [] }

/-- Loop `while (minHeap.size() > 1)` of `buildTree`, with at most `fuel` evaluations of
its condition. -/
def mergeLoop {Q : Type} (pq : PriorityQueue Q) : Nat → Q → Option Q
  | 0, _ => none
  | fuel + 1, minHeap =>
    if pq.size minHeap > 1 then
      let left := pq.top minHeap
      let minHeap := pq.pop minHeap
      let right := pq.top minHeap
      let minHeap := pq.pop minHeap
      let merged := internalNode (wrapInt (left.frequency + right.frequency)) left right
      mergeLoop pq fuel (pq.push minHeap merged)
    else some minHeap

/-- Method `void buildTree(const string& characters, const vector<int>& frequencies)`;
`none` when the behaviour is undefined (`top()` of an empty queue). -/
def buildTree {Q : Type} (pq : PriorityQueue Q) (hc : HuffmanCoding) (characters : List Char)
    (frequencies : List Int) : Option HuffmanCoding :=
  let minHeap := pq.empty
  let minHeap := forUp characters.length
    (fun i minHeap => pq.push minHeap (leafNode (charAt characters i) (readAt frequencies i)))
    characters.length 0 minHeap
  match mergeLoop pq (pq.size minHeap + 1) minHeap with
  | none => none
  | some minHeap =>
    if pq.size minHeap = 0 then none
    else
      let root := pq.top minHeap
      some { root := root, huffmanCodes := generateCodes root [] hc.huffmanCodes }

/-- Method `vector<string> getCodesInPreorder()`. -/
def getCodesInPreorder (hc : HuffmanCoding) : List (List Char) :=
  let codes : List (List Char) := []
  if hc.root ≠ .null then preorderTraversal hc.root codes [] else codes

/-- Method `string getCode(char ch)`: the returned string, and the object afterwards
(`huffmanCodes[ch]` adds an empty code for a character that has none). -/
def getCode (hc : HuffmanCoding) (ch : Char) : List Char × HuffmanCoding :=
  match mapFind hc.huffmanCodes ch with
  | some code => (code, hc)
  | none => ([], { hc with huffmanCodes := mapAssign hc.huffmanCodes ch [] })

end HuffmanCoding

/-! ### Specification-level vocabulary -/

/-- The leaf nodes that `buildTree` creates for its input, in input order. -/
def leafList (characters : List Char) (frequencies : List Int) : List HuffmanNode :=
  (characters.zip frequencies).map (fun p => leafNode p.1 p.2)

/-- The leaves of a tree from left to right, each with its character and frequency. -/
def leaves : HuffmanNode → List (Char × Int)
  | .null => []
  | .mk data f left right isLeaf => if isLeaf then [(data, f)] else leaves left ++ leaves right

/-- The leaves of a tree from left to right, each with its character and the code that
leads to it from the root when the root has the code `code`. -/
def leafCodes : HuffmanNode → List Char → List (Char × List Char)
  | .null, _ => []
  | .mk data _ left right isLeaf, code =>
    if isLeaf then [(data, code)]
    else leafCodes left (code ++ ['0']) ++ leafCodes right (code ++ ['1'])

/-- A proper Huffman tree: a leaf has no children, every internal node has exactly two
children, which are proper trees. -/
def FullTree : HuffmanNode → Prop
  | .null => False
  | .mk _ _ left right isLeaf =>
    if isLeaf then left = .null ∧ right = .null else FullTree left ∧ FullTree right

/-- Every internal node has the frequency `left->frequency + right->frequency`. -/
def SumTree : HuffmanNode → Prop
  | .null => True
  | .mk _ f left right isLeaf =>
    if isLeaf then True
    else f = left.frequency + right.frequency ∧ SumTree left ∧ SumTree right

/-- At every internal node the left child has a frequency less than or equal to that of
the right child. -/
def MergeOrdered : HuffmanNode → Prop
  | .null => True
  | .mk _ _ left right isLeaf =>
    if isLeaf then True
    else left.frequency ≤ right.frequency ∧ MergeOrdered left ∧ MergeOrdered right

/-- Sum over the leaves of frequency times depth, the root being at depth `depth`. -/
def costAt : Nat → HuffmanNode → Int
  | _, .null => 0
  | depth, .mk _ f left right isLeaf =>
    if isLeaf then f * depth else costAt (depth + 1) left + costAt (depth + 1) right

/-- The weighted code length of a tree: the sum over its leaves of frequency times code
length (the depth of the leaf). -/
def cost (t : HuffmanNode) : Int :=
  costAt 0 t

/-- The sum of the frequencies of the leaves of a tree. -/
def weight (t : HuffmanNode) : Int :=
  ((leaves t).map Prod.snd).sum

/-- The sum of the absolute values of the frequencies of the leaves of a tree. -/
def absWeight (t : HuffmanNode) : Nat :=
  ((leaves t).map (fun p => p.2.natAbs)).sum

/-- The sum `left->frequency + right->frequency` never leaves the range of `int`: the
absolute values of the frequencies sum to at most `INT_MAX`. -/
def NoOverflow (frequencies : List Int) : Prop :=
  (frequencies.map Int.natAbs).sum < 2 ^ 31

/-- The leaves of a tree as pairs of frequency and depth, the root being at depth
`depth`. -/
def depthPairs : Nat → HuffmanNode → Multiset (Int × Nat)
  | _, .null => 0
  | depth, .mk _ f left right isLeaf =>
    if isLeaf then {(f, depth)}
    else depthPairs (depth + 1) left + depthPairs (depth + 1) right

/-- Sum of frequency times depth over pairs of frequency and depth. -/
def pairCost (P : Multiset (Int × Nat)) : Int :=
  (P.map (fun p => p.1 * (p.2 : Int))).sum

/-- The depths of the leaves of a proper binary tree: depth `0` for a single leaf;
otherwise two deepest leaves are siblings, and replacing them by their parent gives the
depths of a smaller proper tree. -/
inductive Realizable : Multiset Nat → Prop
  | single : Realizable {0}
  | split (d : Nat) (D : Multiset Nat) : Realizable (d ::ₘ D) → (∀ e ∈ D, e ≤ d + 1) →
      Realizable ((d + 1) ::ₘ (d + 1) ::ₘ D)

/-- Invariant of the merge loop of `buildTree` on the queued nodes `ts`: every queued node
is a proper tree whose internal nodes have the smaller frequency on the left and, when no
sum overflows, the sum of the frequencies of their children as frequency; and the leaves of
the queued trees are the characters of the input with their frequencies. -/
def StructInv (characters : List Char) (frequencies : List Int)
    (ts : Multiset HuffmanNode) : Prop :=
  (∀ t ∈ ts, FullTree t ∧ MergeOrdered t ∧ (NoOverflow frequencies → SumTree t)) ∧
  ts.bind (fun t => (↑(leaves t) : Multiset (Char × Int))) = ↑(characters.zip frequencies)

/-- Invariant of the merge loop of `buildTree` that bounds the weighted code length by
`bound`, the weighted code length of some proper tree over the leaves of the input: a
proper tree whose leaves carry the frequencies of the queued nodes, hung below with the
queued trees, costs at most `bound`. -/
def OptInv (characters : List Char) (frequencies : List Int) (bound : Int)
    (ts : Multiset HuffmanNode) : Prop :=
  StructInv characters frequencies ts ∧
  ∃ P : Multiset (Int × Nat), P.map Prod.fst = ts.map frequency ∧
    Realizable (P.map Prod.snd) ∧ (ts.map cost).sum + pairCost P ≤ bound

end HuffmanImpl

namespace ArrayImpl

/-! ## Verification

### Loop rules -/

/-- Fuel adequacy: with at least `hi - i` iterations of fuel the counting-up loop does
not depend on the fuel. -/
theorem forUp_fuel {σ : Type} (hi : Int) (body : Int → σ → σ) :
    ∀ (fuel : Nat) (i : Int) (st : σ), hi - i ≤ (fuel : Int) →
      forUp hi body (fuel + 1) i st = forUp hi body fuel i st := by
  intro fuel
  induction fuel with
  | zero =>
    intro i st h
    unfold forUp
    rw [if_neg (by omega)]
  | succ n ih =>
    intro i st h
    have e : ∀ (m : Nat) (j : Int) (t : σ), forUp hi body (m + 1) j t
        = if j < hi then forUp hi body m (j + 1) (body j t) else t := fun _ _ _ => rfl
    rw [e (n + 1) i st, e n i st]
    by_cases hlt : i < hi
    · rw [if_pos hlt, if_pos hlt]
      exact ih (i + 1) (body i st) (by omega)
    · rw [if_neg hlt, if_neg hlt]

/-- Fuel adequacy of the counting-down loop. -/
theorem forDown_fuel {σ : Type} (lo : Int) (body : Int → σ → σ) :
    ∀ (fuel : Nat) (i : Int) (st : σ), i - lo ≤ (fuel : Int) →
      forDown lo body (fuel + 1) i st = forDown lo body fuel i st := by
  intro fuel
  induction fuel with
  | zero =>
    intro i st h
    unfold forDown
    rw [if_neg (by omega)]
  | succ n ih =>
    intro i st h
    have e : ∀ (m : Nat) (j : Int) (t : σ), forDown lo body (m + 1) j t
        = if j > lo then forDown lo body m (j - 1) (body j t) else t := fun _ _ _ => rfl
    rw [e (n + 1) i st, e n i st]
    by_cases hlt : i > lo
    · rw [if_pos hlt, if_pos hlt]
      exact ih (i - 1) (body i st) (by omega)
    · rw [if_neg hlt, if_neg hlt]

/-- Fuel adequacy of the counting-up loop with a throwing body. -/
theorem forUpE_fuel {σ : Type} (hi : Int) (body : Int → σ → Except Error σ) :
    ∀ (fuel : Nat) (i : Int) (st : σ), hi - i ≤ (fuel : Int) →
      forUpE hi body (fuel + 1) i st = forUpE hi body fuel i st := by
  intro fuel
  induction fuel with
  | zero =>
    intro i st h
    unfold forUpE
    rw [if_neg (by omega)]
  | succ n ih =>
    intro i st h
    have e : ∀ (m : Nat) (j : Int) (t : σ), forUpE hi body (m + 1) j t
        = if j < hi then
            match body j t with
            | .ok t' => forUpE hi body m (j + 1) t'
            | .error e => .error e
          else .ok t := fun _ _ _ => rfl
    rw [e (n + 1) i st, e n i st]
    by_cases hlt : i < hi
    · rw [if_pos hlt, if_pos hlt]
      cases body i st with
      | error e => rfl
      | ok st' => exact ih (i + 1) st' (by omega)
    · rw [if_neg hlt, if_neg hlt]

theorem readAt_writeAt {α : Type} [Zero α] (a : List α) (i k : Int) (x : α)
    (hi : 0 ≤ i) (hk : 0 ≤ k) (hlen : i < (a.length : Int)) :
    readAt (writeAt a i x) k = if k = i then x else readAt a k := by
  unfold readAt writeAt
  simp only [List.getD_eq_getElem?_getD, List.getElem?_set]
  by_cases h : k = i
  · subst h
    have : k.toNat < a.length := by omega
    simp [this]
  · have : i.toNat ≠ k.toNat := by omega
    simp [h, this]

theorem length_writeAt {α : Type} (a : List α) (i : Int) (x : α) :
    (writeAt a i x).length = a.length := by
  simp [writeAt]

/-- Invariant rule for the counting-down loop. -/
theorem forDown_inv {σ : Type} (lo : Int) (body : Int → σ → σ) (P : Int → σ → Prop) :
    ∀ (fuel : Nat) (i : Int) (st : σ), lo ≤ i → i - lo ≤ (fuel : Int) → P i st →
      (∀ j t, lo < j → j ≤ i → P j t → P (j - 1) (body j t)) →
      P lo (forDown lo body fuel i st) := by
  intro fuel
  induction fuel with
  | zero =>
    intro i st h1 h2 hP _
    have : i = lo := by omega
    subst this
    exact hP
  | succ n ih =>
    intro i st h1 h2 hP hstep
    unfold forDown
    by_cases h : i > lo
    · rw [if_pos h]
      exact ih (i - 1) (body i st) (by omega) (by omega) (hstep i st h (le_refl _) hP)
        (fun j t hj1 hj2 hPj => hstep j t hj1 (by omega) hPj)
    · rw [if_neg h]
      have : i = lo := by omega
      subst this
      exact hP

/-- Invariant rule for the counting-up loop. -/
theorem forUp_inv {σ : Type} (hi : Int) (body : Int → σ → σ) (P : Int → σ → Prop) :
    ∀ (fuel : Nat) (i : Int) (st : σ), i ≤ hi → hi - i ≤ (fuel : Int) → P i st →
      (∀ j t, i ≤ j → j < hi → P j t → P (j + 1) (body j t)) →
      P hi (forUp hi body fuel i st) := by
  intro fuel
  induction fuel with
  | zero =>
    intro i st h1 h2 hP _
    have : i = hi := by omega
    subst this
    exact hP
  | succ n ih =>
    intro i st h1 h2 hP hstep
    unfold forUp
    by_cases h : i < hi
    · rw [if_pos h]
      exact ih (i + 1) (body i st) (by omega) (by omega) (hstep i st (le_refl _) h hP)
        (fun j t hj1 hj2 hPj => hstep j t (by omega) hj2 hPj)
    · rw [if_neg h]
      have : i = hi := by omega
      subst this
      exact hP

/-- Invariant rule for the counting-up loop whose body may throw: if every iteration
succeeds and re-establishes the invariant, the loop succeeds. -/
theorem forUpE_inv {σ : Type} (hi : Int) (body : Int → σ → Except Error σ)
    (P : Int → σ → Prop) :
    ∀ (fuel : Nat) (i : Int) (st : σ), i ≤ hi → hi - i ≤ (fuel : Int) → P i st →
      (∀ j t, i ≤ j → j < hi → P j t → ∃ t', body j t = .ok t' ∧ P (j + 1) t') →
      ∃ st', forUpE hi body fuel i st = .ok st' ∧ P hi st' := by
  intro fuel
  induction fuel with
  | zero =>
    intro i st h1 h2 hP _
    have : i = hi := by omega
    subst this
    exact ⟨st, rfl, hP⟩
  | succ n ih =>
    intro i st h1 h2 hP hstep
    unfold forUpE
    by_cases h : i < hi
    · rw [if_pos h]
      obtain ⟨t', hb, hP'⟩ := hstep i st (le_refl _) h hP
      rw [hb]
      exact ih (i + 1) t' (by omega) (by omega) hP'
        (fun j t hj1 hj2 hPj => hstep j t (by omega) hj2 hPj)
    · rw [if_neg h]
      have : i = hi := by omega
      subst this
      exact ⟨st, rfl, hP⟩

namespace SparseMatrixArray

variable {V : Type}

/-! ### Binary searches -/

theorem mid_bounds (left right : Int) (h : left ≤ right) :
    left ≤ left + (right - left).tdiv 2 ∧ left + (right - left).tdiv 2 ≤ right ∧
    (left < right → left + (right - left).tdiv 2 < right) := by
  rw [Int.tdiv_eq_ediv (by omega) (by omega)]
  omega

theorem findElementIndexLoop_spec (s : SparseMatrixArray V) (row col : Int)
    (hs : SortedKeys s) :
    ∀ (fuel : Nat) (left right : Int), 0 ≤ left → right < s.size →
      right - left + 1 ≤ (fuel : Int) →
      (findElementIndexLoop s row col fuel left right = -1 ∧
        ∀ i, left ≤ i → i ≤ right → keyAt s i ≠ (row, col)) ∨
      (left ≤ findElementIndexLoop s row col fuel left right ∧
        findElementIndexLoop s row col fuel left right ≤ right ∧
        keyAt s (findElementIndexLoop s row col fuel left right) = (row, col)) := by
  intro fuel
  induction fuel with
  | zero =>
    intro left right _ _ hf
    left
    refine ⟨rfl, ?_⟩
    intro i h1 h2
    omega
  | succ n ih =>
    intro left right hl hr hf
    unfold findElementIndexLoop
    by_cases hlr : left ≤ right
    · obtain ⟨hm1, hm2, _⟩ := mid_bounds left right hlr
      simp only [hlr, if_true]
      generalize hmid : left + (right - left).tdiv 2 = mid at hm1 hm2 ⊢
      by_cases heq : readAt s.rowIndices mid = row ∧ readAt s.colIndices mid = col
      · right
        simp only [heq, and_self, if_true]
        refine ⟨hm1, hm2, ?_⟩
        simp [keyAt, heq]
      · rw [if_neg heq]
        by_cases hlt : readAt s.rowIndices mid < row ∨
            (readAt s.rowIndices mid = row ∧ readAt s.colIndices mid < col)
        · rw [if_pos hlt]
          rcases ih (mid + 1) right (by omega) hr (by omega) with ⟨h1, h2⟩ | ⟨h1, h2, h3⟩
          · left
            refine ⟨h1, ?_⟩
            intro i hi1 hi2
            by_cases him : mid + 1 ≤ i
            · exact h2 i him hi2
            · by_cases hie : i = mid
              · subst hie
                simp only [keyAt, ne_eq, Prod.mk.injEq]
                exact heq
              · have hk := hs i mid (by omega) (by omega) (by omega)
                simp only [keyLess, keyAt] at hk
                simp only [keyAt, ne_eq, Prod.mk.injEq]
                omega
          · right
            exact ⟨by omega, h2, h3⟩
        · rw [if_neg hlt]
          rcases ih left (mid - 1) hl (by omega) (by omega) with ⟨h1, h2⟩ | ⟨h1, h2, h3⟩
          · left
            refine ⟨h1, ?_⟩
            intro i hi1 hi2
            by_cases him : i ≤ mid - 1
            · exact h2 i hi1 him
            · by_cases hie : i = mid
              · subst hie
                simp only [keyAt, ne_eq, Prod.mk.injEq]
                exact heq
              · have hk := hs mid i (by omega) (by omega) (by omega)
                simp only [keyLess, keyAt] at hk
                simp only [keyAt, ne_eq, Prod.mk.injEq]
                omega
          · right
            exact ⟨h1, by omega, h3⟩
    · left
      simp only [hlr, if_false]
      refine ⟨trivial, ?_⟩
      intro i h1 h2
      omega

/-- Outcome of `findElementIndex` on sorted keys: `-1` and the key is absent, or the
index of the key. -/
theorem findElementIndex_spec (s : SparseMatrixArray V) (row col : Int)
    (hs : SortedKeys s) :
    (findElementIndex s row col = -1 ∧
      ∀ i, 0 ≤ i → i < s.size → keyAt s i ≠ (row, col)) ∨
    (0 ≤ findElementIndex s row col ∧ findElementIndex s row col < s.size ∧
      keyAt s (findElementIndex s row col) = (row, col)) := by
  unfold findElementIndex
  rcases findElementIndexLoop_spec s row col hs s.size.toNat 0 (s.size - 1)
      (le_refl 0) (by omega) (by omega) with ⟨h1, h2⟩ | ⟨h1, h2, h3⟩
  · left
    exact ⟨h1, fun i hi1 hi2 => h2 i hi1 (by omega)⟩
  · right
    exact ⟨h1, by omega, h3⟩

theorem findInsertionPointLoop_spec (s : SparseMatrixArray V) (row col : Int)
    (hs : SortedKeys s) :
    ∀ (fuel : Nat) (left right : Int), 0 ≤ left → left ≤ right → right ≤ s.size →
      right - left ≤ (fuel : Int) →
      (∀ i, 0 ≤ i → i < left → keyLess (keyAt s i) (row, col)) →
      (∀ i, right ≤ i → i < s.size → ¬ keyLess (keyAt s i) (row, col)) →
      left ≤ findInsertionPointLoop s row col fuel left right ∧
      findInsertionPointLoop s row col fuel left right ≤ right ∧
      (∀ i, 0 ≤ i → i < findInsertionPointLoop s row col fuel left right →
        keyLess (keyAt s i) (row, col)) ∧
      (∀ i, findInsertionPointLoop s row col fuel left right ≤ i → i < s.size →
        ¬ keyLess (keyAt s i) (row, col)) := by
  intro fuel
  induction fuel with
  | zero =>
    intro left right _ hlr _ hf hlo hhi
    have : left = right := by omega
    subst this
    exact ⟨le_refl _, le_refl _, hlo, hhi⟩
  | succ n ih =>
    intro left right hl hlr hr hf hlo hhi
    unfold findInsertionPointLoop
    by_cases hlt : left < right
    · obtain ⟨hm1, _, hm3⟩ := mid_bounds left right hlr
      have hm2 := hm3 hlt
      simp only [hlt, if_true]
      generalize hmid : left + (right - left).tdiv 2 = mid at hm1 hm2 ⊢
      by_cases hc : readAt s.rowIndices mid < row ∨
            (readAt s.rowIndices mid = row ∧ readAt s.colIndices mid < col)
      · rw [if_pos hc]
        have := ih (mid + 1) right (by omega) (by omega) hr (by omega) (by
          intro i hi1 hi2
          by_cases hie : i = mid
          · subst hie
            exact hc
          · have hk := hs i mid hi1 (by omega) (by omega)
            simp only [keyLess, keyAt] at hk ⊢
            omega) hhi
        exact ⟨by omega, this.2.1, this.2.2⟩
      · rw [if_neg hc]
        have := ih left mid hl hm1 (by omega) (by omega) hlo (by
          intro i hi1 hi2
          by_cases hie : i = mid
          · subst hie
            exact hc
          · have hk := hs mid i (by omega) (by omega) (by omega)
            simp only [keyLess, keyAt] at hk ⊢
            omega)
        exact ⟨this.1, by omega, this.2.2⟩
    · have : left = right := by omega
      subst this
      simp only [hlt, if_false]
      exact ⟨le_refl _, le_refl _, hlo, hhi⟩

/-- Outcome of `findInsertionPoint` on sorted keys: the lower bound of the key. -/
theorem findInsertionPoint_spec (s : SparseMatrixArray V) (row col : Int)
    (hs : SortedKeys s) (h0 : 0 ≤ s.size) :
    0 ≤ findInsertionPoint s row col ∧ findInsertionPoint s row col ≤ s.size ∧
    (∀ i, 0 ≤ i → i < findInsertionPoint s row col → keyLess (keyAt s i) (row, col)) ∧
    (∀ i, findInsertionPoint s row col ≤ i → i < s.size →
      ¬ keyLess (keyAt s i) (row, col)) := by
  unfold findInsertionPoint
  exact findInsertionPointLoop_spec s row col hs s.size.toNat 0 s.size (le_refl 0) h0
    (le_refl _) (by omega) (fun i h1 h2 => by omega) (fun i h1 h2 => by omega)

/-! ### Fuel adequacy of the loops -/

/-- Fuel adequacy of the `findElementIndex` loop: fuel equal to the length of the
searched interval is never exhausted. -/
theorem findElementIndexLoop_fuel (s : SparseMatrixArray V) (row col : Int) :
    ∀ (fuel : Nat) (left right : Int), right - left + 1 ≤ (fuel : Int) →
      findElementIndexLoop s row col (fuel + 1) left right
        = findElementIndexLoop s row col fuel left right := by
  intro fuel
  induction fuel with
  | zero =>
    intro left right h
    unfold findElementIndexLoop
    rw [if_neg (by omega)]
  | succ n ih =>
    intro left right h
    have e : ∀ (m : Nat) (l r : Int), findElementIndexLoop s row col (m + 1) l r
        = if l ≤ r then
            if readAt s.rowIndices (l + (r - l).tdiv 2) = row ∧
                readAt s.colIndices (l + (r - l).tdiv 2) = col then
              l + (r - l).tdiv 2
            else if readAt s.rowIndices (l + (r - l).tdiv 2) < row ∨
                (readAt s.rowIndices (l + (r - l).tdiv 2) = row ∧
                  readAt s.colIndices (l + (r - l).tdiv 2) < col) then
              findElementIndexLoop s row col m (l + (r - l).tdiv 2 + 1) r
            else
              findElementIndexLoop s row col m l (l + (r - l).tdiv 2 - 1)
          else -1 := fun _ _ _ => rfl
    rw [e (n + 1) left right, e n left right]
    by_cases hlr : left ≤ right
    · obtain ⟨hm1, hm2, _⟩ := mid_bounds left right hlr
      simp only [hlr, if_true]
      generalize left + (right - left).tdiv 2 = mid at hm1 hm2 ⊢
      split
      · rfl
      · split
        · exact ih (mid + 1) right (by omega)
        · exact ih left (mid - 1) (by omega)
    · simp only [hlr, if_false]

/-- Fuel adequacy of the `findInsertionPoint` loop. -/
theorem findInsertionPointLoop_fuel (s : SparseMatrixArray V) (row col : Int) :
    ∀ (fuel : Nat) (left right : Int), right - left ≤ (fuel : Int) →
      findInsertionPointLoop s row col (fuel + 1) left right
        = findInsertionPointLoop s row col fuel left right := by
  intro fuel
  induction fuel with
  | zero =>
    intro left right h
    unfold findInsertionPointLoop
    rw [if_neg (by omega)]
  | succ n ih =>
    intro left right h
    have e : ∀ (m : Nat) (l r : Int), findInsertionPointLoop s row col (m + 1) l r
        = if l < r then
            if readAt s.rowIndices (l + (r - l).tdiv 2) < row ∨
                (readAt s.rowIndices (l + (r - l).tdiv 2) = row ∧
                  readAt s.colIndices (l + (r - l).tdiv 2) < col) then
              findInsertionPointLoop s row col m (l + (r - l).tdiv 2 + 1) r
            else
              findInsertionPointLoop s row col m l (l + (r - l).tdiv 2)
          else l := fun _ _ _ => rfl
    rw [e (n + 1) left right, e n left right]
    by_cases hlr : left < right
    · obtain ⟨hm1, _, hm3⟩ := mid_bounds left right (le_of_lt hlr)
      have hm2 := hm3 hlr
      simp only [hlr, if_true]
      generalize left + (right - left).tdiv 2 = mid at hm1 hm2 ⊢
      split
      · exact ih (mid + 1) right (by omega)
      · exact ih left mid (by omega)
    · simp only [hlr, if_false]

/-! ### Array cells and shift loops -/

/-- Effect on the stored triples of writing cell `i` of the three arrays. -/
theorem tripleAt_write3 [Zero V] (t : SparseMatrixArray V) (i k : Int) (a b : Int) (c : V)
    (hi : 0 ≤ i) (hk : 0 ≤ k)
    (h1 : i < (t.rowIndices.length : Int)) (h2 : i < (t.colIndices.length : Int))
    (h3 : i < (t.values.length : Int)) :
    tripleAt { t with rowIndices := writeAt t.rowIndices i a,
                      colIndices := writeAt t.colIndices i b,
                      values := writeAt t.values i c } k
      = if k = i then (a, b, c) else tripleAt t k := by
  simp only [tripleAt, readAt_writeAt _ i k _ hi hk h1, readAt_writeAt _ i k _ hi hk h2,
    readAt_writeAt _ i k _ hi hk h3]
  split <;> rfl

theorem shiftRight_spec [Zero V] (s : SparseMatrixArray V) (p : Int) (hp0 : 0 ≤ p)
    (hps : p ≤ s.size) (h1 : s.size < (s.rowIndices.length : Int))
    (h2 : s.size < (s.colIndices.length : Int)) (h3 : s.size < (s.values.length : Int)) :
    (shiftRight s p).rows = s.rows ∧ (shiftRight s p).cols = s.cols ∧
    (shiftRight s p).capacity = s.capacity ∧ (shiftRight s p).size = s.size ∧
    (shiftRight s p).rowIndices.length = s.rowIndices.length ∧
    (shiftRight s p).colIndices.length = s.colIndices.length ∧
    (shiftRight s p).values.length = s.values.length ∧
    ∀ k, 0 ≤ k → tripleAt (shiftRight s p) k
      = if p < k ∧ k ≤ s.size then tripleAt s (k - 1) else tripleAt s k := by
  unfold shiftRight
  refine forDown_inv p _ (fun j t => t.rows = s.rows ∧ t.cols = s.cols ∧
    t.capacity = s.capacity ∧ t.size = s.size ∧
    t.rowIndices.length = s.rowIndices.length ∧
    t.colIndices.length = s.colIndices.length ∧
    t.values.length = s.values.length ∧
    ∀ k, 0 ≤ k → tripleAt t k
      = if j < k ∧ k ≤ s.size then tripleAt s (k - 1) else tripleAt s k)
    (s.size - p).toNat s.size s hps (by omega) ?_ ?_
  · refine ⟨rfl, rfl, rfl, rfl, rfl, rfl, rfl, ?_⟩
    intro k hk
    rw [if_neg (by omega)]
  · rintro j t hj1 hj2 ⟨e1, e2, e3, e4, l1, l2, l3, hpt⟩
    refine ⟨e1, e2, e3, e4, by simp [length_writeAt, l1], by simp [length_writeAt, l2],
      by simp [length_writeAt, l3], ?_⟩
    intro k hk
    have := tripleAt_write3 t j k (readAt t.rowIndices (j - 1)) (readAt t.colIndices (j - 1))
      (readAt t.values (j - 1)) (by omega) hk (by omega) (by omega) (by omega)
    have hprev : tripleAt t (j - 1) = tripleAt s (j - 1) := by
      rw [hpt (j - 1) (by omega), if_neg (by omega)]
    rw [this]
    by_cases hkj : k = j
    · subst hkj
      rw [if_pos rfl, if_pos (by omega)]
      exact hprev
    · rw [if_neg hkj, hpt k hk]
      by_cases hc : j < k ∧ k ≤ s.size
      · rw [if_pos hc, if_pos (by omega)]
      · rw [if_neg hc, if_neg (by omega)]

theorem shiftLeft_spec [Zero V] (s : SparseMatrixArray V) (p : Int) (hp0 : 0 ≤ p)
    (hps : p < s.size) (h1 : s.size ≤ (s.rowIndices.length : Int))
    (h2 : s.size ≤ (s.colIndices.length : Int)) (h3 : s.size ≤ (s.values.length : Int)) :
    (shiftLeft s p).rows = s.rows ∧ (shiftLeft s p).cols = s.cols ∧
    (shiftLeft s p).capacity = s.capacity ∧ (shiftLeft s p).size = s.size ∧
    (shiftLeft s p).rowIndices.length = s.rowIndices.length ∧
    (shiftLeft s p).colIndices.length = s.colIndices.length ∧
    (shiftLeft s p).values.length = s.values.length ∧
    ∀ k, 0 ≤ k → tripleAt (shiftLeft s p) k
      = if p ≤ k ∧ k < s.size - 1 then tripleAt s (k + 1) else tripleAt s k := by
  unfold shiftLeft
  refine forUp_inv (s.size - 1) _ (fun j t => t.rows = s.rows ∧ t.cols = s.cols ∧
    t.capacity = s.capacity ∧ t.size = s.size ∧
    t.rowIndices.length = s.rowIndices.length ∧
    t.colIndices.length = s.colIndices.length ∧
    t.values.length = s.values.length ∧
    ∀ k, 0 ≤ k → tripleAt t k
      = if p ≤ k ∧ k < j then tripleAt s (k + 1) else tripleAt s k)
    (s.size - 1 - p).toNat p s (by omega) (by omega) ?_ ?_
  · refine ⟨rfl, rfl, rfl, rfl, rfl, rfl, rfl, ?_⟩
    intro k hk
    rw [if_neg (by omega)]
  · rintro j t hj1 hj2 ⟨e1, e2, e3, e4, l1, l2, l3, hpt⟩
    refine ⟨e1, e2, e3, e4, by simp [length_writeAt, l1], by simp [length_writeAt, l2],
      by simp [length_writeAt, l3], ?_⟩
    intro k hk
    have := tripleAt_write3 t j k (readAt t.rowIndices (j + 1)) (readAt t.colIndices (j + 1))
      (readAt t.values (j + 1)) (by omega) hk (by omega) (by omega) (by omega)
    have hnext : tripleAt t (j + 1) = tripleAt s (j + 1) := by
      rw [hpt (j + 1) (by omega), if_neg (by omega)]
    rw [this]
    by_cases hkj : k = j
    · subst hkj
      rw [if_pos rfl, if_pos (by omega)]
      exact hnext
    · rw [if_neg hkj, hpt k hk]
      by_cases hc : p ≤ k ∧ k < j
      · rw [if_pos hc, if_pos (by omega)]
      · rw [if_neg hc, if_neg (by omega)]

theorem resize_spec [Zero V] (s : SparseMatrixArray V) (h0 : 0 ≤ s.size)
    (hle : s.size ≤ s.capacity) :
    (resize s).rows = s.rows ∧ (resize s).cols = s.cols ∧
    (resize s).capacity = s.capacity * 2 ∧ (resize s).size = s.size ∧
    ((resize s).rowIndices.length : Int) = s.capacity * 2 ∧
    ((resize s).colIndices.length : Int) = s.capacity * 2 ∧
    ((resize s).values.length : Int) = s.capacity * 2 ∧
    ∀ k, 0 ≤ k → k < s.size → tripleAt (resize s) k = tripleAt s k := by
  have key := forUp_inv s.size
    (fun i (n : List Int × List Int × List V) =>
      (writeAt n.1 i (readAt s.rowIndices i),
       writeAt n.2.1 i (readAt s.colIndices i),
       writeAt n.2.2 i (readAt s.values i)))
    (fun j n => (n.1.length : Int) = s.capacity * 2 ∧ (n.2.1.length : Int) = s.capacity * 2 ∧
      (n.2.2.length : Int) = s.capacity * 2 ∧
      ∀ k, 0 ≤ k → k < j → readAt n.1 k = readAt s.rowIndices k ∧
        readAt n.2.1 k = readAt s.colIndices k ∧ readAt n.2.2 k = readAt s.values k)
    s.size.toNat 0
    (List.replicate (s.capacity * 2).toNat 0, List.replicate (s.capacity * 2).toNat 0,
      List.replicate (s.capacity * 2).toNat 0) h0 (by omega)
    (by
      refine ⟨?_, ?_, ?_, ?_⟩
      · simp only [List.length_replicate]; omega
      · simp only [List.length_replicate]; omega
      · simp only [List.length_replicate]; omega
      · intro k hk1 hk2; omega)
    (by
      rintro j n hj1 hj2 ⟨l1, l2, l3, hpt⟩
      refine ⟨by simp [length_writeAt, l1], by simp [length_writeAt, l2],
        by simp [length_writeAt, l3], ?_⟩
      intro k hk1 hk2
      rw [readAt_writeAt _ j k _ hj1 hk1 (by omega), readAt_writeAt _ j k _ hj1 hk1 (by omega),
        readAt_writeAt _ j k _ hj1 hk1 (by omega)]
      by_cases hkj : k = j
      · subst hkj
        simp
      · simp only [hkj, if_false]
        exact hpt k hk1 (by omega))
  obtain ⟨l1, l2, l3, hpt⟩ := key
  refine ⟨rfl, rfl, rfl, rfl, l1, l2, l3, ?_⟩
  intro k hk1 hk2
  obtain ⟨a, b, c⟩ := hpt k hk1 hk2
  simp only [tripleAt, resize, a, b, c]

/-! ### The list of stored triples -/

theorem entries_length [Zero V] (s : SparseMatrixArray V) :
    (entries s).length = s.size.toNat := by
  simp [entries]

theorem entries_getElem? [Zero V] (s : SparseMatrixArray V) (k : Nat) :
    (entries s)[k]? = if (k : Int) < s.size then some (tripleAt s k) else none := by
  unfold entries
  rw [List.getElem?_map]
  by_cases h : (k : Int) < s.size
  · rw [if_pos h, List.getElem?_range (by omega)]
    rfl
  · rw [if_neg h, List.getElem?_eq_none (by simp; omega)]
    rfl

/-- Membership in the stored triples, by index. -/
theorem mem_entries [Zero V] (s : SparseMatrixArray V) (e : Int × Int × V) :
    e ∈ entries s ↔ ∃ k : Int, 0 ≤ k ∧ k < s.size ∧ tripleAt s k = e := by
  rw [List.mem_iff_getElem?]
  constructor
  · rintro ⟨n, hn⟩
    rw [entries_getElem?] at hn
    by_cases h : (n : Int) < s.size
    · rw [if_pos h] at hn
      exact ⟨n, by omega, h, Option.some.inj hn⟩
    · rw [if_neg h] at hn
      cases hn
  · rintro ⟨k, h0, h1, h2⟩
    refine ⟨k.toNat, ?_⟩
    rw [entries_getElem?, if_pos (by omega)]
    have : ((k.toNat : Nat) : Int) = k := by omega
    rw [this, h2]

/-- Stored triples after an insertion at index `p`. -/
theorem entries_insertAt [Zero V] (s t : SparseMatrixArray V) (p : Int) (x : Int × Int × V)
    (hp0 : 0 ≤ p) (hps : p ≤ s.size) (hsize : t.size = s.size + 1)
    (hpt : ∀ k, 0 ≤ k → k ≤ s.size →
      tripleAt t k = if k = p then x else if p < k then tripleAt s (k - 1) else tripleAt s k) :
    entries t = (entries s).take p.toNat ++ x :: (entries s).drop p.toNat := by
  apply List.ext_getElem?
  intro k
  have hlen : ((entries s).take p.toNat).length = p.toNat := by
    rw [List.length_take, entries_length]; omega
  rw [entries_getElem?, List.getElem?_append, hlen]
  by_cases hk : (k : Int) < t.size
  · rw [if_pos hk, hpt k (by omega) (by omega)]
    by_cases hkp : (k : Int) = p
    · rw [if_pos hkp, if_neg (by omega)]
      have : k - p.toNat = 0 := by omega
      rw [this, List.getElem?_cons_zero]
    · rw [if_neg hkp]
      by_cases hlt : p < (k : Int)
      · rw [if_pos hlt, if_neg (by omega), List.getElem?_cons, if_neg (by omega),
          List.getElem?_drop, entries_getElem?, if_pos (by omega)]
        have e1 : ((p.toNat + (k - p.toNat - 1) : Nat) : Int) = (k : Int) - 1 := by omega
        rw [e1]
      · rw [if_neg hlt, if_pos (by omega), List.getElem?_take, if_pos (by omega),
          entries_getElem?, if_pos (by omega)]
  · rw [if_neg hk, if_neg (by omega), List.getElem?_cons, if_neg (by omega),
      List.getElem?_drop, entries_getElem?, if_neg (by omega)]

/-- Stored triples after erasing index `p`. -/
theorem entries_eraseAt [Zero V] (s t : SparseMatrixArray V) (p : Int)
    (hp0 : 0 ≤ p) (hps : p < s.size) (hsize : t.size = s.size - 1)
    (hpt : ∀ k, 0 ≤ k → k < s.size - 1 →
      tripleAt t k = if p ≤ k then tripleAt s (k + 1) else tripleAt s k) :
    entries t = (entries s).eraseIdx p.toNat := by
  apply List.ext_getElem?
  intro k
  rw [entries_getElem?, List.getElem?_eraseIdx]
  by_cases hk : (k : Int) < t.size
  · rw [if_pos hk, hpt k (by omega) (by omega)]
    by_cases hkp : p ≤ (k : Int)
    · rw [if_pos hkp, if_neg (by omega), entries_getElem?, if_pos (by omega)]
      rfl
    · rw [if_neg hkp, if_pos (by omega), entries_getElem?, if_pos (by omega)]
  · rw [if_neg hk]
    by_cases hkp : k < p.toNat
    · omega
    · rw [if_neg hkp, entries_getElem?, if_neg (by omega)]

/-- Stored triples after overwriting the triple at index `p`. -/
theorem entries_setAt [Zero V] (s t : SparseMatrixArray V) (p : Int) (x : Int × Int × V)
    (hp0 : 0 ≤ p) (hps : p < s.size) (hsize : t.size = s.size)
    (hpt : ∀ k, 0 ≤ k → k < s.size →
      tripleAt t k = if k = p then x else tripleAt s k) :
    entries t = (entries s).set p.toNat x := by
  apply List.ext_getElem?
  intro k
  rw [entries_getElem?, List.getElem?_set, entries_length, entries_getElem?]
  by_cases hk : (k : Int) < t.size
  · rw [if_pos hk, hpt k (by omega) (by omega)]
    by_cases hkp : (k : Int) = p
    · rw [if_pos hkp, if_pos (by omega), if_pos (by omega)]
    · rw [if_neg hkp, if_neg (by omega), if_pos (by omega)]
  · rw [if_neg hk, if_neg (by omega), if_neg (by omega)]

/-! ### Keys, cells and lookups -/

/-- The insertion step of `insert`: shift right from `p`, write the triple at `p`,
increment `size`. -/
theorem place_spec [Zero V] (s : SparseMatrixArray V) (p r c : Int) (v : V) (hp0 : 0 ≤ p)
    (hps : p ≤ s.size) (h1 : s.size < (s.rowIndices.length : Int))
    (h2 : s.size < (s.colIndices.length : Int)) (h3 : s.size < (s.values.length : Int))
    (t : SparseMatrixArray V)
    (ht : t = { shiftRight s p with
                  rowIndices := writeAt (shiftRight s p).rowIndices p r,
                  colIndices := writeAt (shiftRight s p).colIndices p c,
                  values := writeAt (shiftRight s p).values p v,
                  size := (shiftRight s p).size + 1 }) :
    t.rows = s.rows ∧ t.cols = s.cols ∧ t.capacity = s.capacity ∧ t.size = s.size + 1 ∧
    t.rowIndices.length = s.rowIndices.length ∧
    t.colIndices.length = s.colIndices.length ∧
    t.values.length = s.values.length ∧
    ∀ k, 0 ≤ k → k ≤ s.size → tripleAt t k
      = if k = p then (r, c, v) else if p < k then tripleAt s (k - 1) else tripleAt s k := by
  obtain ⟨e1, e2, e3, e4, l1, l2, l3, hpt⟩ := shiftRight_spec s p hp0 hps h1 h2 h3
  subst ht
  refine ⟨e1, e2, e3, by simp [e4], by simp [length_writeAt, l1], by simp [length_writeAt, l2],
    by simp [length_writeAt, l3], ?_⟩
  intro k hk0 hk1
  have := tripleAt_write3 (shiftRight s p) p k r c v hp0 hk0 (by omega) (by omega) (by omega)
  have e : tripleAt ({ shiftRight s p with
                  rowIndices := writeAt (shiftRight s p).rowIndices p r,
                  colIndices := writeAt (shiftRight s p).colIndices p c,
                  values := writeAt (shiftRight s p).values p v,
                  size := (shiftRight s p).size + 1 } : SparseMatrixArray V) k
      = tripleAt ({ shiftRight s p with
                  rowIndices := writeAt (shiftRight s p).rowIndices p r,
                  colIndices := writeAt (shiftRight s p).colIndices p c,
                  values := writeAt (shiftRight s p).values p v } : SparseMatrixArray V) k := rfl
  rw [e, this]
  by_cases hkp : k = p
  · rw [if_pos hkp, if_pos hkp]
  · rw [if_neg hkp, if_neg hkp, hpt k hk0]
    by_cases hlt : p < k
    · rw [if_pos ⟨hlt, hk1⟩, if_pos hlt]
    · rw [if_neg (by omega), if_neg hlt]

theorem keyAt_eq_of_tripleAt [Zero V] {s t : SparseMatrixArray V} {i j : Int}
    (h : tripleAt t i = tripleAt s j) : keyAt t i = keyAt s j := by
  simp only [tripleAt, Prod.mk.injEq] at h
  simp only [keyAt, h.1, h.2.1]

theorem keyAt_of_tripleAt [Zero V] {t : SparseMatrixArray V} {i r c : Int} {v : V}
    (h : tripleAt t i = (r, c, v)) : keyAt t i = (r, c) := by
  simp only [tripleAt, Prod.mk.injEq] at h
  simp only [keyAt, h.1, h.2.1]

theorem tripleAt_eq_key_val [Zero V] (s : SparseMatrixArray V) (i : Int) :
    tripleAt s i = ((keyAt s i).1, (keyAt s i).2, readAt s.values i) := rfl

theorem keyLess_irrefl (a : Int × Int) : ¬ keyLess a a := by
  unfold keyLess; omega

theorem keyLess_trans {a b c : Int × Int} (h1 : keyLess a b) (h2 : keyLess b c) :
    keyLess a c := by
  unfold keyLess at *; omega

theorem keyLess_of_not {a b : Int × Int} (h1 : ¬ keyLess a b) (h2 : a ≠ b) : keyLess b a := by
  obtain ⟨a1, a2⟩ := a
  obtain ⟨b1, b2⟩ := b
  simp only [keyLess, ne_eq, Prod.mk.injEq] at *
  omega

/-- Sorted keys are pairwise distinct. -/
theorem SortedKeys.index_unique {s : SparseMatrixArray V} (hs : SortedKeys s) {i j : Int}
    (hi0 : 0 ≤ i) (hi : i < s.size) (hj0 : 0 ≤ j) (hj : j < s.size)
    (h : keyAt s i = keyAt s j) : i = j := by
  by_contra hne
  rcases Int.lt_or_gt_of_ne hne with hlt | hgt
  · have := hs i j hi0 hlt hj
    rw [h] at this
    exact keyLess_irrefl _ this
  · have := hs j i hj0 hgt hi
    rw [h] at this
    exact keyLess_irrefl _ this

theorem findElementIndex_of_key {s : SparseMatrixArray V} (hs : SortedKeys s) {i r c : Int}
    (hi0 : 0 ≤ i) (hi : i < s.size) (h : keyAt s i = (r, c)) :
    findElementIndex s r c = i := by
  rcases findElementIndex_spec s r c hs with ⟨_, h2⟩ | ⟨h1, h2, h3⟩
  · exact absurd h (h2 i hi0 hi)
  · exact hs.index_unique h1 h2 hi0 hi (h3.trans h.symm)

theorem findElementIndex_absent {s : SparseMatrixArray V} (hs : SortedKeys s) {r c : Int}
    (h : ∀ i, 0 ≤ i → i < s.size → keyAt s i ≠ (r, c)) :
    findElementIndex s r c = -1 := by
  rcases findElementIndex_spec s r c hs with ⟨h1, _⟩ | ⟨h1, h2, h3⟩
  · exact h1
  · exact absurd h3 (h _ h1 h2)

theorem cell_of_key [Zero V] {s : SparseMatrixArray V} (hs : SortedKeys s) {i r c : Int}
    (hi0 : 0 ≤ i) (hi : i < s.size) (h : keyAt s i = (r, c)) :
    cell s r c = readAt s.values i := by
  unfold cell
  simp only [findElementIndex_of_key hs hi0 hi h]
  rw [if_pos (by omega)]

theorem cell_absent [Zero V] {s : SparseMatrixArray V} (hs : SortedKeys s) {r c : Int}
    (h : ∀ i, 0 ≤ i → i < s.size → keyAt s i ≠ (r, c)) :
    cell s r c = 0 := by
  unfold cell
  simp [findElementIndex_absent hs h]

/-- The lookup `get` in terms of `cell`. -/
theorem get_eq_cell [Zero V] (s : SparseMatrixArray V) (r c : Int)
    (h1 : 0 ≤ r) (h2 : r < s.rows) (h3 : 0 ≤ c) (h4 : c < s.cols) :
    get s r c = .ok (cell s r c) := by
  unfold get cell
  rw [if_neg (by omega)]

/-- A stored triple is what `cell` returns at its key. -/
theorem cell_of_mem [Zero V] {s : SparseMatrixArray V} (hs : SortedKeys s) {r c : Int} {v : V}
    (h : (r, c, v) ∈ entries s) : cell s r c = v := by
  obtain ⟨k, hk0, hk1, hk⟩ := (mem_entries s _).1 h
  rw [cell_of_key hs hk0 hk1 (keyAt_of_tripleAt hk)]
  simp only [tripleAt, Prod.mk.injEq] at hk
  exact hk.2.2

theorem cell_of_not_mem [Zero V] {s : SparseMatrixArray V} (hs : SortedKeys s) {r c : Int}
    (h : ∀ v, (r, c, v) ∉ entries s) : cell s r c = 0 := by
  apply cell_absent hs
  intro i hi0 hi hk
  apply h (readAt s.values i)
  rw [mem_entries]
  refine ⟨i, hi0, hi, ?_⟩
  rw [tripleAt_eq_key_val, hk]

/-- Under the invariant the stored triples are exactly the non-zero cells. -/
theorem mem_entries_iff_cell [Zero V] {s : SparseMatrixArray V} (hs : SortedKeys s)
    (hn : NonZeroValues s) (r c : Int) (v : V) :
    (r, c, v) ∈ entries s ↔ v ≠ 0 ∧ cell s r c = v := by
  constructor
  · intro h
    exact ⟨hn _ h, cell_of_mem hs h⟩
  · rintro ⟨hv, hc⟩
    by_contra hno
    by_cases hex : ∃ w, (r, c, w) ∈ entries s
    · obtain ⟨w, hw⟩ := hex
      have := cell_of_mem hs hw
      rw [hc] at this
      subst this
      exact hno hw
    · have := cell_of_not_mem hs (fun w hw => hex ⟨w, hw⟩)
      rw [hc] at this
      exact hv this

/-! ### Array-level effect of `insert` and `remove` -/

theorem remove_absent [Zero V] (s : SparseMatrixArray V) (r c : Int)
    (h : findElementIndex s r c = -1) : remove s r c = s := by
  unfold remove
  simp [h]

/-- Array-level effect of `remove` when the key is stored at index `i`. -/
theorem remove_found [Zero V] (s : SparseMatrixArray V) (ha : Alloc s) (hs : SortedKeys s)
    (i r c : Int) (hi0 : 0 ≤ i) (hi : i < s.size) (hk : keyAt s i = (r, c)) :
    (remove s r c).rows = s.rows ∧ (remove s r c).cols = s.cols ∧
    (remove s r c).capacity = s.capacity ∧ (remove s r c).size = s.size - 1 ∧
    (remove s r c).rowIndices.length = s.rowIndices.length ∧
    (remove s r c).colIndices.length = s.colIndices.length ∧
    (remove s r c).values.length = s.values.length ∧
    ∀ k, 0 ≤ k → tripleAt (remove s r c) k
      = if i ≤ k ∧ k < s.size - 1 then tripleAt s (k + 1) else tripleAt s k := by
  have hidx := findElementIndex_of_key hs hi0 hi hk
  obtain ⟨e1, e2, e3, e4, l1, l2, l3, hpt⟩ := shiftLeft_spec s i hi0 hi
    (by have := ha.len_row; have := ha.size_le; omega)
    (by have := ha.len_col; have := ha.size_le; omega)
    (by have := ha.len_val; have := ha.size_le; omega)
  unfold remove
  simp only [hidx]
  rw [if_pos (by omega)]
  exact ⟨e1, e2, e3, by simp [e4], l1, l2, l3, hpt⟩

/-- Array-level effect of `insert` when the key is stored at index `i`. -/
theorem insert_found [Zero V] [DecidableEq V] (s : SparseMatrixArray V) (ha : Alloc s)
    (hs : SortedKeys s) (i r c : Int) (v : V) (hi0 : 0 ≤ i) (hi : i < s.size)
    (hk : keyAt s i = (r, c)) (h1 : 0 ≤ r) (h2 : r < s.rows) (h3 : 0 ≤ c) (h4 : c < s.cols)
    (hv : v ≠ 0) :
    insert s r c v = .ok { s with values := writeAt s.values i v } ∧
    ∀ k, 0 ≤ k → tripleAt ({ s with values := writeAt s.values i v } : SparseMatrixArray V) k
      = if k = i then (r, c, v) else tripleAt s k := by
  have hidx := findElementIndex_of_key hs hi0 hi hk
  constructor
  · unfold insert
    rw [if_neg (by omega), if_neg hv]
    simp only [hidx]
    rw [if_pos (by omega)]
  · intro k hk0
    simp only [tripleAt]
    rw [readAt_writeAt _ i k _ hi0 hk0 (by have := ha.len_val; have := ha.size_le; omega)]
    simp only [keyAt, Prod.mk.injEq] at hk
    by_cases hki : k = i
    · subst hki
      simp [hk.1, hk.2]
    · simp [hki]

/-- The state on which `insert` places a new key: resized when full. -/
theorem room_spec [Zero V] (s : SparseMatrixArray V) (ha : Alloc s) (hs : SortedKeys s)
    (s1 : SparseMatrixArray V) (h : s1 = if s.size ≥ s.capacity then resize s else s) :
    s1.rows = s.rows ∧ s1.cols = s.cols ∧ s1.size = s.size ∧
    s1.capacity = (if s.size ≥ s.capacity then s.capacity * 2 else s.capacity) ∧
    (s1.rowIndices.length : Int) = s1.capacity ∧ (s1.colIndices.length : Int) = s1.capacity ∧
    (s1.values.length : Int) = s1.capacity ∧ s1.size < s1.capacity ∧
    (∀ k, 0 ≤ k → k < s.size → tripleAt s1 k = tripleAt s k) ∧ SortedKeys s1 := by
  have hcp := ha.cap_pos
  have hsl := ha.size_le
  have key : s1.rows = s.rows ∧ s1.cols = s.cols ∧ s1.size = s.size ∧
    s1.capacity = (if s.size ≥ s.capacity then s.capacity * 2 else s.capacity) ∧
    (s1.rowIndices.length : Int) = s1.capacity ∧ (s1.colIndices.length : Int) = s1.capacity ∧
    (s1.values.length : Int) = s1.capacity ∧ s1.size < s1.capacity ∧
    (∀ k, 0 ≤ k → k < s.size → tripleAt s1 k = tripleAt s k) := by
    by_cases hfull : s.size ≥ s.capacity
    · rw [if_pos hfull] at h ⊢
      subst h
      obtain ⟨e1, e2, e3, e4, l1, l2, l3, hpt⟩ := resize_spec s ha.size_nonneg ha.size_le
      exact ⟨e1, e2, e4, e3, by rw [l1, e3], by rw [l2, e3], by rw [l3, e3],
        by rw [e4, e3]; omega, hpt⟩
    · rw [if_neg hfull] at h ⊢
      subst h
      exact ⟨rfl, rfl, rfl, rfl, ha.len_row, ha.len_col, ha.len_val, by omega,
        fun _ _ _ => rfl⟩
  refine ⟨key.1, key.2.1, key.2.2.1, key.2.2.2.1, key.2.2.2.2.1, key.2.2.2.2.2.1,
    key.2.2.2.2.2.2.1, key.2.2.2.2.2.2.2.1, key.2.2.2.2.2.2.2.2, ?_⟩
  intro i j hi hij hj
  have hsz := key.2.2.1
  rw [keyAt_eq_of_tripleAt (key.2.2.2.2.2.2.2.2 i hi (by omega)),
    keyAt_eq_of_tripleAt (key.2.2.2.2.2.2.2.2 j (by omega) (by omega))]
  exact hs i j hi hij (by omega)

/-- Array-level effect of `insert` when the key is not stored: the triple is placed at
the insertion point `p`. -/
theorem insert_absent [Zero V] [DecidableEq V] (s : SparseMatrixArray V) (ha : Alloc s)
    (hs : SortedKeys s) (r c : Int) (v : V)
    (h1 : 0 ≤ r) (h2 : r < s.rows) (h3 : 0 ≤ c) (h4 : c < s.cols) (hv : v ≠ 0)
    (habs : ∀ i, 0 ≤ i → i < s.size → keyAt s i ≠ (r, c)) :
    ∃ t p, insert s r c v = .ok t ∧ t.rows = s.rows ∧ t.cols = s.cols ∧
      t.size = s.size + 1 ∧
      t.capacity = (if s.size ≥ s.capacity then s.capacity * 2 else s.capacity) ∧
      Alloc t ∧ 0 ≤ p ∧ p ≤ s.size ∧
      (∀ i, 0 ≤ i → i < p → keyLess (keyAt s i) (r, c)) ∧
      (∀ i, p ≤ i → i < s.size → keyLess (r, c) (keyAt s i)) ∧
      (∀ k, 0 ≤ k → k ≤ s.size → tripleAt t k
        = if k = p then (r, c, v) else if p < k then tripleAt s (k - 1) else tripleAt s k) := by
  have hidx := findElementIndex_absent hs habs
  obtain ⟨e1, e2, e3, e4, l1, l2, l3, hroom, hpt1, hs1⟩ :=
    room_spec s ha hs (if s.size ≥ s.capacity then resize s else s) rfl
  generalize hs1def : (if s.size ≥ s.capacity then resize s else s) = s1 at *
  have h0 := ha.size_nonneg
  obtain ⟨p0, p1, plo, phi⟩ := findInsertionPoint_spec s1 r c hs1 (by omega)
  generalize hp : findInsertionPoint s1 r c = p at *
  have hex : ∃ t : SparseMatrixArray V, t = { shiftRight s1 p with
                  rowIndices := writeAt (shiftRight s1 p).rowIndices p r,
                  colIndices := writeAt (shiftRight s1 p).colIndices p c,
                  values := writeAt (shiftRight s1 p).values p v,
                  size := (shiftRight s1 p).size + 1 } := ⟨_, rfl⟩
  obtain ⟨t, ht⟩ := hex
  obtain ⟨f1, f2, f3, f4, m1, m2, m3, hpt⟩ := place_spec s1 p r c v p0 p1 (by omega) (by omega)
    (by omega) t ht
  refine ⟨t, p, ?_, ?_, ?_, ?_, ?_, ?_, p0, by omega, ?_, ?_, ?_⟩
  · unfold insert
    rw [if_neg (by omega), if_neg hv]
    simp only [hidx]
    rw [if_neg (by omega)]
    simp only [hs1def, hp]
    rw [ht]
  · rw [f1, e1]
  · rw [f2, e2]
  · rw [f4, e3]
  · rw [f3, e4]
  · exact ⟨by rw [f3]; omega, by rw [f4]; omega, by rw [f4, f3]; omega,
      by rw [m1, f3]; exact l1, by rw [m2, f3]; exact l2, by rw [m3, f3]; exact l3⟩
  · intro i hi0 hip
    rw [← keyAt_eq_of_tripleAt (hpt1 i hi0 (by omega))]
    exact plo i hi0 hip
  · intro i hpi hi
    have hne := habs i (by omega) hi
    have := phi i hpi (by omega)
    rw [keyAt_eq_of_tripleAt (hpt1 i (by omega) hi)] at this
    exact keyLess_of_not this hne
  · intro k hk0 hk1
    rw [hpt k hk0 (by omega)]
    by_cases hkp : k = p
    · rw [if_pos hkp, if_pos hkp]
    · rw [if_neg hkp, if_neg hkp]
      by_cases hlt : p < k
      · rw [if_pos hlt, if_pos hlt, hpt1 (k - 1) (by omega) (by omega)]
      · rw [if_neg hlt, if_neg hlt, hpt1 k hk0 (by omega)]

/-! ### Sortedness and membership after a mutation -/

theorem key_of_tripleAt [Zero V] {s : SparseMatrixArray V} {k : Int} {e : Int × Int × V}
    (h : tripleAt s k = e) : (e.1, e.2.1) = keyAt s k := by
  subst h; rfl

/-- Effect of `insert` of a new key: sortedness and the stored triples afterwards. -/
theorem insert_absent_entries [Zero V] (s t : SparseMatrixArray V) (hs : SortedKeys s)
    (r c p : Int) (v : V) (hsize : t.size = s.size + 1) (hp0 : 0 ≤ p) (hps : p ≤ s.size)
    (hlo : ∀ i, 0 ≤ i → i < p → keyLess (keyAt s i) (r, c))
    (hhi : ∀ i, p ≤ i → i < s.size → keyLess (r, c) (keyAt s i))
    (hpt : ∀ k, 0 ≤ k → k ≤ s.size → tripleAt t k
        = if k = p then (r, c, v) else if p < k then tripleAt s (k - 1) else tripleAt s k) :
    SortedKeys t ∧
    entries t = (entries s).take p.toNat ++ (r, c, v) :: (entries s).drop p.toNat ∧
    ∀ e, e ∈ entries t ↔ e = (r, c, v) ∨ e ∈ entries s := by
  have hlist := entries_insertAt s t p (r, c, v) hp0 hps hsize hpt
  have hkey : ∀ k, 0 ≤ k → k ≤ s.size →
      (k = p ∧ keyAt t k = (r, c)) ∨ (k < p ∧ keyAt t k = keyAt s k) ∨
      (p < k ∧ keyAt t k = keyAt s (k - 1)) := by
    intro k hk0 hk1
    have := hpt k hk0 hk1
    by_cases hkp : k = p
    · rw [if_pos hkp] at this
      exact Or.inl ⟨hkp, keyAt_of_tripleAt this⟩
    · rw [if_neg hkp] at this
      by_cases hlt : p < k
      · rw [if_pos hlt] at this
        exact Or.inr (Or.inr ⟨hlt, keyAt_eq_of_tripleAt this⟩)
      · rw [if_neg hlt] at this
        exact Or.inr (Or.inl ⟨by omega, keyAt_eq_of_tripleAt this⟩)
  refine ⟨?_, hlist, ?_⟩
  · intro i j hi hij hj
    rcases hkey i hi (by omega) with ⟨a, ea⟩ | ⟨a, ea⟩ | ⟨a, ea⟩ <;>
    rcases hkey j (by omega) (by omega) with ⟨b, eb⟩ | ⟨b, eb⟩ | ⟨b, eb⟩ <;>
    rw [ea, eb] <;>
    first
      | omega
      | exact hlo _ (by omega) (by omega)
      | exact hhi _ (by omega) (by omega)
      | exact hs _ _ (by omega) (by omega) (by omega)
  · intro e
    rw [hlist, List.mem_append, List.mem_cons]
    have : e ∈ entries s ↔ e ∈ (entries s).take p.toNat ∨ e ∈ (entries s).drop p.toNat := by
      rw [← List.mem_append, List.take_append_drop]
    rw [this]
    tauto

/-- Effect of `insert` on a stored key: sortedness and the stored triples afterwards. -/
theorem insert_found_entries [Zero V] (s t : SparseMatrixArray V) (hs : SortedKeys s)
    (r c i : Int) (v : V) (hsize : t.size = s.size) (hi0 : 0 ≤ i) (hi : i < s.size)
    (hk : keyAt s i = (r, c))
    (hpt : ∀ k, 0 ≤ k → tripleAt t k = if k = i then (r, c, v) else tripleAt s k) :
    SortedKeys t ∧ entries t = (entries s).set i.toNat (r, c, v) ∧
    ∀ e, e ∈ entries t ↔ e = (r, c, v) ∨ (e ∈ entries s ∧ (e.1, e.2.1) ≠ (r, c)) := by
  have hkey : ∀ k, 0 ≤ k → keyAt t k = keyAt s k := by
    intro k hk0
    have := hpt k hk0
    by_cases hki : k = i
    · rw [if_pos hki] at this
      rw [keyAt_of_tripleAt this, hki, hk]
    · rw [if_neg hki] at this
      exact keyAt_eq_of_tripleAt this
  refine ⟨?_, entries_setAt s t i (r, c, v) hi0 hi hsize (fun k h0 _ => hpt k h0), ?_⟩
  · intro a b ha hab hb
    rw [hkey a ha, hkey b (by omega)]
    exact hs a b ha hab (by omega)
  · intro e
    rw [mem_entries, mem_entries]
    constructor
    · rintro ⟨k, hk0, hk1, hke⟩
      rw [hpt k hk0] at hke
      by_cases hki : k = i
      · rw [if_pos hki] at hke
        exact Or.inl hke.symm
      · rw [if_neg hki] at hke
        refine Or.inr ⟨⟨k, hk0, by omega, hke⟩, ?_⟩
        rw [key_of_tripleAt hke, ← hk]
        intro heq
        exact hki (hs.index_unique hk0 (by omega) hi0 hi heq)
    · rintro (he | ⟨⟨k, hk0, hk1, hke⟩, hne⟩)
      · refine ⟨i, hi0, by omega, ?_⟩
        rw [hpt i hi0, if_pos rfl, he]
      · refine ⟨k, hk0, by omega, ?_⟩
        have hki : k ≠ i := by
          intro h
          subst h
          rw [key_of_tripleAt hke] at hne
          exact hne hk
        rw [hpt k hk0, if_neg hki, hke]

/-- Effect of `remove` on a stored key: sortedness and the stored triples afterwards. -/
theorem remove_found_entries [Zero V] (s t : SparseMatrixArray V) (hs : SortedKeys s)
    (r c i : Int) (hsize : t.size = s.size - 1) (hi0 : 0 ≤ i) (hi : i < s.size)
    (hk : keyAt s i = (r, c))
    (hpt : ∀ k, 0 ≤ k → tripleAt t k
      = if i ≤ k ∧ k < s.size - 1 then tripleAt s (k + 1) else tripleAt s k) :
    SortedKeys t ∧ entries t = (entries s).eraseIdx i.toNat ∧
    ∀ e, e ∈ entries t ↔ (e ∈ entries s ∧ (e.1, e.2.1) ≠ (r, c)) := by
  have hpt2 : ∀ k, 0 ≤ k → k < s.size - 1 →
      tripleAt t k = if i ≤ k then tripleAt s (k + 1) else tripleAt s k := by
    intro k hk0 hk1
    rw [hpt k hk0]
    by_cases h : i ≤ k
    · rw [if_pos ⟨h, hk1⟩, if_pos h]
    · rw [if_neg (by omega), if_neg h]
  refine ⟨?_, entries_eraseAt s t i hi0 hi hsize hpt2, ?_⟩
  · intro a b ha hab hb
    have ea := hpt2 a ha (by omega)
    have eb := hpt2 b (by omega) (by omega)
    by_cases h1 : i ≤ a
    · rw [if_pos h1] at ea
      rw [if_pos (by omega)] at eb
      rw [keyAt_eq_of_tripleAt ea, keyAt_eq_of_tripleAt eb]
      exact hs _ _ (by omega) (by omega) (by omega)
    · rw [if_neg h1] at ea
      by_cases h2 : i ≤ b
      · rw [if_pos h2] at eb
        rw [keyAt_eq_of_tripleAt ea, keyAt_eq_of_tripleAt eb]
        exact hs _ _ (by omega) (by omega) (by omega)
      · rw [if_neg h2] at eb
        rw [keyAt_eq_of_tripleAt ea, keyAt_eq_of_tripleAt eb]
        exact hs _ _ (by omega) (by omega) (by omega)
  · intro e
    rw [mem_entries, mem_entries]
    constructor
    · rintro ⟨k, hk0, hk1, hke⟩
      rw [hpt2 k hk0 (by omega)] at hke
      by_cases h : i ≤ k
      · rw [if_pos h] at hke
        refine ⟨⟨k + 1, by omega, by omega, hke⟩, ?_⟩
        rw [key_of_tripleAt hke, ← hk]
        intro heq
        have := hs.index_unique (by omega) (by omega) hi0 hi heq
        omega
      · rw [if_neg h] at hke
        refine ⟨⟨k, hk0, by omega, hke⟩, ?_⟩
        rw [key_of_tripleAt hke, ← hk]
        intro heq
        have := hs.index_unique hk0 (by omega) hi0 hi heq
        omega
    · rintro ⟨⟨k, hk0, hk1, hke⟩, hne⟩
      have hki : k ≠ i := by
        intro h
        subst h
        rw [key_of_tripleAt hke] at hne
        exact hne hk
      by_cases h : i < k
      · refine ⟨k - 1, by omega, by omega, ?_⟩
        rw [hpt2 (k - 1) (by omega) (by omega), if_pos (by omega)]
        rw [show k - 1 + 1 = k by omega, hke]
      · refine ⟨k, hk0, by omega, ?_⟩
        rw [hpt2 k hk0 (by omega), if_neg (by omega), hke]

/-! ### Operations on well-formed matrices -/

theorem cell_congr [Zero V] {s t : SparseMatrixArray V} (hs : SortedKeys s) (ht : SortedKeys t)
    {r c : Int} (h : ∀ w, (r, c, w) ∈ entries t ↔ (r, c, w) ∈ entries s) :
    cell t r c = cell s r c := by
  by_cases hex : ∃ w, (r, c, w) ∈ entries s
  · obtain ⟨w, hw⟩ := hex
    rw [cell_of_mem hs hw, cell_of_mem ht ((h w).2 hw)]
  · rw [cell_of_not_mem hs (fun w hw => hex ⟨w, hw⟩),
      cell_of_not_mem ht (fun w hw => hex ⟨w, (h w).1 hw⟩)]

/-- Under the invariant a key is stored exactly when its cell is non-zero. -/
theorem cell_ne_zero_iff [Zero V] {s : SparseMatrixArray V} (hs : SortedKeys s)
    (hn : NonZeroValues s) (r c : Int) :
    cell s r c ≠ 0 ↔ ∃ i, 0 ≤ i ∧ i < s.size ∧ keyAt s i = (r, c) := by
  constructor
  · intro h
    by_contra hno
    apply h
    apply cell_absent hs
    intro i hi0 hi hk
    exact hno ⟨i, hi0, hi, hk⟩
  · rintro ⟨i, hi0, hi, hk⟩
    rw [cell_of_key hs hi0 hi hk]
    have : tripleAt s i ∈ entries s := (mem_entries s _).2 ⟨i, hi0, hi, rfl⟩
    exact hn _ this

theorem new_wf [Zero V] (r c : Int) : WF (new r c : SparseMatrixArray V) := by
  refine ⟨⟨by simp [new], by simp [new], by simp [new], by simp [new], by simp [new],
    by simp [new]⟩, ?_, ?_, ?_⟩
  · intro i j hi hij hj
    simp only [new] at hj
    omega
  · intro e he
    simp [entries, new] at he
  · intro e he
    simp [entries, new] at he

theorem entries_new [Zero V] (r c : Int) : entries (new r c : SparseMatrixArray V) = [] := by
  simp [entries, new]

theorem clear_wf [Zero V] {s : SparseMatrixArray V} (hw : WF s) : WF (clear s) := by
  have ha := hw.alloc
  refine ⟨⟨ha.cap_pos, le_refl _, le_of_lt ha.cap_pos, ha.len_row, ha.len_col, ha.len_val⟩,
    ?_, ?_, ?_⟩
  · intro i j hi hij hj
    simp only [clear] at hj
    omega
  · intro e he
    simp [entries, clear] at he
  · intro e he
    simp [entries, clear] at he

/-- Specification of `remove` on a well-formed matrix. -/
theorem remove_spec [Zero V] [DecidableEq V] (s : SparseMatrixArray V) (hw : WF s) (r c : Int) :
    WF (remove s r c) ∧ (remove s r c).rows = s.rows ∧ (remove s r c).cols = s.cols ∧
    (remove s r c).capacity = s.capacity ∧
    (∀ e, e ∈ entries (remove s r c) ↔ (e ∈ entries s ∧ (e.1, e.2.1) ≠ (r, c))) ∧
    (remove s r c).size = (if cell s r c = 0 then s.size else s.size - 1) := by
  by_cases hex : ∃ i, 0 ≤ i ∧ i < s.size ∧ keyAt s i = (r, c)
  · obtain ⟨i, hi0, hi, hk⟩ := hex
    have hc : cell s r c ≠ 0 := (cell_ne_zero_iff hw.sorted hw.nonzero r c).2 ⟨i, hi0, hi, hk⟩
    obtain ⟨e1, e2, e3, e4, l1, l2, l3, hpt⟩ :=
      remove_found s hw.alloc hw.sorted i r c hi0 hi hk
    obtain ⟨hs', _, hmem⟩ := remove_found_entries s (remove s r c) hw.sorted r c i e4 hi0 hi hk hpt
    have ha := hw.alloc
    refine ⟨⟨⟨by rw [e3]; exact ha.cap_pos, by rw [e4]; omega,
      by rw [e4, e3]; have := ha.size_le; omega, by rw [l1, e3]; exact ha.len_row,
      by rw [l2, e3]; exact ha.len_col, by rw [l3, e3]; exact ha.len_val⟩, hs', ?_, ?_⟩,
      e1, e2, e3, hmem, by rw [if_neg hc, e4]⟩
    · intro e he
      exact hw.nonzero e ((hmem e).1 he).1
    · intro e he
      rw [e1, e2]
      exact hw.inb e ((hmem e).1 he).1
  · have habs : ∀ i, 0 ≤ i → i < s.size → keyAt s i ≠ (r, c) :=
      fun i h0 h1 hk => hex ⟨i, h0, h1, hk⟩
    have hc : cell s r c = 0 := cell_absent hw.sorted habs
    rw [remove_absent s r c (findElementIndex_absent hw.sorted habs)]
    refine ⟨hw, rfl, rfl, rfl, ?_, by rw [if_pos hc]⟩
    intro e
    constructor
    · intro he
      refine ⟨he, ?_⟩
      obtain ⟨k, hk0, hk1, hke⟩ := (mem_entries s e).1 he
      rw [key_of_tripleAt hke]
      exact habs k hk0 hk1
    · exact fun h => h.1

/-- Specification of `insert` with a non-zero value on a well-formed matrix. -/
theorem insert_spec [Zero V] [DecidableEq V] (s : SparseMatrixArray V) (hw : WF s)
    (r c : Int) (v : V) (h1 : 0 ≤ r) (h2 : r < s.rows) (h3 : 0 ≤ c) (h4 : c < s.cols)
    (hv : v ≠ 0) :
    ∃ t, insert s r c v = .ok t ∧ WF t ∧ t.rows = s.rows ∧ t.cols = s.cols ∧
      (∀ e, e ∈ entries t ↔ e = (r, c, v) ∨ (e ∈ entries s ∧ (e.1, e.2.1) ≠ (r, c))) ∧
      t.size = (if cell s r c = 0 then s.size + 1 else s.size) ∧
      t.capacity = (if cell s r c = 0 ∧ s.size ≥ s.capacity then s.capacity * 2
        else s.capacity) := by
  have ha := hw.alloc
  by_cases hex : ∃ i, 0 ≤ i ∧ i < s.size ∧ keyAt s i = (r, c)
  · obtain ⟨i, hi0, hi, hk⟩ := hex
    have hc : cell s r c ≠ 0 := (cell_ne_zero_iff hw.sorted hw.nonzero r c).2 ⟨i, hi0, hi, hk⟩
    obtain ⟨hins, hpt⟩ := insert_found s ha hw.sorted i r c v hi0 hi hk h1 h2 h3 h4 hv
    obtain ⟨hs', _, hmem⟩ := insert_found_entries s
      ({ s with values := writeAt s.values i v } : SparseMatrixArray V)
      hw.sorted r c i v rfl hi0 hi hk hpt
    refine ⟨_, hins, ⟨⟨ha.cap_pos, ha.size_nonneg, ha.size_le, ha.len_row, ha.len_col,
      by simp only [length_writeAt]; exact ha.len_val⟩, hs', ?_, ?_⟩, rfl, rfl, hmem,
      by rw [if_neg hc], by rw [if_neg (fun h => hc h.1)]⟩
    · intro e he
      rcases (hmem e).1 he with h | h
      · rw [h]; exact hv
      · exact hw.nonzero e h.1
    · intro e he
      rcases (hmem e).1 he with h | h
      · rw [h]; exact ⟨h1, h2, h3, h4⟩
      · exact hw.inb e h.1
  · have habs : ∀ i, 0 ≤ i → i < s.size → keyAt s i ≠ (r, c) :=
      fun i h0 h1 hk => hex ⟨i, h0, h1, hk⟩
    have hc : cell s r c = 0 := cell_absent hw.sorted habs
    obtain ⟨t, p, hins, e1, e2, e3, e4, hat, p0, p1, hlo, hhi, hpt⟩ :=
      insert_absent s ha hw.sorted r c v h1 h2 h3 h4 hv habs
    obtain ⟨hs', _, hmem⟩ := insert_absent_entries s t hw.sorted r c p v e3 p0 p1 hlo hhi hpt
    have hmem' : ∀ e, e ∈ entries t ↔
        e = (r, c, v) ∨ (e ∈ entries s ∧ (e.1, e.2.1) ≠ (r, c)) := by
      intro e
      rw [hmem e]
      constructor
      · rintro (h | h)
        · exact Or.inl h
        · refine Or.inr ⟨h, ?_⟩
          obtain ⟨k, hk0, hk1, hke⟩ := (mem_entries s e).1 h
          rw [key_of_tripleAt hke]
          exact habs k hk0 hk1
      · rintro (h | h)
        · exact Or.inl h
        · exact Or.inr h.1
    refine ⟨t, hins, ⟨hat, hs', ?_, ?_⟩, e1, e2, hmem', by rw [if_pos hc, e3], ?_⟩
    · intro e he
      rcases (hmem e).1 he with h | h
      · rw [h]; exact hv
      · exact hw.nonzero e h
    · intro e he
      rw [e1, e2]
      rcases (hmem e).1 he with h | h
      · rw [h]; exact ⟨h1, h2, h3, h4⟩
      · exact hw.inb e h
    · rw [e4]
      by_cases hfull : s.size ≥ s.capacity
      · rw [if_pos hfull, if_pos ⟨hc, hfull⟩]
      · rw [if_neg hfull, if_neg (fun h => hfull h.2)]

theorem insert_zero [Zero V] [DecidableEq V] (s : SparseMatrixArray V) (r c : Int)
    (h1 : 0 ≤ r) (h2 : r < s.rows) (h3 : 0 ≤ c) (h4 : c < s.cols) :
    insert s r c 0 = .ok (remove s r c) := by
  unfold insert
  rw [if_neg (by omega), if_pos rfl]

/-- Effect of `remove` on every cell. -/
theorem cell_remove [Zero V] (s : SparseMatrixArray V) (hw : WF s) (r c r' c' : Int) :
    cell (remove s r c) r' c' = if r' = r ∧ c' = c then 0 else cell s r' c' := by
  classical
  obtain ⟨hw', _, _, _, hmem, _⟩ := remove_spec s hw r c
  by_cases h : r' = r ∧ c' = c
  · rw [if_pos h, h.1, h.2]
    apply cell_of_not_mem hw'.sorted
    intro w hw2
    exact ((hmem _).1 hw2).2 rfl
  · rw [if_neg h]
    apply cell_congr hw.sorted hw'.sorted
    intro w
    rw [hmem]
    simp only [ne_eq, Prod.mk.injEq]
    tauto

/-- Effect of `insert` (any value, zero included) on every cell. -/
theorem cell_insert [Zero V] [DecidableEq V] (s : SparseMatrixArray V) (hw : WF s)
    (r c : Int) (v : V) (h1 : 0 ≤ r) (h2 : r < s.rows) (h3 : 0 ≤ c) (h4 : c < s.cols) :
    ∃ t, insert s r c v = .ok t ∧ WF t ∧ t.rows = s.rows ∧ t.cols = s.cols ∧
      (∀ r' c', cell t r' c' = if r' = r ∧ c' = c then v else cell s r' c') ∧
      t.size = s.size + (if v = 0 then 0 else 1) - (if cell s r c = 0 then 0 else 1) := by
  by_cases hv : v = 0
  · subst hv
    obtain ⟨hw', e1, e2, _, _, hsz⟩ := remove_spec s hw r c
    refine ⟨_, insert_zero s r c h1 h2 h3 h4, hw', e1, e2,
      fun r' c' => cell_remove s hw r c r' c', ?_⟩
    rw [hsz]
    by_cases hc : cell s r c = 0
    · simp [hc]
    · simp [hc]
  · obtain ⟨t, hins, hw', e1, e2, hmem, hsz, _⟩ := insert_spec s hw r c v h1 h2 h3 h4 hv
    refine ⟨t, hins, hw', e1, e2, ?_, ?_⟩
    · intro r' c'
      by_cases h : r' = r ∧ c' = c
      · rw [if_pos h, h.1, h.2]
        exact cell_of_mem hw'.sorted ((hmem _).2 (Or.inl rfl))
      · rw [if_neg h]
        apply cell_congr hw.sorted hw'.sorted
        intro w
        rw [hmem]
        simp only [ne_eq, Prod.mk.injEq]
        tauto
    · rw [hsz]
      by_cases hc : cell s r c = 0
      · simp [hc, hv]
      · simp [hc, hv]

/-! ### Loops that insert: `transpose` -/

/-- A loop that inserts every stored triple of `a`, with its key mapped through the
injective `g`, into an empty matrix `t0` builds the image of the stored triples. -/
theorem insertAll_spec [Zero V] [DecidableEq V] (a t0 : SparseMatrixArray V) (ha : WF a)
    (g : Int × Int → Int × Int) (hg : Function.Injective g) (ht0 : WF t0)
    (hsize : t0.size = 0)
    (hb : ∀ e ∈ entries a, 0 ≤ (g (e.1, e.2.1)).1 ∧ (g (e.1, e.2.1)).1 < t0.rows ∧
      0 ≤ (g (e.1, e.2.1)).2 ∧ (g (e.1, e.2.1)).2 < t0.cols) :
    ∃ t, forUpE a.size
        (fun i result => insert result (g (keyAt a i)).1 (g (keyAt a i)).2 (readAt a.values i))
        a.size.toNat 0 t0 = .ok t ∧
      WF t ∧ t.rows = t0.rows ∧ t.cols = t0.cols ∧ t.size = a.size ∧
      ∀ e, e ∈ entries t ↔
        ∃ e' ∈ entries a, e = ((g (e'.1, e'.2.1)).1, (g (e'.1, e'.2.1)).2, e'.2.2) := by
  have h0 := ha.alloc.size_nonneg
  obtain ⟨t, hrun, hw, e1, e2, e3, hmem⟩ := forUpE_inv a.size
    (fun i result => insert result (g (keyAt a i)).1 (g (keyAt a i)).2 (readAt a.values i))
    (fun j t => WF t ∧ t.rows = t0.rows ∧ t.cols = t0.cols ∧ t.size = j ∧
      ∀ e, e ∈ entries t ↔ ∃ k, 0 ≤ k ∧ k < j ∧
        e = ((g (keyAt a k)).1, (g (keyAt a k)).2, readAt a.values k))
    a.size.toNat 0 t0 h0 (by omega)
    (by
      refine ⟨ht0, rfl, rfl, hsize, ?_⟩
      intro e
      constructor
      · intro he
        obtain ⟨k, hk0, hk1, _⟩ := (mem_entries t0 e).1 he
        omega
      · rintro ⟨k, hk0, hk1, _⟩
        omega)
    (by
      rintro j t hj0 hj1 ⟨hw, e1, e2, e3, hmem⟩
      have hin : tripleAt a j ∈ entries a := (mem_entries a _).2 ⟨j, hj0, hj1, rfl⟩
      have hbj := hb _ hin
      have hvj : readAt a.values j ≠ 0 := ha.nonzero _ hin
      have hkj : ((tripleAt a j).1, (tripleAt a j).2.1) = keyAt a j := rfl
      rw [hkj] at hbj
      obtain ⟨t', hins, hw', f1, f2, hmem', hsz, _⟩ := insert_spec t hw
        (g (keyAt a j)).1 (g (keyAt a j)).2 (readAt a.values j)
        hbj.1 (by rw [e1]; exact hbj.2.1) hbj.2.2.1 (by rw [e2]; exact hbj.2.2.2) hvj
      have hfresh : ∀ e ∈ entries t, (e.1, e.2.1) ≠ ((g (keyAt a j)).1, (g (keyAt a j)).2) := by
        intro e he heq
        obtain ⟨k, hk0, hk1, hke⟩ := (hmem e).1 he
        rw [hke] at heq
        have : g (keyAt a k) = g (keyAt a j) := heq
        have := ha.sorted.index_unique hk0 (by omega) hj0 hj1 (hg this)
        omega
      have hcell : cell t (g (keyAt a j)).1 (g (keyAt a j)).2 = 0 :=
        cell_of_not_mem hw.sorted (fun w hw2 => hfresh _ hw2 rfl)
      refine ⟨t', hins, hw', by rw [f1, e1], by rw [f2, e2], by rw [hsz, if_pos hcell, e3], ?_⟩
      intro e
      rw [hmem']
      constructor
      · rintro (h | ⟨h, _⟩)
        · exact ⟨j, hj0, by omega, h⟩
        · obtain ⟨k, hk0, hk1, hke⟩ := (hmem e).1 h
          exact ⟨k, hk0, by omega, hke⟩
      · rintro ⟨k, hk0, hk1, hke⟩
        by_cases hkj : k = j
        · subst hkj
          exact Or.inl hke
        · have hin' : e ∈ entries t := (hmem e).2 ⟨k, hk0, by omega, hke⟩
          exact Or.inr ⟨hin', hfresh e hin'⟩)
  refine ⟨t, hrun, hw, e1, e2, e3, ?_⟩
  intro e
  rw [hmem]
  constructor
  · rintro ⟨k, hk0, hk1, hke⟩
    exact ⟨tripleAt a k, (mem_entries a _).2 ⟨k, hk0, hk1, rfl⟩, hke⟩
  · rintro ⟨e', he', hee⟩
    obtain ⟨k, hk0, hk1, hke⟩ := (mem_entries a _).1 he'
    refine ⟨k, hk0, hk1, ?_⟩
    rw [hee, ← hke]
    rfl

/-- Specification of `transpose` on a well-formed matrix. -/
theorem transpose_spec [Zero V] [DecidableEq V] (s : SparseMatrixArray V) (hw : WF s) :
    ∃ t, transpose s = .ok t ∧ WF t ∧ t.rows = s.cols ∧ t.cols = s.rows ∧ t.size = s.size ∧
      ∀ r c v, (c, r, v) ∈ entries t ↔ (r, c, v) ∈ entries s := by
  obtain ⟨t, hrun, hw', e1, e2, e3, hmem⟩ := insertAll_spec s (new s.cols s.rows) hw
    Prod.swap Prod.swap_injective (new_wf _ _) rfl (by
      intro e he
      have := hw.inb e he
      simp only [Prod.swap, new]
      omega)
  refine ⟨t, hrun, hw', e1, e2, e3, ?_⟩
  intro r c v
  rw [hmem]
  constructor
  · rintro ⟨e', he', hee⟩
    simp only [Prod.swap, Prod.mk.injEq] at hee
    obtain ⟨a, b, w⟩ := e'
    simp only at hee
    obtain ⟨rfl, rfl, rfl⟩ := hee
    exact he'
  · intro h
    exact ⟨(r, c, v), h, rfl⟩

/-! ### Addition -/

theorem inBounds_at [Zero V] {s : SparseMatrixArray V} (hw : WF s) (j : Int) (hj0 : 0 ≤ j)
    (hj : j < s.size) :
    0 ≤ readAt s.rowIndices j ∧ readAt s.rowIndices j < s.rows ∧
    0 ≤ readAt s.colIndices j ∧ readAt s.colIndices j < s.cols :=
  hw.inb (tripleAt s j) ((mem_entries s _).2 ⟨j, hj0, hj, rfl⟩)

/-- Specification of `add` on well-formed matrices of equal shape. -/
theorem add_spec [AddZeroClass V] [DecidableEq V] (a b : SparseMatrixArray V) (ha : WF a)
    (hb : WF b) (hr : a.rows = b.rows) (hc : a.cols = b.cols) :
    ∃ t, add a b = .ok t ∧ WF t ∧ t.rows = a.rows ∧ t.cols = a.cols ∧
      ∀ r c, cell t r c = cell a r c + cell b r c := by
  obtain ⟨t1, hrun1, hw1, e1, e2, _, hmem1⟩ := insertAll_spec a (new a.rows a.cols) ha
    id Function.injective_id (new_wf _ _) rfl (fun e he => ha.inb e he)
  have hcell1 : ∀ r c, cell t1 r c = cell a r c := by
    intro r c
    apply cell_congr ha.sorted hw1.sorted
    intro w
    rw [hmem1]
    constructor
    · rintro ⟨e', he', hee⟩
      rw [hee]
      exact he'
    · intro h
      exact ⟨_, h, rfl⟩
  have h0 := hb.alloc.size_nonneg
  obtain ⟨t, hrun, hw, f1, f2, hinv⟩ := forUpE_inv b.size
    (fun i result =>
      match get result (readAt b.rowIndices i) (readAt b.colIndices i) with
      | .error e => .error e
      | .ok currentValue =>
        insert result (readAt b.rowIndices i) (readAt b.colIndices i)
          (currentValue + readAt b.values i))
    (fun j t => WF t ∧ t.rows = a.rows ∧ t.cols = a.cols ∧
      ∀ r c, (∀ k, 0 ≤ k → k < j → keyAt b k = (r, c) → cell t r c = cell a r c + cell b r c) ∧
        ((∀ k, 0 ≤ k → k < j → keyAt b k ≠ (r, c)) → cell t r c = cell a r c))
    b.size.toNat 0 t1 h0 (by omega)
    ⟨hw1, e1, e2, fun r c => ⟨fun k hk0 hk1 _ => by omega, fun _ => hcell1 r c⟩⟩
    (by
      rintro j t hj0 hj1 ⟨hw, f1, f2, hinv⟩
      obtain ⟨b1, b2, b3, b4⟩ := inBounds_at hb j hj0 hj1
      have hget := get_eq_cell t (readAt b.rowIndices j) (readAt b.colIndices j)
        b1 (by omega) b3 (by omega)
      have hold : cell t (readAt b.rowIndices j) (readAt b.colIndices j)
          = cell a (readAt b.rowIndices j) (readAt b.colIndices j) := by
        apply (hinv _ _).2
        intro k hk0 hk1 hk
        have := hb.sorted.index_unique hk0 (by omega) hj0 hj1 hk
        omega
      have hval : readAt b.values j
          = cell b (readAt b.rowIndices j) (readAt b.colIndices j) :=
        (cell_of_key hb.sorted hj0 hj1 rfl).symm
      obtain ⟨t', hins, hw', g1, g2, hcell, _⟩ := cell_insert t hw
        (readAt b.rowIndices j) (readAt b.colIndices j)
        (cell t (readAt b.rowIndices j) (readAt b.colIndices j) + readAt b.values j)
        b1 (by omega) b3 (by omega)
      refine ⟨t', ?_, hw', by rw [g1, f1], by rw [g2, f2], ?_⟩
      · simp only [hget]
        exact hins
      · intro r c
        rw [hcell r c]
        constructor
        · intro k hk0 hk1 hk
          by_cases hkj : k = j
          · subst hkj
            simp only [keyAt, Prod.mk.injEq] at hk
            rw [if_pos ⟨hk.1.symm, hk.2.symm⟩, hold, hval, hk.1, hk.2]
          · have hne : ¬ (r = readAt b.rowIndices j ∧ c = readAt b.colIndices j) := by
              rintro ⟨h1, h2⟩
              have : keyAt b k = keyAt b j := by rw [hk, h1, h2]; rfl
              exact hkj (hb.sorted.index_unique hk0 (by omega) hj0 hj1 this)
            rw [if_neg hne]
            exact (hinv r c).1 k hk0 (by omega) hk
        · intro hno
          have hne : ¬ (r = readAt b.rowIndices j ∧ c = readAt b.colIndices j) := by
            rintro ⟨h1, h2⟩
            apply hno j hj0 (by omega)
            rw [h1, h2]; rfl
          rw [if_neg hne]
          exact (hinv r c).2 (fun k hk0 hk1 => hno k hk0 (by omega)))
  refine ⟨t, ?_, hw, f1, f2, ?_⟩
  · unfold add
    rw [if_neg (by omega)]
    have hrun1' : forUpE a.size
        (fun i result => insert result (readAt a.rowIndices i) (readAt a.colIndices i)
          (readAt a.values i)) a.size.toNat 0 (new a.rows a.cols) = .ok t1 := hrun1
    simp only [hrun1']
    exact hrun
  · intro r c
    by_cases hex : ∃ k, 0 ≤ k ∧ k < b.size ∧ keyAt b k = (r, c)
    · obtain ⟨k, hk0, hk1, hk⟩ := hex
      exact (hinv r c).1 k hk0 hk1 hk
    · have habs : ∀ k, 0 ≤ k → k < b.size → keyAt b k ≠ (r, c) :=
        fun k h0 h1 hk => hex ⟨k, h0, h1, hk⟩
      rw [(hinv r c).2 habs, cell_absent hb.sorted habs, add_zero]

/-! ### Multiplication: inner loop -/

/-- Inner loop of `multiply` for one stored entry `(ri, ki, vi)` of the left operand. -/
theorem multiply_inner_spec [Semiring V] [DecidableEq V] (b t : SparseMatrixArray V)
    (hb : WF b) (ht : WF t) (hc : t.cols = b.cols) (ri ki : Int) (vi : V)
    (hr0 : 0 ≤ ri) (hr1 : ri < t.rows) :
    ∃ t', forUpE b.size
        (fun j result =>
          if ki = readAt b.rowIndices j then
            let product := vi * readAt b.values j
            match get result ri (readAt b.colIndices j) with
            | .error e => .error e
            | .ok existingValue =>
              insert result ri (readAt b.colIndices j) (existingValue + product)
          else .ok result)
        b.size.toNat 0 t = .ok t' ∧
      WF t' ∧ t'.rows = t.rows ∧ t'.cols = t.cols ∧
      ∀ r c, cell t' r c = cell t r c + (if r = ri then vi * cell b ki c else 0) := by
  have h0 := hb.alloc.size_nonneg
  obtain ⟨t', hrun, hw, f1, f2, hinv⟩ := forUpE_inv b.size
    (fun j result =>
      if ki = readAt b.rowIndices j then
        let product := vi * readAt b.values j
        match get result ri (readAt b.colIndices j) with
        | .error e => .error e
        | .ok existingValue =>
          insert result ri (readAt b.colIndices j) (existingValue + product)
      else .ok result)
    (fun j u => WF u ∧ u.rows = t.rows ∧ u.cols = t.cols ∧
      ∀ r c, (r = ri → ∀ k, 0 ≤ k → k < j → keyAt b k = (ki, c) →
          cell u r c = cell t r c + vi * cell b ki c) ∧
        ((r = ri → ∀ k, 0 ≤ k → k < j → keyAt b k ≠ (ki, c)) → cell u r c = cell t r c))
    b.size.toNat 0 t h0 (by omega)
    ⟨ht, rfl, rfl, fun r c => ⟨fun _ k hk0 hk1 _ => by omega, fun _ => rfl⟩⟩
    (by
      rintro j u hj0 hj1 ⟨hw, f1, f2, hinv⟩
      by_cases hki : ki = readAt b.rowIndices j
      · obtain ⟨b1, b2, b3, b4⟩ := inBounds_at hb j hj0 hj1
        have hkey : keyAt b j = (ki, readAt b.colIndices j) := by rw [hki]; rfl
        have hget := get_eq_cell u ri (readAt b.colIndices j) hr0 (by omega) b3 (by omega)
        have hold : cell u ri (readAt b.colIndices j) = cell t ri (readAt b.colIndices j) := by
          apply (hinv _ _).2
          intro _ k hk0 hk1 hk
          have := hb.sorted.index_unique hk0 (by omega) hj0 hj1 (hk.trans hkey.symm)
          omega
        have hval : readAt b.values j = cell b ki (readAt b.colIndices j) :=
          (cell_of_key hb.sorted hj0 hj1 hkey).symm
        obtain ⟨u', hins, hw', g1, g2, hcell, _⟩ := cell_insert u hw ri (readAt b.colIndices j)
          (cell u ri (readAt b.colIndices j) + vi * readAt b.values j)
          hr0 (by omega) b3 (by omega)
        refine ⟨u', ?_, hw', by rw [g1, f1], by rw [g2, f2], ?_⟩
        · simp only [hki, if_true, hget]
          exact hins
        · intro r c
          rw [hcell r c]
          constructor
          · intro hr k hk0 hk1 hk
            by_cases hkj : k = j
            · subst hkj
              have hcc : c = readAt b.colIndices k := by
                have := hk.symm.trans hkey
                simp only [Prod.mk.injEq] at this
                exact this.2
              rw [if_pos ⟨hr, hcc⟩, hold, hval, hr, hcc]
            · have hne : ¬ (r = ri ∧ c = readAt b.colIndices j) := by
                rintro ⟨_, h2⟩
                have : keyAt b k = keyAt b j := by rw [hk, hkey, h2]
                exact hkj (hb.sorted.index_unique hk0 (by omega) hj0 hj1 this)
              rw [if_neg hne]
              exact (hinv r c).1 hr k hk0 (by omega) hk
          · intro hno
            have hne : ¬ (r = ri ∧ c = readAt b.colIndices j) := by
              rintro ⟨h1, h2⟩
              apply hno h1 j hj0 (by omega)
              rw [hkey, h2]
            rw [if_neg hne]
            exact (hinv r c).2 (fun hr k hk0 hk1 => hno hr k hk0 (by omega))
      · refine ⟨u, by simp only [hki, if_false], hw, f1, f2, ?_⟩
        intro r c
        constructor
        · intro hr k hk0 hk1 hk
          by_cases hkj : k = j
          · subst hkj
            simp only [keyAt, Prod.mk.injEq] at hk
            exact absurd hk.1.symm hki
          · exact (hinv r c).1 hr k hk0 (by omega) hk
        · intro hno
          exact (hinv r c).2 (fun hr k hk0 hk1 => hno hr k hk0 (by omega)))
  refine ⟨t', hrun, hw, f1, f2, ?_⟩
  intro r c
  by_cases hr : r = ri
  · rw [if_pos hr]
    by_cases hex : ∃ k, 0 ≤ k ∧ k < b.size ∧ keyAt b k = (ki, c)
    · obtain ⟨k, hk0, hk1, hk⟩ := hex
      exact (hinv r c).1 hr k hk0 hk1 hk
    · have habs : ∀ k, 0 ≤ k → k < b.size → keyAt b k ≠ (ki, c) :=
        fun k h0 h1 hk => hex ⟨k, h0, h1, hk⟩
      rw [(hinv r c).2 (fun _ => habs), cell_absent hb.sorted habs, mul_zero, add_zero]
  · rw [if_neg hr, add_zero]
    exact (hinv r c).2 (fun h => absurd h hr)

/-! ### Multiplication -/

/-- A cell is the sum of the stored values whose key matches (at most one does). -/
theorem cell_eq_sum [Semiring V] (s : SparseMatrixArray V) (hs : SortedKeys s) (r x : Int) :
    cell s r x = ∑ k ∈ Finset.range s.size.toNat,
      (if keyAt s (k : Int) = (r, x) then readAt s.values (k : Int) else 0) := by
  by_cases hex : ∃ i, 0 ≤ i ∧ i < s.size ∧ keyAt s i = (r, x)
  · obtain ⟨i, hi0, hi, hk⟩ := hex
    have hcast : ((i.toNat : Nat) : Int) = i := by omega
    rw [Finset.sum_eq_single i.toNat]
    · rw [hcast, if_pos hk, cell_of_key hs hi0 hi hk]
    · intro k hk1 hk2
      rw [Finset.mem_range] at hk1
      rw [if_neg]
      intro h
      have := hs.index_unique (by omega) (by omega) hi0 hi (h.trans hk.symm)
      omega
    · intro h
      rw [Finset.mem_range] at h
      omega
  · have habs : ∀ k, 0 ≤ k → k < s.size → keyAt s k ≠ (r, x) :=
      fun k h0 h1 hk => hex ⟨k, h0, h1, hk⟩
    rw [cell_absent hs habs, Finset.sum_eq_zero]
    intro k hk
    rw [Finset.mem_range] at hk
    rw [if_neg (habs k (by omega) (by omega))]

/-- The sum accumulated by `multiply` over the stored entries of the left operand is
the dot product over the shared dimension. -/
theorem dot_eq_sum [Semiring V] (a : SparseMatrixArray V) (ha : WF a) (r : Int) (f : Int → V) :
    ∑ k ∈ Finset.range a.size.toNat,
      (if readAt a.rowIndices (k : Int) = r then
        readAt a.values (k : Int) * f (readAt a.colIndices (k : Int)) else 0)
    = ∑ x ∈ Finset.Ico (0 : Int) a.cols, cell a r x * f x := by
  have h1 : ∀ x ∈ Finset.Ico (0 : Int) a.cols, cell a r x * f x
      = ∑ k ∈ Finset.range a.size.toNat,
        (if keyAt a (k : Int) = (r, x) then readAt a.values (k : Int) else 0) * f x := by
    intro x _
    rw [cell_eq_sum a ha.sorted r x, Finset.sum_mul]
  rw [Finset.sum_congr rfl h1, Finset.sum_comm]
  apply Finset.sum_congr rfl
  intro k hk
  rw [Finset.mem_range] at hk
  obtain ⟨b1, b2, b3, b4⟩ := inBounds_at ha (k : Int) (by omega) (by omega)
  by_cases hr : readAt a.rowIndices (k : Int) = r
  · rw [if_pos hr, Finset.sum_eq_single (readAt a.colIndices (k : Int))]
    · rw [if_pos (by rw [← hr]; rfl)]
    · intro x _ hx
      rw [if_neg, zero_mul]
      intro h
      simp only [keyAt, Prod.mk.injEq] at h
      exact hx h.2.symm
    · intro h
      exact absurd (Finset.mem_Ico.2 ⟨b3, b4⟩) h
  · rw [if_neg hr, Finset.sum_eq_zero]
    intro x _
    rw [if_neg, zero_mul]
    intro h
    simp only [keyAt, Prod.mk.injEq] at h
    exact hr h.1

/-- Specification of `multiply` on well-formed matrices with matching inner dimension. -/
theorem multiply_spec [Semiring V] [DecidableEq V] (a b : SparseMatrixArray V) (ha : WF a)
    (hb : WF b) (hd : a.cols = b.rows) :
    ∃ t, multiply a b = .ok t ∧ WF t ∧ t.rows = a.rows ∧ t.cols = b.cols ∧
      ∀ r c, cell t r c = ∑ x ∈ Finset.Ico (0 : Int) a.cols, cell a r x * cell b x c := by
  have h0 := ha.alloc.size_nonneg
  obtain ⟨t, hrun, hw, f1, f2, hinv⟩ := forUpE_inv a.size
    (fun i result =>
      forUpE b.size
        (fun j result =>
          if readAt a.colIndices i = readAt b.rowIndices j then
            let product := readAt a.values i * readAt b.values j
            match get result (readAt a.rowIndices i) (readAt b.colIndices j) with
            | .error e => .error e
            | .ok existingValue =>
              insert result (readAt a.rowIndices i) (readAt b.colIndices j)
                (existingValue + product)
          else .ok result)
        b.size.toNat 0 result)
    (fun i u => WF u ∧ u.rows = a.rows ∧ u.cols = b.cols ∧
      ∀ r c, cell u r c = ∑ k ∈ Finset.range i.toNat,
        (if readAt a.rowIndices (k : Int) = r then
          readAt a.values (k : Int) * cell b (readAt a.colIndices (k : Int)) c else 0))
    a.size.toNat 0 (new a.rows b.cols) h0 (by omega)
    (by
      refine ⟨new_wf _ _, rfl, rfl, ?_⟩
      intro r c
      rw [show (0 : Int).toNat = 0 from rfl, Finset.range_zero, Finset.sum_empty]
      apply cell_absent (new_wf _ _).sorted
      intro i hi0 hi
      simp only [new] at hi
      omega)
    (by
      rintro i u hi0 hi1 ⟨hw, f1, f2, hinv⟩
      obtain ⟨b1, b2, b3, b4⟩ := inBounds_at ha i hi0 hi1
      obtain ⟨u', hrun, hw', g1, g2, hcell⟩ := multiply_inner_spec b u hb hw f2
        (readAt a.rowIndices i) (readAt a.colIndices i) (readAt a.values i) b1 (by omega)
      refine ⟨u', hrun, hw', by rw [g1, f1], by rw [g2, f2], ?_⟩
      intro r c
      have hsucc : (i + 1).toNat = i.toNat + 1 := by omega
      have hcast : ((i.toNat : Nat) : Int) = i := by omega
      rw [hcell r c, hinv r c, hsucc, Finset.sum_range_succ, hcast]
      congr 1
      by_cases hr : r = readAt a.rowIndices i
      · rw [if_pos hr, if_pos hr.symm]
      · rw [if_neg hr, if_neg (fun h => hr h.symm)])
  refine ⟨t, ?_, hw, f1, f2, ?_⟩
  · unfold multiply
    rw [if_neg (fun h => h hd)]
    exact hrun
  intro r c
  rw [hinv r c]
  exact dot_eq_sum a ha r (fun x => cell b x c)

/-! ### Reachable states and call sequences -/

/-- Sortedness by index is sortedness of the list of stored triples. -/
theorem SortedKeys.pairwise [Zero V] {s : SparseMatrixArray V} (hs : SortedKeys s) :
    (entries s).Pairwise (fun a b => keyLess (a.1, a.2.1) (b.1, b.2.1)) := by
  rw [List.pairwise_iff_getElem]
  intro i j hi hj hij
  rw [entries_length] at hi hj
  have e1 : (entries s)[i]? = some (tripleAt s i) := by
    rw [entries_getElem?, if_pos (by omega)]
  have e2 : (entries s)[j]? = some (tripleAt s j) := by
    rw [entries_getElem?, if_pos (by omega)]
  rw [List.getElem?_eq_getElem (by rw [entries_length]; exact hi)] at e1
  rw [List.getElem?_eq_getElem (by rw [entries_length]; exact hj)] at e2
  rw [Option.some.inj e1, Option.some.inj e2]
  exact hs i j (by omega) (by omega) (by omega)

/-- Canonical form: two sorted states with the same set of stored triples store the
same sequence of triples. -/
theorem entries_eq_of_mem_iff [Zero V] {s t : SparseMatrixArray V} (hs : SortedKeys s)
    (ht : SortedKeys t) (h : ∀ e, e ∈ entries s ↔ e ∈ entries t) :
    entries s = entries t := by
  have ps := hs.pairwise
  have pt := ht.pairwise
  have hne : ∀ a b : Int × Int × V, keyLess (a.1, a.2.1) (b.1, b.2.1) → a ≠ b := by
    intro a b hab heq
    subst heq
    exact keyLess_irrefl _ hab
  have ns : (entries s).Nodup := ps.imp (fun {a b} hab => hne a b hab)
  have nt : (entries t).Nodup := pt.imp (fun {a b} hab => hne a b hab)
  have hperm : (entries s).Perm (entries t) := (List.perm_ext_iff_of_nodup ns nt).2 h
  haveI : IsAntisymm (Int × Int × V) (fun a b => keyLess (a.1, a.2.1) (b.1, b.2.1)) :=
    ⟨fun a b h1 h2 => absurd (keyLess_trans h1 h2) (keyLess_irrefl _)⟩
  exact List.eq_of_perm_of_sorted hperm ps pt

/-- Every reachable state satisfies the representation invariant. -/
theorem Reachable.wf [Semiring V] [DecidableEq V] {s : SparseMatrixArray V}
    (h : Reachable s) : WF s := by
  induction h with
  | new r c => exact new_wf r c
  | @insert s t r c v _ hins ih =>
    by_cases hb : r < 0 ∨ r ≥ s.rows ∨ c < 0 ∨ c ≥ s.cols
    · unfold SparseMatrixArray.insert at hins
      rw [if_pos hb] at hins
      cases hins
    · obtain ⟨t', hins', hw', _⟩ := cell_insert s ih r c v (by omega) (by omega) (by omega)
        (by omega)
      rw [hins] at hins'
      cases hins'
      exact hw'
  | remove r c _ ih => exact (remove_spec _ ih r c).1
  | clear _ ih => exact clear_wf ih
  | @add a b t _ _ hadd iha ihb =>
    by_cases hd : a.rows ≠ b.rows ∨ a.cols ≠ b.cols
    · unfold SparseMatrixArray.add at hadd
      rw [if_pos hd] at hadd
      cases hadd
    · obtain ⟨t', hadd', hw', _⟩ := add_spec a b iha ihb (by omega) (by omega)
      rw [hadd] at hadd'
      cases hadd'
      exact hw'
  | @multiply a b t _ _ hmul iha ihb =>
    by_cases hd : a.cols ≠ b.rows
    · unfold SparseMatrixArray.multiply at hmul
      rw [if_pos hd] at hmul
      cases hmul
    · obtain ⟨t', hmul', hw', _⟩ := multiply_spec a b iha ihb (by omega)
      rw [hmul] at hmul'
      cases hmul'
      exact hw'
  | @transpose s t _ htr ih =>
    obtain ⟨t', htr', hw', _⟩ := transpose_spec s ih
    rw [htr] at htr'
    cases htr'
    exact hw'

/-- Effect of one call on the invariant, the shape and the cells it does not target. -/
theorem applyOp_spec [Zero V] [DecidableEq V] (s : SparseMatrixArray V) (hw : WF s)
    (op : Op V) :
    WF (applyOp s op) ∧ (applyOp s op).rows = s.rows ∧ (applyOp s op).cols = s.cols ∧
    ∀ r c, ¬ op.targets r c → cell s r c = 0 → cell (applyOp s op) r c = 0 := by
  have hins : ∀ r c v, WF (match insert s r c v with | .ok t => t | .error _ => s) ∧
      (match insert s r c v with | .ok t => t | .error _ => s).rows = s.rows ∧
      (match insert s r c v with | .ok t => t | .error _ => s).cols = s.cols ∧
      ∀ r' c', ¬ (r = r' ∧ c = c') → cell s r' c' = 0 →
        cell (match insert s r c v with | .ok t => t | .error _ => s) r' c' = 0 := by
    intro r c v
    by_cases hb : r < 0 ∨ r ≥ s.rows ∨ c < 0 ∨ c ≥ s.cols
    · have : insert s r c v = .error .outOfRange := by
        unfold SparseMatrixArray.insert
        rw [if_pos hb]
      simp only [this]
      exact ⟨hw, trivial, trivial, fun _ _ _ h => h⟩
    · obtain ⟨t, hins, hw', e1, e2, hcell, _⟩ := cell_insert s hw r c v (by omega) (by omega)
        (by omega) (by omega)
      simp only [hins]
      refine ⟨hw', e1, e2, ?_⟩
      intro r' c' hne h0
      rw [hcell r' c', if_neg (fun h => hne ⟨h.1.symm, h.2.symm⟩)]
      exact h0
  cases op with
  | set r c v => exact hins r c v
  | insert r c v => exact hins r c v
  | remove r c =>
    obtain ⟨hw', e1, e2, _, _, _⟩ := (by classical exact remove_spec s hw r c)
    refine ⟨hw', e1, e2, ?_⟩
    intro r' c' hne h0
    show cell (remove s r c) r' c' = 0
    rw [cell_remove s hw r c r' c']
    split
    · rfl
    · exact h0
  | clear =>
    refine ⟨clear_wf hw, rfl, rfl, ?_⟩
    intro r' c' _ _
    apply cell_absent (clear_wf hw).sorted
    intro i hi0 hi
    simp only [SparseMatrixArray.clear] at hi
    omega

theorem runOps_spec [Zero V] [DecidableEq V] (ops : List (Op V)) :
    ∀ (s : SparseMatrixArray V), WF s →
    WF (runOps s ops) ∧ (runOps s ops).rows = s.rows ∧ (runOps s ops).cols = s.cols ∧
    ∀ r c, (∀ op ∈ ops, ¬ op.targets r c) → cell s r c = 0 → cell (runOps s ops) r c = 0 := by
  induction ops with
  | nil =>
    intro s hw
    exact ⟨hw, rfl, rfl, fun _ _ _ h => h⟩
  | cons op ops ih =>
    intro s hw
    obtain ⟨hw1, e1, e2, h1⟩ := applyOp_spec s hw op
    obtain ⟨hw2, f1, f2, h2⟩ := ih (applyOp s op) hw1
    refine ⟨hw2, by rw [← e1, ← f1]; rfl, by rw [← e2, ← f2]; rfl, ?_⟩
    intro r c hno h0
    exact h2 r c (fun o ho => hno o (List.mem_cons_of_mem _ ho))
      (h1 r c (hno op (List.mem_cons_self _ _)) h0)

theorem Reachable.applyOp [Semiring V] [DecidableEq V] {s : SparseMatrixArray V}
    (h : Reachable s) (op : Op V) : Reachable (applyOp s op) := by
  have hins : ∀ r c v, Reachable
      (match SparseMatrixArray.insert s r c v with | .ok t => t | .error _ => s) := by
    intro r c v
    cases hi : SparseMatrixArray.insert s r c v with
    | error e => exact h
    | ok t => exact Reachable.insert r c v h hi
  cases op with
  | set r c v => exact hins r c v
  | insert r c v => exact hins r c v
  | remove r c => exact Reachable.remove r c h
  | clear => exact Reachable.clear h

/-- Every state produced by a sequence of calls on a reachable state is reachable. -/
theorem Reachable.runOps [Semiring V] [DecidableEq V] (ops : List (Op V)) :
    ∀ {s : SparseMatrixArray V}, Reachable s → Reachable (runOps s ops) := by
  induction ops with
  | nil => exact fun h => h
  | cons op ops ih => exact fun h => ih (h.applyOp op)

/-! ### Contract: invariants, round trip, `add`, `multiply`, `transpose` -/

theorem Reachable.setAll [Semiring V] [DecidableEq V] (calls : List (Int × Int × V)) :
    ∀ {s : SparseMatrixArray V}, Reachable s → Reachable (setAll s calls) := by
  induction calls with
  | nil => exact fun h => h
  | cons x calls ih => exact fun h => ih (h.applyOp (.set x.1 x.2.1 x.2.2))

/-- C1: in every reachable state the stored keys are strictly increasing. -/
theorem sorted_dedup_invariant [Semiring V] [DecidableEq V] (s : SparseMatrixArray V)
    (h : Reachable s) :
    (∀ i j : Int, 0 ≤ i → i < j → j < s.size →
      readAt s.rowIndices i < readAt s.rowIndices j ∨
      (readAt s.rowIndices i = readAt s.rowIndices j ∧
        readAt s.colIndices i < readAt s.colIndices j)) ∧
    (∀ i j : Int, 0 ≤ i → i < s.size → 0 ≤ j → j < s.size → i ≠ j →
      ¬ (readAt s.rowIndices i = readAt s.rowIndices j ∧
        readAt s.colIndices i = readAt s.colIndices j)) := by
  have hs := h.wf.sorted
  refine ⟨fun i j hi hij hj => hs i j hi hij hj, ?_⟩
  intro i j hi0 hi hj0 hj hne heq
  apply hne
  apply hs.index_unique hi0 hi hj0 hj
  simp only [keyAt, heq.1, heq.2]

theorem sorted_dedup_invariant_witness :
    Reachable exampleM ∧
    (∀ i j : Int, 0 ≤ i → i < j → j < exampleM.size →
      readAt exampleM.rowIndices i < readAt exampleM.rowIndices j ∨
      (readAt exampleM.rowIndices i = readAt exampleM.rowIndices j ∧
        readAt exampleM.colIndices i < readAt exampleM.colIndices j)) ∧
    (∀ i j : Int, 0 ≤ i → i < exampleM.size → 0 ≤ j → j < exampleM.size → i ≠ j →
      ¬ (readAt exampleM.rowIndices i = readAt exampleM.rowIndices j ∧
        readAt exampleM.colIndices i = readAt exampleM.colIndices j)) :=
  ⟨Reachable.setAll _ (Reachable.new 3 3),
    sorted_dedup_invariant exampleM (Reachable.setAll _ (Reachable.new 3 3))⟩

/-- C2: in every reachable state, `get(r,c)` after `set(r,c,v)` with `v ≠ 0` at an
in-bounds position returns exactly `v`. -/
theorem set_get_roundtrip [Semiring V] [DecidableEq V] (s : SparseMatrixArray V)
    (h : Reachable s) (r c : Int) (v : V) (hr0 : 0 ≤ r) (hr : r < s.rows) (hc0 : 0 ≤ c)
    (hc : c < s.cols) (_hv : v ≠ 0) :
    ∃ t, set s r c v = .ok t ∧ get t r c = .ok v := by
  obtain ⟨t, hins, _, e1, e2, hcell, _⟩ := cell_insert s h.wf r c v hr0 hr hc0 hc
  refine ⟨t, hins, ?_⟩
  rw [get_eq_cell t r c hr0 (by omega) hc0 (by omega), hcell r c, if_pos ⟨rfl, rfl⟩]

theorem set_get_roundtrip_witness :
    Reachable exampleFull ∧ exampleFull.size = exampleFull.capacity ∧
    (0 : Int) ≤ 3 ∧ 3 < exampleFull.rows ∧ (0 : Int) ≤ 3 ∧ 3 < exampleFull.cols ∧
    (7 : ℤ) ≠ 0 ∧ ∃ t, set exampleFull 3 3 7 = .ok t ∧ get t 3 3 = .ok 7 :=
  ⟨Reachable.setAll _ (Reachable.new 4 4), by decide, by decide, by decide, by decide,
    by decide, by decide,
    set_get_roundtrip exampleFull (Reachable.setAll _ (Reachable.new 4 4)) 3 3 7
      (by decide) (by decide) (by decide) (by decide) (by decide)⟩

/-- C3: `add` on reachable matrices of equal shape returns a matrix of the same shape
whose `get` is the sum of the operands' `get` at every in-bounds position; a position
whose sum is zero is not stored. -/
theorem add_elementwise [Semiring V] [DecidableEq V] (a b : SparseMatrixArray V)
    (ha : Reachable a) (hb : Reachable b) (hr : a.rows = b.rows) (hc : a.cols = b.cols) :
    ∃ t, add a b = .ok t ∧ t.rows = a.rows ∧ t.cols = a.cols ∧
      (∀ r c, 0 ≤ r → r < a.rows → 0 ≤ c → c < a.cols →
        ∃ x y, get a r c = .ok x ∧ get b r c = .ok y ∧ get t r c = .ok (x + y)) ∧
      (∀ r c, 0 ≤ r → r < a.rows → 0 ≤ c → c < a.cols → get t r c = .ok 0 →
        ∀ i, 0 ≤ i → i < t.size →
          ¬ (readAt t.rowIndices i = r ∧ readAt t.colIndices i = c)) := by
  obtain ⟨t, hadd, hw, e1, e2, hcell⟩ := add_spec a b ha.wf hb.wf hr hc
  refine ⟨t, hadd, e1, e2, ?_, ?_⟩
  · intro r c h1 h2 h3 h4
    refine ⟨cell a r c, cell b r c, get_eq_cell a r c h1 h2 h3 h4,
      get_eq_cell b r c h1 (by omega) h3 (by omega), ?_⟩
    rw [get_eq_cell t r c h1 (by omega) h3 (by omega), hcell r c]
  · intro r c h1 h2 h3 h4 hget i hi0 hi hk
    rw [get_eq_cell t r c h1 (by omega) h3 (by omega)] at hget
    have h0 : cell t r c = 0 := Except.ok.inj hget
    have hne := (cell_ne_zero_iff hw.sorted hw.nonzero r c).2
      ⟨i, hi0, hi, by simp only [keyAt, hk.1, hk.2]⟩
    exact hne h0

theorem add_elementwise_witness :
    Reachable exampleM ∧ Reachable exampleN ∧ exampleM.rows = exampleN.rows ∧
    exampleM.cols = exampleN.cols ∧
    (∃ t, add exampleM exampleN = .ok t ∧ t.rows = exampleM.rows ∧ t.cols = exampleM.cols ∧
      (∀ r c, 0 ≤ r → r < exampleM.rows → 0 ≤ c → c < exampleM.cols →
        ∃ x y, get exampleM r c = .ok x ∧ get exampleN r c = .ok y ∧
          get t r c = .ok (x + y)) ∧
      (∀ r c, 0 ≤ r → r < exampleM.rows → 0 ≤ c → c < exampleM.cols → get t r c = .ok 0 →
        ∀ i, 0 ≤ i → i < t.size →
          ¬ (readAt t.rowIndices i = r ∧ readAt t.colIndices i = c))) ∧
    (∃ t, add exampleM exampleN = .ok t ∧ get t 0 0 = .ok 2 ∧ get t 0 1 = .ok 0 ∧
      get t 0 2 = .ok 2 ∧ get t 1 0 = .ok 0 ∧ get t 1 1 = .ok 3 ∧ get t 1 2 = .ok 0 ∧
      get t 2 0 = .ok 4 ∧ get t 2 1 = .ok 0 ∧ get t 2 2 = .ok 5) :=
  ⟨Reachable.setAll _ (Reachable.new 3 3), Reachable.setAll _ (Reachable.new 3 3),
    by decide, by decide,
    add_elementwise exampleM exampleN (Reachable.setAll _ (Reachable.new 3 3))
      (Reachable.setAll _ (Reachable.new 3 3)) (by decide) (by decide),
    ⟨_, rfl, rfl, rfl, rfl, rfl, rfl, rfl, rfl, rfl, rfl⟩⟩

/-- C4: `multiply` on reachable matrices with `A.cols = B.rows` returns a matrix of
shape `(A.rows, B.cols)` whose `get(r,c)` is the sum over `k` in `[0, A.cols)` of
`A.get(r,k) * B.get(k,c)`. -/
theorem multiply_is_product [Semiring V] [DecidableEq V] (a b : SparseMatrixArray V)
    (ha : Reachable a) (hb : Reachable b) (hd : a.cols = b.rows) :
    ∃ t, multiply a b = .ok t ∧ t.rows = a.rows ∧ t.cols = b.cols ∧
      ∀ r c, 0 ≤ r → r < a.rows → 0 ≤ c → c < b.cols →
        ∃ f g : Int → V,
          (∀ k, 0 ≤ k → k < a.cols → get a r k = .ok (f k) ∧ get b k c = .ok (g k)) ∧
          get t r c = .ok (∑ k ∈ Finset.Ico (0 : Int) a.cols, f k * g k) := by
  obtain ⟨t, hmul, hw, e1, e2, hcell⟩ := multiply_spec a b ha.wf hb.wf hd
  refine ⟨t, hmul, e1, e2, ?_⟩
  intro r c h1 h2 h3 h4
  refine ⟨fun k => cell a r k, fun k => cell b k c, ?_, ?_⟩
  · intro k hk0 hk1
    exact ⟨get_eq_cell a r k h1 h2 hk0 hk1, get_eq_cell b k c hk0 (by omega) h3 h4⟩
  · rw [get_eq_cell t r c h1 (by omega) h3 (by omega), hcell r c]

theorem multiply_is_product_witness :
    Reachable exampleRow ∧ Reachable exampleCol ∧ exampleRow.cols = exampleCol.rows ∧
    (∃ t, multiply exampleRow exampleCol = .ok t ∧ t.rows = exampleRow.rows ∧
      t.cols = exampleCol.cols ∧
      ∀ r c, 0 ≤ r → r < exampleRow.rows → 0 ≤ c → c < exampleCol.cols →
        ∃ f g : Int → ℤ,
          (∀ k, 0 ≤ k → k < exampleRow.cols →
            get exampleRow r k = .ok (f k) ∧ get exampleCol k c = .ok (g k)) ∧
          get t r c = .ok (∑ k ∈ Finset.Ico (0 : Int) exampleRow.cols, f k * g k)) ∧
    (∃ t, multiply exampleRow exampleCol = .ok t ∧ get t 0 0 = .ok 5) :=
  ⟨Reachable.setAll _ (Reachable.new 1 3), Reachable.setAll _ (Reachable.new 3 1), by decide,
    multiply_is_product exampleRow exampleCol (Reachable.setAll _ (Reachable.new 1 3))
      (Reachable.setAll _ (Reachable.new 3 1)) (by decide),
    ⟨_, rfl, rfl⟩⟩

/-- C5: `transpose` of a reachable matrix of shape `(rows, cols)` returns a matrix of
shape `(cols, rows)` with the same number of stored entries and
`transpose.get(c,r) = get(r,c)` at every in-bounds `(r,c)`. -/
theorem transpose_swaps [Semiring V] [DecidableEq V] (s : SparseMatrixArray V)
    (h : Reachable s) :
    ∃ t, transpose s = .ok t ∧ t.rows = s.cols ∧ t.cols = s.rows ∧
      getNonZeroCount t = getNonZeroCount s ∧
      ∀ r c, 0 ≤ r → r < s.rows → 0 ≤ c → c < s.cols →
        ∃ x, get s r c = .ok x ∧ get t c r = .ok x := by
  obtain ⟨t, htr, hw, e1, e2, e3, hmem⟩ := transpose_spec s h.wf
  refine ⟨t, htr, e1, e2, e3, ?_⟩
  intro r c h1 h2 h3 h4
  refine ⟨cell s r c, get_eq_cell s r c h1 h2 h3 h4, ?_⟩
  rw [get_eq_cell t c r h3 (by omega) h1 (by omega)]
  congr 1
  by_cases hex : ∃ w, (r, c, w) ∈ entries s
  · obtain ⟨w, hw2⟩ := hex
    rw [cell_of_mem h.wf.sorted hw2, cell_of_mem hw.sorted ((hmem r c w).2 hw2)]
  · rw [cell_of_not_mem h.wf.sorted (fun w hw2 => hex ⟨w, hw2⟩),
      cell_of_not_mem hw.sorted (fun w hw2 => hex ⟨w, (hmem r c w).1 hw2⟩)]

theorem transpose_swaps_witness :
    Reachable exampleM ∧
    (∃ t, transpose exampleM = .ok t ∧ t.rows = exampleM.cols ∧ t.cols = exampleM.rows ∧
      getNonZeroCount t = getNonZeroCount exampleM ∧
      ∀ r c, 0 ≤ r → r < exampleM.rows → 0 ≤ c → c < exampleM.cols →
        ∃ x, get exampleM r c = .ok x ∧ get t c r = .ok x) ∧
    (∃ t, transpose exampleM = .ok t ∧ get t 2 0 = .ok 2 ∧ get t 0 2 = .ok 4) :=
  ⟨Reachable.setAll _ (Reachable.new 3 3),
    transpose_swaps exampleM (Reachable.setAll _ (Reachable.new 3 3)),
    ⟨_, rfl, rfl, rfl⟩⟩

/-- C6: transposing a reachable matrix twice gives back its shape and its sequence of
stored triples. -/
theorem transpose_involution [Semiring V] [DecidableEq V] (s : SparseMatrixArray V)
    (h : Reachable s) :
    ∃ t u, transpose s = .ok t ∧ transpose t = .ok u ∧ u.rows = s.rows ∧ u.cols = s.cols ∧
      u.size = s.size ∧ entries u = entries s := by
  obtain ⟨t, htr, hw, e1, e2, e3, hmem⟩ := transpose_spec s h.wf
  obtain ⟨u, htr2, hw2, f1, f2, f3, hmem2⟩ := transpose_spec t hw
  refine ⟨t, u, htr, htr2, by rw [f1, e2], by rw [f2, e1], by rw [f3, e3], ?_⟩
  apply entries_eq_of_mem_iff hw2.sorted h.wf.sorted
  rintro ⟨r, c, v⟩
  rw [hmem2 c r v, hmem r c v]

theorem transpose_involution_witness :
    Reachable exampleM ∧
    ∃ t u, transpose exampleM = .ok t ∧ transpose t = .ok u ∧ u.rows = exampleM.rows ∧
      u.cols = exampleM.cols ∧ u.size = exampleM.size ∧ entries u = entries exampleM :=
  ⟨Reachable.setAll _ (Reachable.new 3 3),
    transpose_involution exampleM (Reachable.setAll _ (Reachable.new 3 3))⟩

/-! ### Contract: stored-entry count -/

theorem lastValue_nil [Zero V] (p : Int × Int) : lastValue ([] : List (Int × Int × V)) p = 0 :=
  rfl

theorem lastValue_concat [Zero V] (l : List (Int × Int × V)) (x : Int × Int × V)
    (p : Int × Int) :
    lastValue (l ++ [x]) p = if (x.1, x.2.1) = p then x.2.2 else lastValue l p := by
  unfold lastValue
  rw [List.reverse_append, List.reverse_singleton, List.singleton_append, List.find?_cons]
  by_cases h : (x.1, x.2.1) = p
  · simp [h]
  · simp [h]

theorem lastValue_ne_zero_mem [Zero V] (l : List (Int × Int × V)) (p : Int × Int)
    (h : lastValue l p ≠ 0) : p ∈ l.map (fun x => (x.1, x.2.1)) := by
  unfold lastValue at h
  cases hf : l.reverse.find? (fun x => decide ((x.1, x.2.1) = p)) with
  | none => rw [hf] at h; exact absurd rfl h
  | some x =>
    have hmem := List.mem_of_find?_eq_some hf
    have hp := List.find?_some hf
    rw [List.mem_reverse] at hmem
    rw [List.mem_map]
    exact ⟨x, hmem, of_decide_eq_true hp⟩

theorem setAll_concat [Zero V] [DecidableEq V] (s : SparseMatrixArray V)
    (l : List (Int × Int × V)) (x : Int × Int × V) :
    setAll s (l ++ [x]) = applyOp (setAll s l) (.set x.1 x.2.1 x.2.2) := by
  unfold setAll
  rw [List.foldl_append]
  rfl

/-- After a sequence of in-bounds `set` calls on a new matrix every cell holds the value
of the most recent call that targets it. -/
theorem setAll_spec [Zero V] [DecidableEq V] (rows cols : Int) (calls : List (Int × Int × V))
    (hin : ∀ x ∈ calls, 0 ≤ x.1 ∧ x.1 < rows ∧ 0 ≤ x.2.1 ∧ x.2.1 < cols) :
    WF (setAll (new rows cols) calls) ∧ (setAll (new rows cols) calls).rows = rows ∧
    (setAll (new rows cols) calls).cols = cols ∧
    ∀ r c, cell (setAll (new rows cols) calls) r c = lastValue calls (r, c) := by
  induction calls using List.reverseRecOn with
  | nil =>
    refine ⟨new_wf rows cols, rfl, rfl, ?_⟩
    intro r c
    rw [lastValue_nil]
    apply cell_absent (new_wf rows cols).sorted
    intro i hi0 hi
    simp only [setAll, List.foldl_nil, new] at hi
    omega
  | append_singleton l x ih =>
    obtain ⟨hw, e1, e2, hcell⟩ := ih (fun y hy => hin y (List.mem_append_left _ hy))
    obtain ⟨b1, b2, b3, b4⟩ := hin x (List.mem_append_right _ (List.mem_singleton_self x))
    obtain ⟨t, hins, hw', f1, f2, hcell', _⟩ := cell_insert _ hw x.1 x.2.1 x.2.2 b1
      (by rw [e1]; exact b2) b3 (by rw [e2]; exact b4)
    have hstep : setAll (new rows cols) (l ++ [x]) = t := by
      rw [setAll_concat]
      simp only [applyOp, set, hins]
    rw [hstep]
    refine ⟨hw', by rw [f1, e1], by rw [f2, e2], ?_⟩
    intro r c
    rw [hcell' r c, lastValue_concat, hcell r c]
    by_cases h : r = x.1 ∧ c = x.2.1
    · rw [if_pos h, if_pos (by rw [h.1, h.2])]
    · rw [if_neg h, if_neg]
      intro h2
      simp only [Prod.mk.injEq] at h2
      exact h ⟨h2.1.symm, h2.2.symm⟩

/-- Under the invariant `size` counts the positions whose cell is non-zero. -/
theorem size_eq_card [Zero V] [DecidableEq V] (s : SparseMatrixArray V) (hw : WF s)
    (K : Finset (Int × Int)) (hK : ∀ p, p ∈ K ↔ cell s p.1 p.2 ≠ 0) :
    s.size = (K.card : Int) := by
  have hnd : ((entries s).map (fun e => (e.1, e.2.1))).Nodup := by
    have hp : List.Pairwise (fun a b : Int × Int => a ≠ b)
        ((entries s).map (fun e => (e.1, e.2.1))) :=
      List.Pairwise.map (fun e : Int × Int × V => (e.1, e.2.1))
        (fun a b hab heq => by
          have heq2 : (a.1, a.2.1) = (b.1, b.2.1) := heq
          rw [heq2] at hab
          exact keyLess_irrefl _ hab) hw.sorted.pairwise
    exact hp
  have hfin : ((entries s).map (fun e => (e.1, e.2.1))).toFinset = K := by
    ext p
    rw [List.mem_toFinset, List.mem_map, hK p, cell_ne_zero_iff hw.sorted hw.nonzero]
    constructor
    · rintro ⟨e, he, hp⟩
      obtain ⟨k, hk0, hk1, hke⟩ := (mem_entries s e).1 he
      exact ⟨k, hk0, hk1, by rw [← key_of_tripleAt hke, hp]⟩
    · rintro ⟨k, hk0, hk1, hk⟩
      exact ⟨tripleAt s k, (mem_entries s _).2 ⟨k, hk0, hk1, rfl⟩, hk⟩
  rw [← hfin, List.toFinset_card_of_nodup hnd, List.length_map, entries_length]
  have := hw.alloc.size_nonneg
  omega

/-- C7: after a sequence of in-bounds `set` calls on a newly constructed matrix,
`getNonZeroCount()` is the number of distinct positions whose most recent `set` in the
sequence had a non-zero value. -/
theorem count_after_sets [Semiring V] [DecidableEq V] (rows cols : Int)
    (calls : List (Int × Int × V))
    (hin : ∀ x ∈ calls, 0 ≤ x.1 ∧ x.1 < rows ∧ 0 ≤ x.2.1 ∧ x.2.1 < cols) :
    getNonZeroCount (setAll (new rows cols) calls) = (liveCount calls : Int) := by
  obtain ⟨hw, _, _, hcell⟩ := setAll_spec rows cols calls hin
  unfold getNonZeroCount liveCount
  apply size_eq_card _ hw
  intro p
  rw [Finset.mem_filter, List.mem_toFinset, hcell p.1 p.2]
  constructor
  · exact fun h => h.2
  · exact fun h => ⟨lastValue_ne_zero_mem calls p h, h⟩

theorem count_after_sets_witness :
    (∀ x ∈ [((0 : Int), (0 : Int), (1 : ℤ)), (0, 2, 2), (1, 1, 3), (2, 0, 4), (2, 2, 5)],
      0 ≤ x.1 ∧ x.1 < 3 ∧ 0 ≤ x.2.1 ∧ x.2.1 < 3) ∧
    getNonZeroCount (setAll (new 3 3) [(0, 0, (1 : ℤ)), (0, 2, 2), (1, 1, 3), (2, 0, 4),
      (2, 2, 5)])
      = (liveCount [((0 : Int), (0 : Int), (1 : ℤ)), (0, 2, 2), (1, 1, 3), (2, 0, 4),
        (2, 2, 5)] : Int) ∧
    getNonZeroCount exampleM = 5 ∧ get exampleM 1 0 = .ok 0 ∧ get exampleM 2 2 = .ok 5 :=
  ⟨by decide, count_after_sets 3 3 _ (by decide), by decide, rfl, rfl⟩

/-! ### Contract: zero values, idempotence, default value -/

/-- C8 as stated fails: on a matrix that already stores `(0,0)`, `set(0,0,2)` followed by
`set(0,0,0)` leaves one entry fewer than before the first call. -/
theorem zero_set_count_counterexample :
    Reachable exampleN ∧ (0 : Int) ≤ 0 ∧ 0 < exampleN.rows ∧ 0 < exampleN.cols ∧ (2 : ℤ) ≠ 0 ∧
    ∃ t u, set exampleN 0 0 2 = .ok t ∧ set t 0 0 0 = .ok u ∧
      getNonZeroCount exampleN = 1 ∧ getNonZeroCount u = 0 ∧
      getNonZeroCount u ≠ getNonZeroCount exampleN :=
  ⟨Reachable.setAll _ (Reachable.new 3 3), by decide, by decide, by decide, by decide,
    _, _, rfl, rfl, by decide, by decide, by decide⟩

/-- C8 (amended): in every reachable state, for in-bounds `(r,c)` and `v ≠ 0`, after
`set(r,c,v)` followed by `set(r,c,0)`, `get(r,c)` returns `0`, and `getNonZeroCount()` is
what it was before the first call when `get(r,c)` returned `0` then, and one less
otherwise. -/
theorem zero_set_removes [Semiring V] [DecidableEq V] (s : SparseMatrixArray V)
    (h : Reachable s) (r c : Int) (v : V) (hr0 : 0 ≤ r) (hr : r < s.rows) (hc0 : 0 ≤ c)
    (hc : c < s.cols) (hv : v ≠ 0) :
    ∃ t u, set s r c v = .ok t ∧ set t r c 0 = .ok u ∧ get u r c = .ok 0 ∧
      (get s r c = .ok 0 → getNonZeroCount u = getNonZeroCount s) ∧
      (get s r c ≠ .ok 0 → getNonZeroCount u = getNonZeroCount s - 1) := by
  obtain ⟨t, hins, hw, e1, e2, hcell, hsz⟩ := cell_insert s h.wf r c v hr0 hr hc0 hc
  obtain ⟨u, hins2, hw2, f1, f2, hcell2, hsz2⟩ := cell_insert t hw r c 0 hr0 (by omega) hc0
    (by omega)
  have ht : cell t r c = v := by rw [hcell r c, if_pos ⟨rfl, rfl⟩]
  refine ⟨t, u, hins, hins2, ?_, ?_, ?_⟩
  · rw [get_eq_cell u r c hr0 (by omega) hc0 (by omega), hcell2 r c, if_pos ⟨rfl, rfl⟩]
  · intro hget
    rw [get_eq_cell s r c hr0 hr hc0 hc] at hget
    have h0 : cell s r c = 0 := Except.ok.inj hget
    simp only [getNonZeroCount, hsz2, hsz, ht, h0, hv, if_true, if_false]
    omega
  · intro hget
    rw [get_eq_cell s r c hr0 hr hc0 hc] at hget
    have h0 : cell s r c ≠ 0 := fun h => hget (by rw [h])
    simp only [getNonZeroCount, hsz2, hsz, ht, h0, hv, if_true, if_false]
    omega

theorem zero_set_removes_witness :
    Reachable exampleM ∧ (0 : Int) ≤ 1 ∧ 1 < exampleM.rows ∧ (0 : Int) ≤ 0 ∧
    0 < exampleM.cols ∧ (7 : ℤ) ≠ 0 ∧
    ∃ t u, set exampleM 1 0 7 = .ok t ∧ set t 1 0 0 = .ok u ∧ get u 1 0 = .ok 0 ∧
      (get exampleM 1 0 = .ok 0 → getNonZeroCount u = getNonZeroCount exampleM) ∧
      (get exampleM 1 0 ≠ .ok 0 → getNonZeroCount u = getNonZeroCount exampleM - 1) :=
  ⟨Reachable.setAll _ (Reachable.new 3 3), by decide, by decide, by decide, by decide,
    by decide,
    zero_set_removes exampleM (Reachable.setAll _ (Reachable.new 3 3)) 1 0 7
      (by decide) (by decide) (by decide) (by decide) (by decide)⟩

/-- C9: in every reachable state, for in-bounds `(r,c)` and any value `v`, a second
`set(r,c,v)` leaves rows, cols, size, capacity and the stored triples as the first
left them. -/
theorem set_idempotent [Semiring V] [DecidableEq V] (s : SparseMatrixArray V)
    (h : Reachable s) (r c : Int) (v : V) (hr0 : 0 ≤ r) (hr : r < s.rows) (hc0 : 0 ≤ c)
    (hc : c < s.cols) :
    ∃ t u, set s r c v = .ok t ∧ set t r c v = .ok u ∧ u.rows = t.rows ∧ u.cols = t.cols ∧
      u.size = t.size ∧ u.capacity = t.capacity ∧ entries u = entries t := by
  obtain ⟨t, hins, hw, e1, e2, hcell, _⟩ := cell_insert s h.wf r c v hr0 hr hc0 hc
  have ht : cell t r c = v := by rw [hcell r c, if_pos ⟨rfl, rfl⟩]
  by_cases hv : v = 0
  · subst hv
    obtain ⟨_, f1, f2, f3, hmem, hsz⟩ := remove_spec t hw r c
    have habs : findElementIndex t r c = -1 := by
      apply findElementIndex_absent hw.sorted
      intro i hi0 hi hk
      exact (cell_ne_zero_iff hw.sorted hw.nonzero r c).2 ⟨i, hi0, hi, hk⟩ ht
    refine ⟨t, remove t r c, hins, insert_zero t r c hr0 (by omega) hc0 (by omega), ?_⟩
    rw [remove_absent t r c habs]
    exact ⟨rfl, rfl, rfl, rfl, rfl⟩
  · obtain ⟨u, hins2, hw2, f1, f2, hmem, hsz, hcap⟩ := insert_spec t hw r c v hr0 (by omega)
      hc0 (by omega) hv
    have hne : cell t r c ≠ 0 := by rw [ht]; exact hv
    have hin : (r, c, v) ∈ entries t :=
      (mem_entries_iff_cell hw.sorted hw.nonzero r c v).2 ⟨hv, ht⟩
    refine ⟨t, u, hins, hins2, f1, f2, by rw [hsz, if_neg hne], ?_, ?_⟩
    · rw [hcap, if_neg (fun h => hne h.1)]
    · apply entries_eq_of_mem_iff hw2.sorted hw.sorted
      intro e
      rw [hmem e]
      constructor
      · rintro (h1 | h1)
        · rw [h1]; exact hin
        · exact h1.1
      · intro he
        by_cases hk : (e.1, e.2.1) = (r, c)
        · left
          obtain ⟨a, b, w⟩ := e
          simp only [Prod.mk.injEq] at hk
          obtain ⟨rfl, rfl⟩ := hk
          have := cell_of_mem hw.sorted he
          rw [ht] at this
          rw [this]
        · exact Or.inr ⟨he, hk⟩

theorem set_idempotent_witness :
    Reachable exampleFull ∧ (0 : Int) ≤ 3 ∧ 3 < exampleFull.rows ∧ (0 : Int) ≤ 3 ∧
    3 < exampleFull.cols ∧
    ∃ t u, set exampleFull 3 3 7 = .ok t ∧ set t 3 3 7 = .ok u ∧ u.rows = t.rows ∧
      u.cols = t.cols ∧ u.size = t.size ∧ u.capacity = t.capacity ∧ entries u = entries t :=
  ⟨Reachable.setAll _ (Reachable.new 4 4), by decide, by decide, by decide, by decide,
    set_idempotent exampleFull (Reachable.setAll _ (Reachable.new 4 4)) 3 3 7
      (by decide) (by decide) (by decide) (by decide)⟩

/-- C10: after any sequence of `set`/`insert`/`remove` (and `clear`) calls on a newly
constructed matrix, `get` at an in-bounds position that no call targets returns `0`; in
particular every in-bounds `get` on a new matrix returns `0`. -/
theorem default_value_zero [Semiring V] [DecidableEq V] (rows cols : Int) (ops : List (Op V))
    (r c : Int) (hr0 : 0 ≤ r) (hr : r < rows) (hc0 : 0 ≤ c) (hc : c < cols)
    (hno : ∀ op ∈ ops, ¬ op.targets r c) :
    get (runOps (new rows cols) ops) r c = .ok 0 ∧
    get (new rows cols : SparseMatrixArray V) r c = .ok 0 := by
  have hnew : cell (new rows cols : SparseMatrixArray V) r c = 0 := by
    apply cell_absent (new_wf rows cols).sorted
    intro i hi0 hi
    simp only [new] at hi
    omega
  obtain ⟨_, e1, e2, hcell⟩ := runOps_spec ops (new rows cols : SparseMatrixArray V)
    (new_wf rows cols)
  constructor
  · rw [get_eq_cell _ r c hr0 (by rw [e1]; exact hr) hc0 (by rw [e2]; exact hc),
      hcell r c hno hnew]
  · rw [get_eq_cell _ r c hr0 hr hc0 hc, hnew]

theorem default_value_zero_witness :
    (0 : Int) ≤ 2 ∧ (2 : Int) < 3 ∧
    (∀ op ∈ [Op.set 0 0 (1 : ℤ), Op.insert 1 1 2, Op.remove 0 0, Op.set 5 5 1,
      Op.insert 2 1 4], ¬ op.targets 2 2) ∧
    get (runOps (new 3 3) [Op.set 0 0 (1 : ℤ), Op.insert 1 1 2, Op.remove 0 0, Op.set 5 5 1,
      Op.insert 2 1 4]) 2 2 = .ok 0 ∧
    get (new 3 3 : SparseMatrixArray ℤ) 2 2 = .ok 0 :=
  ⟨by decide, by decide, by simp [Op.targets],
    default_value_zero 3 3 [Op.set 0 0 (1 : ℤ), Op.insert 1 1 2, Op.remove 0 0, Op.set 5 5 1,
      Op.insert 2 1 4] 2 2 (by decide) (by decide) (by decide) (by decide)
      (by simp [Op.targets])⟩

/-! ### Contract: errors of `get`, `set`, `add`, `multiply` -/

/-- C11: `get` fails, with `OutOfRange`, exactly when `row` is outside `[0,rows)` or `col`
is outside `[0,cols)` (so at `row = -1` and at `row = rows`); at every in-bounds position
it returns a value. -/
theorem get_error_iff [Zero V] (s : SparseMatrixArray V) (row col : Int) :
    (get s row col = .error .outOfRange ↔
      (row < 0 ∨ row ≥ s.rows ∨ col < 0 ∨ col ≥ s.cols)) ∧
    (∀ e, get s row col = .error e → e = .outOfRange) ∧
    ((0 ≤ row ∧ row < s.rows ∧ 0 ≤ col ∧ col < s.cols) → ∃ v, get s row col = .ok v) ∧
    get s (-1) col = .error .outOfRange ∧ get s s.rows col = .error .outOfRange := by
  refine ⟨?_, ?_, ?_, ?_, ?_⟩
  · constructor
    · intro h
      by_contra hb
      unfold get at h
      rw [if_neg hb] at h
      cases h
    · intro hb
      unfold get
      rw [if_pos hb]
  · intro e h
    unfold get at h
    split at h
    · cases h; rfl
    · cases h
  · rintro ⟨h1, h2, h3, h4⟩
    exact ⟨_, get_eq_cell s row col h1 h2 h3 h4⟩
  · unfold get
    rw [if_pos (Or.inl (by omega))]
  · unfold get
    rw [if_pos (Or.inr (Or.inl (by omega)))]

theorem get_error_iff_witness :
    (get exampleM 3 0 = .error .outOfRange ↔
      ((3 : Int) < 0 ∨ 3 ≥ exampleM.rows ∨ (0 : Int) < 0 ∨ 0 ≥ exampleM.cols)) ∧
    (∀ e, get exampleM 3 0 = .error e → e = .outOfRange) ∧
    (((0 : Int) ≤ 3 ∧ 3 < exampleM.rows ∧ (0 : Int) ≤ 0 ∧ 0 < exampleM.cols) →
      ∃ v, get exampleM 3 0 = .ok v) ∧
    get exampleM (-1) 0 = .error .outOfRange ∧
    get exampleM exampleM.rows 0 = .error .outOfRange :=
  get_error_iff exampleM 3 0

/-- C12: `set` (alias of `insert`) fails, with `OutOfRange`, exactly when `row` is outside
`[0,rows)` or `col` is outside `[0,cols)`, for every state and every value; the failing
call leaves the object as it was (the check is the first statement of `insert`). -/
theorem set_error_atomic [Zero V] [DecidableEq V] (s : SparseMatrixArray V) (row col : Int)
    (value : V) :
    (set s row col value = .error .outOfRange ↔
      (row < 0 ∨ row ≥ s.rows ∨ col < 0 ∨ col ≥ s.cols)) ∧
    (∀ e, set s row col value = .error e → e = .outOfRange) ∧
    ((0 ≤ row ∧ row < s.rows ∧ 0 ≤ col ∧ col < s.cols) → ∃ t, set s row col value = .ok t) ∧
    ((row < 0 ∨ row ≥ s.rows ∨ col < 0 ∨ col ≥ s.cols) →
      applyOp s (.set row col value) = s ∧ applyOp s (.insert row col value) = s) := by
  have herr : (row < 0 ∨ row ≥ s.rows ∨ col < 0 ∨ col ≥ s.cols) →
      insert s row col value = .error .outOfRange := by
    intro hb
    unfold insert
    rw [if_pos hb]
  have hok : ¬ (row < 0 ∨ row ≥ s.rows ∨ col < 0 ∨ col ≥ s.cols) →
      ∃ t, insert s row col value = .ok t := by
    intro hb
    unfold insert
    rw [if_neg hb]
    split
    · exact ⟨_, rfl⟩
    · simp only
      split
      · exact ⟨_, rfl⟩
      · exact ⟨_, rfl⟩
  refine ⟨?_, ?_, ?_, ?_⟩
  · constructor
    · intro h
      by_contra hb
      obtain ⟨t, ht⟩ := hok hb
      rw [set, ht] at h
      cases h
    · exact herr
  · intro e h
    by_cases hb : row < 0 ∨ row ≥ s.rows ∨ col < 0 ∨ col ≥ s.cols
    · rw [set, herr hb] at h
      cases h
      rfl
    · obtain ⟨t, ht⟩ := hok hb
      rw [set, ht] at h
      cases h
  · rintro ⟨h1, h2, h3, h4⟩
    exact hok (by omega)
  · intro hb
    simp only [applyOp, set, herr hb, and_self]

theorem set_error_atomic_witness :
    (set exampleM 5 5 (1 : ℤ) = .error .outOfRange ↔
      ((5 : Int) < 0 ∨ 5 ≥ exampleM.rows ∨ (5 : Int) < 0 ∨ 5 ≥ exampleM.cols)) ∧
    (∀ e, set exampleM 5 5 (1 : ℤ) = .error e → e = .outOfRange) ∧
    (((0 : Int) ≤ 5 ∧ 5 < exampleM.rows ∧ (0 : Int) ≤ 5 ∧ 5 < exampleM.cols) →
      ∃ t, set exampleM 5 5 (1 : ℤ) = .ok t) ∧
    (((5 : Int) < 0 ∨ 5 ≥ exampleM.rows ∨ (5 : Int) < 0 ∨ 5 ≥ exampleM.cols) →
      applyOp exampleM (.set 5 5 1) = exampleM ∧ applyOp exampleM (.insert 5 5 1) = exampleM) :=
  set_error_atomic exampleM 5 5 1

/-- C13: on reachable matrices `add` fails, with `invalid_argument`, exactly when the shapes
differ, `multiply` exactly when `A.cols ≠ B.rows`; with compatible shapes both return a
matrix (no inner `get`/`insert` throws). -/
theorem dimension_errors [Semiring V] [DecidableEq V] (a b : SparseMatrixArray V)
    (ha : Reachable a) (hb : Reachable b) :
    (add a b = .error .invalidArgument ↔ (a.rows ≠ b.rows ∨ a.cols ≠ b.cols)) ∧
    (multiply a b = .error .invalidArgument ↔ a.cols ≠ b.rows) ∧
    ((a.rows = b.rows ∧ a.cols = b.cols) → ∃ t, add a b = .ok t) ∧
    (a.cols = b.rows → ∃ t, multiply a b = .ok t) ∧
    (∀ e, add a b = .error e → e = .invalidArgument) ∧
    (∀ e, multiply a b = .error e → e = .invalidArgument) := by
  have hadd : (a.rows = b.rows ∧ a.cols = b.cols) → ∃ t, add a b = .ok t := by
    rintro ⟨h1, h2⟩
    obtain ⟨t, ht, _⟩ := add_spec a b ha.wf hb.wf h1 h2
    exact ⟨t, ht⟩
  have hmul : a.cols = b.rows → ∃ t, multiply a b = .ok t := by
    intro h1
    obtain ⟨t, ht, _⟩ := multiply_spec a b ha.wf hb.wf h1
    exact ⟨t, ht⟩
  have eadd : (a.rows ≠ b.rows ∨ a.cols ≠ b.cols) → add a b = .error .invalidArgument := by
    intro h
    unfold add
    rw [if_pos h]
  have emul : a.cols ≠ b.rows → multiply a b = .error .invalidArgument := by
    intro h
    unfold multiply
    rw [if_pos h]
  refine ⟨⟨?_, eadd⟩, ⟨?_, emul⟩, hadd, hmul, ?_, ?_⟩
  · intro h
    by_contra hd
    obtain ⟨t, ht⟩ := hadd (by omega)
    rw [ht] at h
    cases h
  · intro h hd
    obtain ⟨t, ht⟩ := hmul hd
    rw [ht] at h
    cases h
  · intro e h
    by_cases hd : a.rows ≠ b.rows ∨ a.cols ≠ b.cols
    · rw [eadd hd] at h
      cases h
      rfl
    · obtain ⟨t, ht⟩ := hadd (by omega)
      rw [ht] at h
      cases h
  · intro e h
    by_cases hd : a.cols ≠ b.rows
    · rw [emul hd] at h
      cases h
      rfl
    · obtain ⟨t, ht⟩ := hmul (by omega)
      rw [ht] at h
      cases h

theorem dimension_errors_witness :
    Reachable exampleRow ∧ Reachable exampleM ∧
    ((add exampleRow exampleM = .error .invalidArgument ↔
        (exampleRow.rows ≠ exampleM.rows ∨ exampleRow.cols ≠ exampleM.cols)) ∧
      (multiply exampleRow exampleM = .error .invalidArgument ↔
        exampleRow.cols ≠ exampleM.rows) ∧
      ((exampleRow.rows = exampleM.rows ∧ exampleRow.cols = exampleM.cols) →
        ∃ t, add exampleRow exampleM = .ok t) ∧
      (exampleRow.cols = exampleM.rows → ∃ t, multiply exampleRow exampleM = .ok t) ∧
      (∀ e, add exampleRow exampleM = .error e → e = .invalidArgument) ∧
      (∀ e, multiply exampleRow exampleM = .error e → e = .invalidArgument)) ∧
    add exampleRow exampleM = .error .invalidArgument ∧
    (∃ t, multiply exampleRow exampleM = .ok t ∧ get t 0 0 = .ok 5 ∧ get t 0 2 = .ok 7) :=
  ⟨Reachable.setAll _ (Reachable.new 1 3), Reachable.setAll _ (Reachable.new 3 3),
    dimension_errors exampleRow exampleM (Reachable.setAll _ (Reachable.new 1 3))
      (Reachable.setAll _ (Reachable.new 3 3)),
    rfl, ⟨_, rfl, rfl, rfl⟩⟩

/-! ### Contract: `remove`, stored-value, bounds and capacity invariants, `clear` -/

/-- C14: on a reachable matrix, `remove(row,col)` of a stored key decreases `size` by one,
makes `get(row,col)` return `0` and erases that one triple from the sequence of stored
triples (the others keep their order); when the key is not stored, in or out of bounds,
`remove` returns the state unchanged. -/
theorem remove_contract [Semiring V] [DecidableEq V] (s : SparseMatrixArray V)
    (h : Reachable s) (row col : Int) :
    ((∃ i, 0 ≤ i ∧ i < s.size ∧ readAt s.rowIndices i = row ∧ readAt s.colIndices i = col) →
      (remove s row col).size = s.size - 1 ∧ get (remove s row col) row col = .ok 0 ∧
      ∃ (k : Nat) (v : V), (entries s)[k]? = some (row, col, v) ∧
        entries (remove s row col) = (entries s).eraseIdx k) ∧
    ((¬ ∃ i, 0 ≤ i ∧ i < s.size ∧ readAt s.rowIndices i = row ∧ readAt s.colIndices i = col) →
      remove s row col = s) := by
  have hw := h.wf
  constructor
  · rintro ⟨i, hi0, hi, hr, hc⟩
    have hk : keyAt s i = (row, col) := by simp only [keyAt, hr, hc]
    obtain ⟨e1, e2, _, e4, _, _, _, hpt⟩ := remove_found s hw.alloc hw.sorted i row col hi0 hi hk
    obtain ⟨_, hlist, _⟩ := remove_found_entries s (remove s row col) hw.sorted row col i e4
      hi0 hi hk hpt
    obtain ⟨b1, b2, b3, b4⟩ := inBounds_at hw i hi0 hi
    rw [hr] at b1 b2
    rw [hc] at b3 b4
    refine ⟨e4, ?_, i.toNat, readAt s.values i, ?_, hlist⟩
    · rw [get_eq_cell _ row col b1 (by rw [e1]; exact b2) b3 (by rw [e2]; exact b4),
        cell_remove s hw row col row col, if_pos ⟨rfl, rfl⟩]
    · rw [entries_getElem?, if_pos (by omega)]
      have : ((i.toNat : Nat) : Int) = i := by omega
      rw [this]
      simp only [tripleAt, hr, hc]
  · intro hno
    apply remove_absent
    apply findElementIndex_absent hw.sorted
    intro i hi0 hi hk
    simp only [keyAt, Prod.mk.injEq] at hk
    exact hno ⟨i, hi0, hi, hk.1, hk.2⟩

theorem remove_contract_witness :
    Reachable exampleM ∧
    (((∃ i, 0 ≤ i ∧ i < exampleM.size ∧ readAt exampleM.rowIndices i = 1 ∧
        readAt exampleM.colIndices i = 1) →
      (remove exampleM 1 1).size = exampleM.size - 1 ∧
      get (remove exampleM 1 1) 1 1 = .ok 0 ∧
      ∃ (k : Nat) (v : ℤ), (entries exampleM)[k]? = some (1, 1, v) ∧
        entries (remove exampleM 1 1) = (entries exampleM).eraseIdx k) ∧
    ((¬ ∃ i, 0 ≤ i ∧ i < exampleM.size ∧ readAt exampleM.rowIndices i = 1 ∧
        readAt exampleM.colIndices i = 1) →
      remove exampleM 1 1 = exampleM)) ∧
    entries exampleM = [(0, 0, 1), (0, 2, 2), (1, 1, 3), (2, 0, 4), (2, 2, 5)] ∧
    entries (remove exampleM 1 1) = [(0, 0, 1), (0, 2, 2), (2, 0, 4), (2, 2, 5)] ∧
    remove exampleM 7 (-2) = exampleM :=
  ⟨Reachable.setAll _ (Reachable.new 3 3),
    remove_contract exampleM (Reachable.setAll _ (Reachable.new 3 3)) 1 1, by decide,
    by decide, by decide⟩

/-- C15: in every reachable state no stored value at an index in `[0,size)` is zero. -/
theorem nonzero_invariant [Semiring V] [DecidableEq V] (s : SparseMatrixArray V)
    (h : Reachable s) (i : Int) (hi0 : 0 ≤ i) (hi : i < s.size) :
    readAt s.values i ≠ 0 :=
  h.wf.nonzero (tripleAt s i) ((mem_entries s _).2 ⟨i, hi0, hi, rfl⟩)

theorem nonzero_invariant_witness :
    Reachable exampleM ∧ (0 : Int) ≤ 4 ∧ 4 < exampleM.size ∧ readAt exampleM.values 4 ≠ 0 :=
  ⟨Reachable.setAll _ (Reachable.new 3 3), by decide, by decide,
    nonzero_invariant exampleM (Reachable.setAll _ (Reachable.new 3 3)) 4 (by decide)
      (by decide)⟩

/-- C16: after any sequence of `set`/`insert`/`remove`/`clear` calls on a new matrix of
shape `(rows, cols)`, failing calls included, every stored key at an index in `[0,size)`
has its row in `[0,rows)` and its column in `[0,cols)`. -/
theorem bounds_invariant [Zero V] [DecidableEq V] (rows cols : Int) (ops : List (Op V))
    (i : Int) (hi0 : 0 ≤ i) (hi : i < (runOps (new rows cols) ops).size) :
    0 ≤ readAt (runOps (new rows cols) ops).rowIndices i ∧
    readAt (runOps (new rows cols) ops).rowIndices i < rows ∧
    0 ≤ readAt (runOps (new rows cols) ops).colIndices i ∧
    readAt (runOps (new rows cols) ops).colIndices i < cols := by
  obtain ⟨hw, e1, e2, _⟩ := runOps_spec ops (new rows cols : SparseMatrixArray V)
    (new_wf rows cols)
  have := inBounds_at hw i hi0 hi
  rw [e1, e2] at this
  exact this

theorem bounds_invariant_witness :
    (0 : Int) ≤ 1 ∧
    (1 : Int) < (runOps (new 3 3) [Op.set 2 1 (4 : ℤ), Op.set 5 5 1, Op.insert 0 2 7,
      Op.insert (-1) 0 3, Op.set 1 1 2, Op.remove 0 2]).size ∧
    0 ≤ readAt (runOps (new 3 3) [Op.set 2 1 (4 : ℤ), Op.set 5 5 1, Op.insert 0 2 7,
      Op.insert (-1) 0 3, Op.set 1 1 2, Op.remove 0 2]).rowIndices 1 ∧
    readAt (runOps (new 3 3) [Op.set 2 1 (4 : ℤ), Op.set 5 5 1, Op.insert 0 2 7,
      Op.insert (-1) 0 3, Op.set 1 1 2, Op.remove 0 2]).rowIndices 1 < 3 ∧
    0 ≤ readAt (runOps (new 3 3) [Op.set 2 1 (4 : ℤ), Op.set 5 5 1, Op.insert 0 2 7,
      Op.insert (-1) 0 3, Op.set 1 1 2, Op.remove 0 2]).colIndices 1 ∧
    readAt (runOps (new 3 3) [Op.set 2 1 (4 : ℤ), Op.set 5 5 1, Op.insert 0 2 7,
      Op.insert (-1) 0 3, Op.set 1 1 2, Op.remove 0 2]).colIndices 1 < 3 :=
  ⟨by decide, by decide,
    bounds_invariant 3 3 [Op.set 2 1 (4 : ℤ), Op.set 5 5 1, Op.insert 0 2 7,
      Op.insert (-1) 0 3, Op.set 1 1 2, Op.remove 0 2] 1 (by decide) (by decide)⟩

/-- Capacity after one call on a well-formed matrix. -/
theorem applyOp_capacity [Zero V] [DecidableEq V] (s : SparseMatrixArray V) (hw : WF s)
    (op : Op V) :
    (applyOp s op).capacity = s.capacity ∨
    ((applyOp s op).capacity = s.capacity * 2 ∧ s.size = s.capacity ∧
      ∃ r c v, (op = .set r c v ∨ op = .insert r c v) ∧
        0 ≤ r ∧ r < s.rows ∧ 0 ≤ c ∧ c < s.cols ∧ v ≠ 0 ∧ get s r c = .ok 0 ∧
        (applyOp s op).size = s.size + 1) := by
  have hins : ∀ r c v, (match insert s r c v with | .ok t => t | .error _ => s).capacity
        = s.capacity ∨
      ((match insert s r c v with | .ok t => t | .error _ => s).capacity = s.capacity * 2 ∧
        s.size = s.capacity ∧ 0 ≤ r ∧ r < s.rows ∧ 0 ≤ c ∧ c < s.cols ∧ v ≠ 0 ∧
        get s r c = .ok 0 ∧
        (match insert s r c v with | .ok t => t | .error _ => s).size = s.size + 1) := by
    intro r c v
    by_cases hb : r < 0 ∨ r ≥ s.rows ∨ c < 0 ∨ c ≥ s.cols
    · have : insert s r c v = .error .outOfRange := by
        unfold insert
        rw [if_pos hb]
      simp only [this]
      exact Or.inl trivial
    · by_cases hv : v = 0
      · subst hv
        rw [insert_zero s r c (by omega) (by omega) (by omega) (by omega)]
        exact Or.inl (remove_spec s hw r c).2.2.2.1
      · obtain ⟨t, ht, _, _, _, _, hsz, hcap⟩ := insert_spec s hw r c v (by omega) (by omega)
          (by omega) (by omega) hv
        simp only [ht]
        by_cases hc : cell s r c = 0 ∧ s.size ≥ s.capacity
        · rw [if_pos hc] at hcap
          rw [if_pos hc.1] at hsz
          have := hw.alloc.size_le
          exact Or.inr ⟨hcap, by omega, by omega, by omega, by omega, by omega, hv,
            by rw [get_eq_cell s r c (by omega) (by omega) (by omega) (by omega), hc.1], hsz⟩
        · rw [if_neg hc] at hcap
          exact Or.inl hcap
  cases op with
  | set r c v =>
    rcases hins r c v with h | ⟨h1, h2, h3⟩
    · exact Or.inl h
    · exact Or.inr ⟨h1, h2, r, c, v, Or.inl rfl, h3⟩
  | insert r c v =>
    rcases hins r c v with h | ⟨h1, h2, h3⟩
    · exact Or.inl h
    · exact Or.inr ⟨h1, h2, r, c, v, Or.inr rfl, h3⟩
  | remove r c => exact Or.inl (remove_spec s hw r c).2.2.2.1
  | clear => exact Or.inl rfl

/-- C17: after any sequence of calls on a new matrix `size ≤ capacity`; one more call
leaves `capacity` unchanged or exactly doubled, never smaller; it is doubled only by an
in-bounds `set`/`insert` of a non-zero value at a key that is not stored while
`size = capacity` (and that call stores one more entry). -/
theorem capacity_invariant [Zero V] [DecidableEq V] (rows cols : Int) (ops : List (Op V))
    (op : Op V) :
    (runOps (new rows cols) ops).size ≤ (runOps (new rows cols) ops).capacity ∧
    ((applyOp (runOps (new rows cols) ops) op).capacity
        = (runOps (new rows cols) ops).capacity ∨
      (applyOp (runOps (new rows cols) ops) op).capacity
        = (runOps (new rows cols) ops).capacity * 2) ∧
    (runOps (new rows cols) ops).capacity
      ≤ (applyOp (runOps (new rows cols) ops) op).capacity ∧
    ((applyOp (runOps (new rows cols) ops) op).capacity
        ≠ (runOps (new rows cols) ops).capacity →
      (runOps (new rows cols) ops).size = (runOps (new rows cols) ops).capacity ∧
      ∃ r c v, (op = .set r c v ∨ op = .insert r c v) ∧
        0 ≤ r ∧ r < rows ∧ 0 ≤ c ∧ c < cols ∧ v ≠ 0 ∧
        get (runOps (new rows cols) ops) r c = .ok 0 ∧
        (applyOp (runOps (new rows cols) ops) op).size
          = (runOps (new rows cols) ops).size + 1) := by
  obtain ⟨hw, e1, e2, _⟩ := runOps_spec ops (new rows cols : SparseMatrixArray V)
    (new_wf rows cols)
  have hcp := hw.alloc.cap_pos
  have e1' : (runOps (new rows cols) ops).rows = rows := e1
  have e2' : (runOps (new rows cols) ops).cols = cols := e2
  rcases applyOp_capacity _ hw op with h | ⟨h1, h2, r, c, v, h3, h4⟩
  · exact ⟨hw.alloc.size_le, Or.inl h, by rw [h], fun hne => absurd h hne⟩
  · refine ⟨hw.alloc.size_le, Or.inr h1, by rw [h1]; omega, fun _ => ⟨h2, r, c, v, h3, ?_⟩⟩
    rw [e1', e2'] at h4
    exact h4

theorem capacity_invariant_witness :
    (runOps (new 4 4) exampleOps).size = 10 ∧
    (runOps (new 4 4) exampleOps).capacity = 10 ∧
    (applyOp (runOps (new 4 4) exampleOps) (Op.set 3 3 7)).capacity = 20 ∧
    (applyOp (runOps (new 4 4) exampleOps) (Op.set 3 2 7)).capacity = 10 ∧
    ∃ r c v, (Op.set 3 3 (7 : ℤ) = .set r c v ∨ Op.set 3 3 (7 : ℤ) = .insert r c v) ∧
      0 ≤ r ∧ r < 4 ∧ 0 ≤ c ∧ c < 4 ∧ v ≠ 0 ∧
      get (runOps (new 4 4) exampleOps) r c = .ok 0 ∧
      (applyOp (runOps (new 4 4) exampleOps) (Op.set 3 3 7)).size
        = (runOps (new 4 4) exampleOps).size + 1 :=
  ⟨by decide, by decide, by decide, by decide,
    ((capacity_invariant 4 4 exampleOps (Op.set 3 3 7)).2.2.2 (by decide)).2⟩

/-- C18: for every matrix state, `clear()` sets `size` to `0` (`getNonZeroCount()` is `0`,
`isEmpty()` is true, every in-bounds `get` returns `0`) and leaves `rows`, `cols`,
`capacity` and the three arrays as they were. -/
theorem clear_resets_size [Zero V] (s : SparseMatrixArray V) :
    (clear s).size = 0 ∧ getNonZeroCount (clear s) = 0 ∧ isEmpty (clear s) = true ∧
    (∀ r c, 0 ≤ r → r < s.rows → 0 ≤ c → c < s.cols → get (clear s) r c = .ok 0) ∧
    (clear s).rows = s.rows ∧ (clear s).cols = s.cols ∧ (clear s).capacity = s.capacity ∧
    (clear s).rowIndices = s.rowIndices ∧ (clear s).colIndices = s.colIndices ∧
    (clear s).values = s.values := by
  refine ⟨rfl, rfl, rfl, ?_, rfl, rfl, rfl, rfl, rfl, rfl⟩
  intro r c h1 h2 h3 h4
  rw [get_eq_cell (clear s) r c h1 h2 h3 h4]
  rfl

/-! ### Contract: lookup refinement and frame of `set` -/

/-- C29: when the stored keys are strictly increasing, the binary-search lookup `get` at an
in-bounds position agrees with a linear scan over the stored triples: it returns the value
of the stored entry with that key, which is unique, and `0` when there is none; and
`findElementIndex` returns `-1` exactly when no stored entry has that key. -/
theorem get_refines_linear_scan [Zero V] (s : SparseMatrixArray V) (hs : SortedKeys s)
    (row col : Int) (h1 : 0 ≤ row) (h2 : row < s.rows) (h3 : 0 ≤ col) (h4 : col < s.cols) :
    get s row col = .ok (linearLookup s row col) ∧
    (∀ i, 0 ≤ i → i < s.size → keyAt s i = (row, col) →
      get s row col = .ok (readAt s.values i) ∧
      ∀ j, 0 ≤ j → j < s.size → keyAt s j = (row, col) → j = i) ∧
    ((∀ i, 0 ≤ i → i < s.size → keyAt s i ≠ (row, col)) → get s row col = .ok 0) ∧
    (findElementIndex s row col = -1 ↔
      ∀ i, 0 ≤ i → i < s.size → keyAt s i ≠ (row, col)) := by
  rw [get_eq_cell s row col h1 h2 h3 h4]
  refine ⟨?_, ?_, ?_, ?_⟩
  · unfold linearLookup
    cases hf : (entries s).find? (fun e => decide (e.1 = row ∧ e.2.1 = col)) with
    | none =>
      simp only
      rw [cell_of_not_mem hs]
      intro v hv
      have := List.find?_eq_none.1 hf _ hv
      simp at this
    | some e =>
      simp only
      have hmem := List.mem_of_find?_eq_some hf
      have hkey := List.find?_some hf
      simp only [decide_eq_true_eq] at hkey
      obtain ⟨r, c, v⟩ := e
      simp only at hkey
      rw [hkey.1, hkey.2] at hmem
      rw [cell_of_mem hs hmem]
  · intro i hi0 hi hk
    refine ⟨by rw [cell_of_key hs hi0 hi hk], ?_⟩
    intro j hj0 hj hkj
    exact hs.index_unique hj0 hj hi0 hi (hkj.trans hk.symm)
  · intro h
    rw [cell_absent hs h]
  · constructor
    · intro h i hi0 hi hk
      have := findElementIndex_of_key hs hi0 hi hk
      omega
    · exact findElementIndex_absent hs

theorem get_refines_linear_scan_witness :
    SortedKeys exampleM ∧ get exampleM 1 1 = .ok 3 ∧ linearLookup exampleM 1 1 = 3 ∧
    get exampleM 1 1 = .ok (linearLookup exampleM 1 1) ∧
    get exampleM 0 1 = .ok (linearLookup exampleM 0 1) ∧
    findElementIndex exampleM 0 1 = -1 :=
  ⟨(Reachable.setAll _ (Reachable.new 3 3)).wf.sorted, rfl, by decide,
    (get_refines_linear_scan exampleM (Reachable.setAll _ (Reachable.new 3 3)).wf.sorted 1 1
      (by decide) (by decide) (by decide) (by decide)).1,
    (get_refines_linear_scan exampleM (Reachable.setAll _ (Reachable.new 3 3)).wf.sorted 0 1
      (by decide) (by decide) (by decide) (by decide)).1, by decide⟩

/-- C30: on a reachable matrix an in-bounds `set(r,c,v)`, for any value `v`, returns and
leaves `rows` and `cols` as they were, and `get` at every other in-bounds position returns
what it returned before the call. -/
theorem set_frame [Semiring V] [DecidableEq V] (s : SparseMatrixArray V) (h : Reachable s)
    (r c : Int) (v : V) (hr0 : 0 ≤ r) (hr : r < s.rows) (hc0 : 0 ≤ c) (hc : c < s.cols) :
    ∃ t, set s r c v = .ok t ∧ t.rows = s.rows ∧ t.cols = s.cols ∧
      ∀ r' c', 0 ≤ r' → r' < s.rows → 0 ≤ c' → c' < s.cols → (r', c') ≠ (r, c) →
        get t r' c' = get s r' c' := by
  obtain ⟨t, hins, _, e1, e2, hcell, _⟩ := cell_insert s h.wf r c v hr0 hr hc0 hc
  refine ⟨t, hins, e1, e2, ?_⟩
  intro r' c' a1 a2 a3 a4 hne
  rw [get_eq_cell t r' c' a1 (by omega) a3 (by omega), get_eq_cell s r' c' a1 a2 a3 a4,
    hcell r' c', if_neg]
  rintro ⟨rfl, rfl⟩
  exact hne rfl

theorem set_frame_witness :
    exampleFull.size = exampleFull.capacity ∧
    ∃ t, set exampleFull 1 2 5 = .ok t ∧ t.capacity = exampleFull.capacity * 2 ∧
      get t 2 3 = .ok 10 ∧ get t 0 0 = get exampleFull 0 0 ∧
      get t 2 3 = get exampleFull 2 3 := by
  obtain ⟨t, h1, _, _, h4⟩ := set_frame exampleFull (Reachable.setAll _ (Reachable.new 4 4))
    1 2 5 (by decide) (by decide) (by decide) (by decide)
  have e : set exampleFull 1 2 5 = .ok t := h1
  refine ⟨by decide, t, h1, ?_, ?_, h4 0 0 (by decide) (by decide) (by decide) (by decide)
    (by decide), h4 2 3 (by decide) (by decide) (by decide) (by decide) (by decide)⟩
  · have e2 : set exampleFull 1 2 5 = .ok (applyOp exampleFull (.set 1 2 5)) := rfl
    rw [e2] at e
    injection e with e
    rw [← e]
    decide
  · have e2 : set exampleFull 1 2 5 = .ok (applyOp exampleFull (.set 1 2 5)) := rfl
    rw [e2] at e
    injection e with e
    rw [← e]
    rfl

/-! ### Contract: canonical representation -/

/-- Two well-formed matrices of the same shape on which `get` agrees at every in-bounds
position store the same list of triples. -/
theorem entries_eq_of_get_eq [Zero V] {a b : SparseMatrixArray V} (ha : WF a) (hb : WF b)
    (hr : a.rows = b.rows) (hc : a.cols = b.cols)
    (hget : ∀ r c : Int, 0 ≤ r → r < a.rows → 0 ≤ c → c < a.cols → get a r c = get b r c) :
    entries a = entries b := by
  have hcell : ∀ r c : Int, 0 ≤ r → r < a.rows → 0 ≤ c → c < a.cols →
      cell a r c = cell b r c := by
    intro r c h1 h2 h3 h4
    have h := hget r c h1 h2 h3 h4
    rw [get_eq_cell a r c h1 h2 h3 h4,
      get_eq_cell b r c h1 (by omega) h3 (by omega)] at h
    exact Except.ok.inj h
  apply entries_eq_of_mem_iff ha.sorted hb.sorted
  rintro ⟨r, c, v⟩
  constructor
  · intro h
    obtain ⟨h1, h2, h3, h4⟩ := ha.inb _ h
    simp only at h1 h2 h3 h4
    rw [mem_entries_iff_cell ha.sorted ha.nonzero] at h
    rw [mem_entries_iff_cell hb.sorted hb.nonzero, ← hcell r c h1 h2 h3 h4]
    exact h
  · intro h
    obtain ⟨h1, h2, h3, h4⟩ := hb.inb _ h
    simp only at h1 h2 h3 h4
    rw [mem_entries_iff_cell hb.sorted hb.nonzero] at h
    rw [mem_entries_iff_cell ha.sorted ha.nonzero, hcell r c h1 (by omega) h3 (by omega)]
    exact h

/-- C31: canonical representation.  Two reachable matrices with the same `rows` and
`cols` on which `get` returns the same value at every in-bounds position have the same
`size` and store the same `(row, col, value)` triple at every index in `[0, size)`,
whatever sequence of calls produced them. -/
theorem canonical_representation [Semiring V] [DecidableEq V] (a b : SparseMatrixArray V)
    (ha : Reachable a) (hb : Reachable b) (hr : a.rows = b.rows) (hc : a.cols = b.cols)
    (hget : ∀ r c : Int, 0 ≤ r → r < a.rows → 0 ≤ c → c < a.cols → get a r c = get b r c) :
    a.size = b.size ∧ ∀ i : Int, 0 ≤ i → i < a.size → tripleAt a i = tripleAt b i := by
  have hwa := ha.wf
  have hwb := hb.wf
  have he := entries_eq_of_get_eq hwa hwb hr hc hget
  have hl : a.size = b.size := by
    have h := congrArg List.length he
    rw [entries_length, entries_length] at h
    have h1 := hwa.alloc.size_nonneg
    have h2 := hwb.alloc.size_nonneg
    omega
  refine ⟨hl, ?_⟩
  intro i hi0 hi
  have h1 := entries_getElem? a i.toNat
  have h2 := entries_getElem? b i.toNat
  rw [Int.toNat_of_nonneg hi0] at h1 h2
  rw [if_pos hi] at h1
  rw [if_pos (by omega)] at h2
  rw [he, h2] at h1
  exact (Option.some.inj h1).symm

theorem canonical_representation_witness :
    Reachable exampleOrderA ∧ Reachable exampleOrderB ∧
    exampleOrderA.values ≠ exampleOrderB.values ∧
    exampleOrderA.size = exampleOrderB.size ∧
    ∀ i : Int, 0 ≤ i → i < exampleOrderA.size →
      tripleAt exampleOrderA i = tripleAt exampleOrderB i :=
  ⟨Reachable.runOps _ (Reachable.new 3 3), Reachable.runOps _ (Reachable.new 3 3),
    by decide,
    canonical_representation exampleOrderA exampleOrderB
      (Reachable.runOps _ (Reachable.new 3 3)) (Reachable.runOps _ (Reachable.new 3 3))
      (by decide) (by decide) (by
        intro r c h1 h2 h3 h4
        have e1 : exampleOrderA.rows = 3 := by decide
        have e2 : exampleOrderA.cols = 3 := by decide
        have e3 : exampleOrderB.rows = 3 := by decide
        have e4 : exampleOrderB.cols = 3 := by decide
        have h2b : r < exampleOrderB.rows := by rw [e3, ← e1]; exact h2
        have h4b : c < exampleOrderB.cols := by rw [e4, ← e2]; exact h4
        rw [get_eq_cell _ r c h1 h2 h3 h4, get_eq_cell _ r c h1 h2b h3 h4b]
        rw [e1] at h2
        rw [e2] at h4
        have hr : r = 0 ∨ r = 1 ∨ r = 2 := by omega
        have hc : c = 0 ∨ c = 1 ∨ c = 2 := by omega
        have key : ∀ r ∈ [(0 : Int), 1, 2], ∀ c ∈ [(0 : Int), 1, 2],
            cell exampleOrderA r c = cell exampleOrderB r c := by decide
        rw [key r (by simpa using hr) c (by simpa using hc)])⟩

end SparseMatrixArray

end ArrayImpl

/-! ## Verification of `findShortestPath` and `findShortestDistances` -/

namespace DijkstraImpl

open ArrayImpl

variable {W : Type}

/-! ### Representation invariant of `Graph` -/

theorem mapFind_cons (k : String) (v : Int) (m : List (String × Int)) (name : String) :
    mapFind ((k, v) :: m) name = if k = name then some v else mapFind m name := rfl

theorem resizeTo_succ {α : Type} (l : List (List α)) (n : Int) (hn : 0 ≤ n)
    (hlen : (l.length : Int) = n) : resizeTo l (n + 1) = l ++ [[]] := by
  unfold resizeTo
  have h1 : (n + 1).toNat = l.length + 1 := by omega
  rw [h1, List.take_of_length_le (by omega)]
  have h2 : l.length + 1 - l.length = 1 := by omega
  rw [h2]
  rfl

theorem length_pushBackAt {α : Type} (l : List (List α)) (i : Int) (e : α) :
    (pushBackAt l i e).length = l.length := by
  simp [pushBackAt]

theorem mem_pushBackAt {α : Type} (l : List (List α)) (i : Int) (e : α) (x : List α)
    (hx : x ∈ pushBackAt l i e) : x ∈ l ∨ ∃ y ∈ l, x = y ++ [e] := by
  unfold pushBackAt at hx
  rcases List.mem_or_eq_of_mem_set hx with h | h
  · exact Or.inl h
  · by_cases hi : i.toNat < l.length
    · right
      refine ⟨l.getD i.toNat [], ?_, h⟩
      rw [List.getD_eq_getElem?_getD, List.getElem?_eq_getElem hi]
      exact List.getElem_mem _
    · left
      rw [List.set_eq_of_length_le (by omega)] at hx
      exact hx

theorem getD_pushBackAt {α : Type} (l : List (List α)) (i : Int) (e : α) (k : Nat) :
    (pushBackAt l i e).getD k [] =
      if k = i.toNat ∧ k < l.length then l.getD k [] ++ [e] else l.getD k [] := by
  unfold pushBackAt
  simp only [List.getD_eq_getElem?_getD, List.getElem?_set]
  by_cases h1 : i.toNat = k
  · subst h1
    by_cases h2 : i.toNat < l.length
    · simp [h2]
    · simp [h2]
      rw [List.getElem?_eq_none (by omega)]
      rfl
  · have : ¬ (k = i.toNat ∧ k < l.length) := fun h => h1 h.1.symm
    simp [h1, this]

theorem graphWF_empty : GraphWF (Graph.empty : Graph W) := by
  refine ⟨le_refl _, rfl, rfl, ?_, ?_⟩
  · intro name i
    simp only [Graph.empty, mapFind]
    constructor
    · intro h; cases h
    · rintro ⟨h1, h2, _⟩; omega
  · intro l hl
    simp [Graph.empty] at hl

theorem mapFind_addVertex_self (g : Graph W) (name : String) :
    mapFind (g.addVertex name).nodeToIndex name ≠ none := by
  unfold Graph.addVertex
  by_cases h : mapFind g.nodeToIndex name = none
  · rw [if_pos h]
    simp [mapFind_cons]
  · rw [if_neg h]
    exact h

theorem mapFind_addVertex_mono (g : Graph W) (name a : String)
    (h : mapFind g.nodeToIndex a ≠ none) :
    mapFind (g.addVertex name).nodeToIndex a = mapFind g.nodeToIndex a := by
  unfold Graph.addVertex
  by_cases hn : mapFind g.nodeToIndex name = none
  · rw [if_pos hn]
    simp only [mapFind_cons]
    by_cases ha : name = a
    · subst ha
      exact absurd hn h
    · rw [if_neg ha]
  · rw [if_neg hn]

theorem graphWF_addVertex (g : Graph W) (hg : GraphWF g) (name : String) :
    GraphWF (g.addVertex name) := by
  unfold Graph.addVertex
  by_cases h : mapFind g.nodeToIndex name = none
  · rw [if_pos h]
    have hn := hg.n_nonneg
    have hnl := hg.names_len
    refine ⟨by simp only; omega, ?_, ?_, ?_, ?_⟩
    · simp only [resizeTo_succ g.adjacencyList g.numVertices hg.n_nonneg hg.adj_len,
        List.length_append, List.length_singleton]
      have := hg.adj_len
      omega
    · simp only [List.length_append, List.length_singleton]
      omega
    · intro a i
      simp only [mapFind_cons]
      by_cases ha : name = a
      · subst ha
        rw [if_pos rfl]
        constructor
        · intro hi
          have hi2 : g.numVertices = i := Option.some.inj hi
          subst hi2
          refine ⟨hn, by omega, ?_⟩
          rw [List.getElem?_append_right (by omega)]
          have : g.numVertices.toNat - g.indexToNode.length = 0 := by omega
          rw [this]
          rfl
        · rintro ⟨h1, h2, h3⟩
          by_cases hlt : i < g.numVertices
          · rw [List.getElem?_append_left (by omega)] at h3
            have := (hg.find_iff name i).2 ⟨h1, hlt, h3⟩
            rw [h] at this
            cases this
          · have : i = g.numVertices := by omega
            rw [this]
      · rw [if_neg ha]
        rw [hg.find_iff a i]
        constructor
        · rintro ⟨h1, h2, h3⟩
          refine ⟨h1, by omega, ?_⟩
          rw [List.getElem?_append_left (by omega)]
          exact h3
        · rintro ⟨h1, h2, h3⟩
          by_cases hlt : i < g.numVertices
          · rw [List.getElem?_append_left (by omega)] at h3
            exact ⟨h1, hlt, h3⟩
          · rw [List.getElem?_append_right (by omega)] at h3
            have : i.toNat - g.indexToNode.length = 0 := by omega
            rw [this] at h3
            simp only [List.getElem?_cons_zero, Option.some.injEq] at h3
            exact absurd h3 ha
    · intro l hl e he
      simp only [resizeTo_succ g.adjacencyList g.numVertices hg.n_nonneg hg.adj_len,
        List.mem_append, List.mem_singleton] at hl
      rcases hl with hl | hl
      · have := hg.edge_valid l hl e he
        exact ⟨this.1, by simp only; omega⟩
      · subst hl
        cases he
  · rw [if_neg h]
    exact hg

theorem mapFind_valid (g : Graph W) (hg : GraphWF g) (name : String)
    (h : mapFind g.nodeToIndex name ≠ none) :
    0 ≤ (mapFind g.nodeToIndex name).getD 0 ∧
    (mapFind g.nodeToIndex name).getD 0 < g.numVertices := by
  cases hf : mapFind g.nodeToIndex name with
  | none => exact absurd hf h
  | some i =>
    have := (hg.find_iff name i).1 hf
    exact ⟨this.1, this.2.1⟩

theorem graphWF_addEdge (g : Graph W) (hg : GraphWF g) (a b : String) (w : W) :
    GraphWF (g.addEdge a b w) := by
  have h1 := graphWF_addVertex g hg a
  have h2 := graphWF_addVertex (g.addVertex a) h1 b
  have ha : mapFind ((g.addVertex a).addVertex b).nodeToIndex a ≠ none := by
    rw [mapFind_addVertex_mono _ b a (mapFind_addVertex_self g a)]
    exact mapFind_addVertex_self g a
  have hb : mapFind ((g.addVertex a).addVertex b).nodeToIndex b ≠ none :=
    mapFind_addVertex_self _ b
  obtain ⟨a1, a2⟩ := mapFind_valid _ h2 a ha
  obtain ⟨b1, b2⟩ := mapFind_valid _ h2 b hb
  unfold Graph.addEdge
  refine ⟨h2.n_nonneg, ?_, h2.names_len, h2.find_iff, ?_⟩
  · simp only [length_pushBackAt]
    exact h2.adj_len
  · intro l hl e he
    simp only at hl
    rcases mem_pushBackAt _ _ _ l hl with hl1 | ⟨y, hy, rfl⟩
    · rcases mem_pushBackAt _ _ _ l hl1 with hl2 | ⟨y, hy, rfl⟩
      · exact h2.edge_valid l hl2 e he
      · rcases List.mem_append.1 he with he1 | he1
        · exact h2.edge_valid y hy e he1
        · rw [List.mem_singleton.1 he1]
          exact ⟨b1, b2⟩
    · rcases List.mem_append.1 he with he1 | he1
      · rcases mem_pushBackAt _ _ _ y hy with hl2 | ⟨z, hz, rfl⟩
        · exact h2.edge_valid y hl2 e he1
        · rcases List.mem_append.1 he1 with he2 | he2
          · exact h2.edge_valid z hz e he2
          · rw [List.mem_singleton.1 he2]
            exact ⟨b1, b2⟩
      · rw [List.mem_singleton.1 he1]
        exact ⟨a1, a2⟩

/-- Every graph built through the interface satisfies the representation invariant. -/
theorem Built.graphWF {g : Graph W} (h : Built g) : GraphWF g := by
  induction h with
  | empty => exact graphWF_empty
  | addVertex name _ ih => exact graphWF_addVertex _ ih name
  | addEdge a b w _ ih => exact graphWF_addEdge _ ih a b w

/-- A known name has a valid index whose name it is. -/
theorem getVertexIndex_spec (g : Graph W) (hg : GraphWF g) (name : String)
    (h : g.getVertexIndex name ≠ -1) :
    0 ≤ g.getVertexIndex name ∧ g.getVertexIndex name < g.numVertices ∧
    g.getVertexName (g.getVertexIndex name) = name := by
  unfold Graph.getVertexIndex at h ⊢
  cases hf : mapFind g.nodeToIndex name with
  | none => rw [hf] at h; exact absurd rfl h
  | some i =>
    simp only
    obtain ⟨h1, h2, h3⟩ := (hg.find_iff name i).1 hf
    refine ⟨h1, h2, ?_⟩
    unfold Graph.getVertexName
    rw [if_pos ⟨h1, h2⟩, List.getD_eq_getElem?_getD, h3]
    rfl

/-- A valid index is the index of its name. -/
theorem getVertexIndex_getVertexName (g : Graph W) (hg : GraphWF g) (i : Int) (h0 : 0 ≤ i)
    (h1 : i < g.numVertices) : g.getVertexIndex (g.getVertexName i) = i := by
  have hlen := hg.names_len
  have hlt : i.toNat < g.indexToNode.length := by omega
  have hname : g.indexToNode[i.toNat]? = some (g.getVertexName i) := by
    unfold Graph.getVertexName
    rw [if_pos ⟨h0, h1⟩, List.getD_eq_getElem?_getD, List.getElem?_eq_getElem hlt]
    rfl
  have := (hg.find_iff (g.getVertexName i) i).2 ⟨h0, h1, hname⟩
  unfold Graph.getVertexIndex
  rw [this]

theorem getNeighbors_valid (g : Graph W) (hg : GraphWF g) (u : Int) (e : Edge W)
    (he : e ∈ g.getNeighbors u) :
    0 ≤ u ∧ u < g.numVertices ∧ 0 ≤ e.destination ∧ e.destination < g.numVertices ∧
    ∃ l ∈ g.adjacencyList, e ∈ l := by
  unfold Graph.getNeighbors at he
  by_cases hu : u ≥ 0 ∧ u < g.numVertices
  · rw [if_pos hu] at he
    have hlen := hg.adj_len
    have hlt : u.toNat < g.adjacencyList.length := by omega
    rw [List.getD_eq_getElem?_getD, List.getElem?_eq_getElem hlt] at he
    have hmem : g.adjacencyList[u.toNat] ∈ g.adjacencyList := List.getElem_mem _
    have := hg.edge_valid _ hmem e he
    exact ⟨hu.1, hu.2, this.1, this.2, _, hmem, he⟩
  · rw [if_neg hu] at he
    cases he

/-! ### Paths and the priority queue -/

theorem weight_nonneg [LinearOrder W] [Zero W] [One W] [Neg W] [Add W]
    (g : Graph W) (hg : GraphWF g)
    (hnn : NonNegWeights g) (u : Int) (e : Edge W) (he : e ∈ g.getNeighbors u) :
    0 ≤ e.weight := by
  obtain ⟨_, _, _, _, l, hl, hel⟩ := getNeighbors_valid g hg u e he
  exact hnn l hl e hel

/-- A path ends at a vertex of the graph and, with non-negative weights, has non-negative
total weight. -/
theorem Walk.nonneg [LinearOrder W] [Zero W] [One W] [Neg W] [Add W]
    (hW : DoubleLaws W) {g : Graph W} (hg : GraphWF g)
    (hnn : NonNegWeights g) {u v : Int} {c : W} (h : Walk g u v c) :
    0 ≤ c ∧ 0 ≤ v ∧ v < g.numVertices := by
  induction h with
  | refl h0 h1 => exact ⟨le_refl _, h0, h1⟩
  | step e _ he ih =>
    obtain ⟨_, _, d1, d2, _⟩ := getNeighbors_valid g hg _ e he
    exact ⟨le_trans ih.1 (hW.le_add _ _ ih.1 (weight_nonneg g hg hnn _ e he)), d1, d2⟩

theorem pqTop_eq_none [LinearOrder W] (q : List (W × Int)) (h : pqTop q = none) : q = [] := by
  cases q with
  | nil => rfl
  | cons x xs =>
    unfold pqTop at h
    cases hx : pqTop xs with
    | none => rw [hx] at h; cases h
    | some y =>
      rw [hx] at h
      simp only at h
      split at h <;> cases h

/-- The element returned by `top()` is in the queue and no element has a smaller first
component. -/
theorem pqTop_spec [LinearOrder W] (q : List (W × Int)) :
    ∀ x, pqTop q = some x → x ∈ q ∧ ∀ y ∈ q, x.1 ≤ y.1 := by
  induction q with
  | nil => intro x h; cases h
  | cons a xs ih =>
    intro x h
    unfold pqTop at h
    cases hx : pqTop xs with
    | none =>
      rw [hx] at h
      have hnil := pqTop_eq_none xs hx
      subst hnil
      have : a = x := Option.some.inj h
      subst this
      refine ⟨List.mem_singleton_self _, ?_⟩
      intro y hy
      rw [List.mem_singleton.1 hy]
    | some y =>
      rw [hx] at h
      simp only at h
      obtain ⟨hy1, hy2⟩ := ih y hx
      by_cases hlt : pairLt y a
      · rw [if_pos hlt] at h
        have : y = x := Option.some.inj h
        subst this
        refine ⟨List.mem_cons_of_mem _ hy1, ?_⟩
        intro z hz
        rcases List.mem_cons.1 hz with hz | hz
        · subst hz
          unfold pairLt at hlt
          rcases hlt with h1 | ⟨h1, _⟩
          · exact le_of_lt h1
          · exact le_of_not_lt h1
        · exact hy2 z hz
      · rw [if_neg hlt] at h
        have : a = x := Option.some.inj h
        subst this
        refine ⟨List.mem_cons_self _ _, ?_⟩
        intro z hz
        have hay : a.1 ≤ y.1 := by
          by_contra hc
          exact hlt (Or.inl (lt_of_not_le hc))
        rcases List.mem_cons.1 hz with hz | hz
        · subst hz
          exact le_refl _
        · exact le_trans hay (hy2 z hz)

theorem pqPop_of_top [LinearOrder W] (q : List (W × Int)) (x : W × Int)
    (h : pqTop q = some x) : pqPop q = q.erase x := by
  unfold pqPop
  rw [h]

/-! ### The search loop: initial state and stale queue entries -/

theorem readAt_replicate {α : Type} [Zero α] (n : Nat) (x : α) (v : Int) (h0 : 0 ≤ v)
    (h1 : v < (n : Int)) : readAt (List.replicate n x) v = x := by
  unfold readAt
  rw [List.getD_eq_getElem?_getD, List.getElem?_replicate, if_pos (by omega)]
  rfl

/-- The state before the first iteration satisfies the loop invariant. -/
theorem searchInv_init [LinearOrder W] [Zero W] [One W] [Neg W] [Add W]
    (g : Graph W) (hg : GraphWF g) (s : Int) (M : W)
    (hM : 0 < M) (hs0 : 0 ≤ s) (hs1 : s < g.numVertices) :
    SearchInv g s M [] []
      { distances := writeAt (List.replicate g.getNumVertices.toNat M) s 0
        parent := List.replicate g.getNumVertices.toNat (-1)
        pq := pqPush [] (0, s) } := by
  have hn := hg.n_nonneg
  have hlen : ((List.replicate g.getNumVertices.toNat M).length : Int) = g.numVertices := by
    simp only [List.length_replicate, Graph.getNumVertices]
    omega
  have hcast : ((g.getNumVertices.toNat : Nat) : Int) = g.numVertices := by
    simp only [Graph.getNumVertices]
    omega
  have hd : ∀ v, 0 ≤ v → v < g.numVertices →
      readAt (writeAt (List.replicate g.getNumVertices.toNat M) s 0) v
        = if v = s then 0 else M := by
    intro v h0 h1
    rw [readAt_writeAt _ s v 0 hs0 h0 (by omega)]
    by_cases hv : v = s
    · rw [if_pos hv, if_pos hv]
    · rw [if_neg hv, if_neg hv, readAt_replicate _ _ v h0 (by omega)]
  refine ⟨⟨?_, ?_, ?_, ?_, ?_, ?_, List.nodup_nil, ?_, ?_⟩, ?_, ?_, ?_, ?_, ?_, ?_, ?_⟩
  · simp only [length_writeAt]
    exact hlen
  · simp only [List.length_replicate]
    exact hcast
  · simp only [hd s hs0 hs1, if_true]
  · exact readAt_replicate _ _ s hs0 (by omega)
  · intro v h0 h1 hlt
    simp only [hd v h0 h1] at hlt ⊢
    by_cases hv : v = s
    · subst hv
      rw [if_pos rfl]
      exact Walk.refl h0 h1
    · rw [if_neg hv] at hlt
      exact absurd hlt (lt_irrefl _)
  · intro u hu
    cases hu
  · intro v h0 h1 hlt hv
    simp only [hd v h0 h1, if_neg hv] at hlt
    exact absurd hlt (lt_irrefl _)
  · intro l1 u l2 h
    cases l1 <;> cases h
  · intro v h0 h1
    simp only [hd v h0 h1]
    split
    · exact le_of_lt hM
    · exact le_refl _
  · intro x hx
    simp only [pqPush, List.mem_singleton] at hx
    subst hx
    simp only [hd s hs0 hs1, if_true]
    exact ⟨hs0, hs1, le_refl _, hM⟩
  · simp [pqPush]
  · intro v h0 h1 hlt
    simp only [hd v h0 h1] at hlt ⊢
    by_cases hv : v = s
    · subst hv
      right
      simp [pqPush]
    · rw [if_neg hv] at hlt
      exact absurd hlt (lt_irrefl _)
  · intro u hu
    cases hu
  · intro u hu
    cases hu
  · intro u hu
    cases hu

/-- Lower bound at the head of the outer loop: the weight of any path from the source
to `x` is at least `distances[x]`, or at least the key of some queue element. -/
theorem walk_lower_bound [LinearOrder W] [Zero W] [One W] [Neg W] [Add W]
    (hW : DoubleLaws W) (g : Graph W) (hg : GraphWF g)
    (hnn : NonNegWeights g) (s : Int) (M : W) (done : List Int) (st : SearchState W)
    (inv : SearchInv g s M done [] st) (x : Int) (c : W) (hw : Walk g s x c) :
    readAt st.distances x ≤ c ∨ ∃ y ∈ st.pq, y.1 ≤ c := by
  induction hw with
  | refl h0 h1 =>
    left
    rw [inv.d_src]
  | @step v c e hw he ih =>
    obtain ⟨v0, v1, d0, d1, _⟩ := getNeighbors_valid g hg v e he
    have hw0 := weight_nonneg g hg hnn v e he
    have hc0 := (Walk.nonneg hW hg hnn hw).1
    have hstep : c ≤ c + e.weight := hW.le_add c e.weight hc0 hw0
    rcases ih with h | ⟨y, hy, hyc⟩
    · by_cases hlt : readAt st.distances v < M
      · have hd0 := (Walk.nonneg hW hg hnn (inv.walk_of_d v v0 v1 hlt)).1
        rcases inv.cover v v0 v1 hlt with hd | hq
        · rcases inv.relaxed v hd e he with ⟨_, hin⟩ | hr
          · cases hin
          · left
            exact le_trans hr (hW.add_le_add _ _ _ hd0 h hw0)
        · right
          exact ⟨_, hq, le_trans h hstep⟩
      · left
        have hM : M ≤ c := le_trans (le_of_not_lt hlt) h
        exact le_trans (inv.d_le _ d0 d1) (le_trans hM hstep)
    · right
      exact ⟨y, hy, le_trans hyc hstep⟩

/-- A stale queue element is dropped: the invariant is kept. -/
theorem searchInv_stale [LinearOrder W] [Zero W] [One W] [Neg W] [Add W]
    (g : Graph W) (s : Int) (M : W)
    (done : List Int) (st : SearchState W) (inv : SearchInv g s M done [] st) (k : W) (u : Int)
    (hstale : k > readAt st.distances u) :
    SearchInv g s M done [] { st with pq := st.pq.erase (k, u) } := by
  refine ⟨⟨inv.len_d, inv.len_p, inv.d_src, inv.p_src, inv.walk_of_d, inv.done_valid,
    inv.done_nodup, inv.parent_ok, inv.parent_order⟩, inv.d_le, ?_, ?_, ?_, inv.done_opt, ?_,
    inv.relaxed⟩
  · intro x hx
    exact inv.pq_valid x (List.mem_of_mem_erase hx)
  · exact inv.pq_nodup.erase _
  · intro v h0 h1 hlt
    rcases inv.cover v h0 h1 hlt with h | h
    · exact Or.inl h
    · right
      apply (List.mem_erase_of_ne ?_).2 h
      intro heq
      simp only [Prod.mk.injEq] at heq
      rw [← heq.2, heq.1] at hstale
      exact lt_irrefl _ hstale
  · intro v hv x hx hxv
    exact inv.done_stale v hv x (List.mem_of_mem_erase hx) hxv

/-! ### The search loop: taking a vertex from the queue -/

/-- A queue element that is not stale carries the final distance of its vertex; the
vertex joins `done` with all its edges still to relax. -/
theorem searchInv_promote [LinearOrder W] [Zero W] [One W] [Neg W] [Add W]
    (hW : DoubleLaws W) (g : Graph W) (hg : GraphWF g)
    (hnn : NonNegWeights g) (s : Int) (M : W) (done : List Int) (st : SearchState W)
    (inv : SearchInv g s M done [] st) (k : W) (u : Int) (htop : pqTop st.pq = some (k, u))
    (hns : ¬ k > readAt st.distances u) :
    k = readAt st.distances u ∧ 0 ≤ u ∧ u < g.numVertices ∧ readAt st.distances u < M ∧
    u ∉ done ∧ (∀ c, Walk g s u c → readAt st.distances u ≤ c) ∧
    SearchInv g s M (u :: done) (g.getNeighbors u) { st with pq := st.pq.erase (k, u) } := by
  obtain ⟨hmem, hmin⟩ := pqTop_spec st.pq (k, u) htop
  obtain ⟨u0, u1, hdk, hkM⟩ := inv.pq_valid (k, u) hmem
  simp only at u0 u1 hdk hkM
  have hk : k = readAt st.distances u := le_antisymm (le_of_not_lt hns) hdk
  have hdM : readAt st.distances u < M := by rw [← hk]; exact hkM
  have hnd : u ∉ done := by
    intro hd
    have := inv.done_stale u hd (k, u) hmem rfl
    simp only at this
    rw [hk] at this
    exact lt_irrefl _ this
  have hopt : ∀ c, Walk g s u c → readAt st.distances u ≤ c := by
    intro c hw
    rcases walk_lower_bound hW g hg hnn s M done st inv u c hw with h | ⟨y, hy, hyc⟩
    · exact h
    · rw [← hk]
      exact le_trans (hmin y hy) hyc
  refine ⟨hk, u0, u1, hdM, hnd, hopt, ⟨⟨inv.len_d, inv.len_p, inv.d_src, inv.p_src,
    inv.walk_of_d, ?_, List.nodup_cons.2 ⟨hnd, inv.done_nodup⟩, ?_, ?_⟩, inv.d_le, ?_, ?_, ?_,
    ?_, ?_, ?_⟩⟩
  · intro x hx
    rcases List.mem_cons.1 hx with hx | hx
    · subst hx
      exact ⟨u0, u1, hdM⟩
    · exact inv.done_valid x hx
  · intro v h0 h1 hlt hv
    obtain ⟨h2, h3⟩ := inv.parent_ok v h0 h1 hlt hv
    exact ⟨List.mem_cons_of_mem _ h2, h3⟩
  · intro l1 x l2 h hx
    cases l1 with
    | nil =>
      simp only [List.nil_append, List.cons.injEq] at h
      obtain ⟨h1, h2⟩ := h
      subst h1
      subst h2
      exact (inv.parent_ok u u0 u1 hdM hx).1
    | cons a l1 =>
      simp only [List.cons_append, List.cons.injEq] at h
      exact inv.parent_order l1 x l2 h.2 hx
  · intro x hx
    exact inv.pq_valid x (List.mem_of_mem_erase hx)
  · exact inv.pq_nodup.erase _
  · intro v h0 h1 hlt
    rcases inv.cover v h0 h1 hlt with h | h
    · exact Or.inl (List.mem_cons_of_mem _ h)
    · by_cases heq : (readAt st.distances v, v) = (k, u)
      · simp only [Prod.mk.injEq] at heq
        left
        rw [heq.2]
        exact List.mem_cons_self _ _
      · right
        exact (List.mem_erase_of_ne heq).2 h
  · intro x hx c hw
    rcases List.mem_cons.1 hx with hx | hx
    · subst hx
      exact hopt c hw
    · exact inv.done_opt x hx c hw
  · intro x hx y hy hyx
    rcases List.mem_cons.1 hx with hx | hx
    · subst hx
      obtain ⟨hne, hyin⟩ := (inv.pq_nodup.mem_erase_iff).1 hy
      obtain ⟨_, _, hle, _⟩ := inv.pq_valid y hyin
      rw [hyx] at hle
      refine lt_of_le_of_ne hle ?_
      intro heq
      apply hne
      rw [hk, heq, ← hyx]
    · exact inv.done_stale x hx y (List.mem_of_mem_erase hy) hyx
  · intro x hx e he
    rcases List.mem_cons.1 hx with hx | hx
    · subst hx
      exact Or.inl ⟨rfl, he⟩
    · rcases inv.relaxed x hx e he with ⟨_, hin⟩ | hr
      · cases hin
      · exact Or.inr hr

/-! ### The search loop: relaxing an edge -/

/-- One iteration of the inner loop keeps the invariant, relaxes the edge it visits,
leaves the distance of the current vertex alone and pushes at most one element. -/
theorem searchInv_relax [LinearOrder W] [Zero W] [One W] [Neg W] [Add W]
    (hW : DoubleLaws W) (g : Graph W) (hg : GraphWF g)
    (hnn : NonNegWeights g) (s : Int) (M : W) (u : Int) (done : List Int) (e : Edge W)
    (todo : List (Edge W)) (st : SearchState W)
    (inv : SearchInv g s M (u :: done) (e :: todo) st) (he : e ∈ g.getNeighbors u)
    (hs0 : 0 ≤ s) :
    SearchInv g s M (u :: done) todo (relax (readAt st.distances u) u st e) ∧
    readAt (relax (readAt st.distances u) u st e).distances u = readAt st.distances u ∧
    (relax (readAt st.distances u) u st e).pq.length ≤ st.pq.length + 1 := by
  obtain ⟨u0, u1, v0, v1, _⟩ := getNeighbors_valid g hg u e he
  have hw0 := weight_nonneg g hg hnn u e he
  have hu := inv.done_valid u (List.mem_cons_self _ _)
  have hwalk : Walk g s e.destination (readAt st.distances u + e.weight) :=
    Walk.step e (inv.walk_of_d u u0 u1 hu.2.2) he
  have hrelax_old : ∀ x ∈ u :: done, ∀ e2 ∈ g.getNeighbors x,
      (readAt st.distances e.destination ≤ readAt st.distances u + e.weight) →
      ((u :: done).head? = some x ∧ e2 ∈ todo) ∨
        readAt st.distances e2.destination ≤ readAt st.distances x + e2.weight := by
    intro x hx e2 he2 hle
    rcases inv.relaxed x hx e2 he2 with ⟨hh, hin⟩ | hr
    · rcases List.mem_cons.1 hin with h | h
      · right
        have hxu : u = x := by
          simp only [List.head?_cons, Option.some.injEq] at hh
          exact hh
        rw [h, ← hxu]
        exact hle
      · exact Or.inl ⟨hh, h⟩
    · exact Or.inr hr
  unfold relax
  simp only
  by_cases hlt : readAt st.distances u + e.weight < readAt st.distances e.destination
  · rw [if_pos hlt]
    have hvnd : e.destination ∉ u :: done := by
      intro hd
      exact absurd (inv.done_opt _ hd _ hwalk) (not_le_of_lt hlt)
    have hvs : e.destination ≠ s := by
      intro h
      rw [h, inv.d_src] at hlt
      have h2 := (Walk.nonneg hW hg hnn hwalk).1
      exact absurd h2 (not_le_of_lt hlt)
    have hvu : u ≠ e.destination := by
      intro h
      apply hvnd
      rw [← h]
      exact List.mem_cons_self _ _
    have hlen_d := inv.len_d
    have hlen_p := inv.len_p
    have hd : ∀ x, 0 ≤ x →
        readAt (writeAt st.distances e.destination (readAt st.distances u + e.weight)) x
          = if x = e.destination then readAt st.distances u + e.weight
            else readAt st.distances x := by
      intro x hx
      exact readAt_writeAt _ _ x _ v0 hx (by omega)
    have hp : ∀ x, 0 ≤ x →
        readAt (writeAt st.parent e.destination u) x
          = if x = e.destination then u else readAt st.parent x := by
      intro x hx
      exact readAt_writeAt _ _ x _ v0 hx (by omega)
    have hdle : ∀ x, 0 ≤ x →
        readAt (writeAt st.distances e.destination (readAt st.distances u + e.weight)) x
          ≤ readAt st.distances x := by
      intro x hx
      rw [hd x hx]
      split
      · rename_i h
        rw [h]
        exact le_of_lt hlt
      · exact le_refl _
    have hdone : ∀ x ∈ u :: done,
        readAt (writeAt st.distances e.destination (readAt st.distances u + e.weight)) x
          = readAt st.distances x := by
      intro x hx
      rw [hd x (inv.done_valid x hx).1, if_neg]
      intro h
      rw [h] at hx
      exact hvnd hx
    have hnewM : readAt st.distances u + e.weight < M :=
      lt_of_lt_of_le hlt (inv.d_le _ v0 v1)
    refine ⟨⟨⟨?_, ?_, ?_, ?_, ?_, ?_, inv.done_nodup, ?_, ?_⟩, ?_, ?_, ?_, ?_, ?_, ?_, ?_⟩,
      hdone u (List.mem_cons_self _ _), ?_⟩
    · simp only [length_writeAt]; exact hlen_d
    · simp only [length_writeAt]; exact hlen_p
    · show readAt (writeAt st.distances e.destination _) s = 0
      rw [hd s hs0, if_neg (Ne.symm hvs)]
      exact inv.d_src
    · show readAt (writeAt st.parent e.destination u) s = -1
      rw [hp s hs0, if_neg (Ne.symm hvs)]
      exact inv.p_src
    · intro x x0 x1 hx
      simp only [hd x x0] at hx ⊢
      by_cases hxv : x = e.destination
      · rw [if_pos hxv, hxv]
        exact hwalk
      · rw [if_neg hxv] at hx ⊢
        exact inv.walk_of_d x x0 x1 hx
    · intro x hx
      have := inv.done_valid x hx
      simp only [hdone x hx]
      exact this
    · intro x x0 x1 hx hxs
      simp only [hd x x0, hp x x0] at hx ⊢
      by_cases hxv : x = e.destination
      · simp only [if_pos hxv]
        refine ⟨List.mem_cons_self _ _, e, he, hxv.symm, ?_⟩
        rw [hdone u (List.mem_cons_self _ _)]
      · simp only [if_neg hxv] at hx ⊢
        obtain ⟨h1, e2, h2, h3, h4⟩ := inv.parent_ok x x0 x1 hx hxs
        refine ⟨h1, e2, h2, h3, ?_⟩
        rw [hdone _ h1]
        exact h4
    · intro l1 x l2 h hxs
      have hx : x ∈ u :: done := by
        rw [h]
        exact List.mem_append_right _ (List.mem_cons_self _ _)
      simp only [hp x (inv.done_valid x hx).1]
      rw [if_neg]
      · exact inv.parent_order l1 x l2 h hxs
      · intro h2
        rw [h2] at hx
        exact hvnd hx
    · intro x x0 x1
      exact le_trans (hdle x x0) (inv.d_le x x0 x1)
    · intro x hx
      simp only [pqPush, List.mem_cons] at hx
      rcases hx with hx | hx
      · subst hx
        simp only [hd e.destination v0, if_true]
        exact ⟨v0, v1, le_refl _, hnewM⟩
      · obtain ⟨h1, h2, h3, h4⟩ := inv.pq_valid x hx
        exact ⟨h1, h2, le_trans (hdle x.2 h1) h3, h4⟩
    · simp only [pqPush]
      refine List.nodup_cons.2 ⟨?_, inv.pq_nodup⟩
      intro hin
      have := (inv.pq_valid _ hin).2.2.1
      simp only at this
      exact absurd this (not_le_of_lt hlt)
    · intro x x0 x1 hx
      simp only [hd x x0] at hx ⊢
      by_cases hxv : x = e.destination
      · right
        rw [if_pos hxv, hxv]
        exact List.mem_cons_self _ _
      · rw [if_neg hxv] at hx ⊢
        rcases inv.cover x x0 x1 hx with h | h
        · exact Or.inl h
        · exact Or.inr (List.mem_cons_of_mem _ h)
    · intro x hx c hw
      rw [hdone x hx]
      exact inv.done_opt x hx c hw
    · intro x hx y hy hyx
      rw [hdone x hx]
      simp only [pqPush, List.mem_cons] at hy
      rcases hy with hy | hy
      · subst hy
        simp only at hyx
        rw [← hyx] at hx
        exact absurd hx hvnd
      · exact inv.done_stale x hx y hy hyx
    · intro x hx e2 he2
      obtain ⟨_, _, w0, _, _⟩ := getNeighbors_valid g hg x e2 he2
      rcases inv.relaxed x hx e2 he2 with ⟨hh, hin⟩ | hr
      · rcases List.mem_cons.1 hin with h | h
        · right
          have hxu : u = x := by
            simp only [List.head?_cons, Option.some.injEq] at hh
            exact hh
          rw [hdone x hx, h, ← hxu, hd e.destination v0, if_pos rfl]
        · exact Or.inl ⟨hh, h⟩
      · right
        rw [hdone x hx]
        exact le_trans (hdle _ w0) hr
    · simp [pqPush]
  · rw [if_neg hlt]
    refine ⟨⟨inv.toPathInv, inv.d_le, inv.pq_valid, inv.pq_nodup, inv.cover, inv.done_opt,
      inv.done_stale, ?_⟩, rfl, by omega⟩
    intro x hx e2 he2
    exact hrelax_old x hx e2 he2 (le_of_not_lt hlt)

/-! ### The search loop: termination and result -/

theorem pendingEdges_cons (g : Graph W) (done : List Int) (u : Int) (u0 : 0 ≤ u)
    (u1 : u < g.numVertices) (hu : u ∉ done) :
    pendingEdges g (u :: done) + (g.getNeighbors u).length = pendingEdges g done := by
  unfold pendingEdges
  have hmem : u.toNat ∈ (Finset.range g.numVertices.toNat).filter
      (fun (v : Nat) => (v : Int) ∉ done) := by
    rw [Finset.mem_filter, Finset.mem_range]
    have : ((u.toNat : Nat) : Int) = u := by omega
    rw [this]
    exact ⟨by omega, hu⟩
  have hset : (Finset.range g.numVertices.toNat).filter (fun (v : Nat) => (v : Int) ∉ u :: done)
      = ((Finset.range g.numVertices.toNat).filter (fun (v : Nat) => (v : Int) ∉ done)).erase
        u.toNat := by
    ext v
    simp only [Finset.mem_filter, Finset.mem_range, Finset.mem_erase, List.mem_cons, not_or]
    constructor
    · rintro ⟨h1, h2, h3⟩
      exact ⟨by omega, h1, h3⟩
    · rintro ⟨h1, h2, h3⟩
      exact ⟨h2, by omega, h3⟩
  rw [hset]
  have h := Finset.sum_erase_add _ (fun v : Nat => (g.getNeighbors (v : Int)).length) hmem
  have hcast : ((u.toNat : Nat) : Int) = u := by omega
  simp only [hcast] at h
  exact h

theorem sum_getD_length {α : Type} (l : List (List α)) :
    ∑ v ∈ Finset.range l.length, (l.getD v []).length = (l.map List.length).sum := by
  induction l using List.reverseRecOn with
  | nil => rfl
  | append_singleton l a ih =>
    rw [List.length_append, List.length_singleton, Finset.sum_range_succ, List.map_append,
      List.sum_append]
    have h1 : ∀ v ∈ Finset.range l.length,
        ((l ++ [a]).getD v []).length = (l.getD v []).length := by
      intro v hv
      rw [Finset.mem_range] at hv
      simp only [List.getD_eq_getElem?_getD, List.getElem?_append_left hv]
    rw [Finset.sum_congr rfl h1, ih]
    simp [List.getD_eq_getElem?_getD]

theorem pendingEdges_nil (g : Graph W) (hg : GraphWF g) :
    pendingEdges g [] = (g.adjacencyList.map List.length).sum := by
  unfold pendingEdges
  have hlen := hg.adj_len
  have hn : g.numVertices.toNat = g.adjacencyList.length := by omega
  rw [← sum_getD_length, hn]
  have : (Finset.range g.adjacencyList.length).filter (fun (v : Nat) => (v : Int) ∉ ([] : List Int))
      = Finset.range g.adjacencyList.length := by
    ext v
    simp
  rw [this]
  apply Finset.sum_congr rfl
  intro v hv
  rw [Finset.mem_range] at hv
  unfold Graph.getNeighbors
  rw [if_pos ⟨by omega, by omega⟩]
  simp

/-- The inner loop keeps the invariant, relaxes every edge of the current vertex and
pushes at most one element per edge. -/
theorem searchInv_fold [LinearOrder W] [Zero W] [One W] [Neg W] [Add W]
    (hW : DoubleLaws W) (g : Graph W) (hg : GraphWF g)
    (hnn : NonNegWeights g) (s : Int) (M : W) (u : Int) (done : List Int) (hs0 : 0 ≤ s) :
    ∀ (todo : List (Edge W)) (st : SearchState W),
      SearchInv g s M (u :: done) todo st → (∀ e ∈ todo, e ∈ g.getNeighbors u) →
      SearchInv g s M (u :: done) [] (todo.foldl (relax (readAt st.distances u) u) st) ∧
      (todo.foldl (relax (readAt st.distances u) u) st).pq.length
        ≤ st.pq.length + todo.length := by
  intro todo
  induction todo with
  | nil =>
    intro st inv _
    exact ⟨inv, le_refl _⟩
  | cons e todo ih =>
    intro st inv hsub
    obtain ⟨inv1, hd1, hl1⟩ := searchInv_relax hW g hg hnn s M u done e todo st inv
      (hsub e (List.mem_cons_self _ _)) hs0
    obtain ⟨inv2, hl2⟩ := ih _ inv1 (fun e2 h2 => hsub e2 (List.mem_cons_of_mem _ h2))
    rw [hd1] at inv2 hl2
    rw [List.foldl_cons]
    refine ⟨inv2, ?_⟩
    rw [List.length_cons]
    omega

/-- With non-negative weights the search loop exits within `fuel` iterations, in a state
whose `distances[t]` is a lower bound of the weight of every path from the source to `t`
and whose parent links support the path reconstruction. -/
theorem searchLoop_spec [LinearOrder W] [Zero W] [One W] [Neg W] [Add W]
    (hW : DoubleLaws W) (g : Graph W) (hg : GraphWF g)
    (hnn : NonNegWeights g) (s t : Int) (M : W) (hs0 : 0 ≤ s) :
    ∀ (fuel : Nat) (done : List Int) (st : SearchState W), SearchInv g s M done [] st →
      st.pq.length + pendingEdges g done + 1 ≤ fuel →
      ∃ st2 done2, searchLoop g t fuel st = some st2 ∧ PathInv g s M done2 st2 ∧
        ∀ c, Walk g s t c → readAt st2.distances t ≤ c := by
  intro fuel
  induction fuel with
  | zero =>
    intro done st _ h
    omega
  | succ fuel ih =>
    intro done st inv hfuel
    unfold searchLoop
    cases htop : pqTop st.pq with
    | none =>
      have hnil := pqTop_eq_none st.pq htop
      refine ⟨st, done, rfl, inv.toPathInv, ?_⟩
      intro c hw
      rcases walk_lower_bound hW g hg hnn s M done st inv t c hw with h | ⟨y, hy, _⟩
      · exact h
      · rw [hnil] at hy
        cases hy
    | some x =>
      obtain ⟨k, u⟩ := x
      obtain ⟨hmem, _⟩ := pqTop_spec st.pq (k, u) htop
      have hlen : (st.pq.erase (k, u)).length + 1 = st.pq.length := by
        rw [List.length_erase_of_mem hmem]
        have : 0 < st.pq.length := List.length_pos_of_mem hmem
        omega
      simp only [pqPop_of_top st.pq (k, u) htop]
      by_cases hstale : k > readAt st.distances u
      · rw [if_pos hstale]
        exact ih done _ (searchInv_stale g s M done st inv k u hstale) (by simp only; omega)
      · rw [if_neg hstale]
        obtain ⟨hk, u0, u1, hdM, hnd, hopt, inv1⟩ :=
          searchInv_promote hW g hg hnn s M done st inv k u htop hstale
        by_cases hut : u = t
        · rw [if_pos hut]
          refine ⟨_, done, rfl, ⟨inv.len_d, inv.len_p, inv.d_src, inv.p_src, inv.walk_of_d,
            inv.done_valid, inv.done_nodup, inv.parent_ok, inv.parent_order⟩, ?_⟩
          intro c hw
          rw [← hut] at hw ⊢
          exact hopt c hw
        · rw [if_neg hut]
          have hsub : ∀ e ∈ g.getNeighbors u, e ∈ g.getNeighbors u := fun _ h => h
          obtain ⟨inv2, hl2⟩ := searchInv_fold hW g hg hnn s M u done hs0 (g.getNeighbors u)
            { st with pq := st.pq.erase (k, u) } inv1 hsub
          simp only at inv2 hl2
          rw [← hk] at inv2 hl2
          have hp := pendingEdges_cons g done u u0 u1 hnd
          exact ih (u :: done) _ inv2 (by omega)

/-! ### Path reconstruction -/

theorem pathLoop_step (g : Graph W) (parent : List Int) (fuel : Nat) (current : Int)
    (path : List String) (h : current ≠ -1) :
    pathLoop g parent (fuel + 1) current path
      = pathLoop g parent fuel (readAt parent current) (path ++ [g.getVertexName current]) := by
  rw [pathLoop, if_pos h]

theorem pathLoop_stop (g : Graph W) (parent : List Int) (fuel : Nat) (path : List String) :
    pathLoop g parent (fuel + 1) (-1) path = some path := by
  rw [pathLoop, if_neg (by simp)]

/-- Following the parent links from a vertex of `done` collects the names of a path from
the source whose weight is the distance of that vertex. -/
theorem pathLoop_chain [LinearOrder W] [Zero W] [One W] [Neg W] [Add W]
    (g : Graph W) (hg : GraphWF g) (s : Int) (M : W)
    (done : List Int) (st : SearchState W) (inv : PathInv g s M done st) (hs0 : 0 ≤ s)
    (hs1 : s < g.numVertices) :
    ∀ (m : Nat) (l1 : List Int) (u : Int) (l2 : List Int), done = l1 ++ u :: l2 →
      l2.length ≤ m → ∀ (acc : List String) (fuel : Nat), m + 2 ≤ fuel →
      ∃ rest : List String,
        pathLoop g st.parent fuel u acc = some (acc ++ g.getVertexName u :: rest) ∧
        PathCost g (rest.reverse ++ [g.getVertexName u]) (readAt st.distances u) ∧
        (rest.reverse ++ [g.getVertexName u]).head? = some (g.getVertexName s) := by
  have hsrc : ∀ (acc : List String) (fuel : Nat), 2 ≤ fuel →
      ∃ rest : List String,
        pathLoop g st.parent fuel s acc = some (acc ++ g.getVertexName s :: rest) ∧
        PathCost g (rest.reverse ++ [g.getVertexName s]) (readAt st.distances s) ∧
        (rest.reverse ++ [g.getVertexName s]).head? = some (g.getVertexName s) := by
    intro acc fuel hf
    obtain ⟨f, rfl⟩ : ∃ f, fuel = f + 2 := ⟨fuel - 2, by omega⟩
    refine ⟨[], ?_, ?_, rfl⟩
    · rw [pathLoop_step g st.parent (f + 1) s acc (by omega), inv.p_src, pathLoop_stop]
    · rw [inv.d_src]
      apply PathCost.single
      rw [getVertexIndex_getVertexName g hg s hs0 hs1]
      omega
  intro m
  induction m with
  | zero =>
    intro l1 u l2 hdone hlen acc fuel hf
    by_cases hus : u = s
    · rw [hus]
      exact hsrc acc fuel (by omega)
    · have := inv.parent_order l1 u l2 hdone hus
      have hnil : l2 = [] := List.length_eq_zero.1 (by omega)
      rw [hnil] at this
      cases this
  | succ m ih =>
    intro l1 u l2 hdone hlen acc fuel hf
    by_cases hus : u = s
    · rw [hus]
      exact hsrc acc fuel (by omega)
    · have hu : u ∈ done := by
        rw [hdone]
        exact List.mem_append_right _ (List.mem_cons_self _ _)
      obtain ⟨u0, u1, udM⟩ := inv.done_valid u hu
      have hp := inv.parent_order l1 u l2 hdone hus
      obtain ⟨a, b, hab⟩ := List.append_of_mem hp
      obtain ⟨hpd, e, he, hed, hcost⟩ := inv.parent_ok u u0 u1 udM hus
      obtain ⟨p0, p1, _⟩ := inv.done_valid _ hpd
      have hdone2 : done = (l1 ++ u :: a) ++ readAt st.parent u :: b := by
        rw [hdone, hab]
        simp
      have hblen : b.length ≤ m := by
        rw [hab, List.length_append, List.length_cons] at hlen
        omega
      obtain ⟨f, rfl⟩ : ∃ f, fuel = f + 1 := ⟨fuel - 1, by omega⟩
      obtain ⟨rest, hrun, hpc, hhead⟩ := ih (l1 ++ u :: a) (readAt st.parent u) b hdone2 hblen
        (acc ++ [g.getVertexName u]) f (by omega)
      refine ⟨g.getVertexName (readAt st.parent u) :: rest, ?_, ?_, ?_⟩
      · rw [pathLoop_step g st.parent f u acc (by omega), hrun]
        simp
      · have hsnoc := PathCost.snoc rest.reverse (g.getVertexName (readAt st.parent u))
          (g.getVertexName u) (readAt st.distances (readAt st.parent u)) e hpc
          (by rw [getVertexIndex_getVertexName g hg _ p0 p1]; exact he)
          (by rw [getVertexIndex_getVertexName g hg _ u0 u1]; exact hed)
        rw [hcost] at hsnoc
        simpa using hsnoc
      · rw [List.reverse_cons, List.append_assoc, List.head?_append]
        rw [List.head?_append] at hhead
        cases hr : rest.reverse.head? with
        | none =>
          rw [hr] at hhead
          simp only [Option.or, List.head?_cons] at hhead ⊢
          simp only [List.singleton_append, List.head?_cons]
          exact hhead
        | some x =>
          rw [hr] at hhead
          simp only [Option.or] at hhead ⊢
          exact hhead

theorem done_length_le [LinearOrder W] [Zero W] [One W] [Neg W] [Add W]
    (g : Graph W) (s : Int) (M : W)
    (done : List Int) (st : SearchState W) (inv : PathInv g s M done st) :
    done.length ≤ g.numVertices.toNat := by
  rw [← List.toFinset_card_of_nodup inv.done_nodup]
  have hsub : done.toFinset ⊆ Finset.Ico (0 : Int) g.numVertices := by
    intro x hx
    rw [List.mem_toFinset] at hx
    obtain ⟨h0, h1, _⟩ := inv.done_valid x hx
    exact Finset.mem_Ico.2 ⟨h0, h1⟩
  have := Finset.card_le_card hsub
  rw [Int.card_Ico] at this
  simpa using this

/-- The path loop started at a reached vertex `t ≠ s` returns, reversed, a path from the
source to `t` whose weight is `distances[t]`. -/
theorem pathLoop_spec [LinearOrder W] [Zero W] [One W] [Neg W] [Add W]
    (g : Graph W) (hg : GraphWF g) (s t : Int) (M : W)
    (done : List Int) (st : SearchState W) (inv : PathInv g s M done st) (hs0 : 0 ≤ s)
    (hs1 : s < g.numVertices) (ht0 : 0 ≤ t) (ht1 : t < g.numVertices) (hts : t ≠ s)
    (hd : readAt st.distances t < M) (fuel : Nat) (hf : g.numVertices.toNat + 3 ≤ fuel) :
    ∃ path : List String, pathLoop g st.parent fuel t [] = some path ∧
      PathCost g path.reverse (readAt st.distances t) ∧
      path.reverse.head? = some (g.getVertexName s) ∧
      path.reverse.getLast? = some (g.getVertexName t) := by
  obtain ⟨hpd, e, he, hed, hcost⟩ := inv.parent_ok t ht0 ht1 hd hts
  obtain ⟨p0, p1, _⟩ := inv.done_valid _ hpd
  obtain ⟨a, b, hab⟩ := List.append_of_mem hpd
  have hlen := done_length_le g s M done st inv
  have hblen : b.length ≤ done.length - 1 := by
    rw [hab, List.length_append, List.length_cons]
    omega
  obtain ⟨f, rfl⟩ : ∃ f, fuel = f + 1 := ⟨fuel - 1, by omega⟩
  obtain ⟨rest, hrun, hpc, hhead⟩ := pathLoop_chain g hg s M done st inv hs0 hs1
    (done.length - 1) a (readAt st.parent t) b hab hblen ([] ++ [g.getVertexName t]) f
    (by omega)
  refine ⟨g.getVertexName t :: g.getVertexName (readAt st.parent t) :: rest, ?_, ?_, ?_, ?_⟩
  · rw [pathLoop_step g st.parent f t [] (by omega), hrun]
    simp
  · have hsnoc := PathCost.snoc rest.reverse (g.getVertexName (readAt st.parent t))
      (g.getVertexName t) (readAt st.distances (readAt st.parent t)) e hpc
      (by rw [getVertexIndex_getVertexName g hg _ p0 p1]; exact he)
      (by rw [getVertexIndex_getVertexName g hg _ ht0 ht1]; exact hed)
    rw [hcost] at hsnoc
    simpa using hsnoc
  · have : (g.getVertexName t :: g.getVertexName (readAt st.parent t) :: rest).reverse
        = (rest.reverse ++ [g.getVertexName (readAt st.parent t)]) ++ [g.getVertexName t] := by
      simp
    rw [this, List.head?_append, hhead]
    rfl
  · rw [List.reverse_cons, List.getLast?_concat]

/-! ### Contract of `findShortestPath` -/

/-- Distinct known names have distinct indices. -/
theorem getVertexIndex_injective (g : Graph W) (hg : GraphWF g) (a b : String)
    (ha : g.getVertexIndex a ≠ -1) (hb : g.getVertexIndex b ≠ -1)
    (h : g.getVertexIndex a = g.getVertexIndex b) : a = b := by
  have h1 := (getVertexIndex_spec g hg a ha).2.2
  have h2 := (getVertexIndex_spec g hg b hb).2.2
  rw [← h1, ← h2, h]

/-- Functional correctness of `findShortestPath` for distinct known end points joined by a
path lighter than the sentinel. -/
theorem findShortestPath_spec [LinearOrder W] [Zero W] [One W] [Neg W] [Add W]
    (hW : DoubleLaws W) (M : W) (g : Graph W) (hg : GraphWF g)
    (hnn : NonNegWeights g) (source destination : String)
    (hs : g.getVertexIndex source ≠ -1) (ht : g.getVertexIndex destination ≠ -1)
    (hne : source ≠ destination)
    (hw : ∃ c, Walk g (g.getVertexIndex source) (g.getVertexIndex destination) c ∧ c < M)
    (fuel : Nat) (hf : fuelBound g ≤ fuel) :
    ∃ cost path, findShortestPath M g fuel source destination = some (.ok (cost, path)) ∧
      Walk g (g.getVertexIndex source) (g.getVertexIndex destination) cost ∧
      (∀ c, Walk g (g.getVertexIndex source) (g.getVertexIndex destination) c → cost ≤ c) ∧
      PathCost g path cost ∧ path.head? = some source ∧ path.getLast? = some destination := by
  obtain ⟨s0, s1, sname⟩ := getVertexIndex_spec g hg source hs
  obtain ⟨t0, t1, tname⟩ := getVertexIndex_spec g hg destination ht
  obtain ⟨c, hc, hcM⟩ := hw
  have hM : 0 < M := lt_of_le_of_lt (Walk.nonneg hW hg hnn hc).1 hcM
  have hst : g.getVertexIndex source ≠ g.getVertexIndex destination :=
    fun h => hne (getVertexIndex_injective g hg source destination hs ht h)
  have hinit := searchInv_init g hg (g.getVertexIndex source) M hM s0 s1
  have hfuel : fuelBound g = (g.adjacencyList.map List.length).sum + g.numVertices.toNat + 3 :=
    rfl
  obtain ⟨st2, done2, hrun, hinv, hopt⟩ := searchLoop_spec hW g hg hnn (g.getVertexIndex source)
    (g.getVertexIndex destination) M s0 fuel [] _ hinit (by
      rw [pendingEdges_nil g hg]
      simp only [pqPush, List.length_cons, List.length_nil]
      omega)
  have hdM : readAt st2.distances (g.getVertexIndex destination) < M :=
    lt_of_le_of_lt (hopt c hc) hcM
  obtain ⟨path, hpath, hpc, hhead, hlast⟩ := pathLoop_spec g hg (g.getVertexIndex source)
    (g.getVertexIndex destination) M done2 st2 hinv s0 s1 t0 t1 (Ne.symm hst) hdM fuel
    (by omega)
  refine ⟨readAt st2.distances (g.getVertexIndex destination), path.reverse, ?_,
    hinv.walk_of_d _ t0 t1 hdM, hopt, hpc, ?_, ?_⟩
  · unfold findShortestPath
    simp only [if_neg hs, if_neg ht, if_neg hst, hrun, if_neg (ne_of_lt hdM), hpath]
  · rw [hhead, sname]
  · rw [hlast, tname]

/-- When source and destination are the same known vertex the result is `(0, [source])`. -/
theorem findShortestPath_same [LinearOrder W] [Zero W] [One W] [Neg W] [Add W]
    (M : W) (g : Graph W) (fuel : Nat)
    (source : String) (hs : g.getVertexIndex source ≠ -1) :
    findShortestPath M g fuel source source = some (.ok (0, [source])) := by
  unfold findShortestPath
  simp only [if_neg hs, if_true]

/-! ### Arithmetics that satisfy `DoubleLaws`: binary64 and exact numbers -/

theorem magnitude_lt_succ (n : Nat) : magnitude n < magnitude (n + 1) := by
  unfold magnitude
  simp only [Nat.shiftLeft_eq]
  by_cases hm : n % 4503599627370496 + 1 < 4503599627370496
  · have h1 : (n + 1) / 4503599627370496 = n / 4503599627370496 := by omega
    have h2 : (n + 1) % 4503599627370496 = n % 4503599627370496 + 1 := by omega
    rw [h1, h2]
    split_ifs with he
    · omega
    · exact Nat.mul_lt_mul_of_pos_right (by omega) (Nat.two_pow_pos _)
  · have h1 : (n + 1) / 4503599627370496 = n / 4503599627370496 + 1 := by omega
    have h2 : (n + 1) % 4503599627370496 = 0 := by omega
    have h3 : n % 4503599627370496 = 4503599627370495 := by omega
    rw [h1, h2, h3, if_neg (Nat.succ_ne_zero _), Nat.add_sub_cancel]
    split_ifs with he
    · rw [he, pow_zero]
      omega
    · obtain ⟨k, hk⟩ : ∃ k, n / 4503599627370496 = k + 1 :=
        ⟨n / 4503599627370496 - 1, by omega⟩
      rw [hk, Nat.add_sub_cancel, pow_succ]
      have := Nat.two_pow_pos k
      nlinarith

theorem magnitude_strictMono : StrictMono magnitude :=
  strictMono_nat_of_lt_succ magnitude_lt_succ

theorem floorLoop_spec (s : Nat) :
    ∀ p acc, magnitude acc ≤ s → s < magnitude (acc + 2 ^ p) →
      magnitude (floorLoop s p acc) ≤ s ∧ s < magnitude (floorLoop s p acc + 1) := by
  intro p
  induction p with
  | zero => exact fun acc h1 h2 => ⟨h1, h2⟩
  | succ p ih =>
    intro acc h1 h2
    show magnitude (floorLoop s p _) ≤ s ∧ s < magnitude (floorLoop s p _ + 1)
    split_ifs with h
    · refine ih _ h ?_
      rw [add_assoc, ← two_mul, ← pow_succ']
      exact h2
    · exact ih _ h1 (not_le.1 h)

theorem floorBits_spec (s : Nat) (h : s < magnitude infBits) :
    magnitude (floorBits s) ≤ s ∧ s < magnitude (floorBits s + 1) := by
  refine floorLoop_spec s 63 0 (Nat.zero_le _) (lt_trans h (magnitude_strictMono ?_))
  decide

theorem le_floorBits_iff (s : Nat) (h : s < magnitude infBits) (n : Nat) :
    n ≤ floorBits s ↔ magnitude n ≤ s := by
  obtain ⟨h1, h2⟩ := floorBits_spec s h
  constructor
  · exact fun hn => le_trans (magnitude_strictMono.monotone hn) h1
  · intro hn
    by_contra hlt
    exact absurd (lt_of_lt_of_le h2 (magnitude_strictMono.monotone (not_le.1 hlt)))
      (not_lt.2 hn)

theorem floorBits_lt_inf (s : Nat) (h : s < magnitude infBits) : floorBits s < infBits := by
  by_contra hge
  exact absurd (((le_floorBits_iff s h infBits).1 (not_lt.1 hge))) (not_le.2 h)

theorem roundBits_le_inf (s : Nat) : roundBits s ≤ infBits := by
  unfold roundBits
  split_ifs with h
  · exact le_refl _
  all_goals
    have := floorBits_lt_inf s (not_le.1 h)
    simp only
    split_ifs <;> omega

theorem roundBits_bounds (s : Nat) (h : s < magnitude infBits) :
    floorBits s ≤ roundBits s ∧ roundBits s ≤ floorBits s + 1 := by
  unfold roundBits
  rw [if_neg (not_le.2 h)]
  simp only
  split_ifs <;> omega

theorem roundBits_mono {s t : Nat} (hst : s ≤ t) : roundBits s ≤ roundBits t := by
  by_cases ht : magnitude infBits ≤ t
  · have : roundBits t = infBits := by unfold roundBits; rw [if_pos ht]
    rw [this]
    exact roundBits_le_inf s
  · have ht := not_le.1 ht
    have hs := lt_of_le_of_lt hst ht
    have hfl : floorBits s ≤ floorBits t :=
      (le_floorBits_iff t ht _).2 (le_trans (floorBits_spec s hs).1 hst)
    rcases Nat.lt_or_ge (floorBits s) (floorBits t) with hlt | hge
    · exact le_trans (roundBits_bounds s hs).2 (le_trans hlt (roundBits_bounds t ht).1)
    · have heq : floorBits s = floorBits t := le_antisymm hfl hge
      unfold roundBits
      rw [if_neg (not_le.2 hs), if_neg (not_le.2 ht)]
      simp only
      rw [heq]
      split_ifs <;> omega

theorem floorBits_magnitude (n : Nat) (h : n < infBits) : floorBits (magnitude n) = n := by
  have hm := magnitude_strictMono h
  exact le_antisymm (magnitude_strictMono.le_iff_le.1 (floorBits_spec _ hm).1)
    ((le_floorBits_iff _ hm n).2 (le_refl _))

theorem roundBits_magnitude (n : Nat) (h : n ≤ infBits) : roundBits (magnitude n) = n := by
  rcases Nat.lt_or_ge n infBits with hlt | hge
  · have hm := magnitude_strictMono hlt
    unfold roundBits
    rw [if_neg (not_le.2 hm)]
    simp only
    rw [floorBits_magnitude n hlt, if_pos]
    have := magnitude_lt_succ n
    omega
  · have : n = infBits := le_antisymm h hge
    rw [this]
    unfold roundBits
    rw [if_pos (le_refl _)]

/-- A sum is rounded to a number that is not below a summand, and rounding is monotone. -/
theorem le_roundBits_add (a w : Nat) (ha : a ≤ infBits) :
    a ≤ roundBits (magnitude a + w) := by
  have h := roundBits_mono (Nat.le_add_right (magnitude a) w)
  rwa [roundBits_magnitude a ha] at h

theorem sign_mul_magnitude (x : Nat) : (x : Int).sign * (magnitude x : Int) = magnitude x := by
  cases x with
  | zero => decide
  | succ x => rw [Int.sign_natCast_of_ne_zero (Nat.succ_ne_zero x), one_mul]

theorem sign_mul_roundBits (s : Nat) : (s : Int).sign * (roundBits s : Int) = roundBits s := by
  cases s with
  | zero =>
    have h : roundBits 0 = 0 := roundBits_magnitude 0 (by decide)
    rw [h]
    rfl
  | succ x => rw [Int.sign_natCast_of_ne_zero (Nat.succ_ne_zero x), one_mul]

/-- The sum of two non-negative numbers: infinity when a summand is infinite, else the
rounded sum of the magnitudes. -/
theorem addBits_natCast (x y : Nat) :
    addBits x y = ((if x = infBits then x else if y = infBits then y
      else roundBits (magnitude x + magnitude y) : Nat) : Int) := by
  unfold addBits
  simp only [Int.natAbs_ofNat, sign_mul_magnitude]
  split_ifs
  · rfl
  · rfl
  · rw [← Nat.cast_add, Int.natAbs_ofNat, sign_mul_roundBits]

theorem natAbs_addBits_le (a b : Int) (ha : a.natAbs ≤ infBits) (hb : b.natAbs ≤ infBits) :
    (addBits a b).natAbs ≤ infBits := by
  unfold addBits
  split_ifs
  · exact ha
  · exact hb
  · simp only [Int.natAbs_mul, Int.natAbs_ofNat]
    refine le_trans (Nat.mul_le_mul_right _ ?_) (by rw [one_mul]; exact roundBits_le_inf _)
    rw [Int.natAbs_sign]
    split_ifs <;> omega

theorem Double.natAbs_bits_le (a : Double) : a.bits.natAbs ≤ infBits := by
  have := a.range
  unfold infBits
  omega

theorem Double.bits_add (a b : Double) : (a + b).bits = addBits a.bits b.bits := by
  have h := natAbs_addBits_le a.bits b.bits a.natAbs_bits_le b.natAbs_bits_le
  show (Double.ofBits (addBits a.bits b.bits)).bits = _
  unfold Double.ofBits
  rw [dif_pos]
  unfold infBits at h
  omega

theorem Double.bits_nonneg {a : Double} (h : 0 ≤ a) :
    ∃ x : Nat, a.bits = x ∧ x ≤ infBits := by
  have h0 : (0 : Int) ≤ a.bits := h
  have := a.range
  refine ⟨a.bits.toNat, (Int.toNat_of_nonneg h0).symm, ?_⟩
  unfold infBits
  omega

/-- The addition of binary64, rounding to nearest, satisfies the laws. -/
theorem doubleLaws_double : DoubleLaws Double := by
  refine ⟨fun a w ha hw => ?_, fun a b w ha hab hw => ?_, by decide⟩
  · obtain ⟨x, hx, hxr⟩ := Double.bits_nonneg ha
    obtain ⟨y, hy, hyr⟩ := Double.bits_nonneg hw
    show a.bits ≤ (a + w).bits
    rw [Double.bits_add, hx, hy, addBits_natCast, Int.ofNat_le]
    split_ifs with h1 h2
    · exact le_refl _
    · rw [h2]
      exact hxr
    · exact le_roundBits_add x _ hxr
  · obtain ⟨x, hx, hxr⟩ := Double.bits_nonneg ha
    obtain ⟨x', hx', hxr'⟩ := Double.bits_nonneg (le_trans ha hab)
    obtain ⟨y, hy, hyr⟩ := Double.bits_nonneg hw
    have hle : a.bits ≤ b.bits := hab
    rw [hx, hx', Int.ofNat_le] at hle
    show (a + w).bits ≤ (b + w).bits
    rw [Double.bits_add, Double.bits_add, hx, hx', hy, addBits_natCast, addBits_natCast,
      Int.ofNat_le]
    have hr := roundBits_le_inf (magnitude x + magnitude y)
    have hm : roundBits (magnitude x + magnitude y) ≤ roundBits (magnitude x' + magnitude y) :=
      roundBits_mono (Nat.add_le_add_right (magnitude_strictMono.monotone hle) _)
    split_ifs <;> omega

/-- Exact arithmetic (a linearly ordered ring) satisfies the laws. -/
theorem doubleLaws_exact {R : Type} [LinearOrderedRing R] : DoubleLaws R :=
  ⟨fun _ _ _ hw => le_add_of_nonneg_right hw, fun _ _ w _ hab _ => add_le_add_right hab w,
    by norm_num⟩

/-- Exact integer arithmetic satisfies the laws. -/
theorem doubleLaws_int : DoubleLaws ℤ :=
  ⟨fun a w _ hw => by omega, fun a b w _ hab _ => by omega, by decide⟩

/-! ### The worked examples -/

theorem built_createSampleGraph : Built createSampleGraph :=
  Built.addEdge "E" "F" 3 (Built.addEdge "D" "F" 6 (Built.addEdge "D" "E" 2
    (Built.addEdge "C" "E" 10 (Built.addEdge "C" "D" 8 (Built.addEdge "B" "D" 5
      (Built.addEdge "B" "C" 1 (Built.addEdge "A" "C" 2 (Built.addEdge "A" "B" 4
        (Built.addVertex "F" (Built.addVertex "E" (Built.addVertex "D" (Built.addVertex "C"
          (Built.addVertex "B" (Built.addVertex "A" Built.empty))))))))))))))

theorem nonNeg_createSampleGraph : NonNegWeights createSampleGraph := by
  unfold NonNegWeights
  decide

theorem walk_createSampleGraph :
    Walk createSampleGraph (createSampleGraph.getVertexIndex "A")
      (createSampleGraph.getVertexIndex "F") 13 :=
  show Walk createSampleGraph 0 (Edge.mk 5 3 : Edge ℤ).destination (0 + 2 + 1 + 5 + 2 + 3) from
  Walk.step (Edge.mk 5 3) (Walk.step (Edge.mk 4 2) (Walk.step (Edge.mk 3 5)
    (Walk.step (Edge.mk 1 1) (Walk.step (Edge.mk 2 2)
      (Walk.refl (by decide) (by decide)) (by decide)) (by decide)) (by decide)) (by decide))
    (by decide)

theorem built_maxEdgeGraph : Built maxEdgeGraph :=
  Built.addEdge "A" "B" dblMaxValue Built.empty

theorem nonNeg_maxEdgeGraph : NonNegWeights maxEdgeGraph := by
  unfold NonNegWeights
  decide

theorem walk_maxEdgeGraph :
    Walk maxEdgeGraph (maxEdgeGraph.getVertexIndex "A") (maxEdgeGraph.getVertexIndex "B")
      dblMaxValue :=
  Walk.step (Edge.mk 1 dblMaxValue) (Walk.refl (by decide) (by decide)) (by decide)

theorem pathCost_maxEdgeGraph : PathCost maxEdgeGraph ["A", "B"] dblMaxValue := by
  have h := PathCost.snoc [] "A" "B" 0 (Edge.mk 1 dblMaxValue)
    (PathCost.single "A" (by decide)) (by decide : _ ∈ maxEdgeGraph.getNeighbors _)
    (by decide)
  simpa using h

theorem run_maxEdgeGraph (fuel : Nat) :
    findShortestPath dblMaxValue maxEdgeGraph (fuel + 2) "A" "B" = some (.ok (-1, [])) :=
  rfl

theorem built_roundUpGraph : Built roundUpGraph :=
  Built.addEdge "B" "C" _ (Built.addEdge "A" "B" _ Built.empty)

theorem nonNeg_roundUpGraph : NonNegWeights roundUpGraph := by
  unfold NonNegWeights
  decide

set_option maxRecDepth 8000 in
/-- The exact sum of the two weights of `roundUpGraph` is below
`numeric_limits<double>::max()`, and their `double` sum is that constant. -/
theorem sums_roundUpGraph :
    magnitude 0x7FEFFFFFFFFFFFFE + magnitude 0x7C98000000000000
      < magnitude 0x7FEFFFFFFFFFFFFF ∧
    (0 : Double) + Double.ofBits 0x7FEFFFFFFFFFFFFE + Double.ofBits 0x7C98000000000000
      = Double.maxValue := by
  decide

set_option maxRecDepth 8000 in
theorem run_roundUpGraph :
    findShortestPath Double.maxValue roundUpGraph 10 "A" "C" = some (.ok (-1, [])) :=
  rfl

theorem built_absorbGraph : Built absorbGraph :=
  Built.addEdge "D" "C" _ (Built.addEdge "A" "D" _ (Built.addEdge "B" "C" _
    (Built.addEdge "A" "B" _ Built.empty)))

theorem nonNeg_absorbGraph : NonNegWeights absorbGraph := by
  unfold NonNegWeights
  decide

set_option maxRecDepth 8000 in
theorem walk_absorbGraph :
    ∃ c, Walk absorbGraph (absorbGraph.getVertexIndex "A") (absorbGraph.getVertexIndex "C") c ∧
      c < Double.maxValue :=
  ⟨_, Walk.step (Edge.mk 2 (Double.ofBits 0x4341C37937E08000))
    (Walk.step (Edge.mk 1 1) (Walk.refl (by decide) (by decide)) (by decide)) (by decide),
    by decide⟩

set_option maxRecDepth 8000 in
theorem run_absorbGraph :
    findShortestPath Double.maxValue absorbGraph 20 "A" "C"
      = some (.ok (Double.ofBits 0x4341C37937E08000, ["A", "B", "C"])) :=
  rfl

/-- C19, as first stated, fails: in the graph with the single edge `A`-`B` of weight
`numeric_limits<double>::max()` the two vertices are joined by a path of that weight,
yet `findShortestPath("A", "B")` returns the cost `-1`, which is the weight of no path.
(The sum `0.0 + max()` is exact, so the integers show what the doubles do.) -/
theorem dijkstra_optimal_counterexample :
    Built maxEdgeGraph ∧ NonNegWeights maxEdgeGraph ∧
    maxEdgeGraph.getVertexIndex "A" ≠ -1 ∧ maxEdgeGraph.getVertexIndex "B" ≠ -1 ∧
    "A" ≠ "B" ∧
    Walk maxEdgeGraph (maxEdgeGraph.getVertexIndex "A") (maxEdgeGraph.getVertexIndex "B")
      dblMaxValue ∧
    (∀ fuel, findShortestPath dblMaxValue maxEdgeGraph (fuel + 2) "A" "B"
      = some (.ok (-1, []))) ∧
    ¬ Walk maxEdgeGraph (maxEdgeGraph.getVertexIndex "A") (maxEdgeGraph.getVertexIndex "B")
      (-1) :=
  ⟨built_maxEdgeGraph, nonNeg_maxEdgeGraph, by decide, by decide, by decide, walk_maxEdgeGraph,
    run_maxEdgeGraph, fun h =>
      absurd (Walk.nonneg doubleLaws_int built_maxEdgeGraph.graphWF nonNeg_maxEdgeGraph h).1
        (by decide : ¬ (0 : ℤ) ≤ -1)⟩

/-- C19 (amended): for every graph built with `addVertex`/`addEdge` whose edge weights are
all non-negative, and every pair of distinct known vertices joined by a path whose weight,
added up in `double` arithmetic along the path from the source, is below the sentinel
`numeric_limits<double>::max()`, `findShortestPath` returns (given `fuelBound g` loop
iterations) a cost that is the weight so added up of a path from source to destination and
is at most the weight so added up of every such path.  The addition is any addition that
satisfies `DoubleLaws`, such as the rounding addition of `double`. -/
theorem dijkstra_optimal [LinearOrder W] [Zero W] [One W] [Neg W] [Add W]
    (hW : DoubleLaws W) (dblMax : W) (g : Graph W) (hb : Built g)
    (hnn : NonNegWeights g) (source destination : String)
    (hs : g.getVertexIndex source ≠ -1) (ht : g.getVertexIndex destination ≠ -1)
    (hne : source ≠ destination)
    (hw : ∃ c, Walk g (g.getVertexIndex source) (g.getVertexIndex destination) c ∧ c < dblMax)
    (fuel : Nat) (hf : fuelBound g ≤ fuel) :
    ∃ cost path, findShortestPath dblMax g fuel source destination = some (.ok (cost, path)) ∧
      Walk g (g.getVertexIndex source) (g.getVertexIndex destination) cost ∧
      ∀ c, Walk g (g.getVertexIndex source) (g.getVertexIndex destination) c → cost ≤ c := by
  obtain ⟨cost, path, h1, h2, h3, _⟩ :=
    findShortestPath_spec hW dblMax g hb.graphWF hnn source destination hs ht hne hw fuel hf
  exact ⟨cost, path, h1, h2, h3⟩

set_option maxRecDepth 8000 in
theorem dijkstra_optimal_witness :
    findShortestPath dblMaxValue createSampleGraph 40 "A" "F"
      = some (.ok (13, ["A", "C", "B", "D", "E", "F"])) ∧
    fuelBound createSampleGraph ≤ 40 ∧
    (∃ cost path, findShortestPath dblMaxValue createSampleGraph 40 "A" "F"
        = some (.ok (cost, path)) ∧
      Walk createSampleGraph (createSampleGraph.getVertexIndex "A")
        (createSampleGraph.getVertexIndex "F") cost ∧
      ∀ c, Walk createSampleGraph (createSampleGraph.getVertexIndex "A")
        (createSampleGraph.getVertexIndex "F") c → cost ≤ c) ∧
    findShortestPath Double.maxValue absorbGraph 20 "A" "C"
      = some (.ok (Double.ofBits 0x4341C37937E08000, ["A", "B", "C"])) ∧
    Walk absorbGraph (absorbGraph.getVertexIndex "A") (absorbGraph.getVertexIndex "C")
      (Double.ofBits 0x4341C37937E08000) ∧
    ∀ c, Walk absorbGraph (absorbGraph.getVertexIndex "A") (absorbGraph.getVertexIndex "C") c →
      Double.ofBits 0x4341C37937E08000 ≤ c := by
  obtain ⟨cost, path, h1, h2, h3⟩ :=
    dijkstra_optimal doubleLaws_double Double.maxValue absorbGraph built_absorbGraph
      nonNeg_absorbGraph "A" "C" (by decide) (by decide) (by decide) walk_absorbGraph 20
      (by decide)
  rw [run_absorbGraph] at h1
  injection h1 with h1
  injection h1 with h1
  injection h1 with hc hp
  rw [← hc] at h2 h3
  exact ⟨rfl, by decide,
    dijkstra_optimal doubleLaws_int dblMaxValue createSampleGraph built_createSampleGraph
      nonNeg_createSampleGraph "A" "F" (by decide) (by decide) (by decide)
      ⟨13, walk_createSampleGraph, by decide⟩ 40 (by decide),
    run_absorbGraph, h2, h3⟩

/-- C20, as first stated, fails: in the graph with the single edge `A`-`B` of weight
`numeric_limits<double>::max()` the two vertices are connected, yet the vertex list
returned by `findShortestPath("A", "B")` is empty: it does not start with the source.
(The sum `0.0 + max()` is exact, so the integers show what the doubles do.) -/
theorem dijkstra_path_counterexample :
    Built maxEdgeGraph ∧ NonNegWeights maxEdgeGraph ∧
    maxEdgeGraph.getVertexIndex "A" ≠ -1 ∧ maxEdgeGraph.getVertexIndex "B" ≠ -1 ∧
    "A" ≠ "B" ∧
    PathCost maxEdgeGraph ["A", "B"] dblMaxValue ∧
    ∃ cost path, (∀ fuel, findShortestPath dblMaxValue maxEdgeGraph (fuel + 2) "A" "B"
      = some (.ok (cost, path))) ∧ path.head? ≠ some "A" ∧ path.getLast? ≠ some "B" :=
  ⟨built_maxEdgeGraph, nonNeg_maxEdgeGraph, by decide, by decide, by decide,
    pathCost_maxEdgeGraph, -1, [], run_maxEdgeGraph, by decide, by decide⟩

/-- C20 (amended): for every graph built with `addVertex`/`addEdge` whose edge weights are
all non-negative and every known vertex `source`: `findShortestPath(source, source)` is
`(0, [source])`; and for every other known vertex `destination` joined to `source` by a path
whose weight, added up in `double` arithmetic along the path from the source, is below the
sentinel `numeric_limits<double>::max()`, the returned vertex list starts with `source`,
ends with `destination`, and consecutive vertices are joined by edges whose weights, added
up in `double` arithmetic along the list from the source, give the returned cost.  The
addition is any addition that satisfies `DoubleLaws`, such as the rounding addition of
`double`. -/
theorem dijkstra_path [LinearOrder W] [Zero W] [One W] [Neg W] [Add W]
    (hW : DoubleLaws W) (dblMax : W) (g : Graph W) (hb : Built g)
    (hnn : NonNegWeights g) (source : String)
    (hs : g.getVertexIndex source ≠ -1) :
    (∀ fuel, findShortestPath dblMax g fuel source source = some (.ok (0, [source]))) ∧
    ∀ destination, g.getVertexIndex destination ≠ -1 → source ≠ destination →
      (∃ c, Walk g (g.getVertexIndex source) (g.getVertexIndex destination) c ∧ c < dblMax) →
      ∀ fuel, fuelBound g ≤ fuel →
      ∃ cost path, findShortestPath dblMax g fuel source destination
          = some (.ok (cost, path)) ∧
        path.head? = some source ∧ path.getLast? = some destination ∧
        PathCost g path cost := by
  refine ⟨fun fuel => findShortestPath_same dblMax g fuel source hs, ?_⟩
  intro destination ht hne hw fuel hf
  obtain ⟨cost, path, h1, _, _, h4, h5, h6⟩ :=
    findShortestPath_spec hW dblMax g hb.graphWF hnn source destination hs ht hne hw fuel hf
  exact ⟨cost, path, h1, h5, h6, h4⟩

set_option maxRecDepth 8000 in
theorem dijkstra_path_witness :
    findShortestPath dblMaxValue createSampleGraph 40 "A" "A" = some (.ok (0, ["A"])) ∧
    findShortestPath dblMaxValue createSampleGraph 40 "A" "F"
      = some (.ok (13, ["A", "C", "B", "D", "E", "F"])) ∧
    PathCost createSampleGraph ["A", "C", "B", "D", "E", "F"] 13 ∧
    findShortestPath Double.maxValue absorbGraph 20 "A" "C"
      = some (.ok (Double.ofBits 0x4341C37937E08000, ["A", "B", "C"])) ∧
    PathCost absorbGraph ["A", "B", "C"] (Double.ofBits 0x4341C37937E08000) := by
  have h := dijkstra_path doubleLaws_int dblMaxValue createSampleGraph built_createSampleGraph
    nonNeg_createSampleGraph "A" (by decide)
  obtain ⟨cost, path, h1, _, _, h4⟩ := h.2 "F" (by decide) (by decide)
    ⟨13, walk_createSampleGraph, by decide⟩ 40 (by decide)
  have e : findShortestPath dblMaxValue createSampleGraph 40 "A" "F"
      = some (.ok (13, ["A", "C", "B", "D", "E", "F"])) := rfl
  rw [e] at h1
  injection h1 with h1
  injection h1 with h1
  injection h1 with hc hp
  rw [← hc, ← hp] at h4
  obtain ⟨cost2, path2, k1, _, _, k4⟩ :=
    (dijkstra_path doubleLaws_double Double.maxValue absorbGraph built_absorbGraph
      nonNeg_absorbGraph "A" (by decide)).2 "C" (by decide) (by decide) walk_absorbGraph 20
      (by decide)
  rw [run_absorbGraph] at k1
  injection k1 with k1
  injection k1 with k1
  injection k1 with kc kp
  rw [← kc, ← kp] at k4
  exact ⟨h.1 40, e, h4, run_absorbGraph, k4⟩

/-! ### Unreachable destinations and unknown vertices -/

theorem relax_le [LinearOrder W] [Zero W] [One W] [Neg W] [Add W]
    (M k : W) (u : Int) (st : SearchState W) (e : Edge W)
    (h : ∀ y ∈ st.distances, y ≤ M) : ∀ y ∈ (relax k u st e).distances, y ≤ M := by
  unfold relax
  simp only
  split_ifs with hlt
  · intro y hy
    simp only [writeAt] at hy
    by_cases hin : e.destination.toNat < st.distances.length
    · rcases List.mem_or_eq_of_mem_set hy with hy | hy
      · exact h y hy
      · rw [hy]
        have hm : readAt st.distances e.destination ∈ st.distances := by
          unfold readAt
          rw [List.getD_eq_getElem _ _ hin]
          exact List.getElem_mem _
        exact le_of_lt (lt_of_lt_of_le hlt (h _ hm))
    · rw [List.set_eq_of_length_le (by omega)] at hy
      exact h y hy
  · exact h

theorem fold_relax_le [LinearOrder W] [Zero W] [One W] [Neg W] [Add W]
    (M k : W) (u : Int) (l : List (Edge W)) :
    ∀ st : SearchState W, (∀ y ∈ st.distances, y ≤ M) →
      ∀ y ∈ (l.foldl (relax k u) st).distances, y ≤ M := by
  induction l with
  | nil => exact fun _ h => h
  | cons e l ih => exact fun st h => ih _ (relax_le M k u st e h)

/-- The search loop never stores a distance above the initial one. -/
theorem searchLoop_le [LinearOrder W] [Zero W] [One W] [Neg W] [Add W]
    (g : Graph W) (t : Int) (M : W) :
    ∀ (fuel : Nat) (st st2 : SearchState W), searchLoop g t fuel st = some st2 →
      (∀ y ∈ st.distances, y ≤ M) → ∀ y ∈ st2.distances, y ≤ M := by
  intro fuel
  induction fuel with
  | zero =>
    intro st st2 h
    cases h
  | succ fuel ih =>
    intro st st2 h hle
    unfold searchLoop at h
    cases htop : pqTop st.pq with
    | none =>
      rw [htop] at h
      cases h
      exact hle
    | some x =>
      obtain ⟨k, u⟩ := x
      rw [htop] at h
      simp only at h
      split_ifs at h with h1 h2
      · exact ih _ _ h hle
      · cases h
        exact hle
      · exact ih _ _ h (fold_relax_le M k u _ _ hle)

theorem fold_relax_noop [LinearOrder W] [Zero W] [One W] [Neg W] [Add W]
    (k : W) (u : Int) (l : List (Edge W))
    (st : SearchState W)
    (h : ∀ e ∈ l, ¬ (k + e.weight < readAt st.distances e.destination)) :
    l.foldl (relax k u) st = st := by
  induction l with
  | nil => rfl
  | cons e l ih =>
    have he : relax k u st e = st := by
      unfold relax
      simp only
      rw [if_neg (h e (List.mem_cons_self _ _))]
    rw [List.foldl_cons, he]
    exact ih (fun e' he' => h e' (List.mem_cons_of_mem _ he'))

/-- Entries of the initial distance vector. -/
theorem readAt_init [LinearOrder W] [Zero W] [One W] [Neg W] [Add W]
    (g : Graph W) (hg : GraphWF g) (M : W) (s : Int)
    (hs0 : 0 ≤ s) (hs1 : s < g.numVertices) (v : Int) (h0 : 0 ≤ v) (h1 : v < g.numVertices) :
    readAt (writeAt (List.replicate g.getNumVertices.toNat M) s 0) v
      = if v = s then 0 else M := by
  have hn := hg.n_nonneg
  have hlen : ((List.replicate g.getNumVertices.toNat M).length : Int) = g.numVertices := by
    simp only [List.length_replicate, Graph.getNumVertices]
    omega
  rw [readAt_writeAt _ s v 0 hs0 h0 (by omega)]
  by_cases hv : v = s
  · rw [if_pos hv, if_pos hv]
  · rw [if_neg hv, if_neg hv, readAt_replicate _ _ v h0 (by
      simp only [Graph.getNumVertices]
      omega)]

theorem readAt_le_of_mem [LinearOrder W] [Zero W] [One W] [Neg W] [Add W]
    (d : List W) (B : W) (hB : 0 ≤ B)
    (h : ∀ y ∈ d, y ≤ B) (v : Int) : readAt d v ≤ B := by
  unfold readAt
  by_cases hin : v.toNat < d.length
  · rw [List.getD_eq_getElem _ _ hin]
    exact h _ (List.getElem_mem _)
  · rw [List.getD_eq_default _ _ (by omega)]
    exact hB

theorem init_le [LinearOrder W] [Zero W] [One W] [Neg W] [Add W]
    (n : Nat) (M B : W) (s : Int) (hM : M ≤ B) (hB : 0 ≤ B) :
    ∀ y ∈ writeAt (List.replicate n M) s 0, y ≤ B := by
  intro y hy
  simp only [writeAt] at hy
  rcases List.mem_or_eq_of_mem_set hy with hy | hy
  · rw [List.eq_of_mem_replicate hy]
    exact hM
  · rw [hy]
    exact hB

/-- With a non-positive sentinel nothing is ever relaxed: the search loop stops after the
source has been extracted. -/
theorem searchLoop_degenerate [LinearOrder W] [Zero W] [One W] [Neg W] [Add W]
    (hW : DoubleLaws W) (g : Graph W) (hg : GraphWF g)
    (hnn : NonNegWeights g) (s t : Int) (M : W) (hM : M ≤ 0) (hs0 : 0 ≤ s)
    (hs1 : s < g.numVertices) (fuel : Nat) (p : List Int) :
    ∃ st2, searchLoop g t (fuel + 2)
        { distances := writeAt (List.replicate g.getNumVertices.toNat M) s 0
          parent := p
          pq := pqPush [] (0, s) } = some st2 ∧
      st2.distances = writeAt (List.replicate g.getNumVertices.toNat M) s 0 := by
  have hd0 : readAt (writeAt (List.replicate g.getNumVertices.toNat M) s 0) s = 0 := by
    rw [readAt_init g hg M s hs0 hs1 s hs0 hs1, if_pos rfl]
  have htop : pqTop (pqPush ([] : List (W × Int)) (0, s)) = some (0, s) := rfl
  have hpop : pqPop (pqPush ([] : List (W × Int)) (0, s)) = [] := by
    rw [pqPop_of_top _ _ htop]
    simp [pqPush]
  have hstop : ∀ (f : Nat) (st : SearchState W), st.pq = [] →
      searchLoop g t (f + 1) st = some st := by
    intro f st hst
    unfold searchLoop
    rw [hst]
    rfl
  unfold searchLoop
  simp only [htop, hpop, hd0, gt_iff_lt, lt_irrefl, if_false]
  by_cases hst : s = t
  · rw [if_pos hst]
    exact ⟨_, rfl, rfl⟩
  · rw [if_neg hst]
    rw [fold_relax_noop]
    · exact ⟨_, hstop fuel _ rfl, rfl⟩
    · intro e he hlt
      simp only at hlt
      have hw := weight_nonneg g hg hnn s e he
      have hle := readAt_le_of_mem _ 0 (le_refl _)
        (init_le g.getNumVertices.toNat M 0 s hM (le_refl _)) e.destination
      have : (0 : W) + e.weight < 0 := lt_of_lt_of_le hlt hle
      exact absurd (hW.le_add 0 e.weight (le_refl _) hw) (not_le.2 this)

/-- For distinct known end points that no path lighter than the sentinel joins,
`findShortestPath` returns the cost `-1` with an empty path. -/
theorem findShortestPath_unreachable [LinearOrder W] [Zero W] [One W] [Neg W] [Add W]
    (hW : DoubleLaws W) (M : W) (g : Graph W)
    (hg : GraphWF g) (hnn : NonNegWeights g) (source destination : String)
    (hs : g.getVertexIndex source ≠ -1) (ht : g.getVertexIndex destination ≠ -1)
    (hne : source ≠ destination)
    (hno : ¬ ∃ c, Walk g (g.getVertexIndex source) (g.getVertexIndex destination) c ∧ c < M)
    (fuel : Nat) (hf : fuelBound g ≤ fuel) :
    findShortestPath M g fuel source destination = some (.ok (-1, [])) := by
  obtain ⟨s0, s1, _⟩ := getVertexIndex_spec g hg source hs
  obtain ⟨t0, t1, _⟩ := getVertexIndex_spec g hg destination ht
  have hst : g.getVertexIndex source ≠ g.getVertexIndex destination :=
    fun h => hne (getVertexIndex_injective g hg source destination hs ht h)
  have hfuel : fuelBound g = (g.adjacencyList.map List.length).sum + g.numVertices.toNat + 3 :=
    rfl
  have hdt : readAt (writeAt (List.replicate g.getNumVertices.toNat M)
      (g.getVertexIndex source) 0) (g.getVertexIndex destination) = M := by
    rw [readAt_init g hg M _ s0 s1 _ t0 t1, if_neg (Ne.symm hst)]
  by_cases hM : 0 < M
  · have hinit := searchInv_init g hg (g.getVertexIndex source) M hM s0 s1
    obtain ⟨st2, done2, hrun, hinv, _⟩ := searchLoop_spec hW g hg hnn (g.getVertexIndex source)
      (g.getVertexIndex destination) M s0 fuel [] _ hinit (by
        rw [pendingEdges_nil g hg]
        simp only [pqPush, List.length_cons, List.length_nil]
        omega)
    have hle := searchLoop_le g _ M fuel _ st2 hrun
      (init_le g.getNumVertices.toNat M M _ (le_refl _) (le_of_lt hM))
    have h1 : readAt st2.distances (g.getVertexIndex destination) ≤ M :=
      readAt_le_of_mem _ M (le_of_lt hM) hle _
    have h2 : ¬ readAt st2.distances (g.getVertexIndex destination) < M :=
      fun h => hno ⟨_, hinv.walk_of_d _ t0 t1 h, h⟩
    have h3 : readAt st2.distances (g.getVertexIndex destination) = M :=
      le_antisymm h1 (not_lt.1 h2)
    unfold findShortestPath
    simp only [if_neg hs, if_neg ht, if_neg hst, hrun, if_pos h3]
  · obtain ⟨f, hf2⟩ : ∃ f, fuel = f + 2 := ⟨fuel - 2, by omega⟩
    obtain ⟨st2, hrun, hd⟩ := searchLoop_degenerate hW g hg hnn (g.getVertexIndex source)
      (g.getVertexIndex destination) M (not_lt.1 hM) s0 s1 f
      (List.replicate g.getNumVertices.toNat (-1))
    have h3 : readAt st2.distances (g.getVertexIndex destination) = M := by
      rw [hd]
      exact hdt
    unfold findShortestPath
    simp only [if_neg hs, if_neg ht, if_neg hst, hf2, hrun, if_pos h3]

/-- The call throws exactly when one of the two names is unknown. -/
theorem findShortestPath_error_iff [LinearOrder W] [Zero W] [One W] [Neg W] [Add W]
    (M : W) (g : Graph W) (fuel : Nat)
    (source destination : String) :
    findShortestPath M g fuel source destination = some (.error .invalidArgument) ↔
      (g.getVertexIndex source = -1 ∨ g.getVertexIndex destination = -1) := by
  constructor
  · intro h
    by_contra hcon
    rw [not_or] at hcon
    obtain ⟨hs, ht⟩ := hcon
    unfold findShortestPath at h
    simp only [if_neg hs, if_neg ht] at h
    split_ifs at h with h1
    · cases h
    · split at h
      · cases h
      · split_ifs at h
        · cases h
        · split at h <;> cases h
  · intro h
    unfold findShortestPath
    by_cases hs : g.getVertexIndex source = -1
    · simp only [if_pos hs]
    · rcases h with h | h
      · exact absurd h hs
      · simp only [if_neg hs, if_pos h]

/-- C34, as first stated, fails: in the graph with the single edge `A`-`B` of weight
`numeric_limits<double>::max()`, `findShortestPath("A", "B")` returns the cost `-1` with an
empty path although `A` and `B` are distinct known vertices joined by a path.
(The sum `0.0 + max()` is exact, so the integers show what the doubles do.) -/
theorem dijkstra_no_path_counterexample :
    Built maxEdgeGraph ∧ NonNegWeights maxEdgeGraph ∧
    maxEdgeGraph.getVertexIndex "A" ≠ -1 ∧ maxEdgeGraph.getVertexIndex "B" ≠ -1 ∧
    (∀ fuel, findShortestPath dblMaxValue maxEdgeGraph (fuel + 2) "A" "B"
      = some (.ok (-1, []))) ∧
    ¬ ("A" ≠ "B" ∧ ¬ ∃ c, Walk maxEdgeGraph (maxEdgeGraph.getVertexIndex "A")
      (maxEdgeGraph.getVertexIndex "B") c) :=
  ⟨built_maxEdgeGraph, nonNeg_maxEdgeGraph, by decide, by decide, run_maxEdgeGraph,
    fun h => h.2 ⟨dblMaxValue, walk_maxEdgeGraph⟩⟩

/-- C34 (amended): for every graph built with `addVertex`/`addEdge` whose edge weights are
all non-negative, `findShortestPath` returns (given `fuelBound g` loop iterations); for
known vertices it returns the cost `-1` with an empty path if and only if source and
destination are distinct and no path joins them whose weight, added up in `double`
arithmetic along the path from the source, is below the sentinel
`numeric_limits<double>::max()`; and it throws `invalid_argument` if and only if source or
destination is not a vertex of the graph.  The addition is any addition that satisfies
`DoubleLaws`, such as the rounding addition of `double`. -/
theorem dijkstra_no_path [LinearOrder W] [Zero W] [One W] [Neg W] [Add W]
    (hW : DoubleLaws W) (dblMax : W) (g : Graph W) (hb : Built g)
    (hnn : NonNegWeights g) (source destination : String) (fuel : Nat)
    (hf : fuelBound g ≤ fuel) :
    (∃ r, findShortestPath dblMax g fuel source destination = some r) ∧
    (g.getVertexIndex source ≠ -1 → g.getVertexIndex destination ≠ -1 →
      (findShortestPath dblMax g fuel source destination = some (.ok (-1, [])) ↔
        (source ≠ destination ∧
          ¬ ∃ c, Walk g (g.getVertexIndex source) (g.getVertexIndex destination) c ∧
            c < dblMax))) ∧
    (findShortestPath dblMax g fuel source destination = some (.error .invalidArgument) ↔
      (g.getVertexIndex source = -1 ∨ g.getVertexIndex destination = -1)) := by
  have hg := hb.graphWF
  have hiff : g.getVertexIndex source ≠ -1 → g.getVertexIndex destination ≠ -1 →
      (findShortestPath dblMax g fuel source destination = some (.ok (-1, [])) ↔
        (source ≠ destination ∧
          ¬ ∃ c, Walk g (g.getVertexIndex source) (g.getVertexIndex destination) c ∧
            c < dblMax)) := by
    intro hs ht
    constructor
    · intro h
      have hne : source ≠ destination := by
        intro he
        rw [← he, findShortestPath_same dblMax g fuel source hs] at h
        injection h with h
        injection h with h
        injection h with _ h
        cases h
      refine ⟨hne, fun hw => ?_⟩
      obtain ⟨cost, path, h1, _, _, _, h5, _⟩ :=
        findShortestPath_spec hW dblMax g hg hnn source destination hs ht hne hw fuel hf
      rw [h1] at h
      injection h with h
      injection h with h
      injection h with _ h
      rw [h] at h5
      cases h5
    · rintro ⟨hne, hno⟩
      exact findShortestPath_unreachable hW dblMax g hg hnn source destination hs ht hne hno
        fuel hf
  refine ⟨?_, hiff, findShortestPath_error_iff dblMax g fuel source destination⟩
  by_cases hs : g.getVertexIndex source = -1
  · exact ⟨_, (findShortestPath_error_iff dblMax g fuel source destination).2 (Or.inl hs)⟩
  · by_cases ht : g.getVertexIndex destination = -1
    · exact ⟨_, (findShortestPath_error_iff dblMax g fuel source destination).2 (Or.inr ht)⟩
    · by_cases hne : source = destination
      · rw [← hne]
        exact ⟨_, findShortestPath_same dblMax g fuel source hs⟩
      · by_cases hw : ∃ c, Walk g (g.getVertexIndex source) (g.getVertexIndex destination) c ∧
            c < dblMax
        · obtain ⟨cost, path, h1, _⟩ :=
            findShortestPath_spec hW dblMax g hg hnn source destination hs ht hne hw fuel hf
          exact ⟨_, h1⟩
        · exact ⟨_, (hiff hs ht).2 ⟨hne, hw⟩⟩

set_option maxRecDepth 8000 in
theorem dijkstra_no_path_witness :
    Built islandGraph ∧ NonNegWeights islandGraph ∧ fuelBound islandGraph ≤ 10 ∧
    findShortestPath dblMaxValue islandGraph 10 "A" "C" = some (.ok (-1, [])) ∧
    findShortestPath dblMaxValue islandGraph 10 "A" "B" = some (.ok (1, ["A", "B"])) ∧
    findShortestPath dblMaxValue islandGraph 10 "A" "Z" = some (.error .invalidArgument) ∧
    ("A" ≠ "C" ∧ ¬ ∃ c, Walk islandGraph (islandGraph.getVertexIndex "A")
      (islandGraph.getVertexIndex "C") c ∧ c < dblMaxValue) ∧
    findShortestPath Double.maxValue roundUpGraph 10 "A" "C" = some (.ok (-1, [])) ∧
    ("A" ≠ "C" ∧ ¬ ∃ c, Walk roundUpGraph (roundUpGraph.getVertexIndex "A")
      (roundUpGraph.getVertexIndex "C") c ∧ c < Double.maxValue) :=
  ⟨Built.addVertex "C" (Built.addEdge "A" "B" 1 Built.empty),
    by unfold NonNegWeights; decide, by decide, rfl, rfl, rfl,
    ((dijkstra_no_path doubleLaws_int dblMaxValue islandGraph
      (Built.addVertex "C" (Built.addEdge "A" "B" 1 Built.empty))
      (by unfold NonNegWeights; decide) "A" "C" 10 (by decide)).2.1
        (by decide) (by decide)).1 rfl,
    run_roundUpGraph,
    ((dijkstra_no_path doubleLaws_double Double.maxValue roundUpGraph built_roundUpGraph
      nonNeg_roundUpGraph "A" "C" 10 (by decide)).2.1
        (by decide) (by decide)).1 run_roundUpGraph⟩

/-! ### Verification of `findShortestDistances` -/

theorem relaxDist_toDist [LinearOrder W] [Zero W] [One W] [Neg W] [Add W]
    (k : W) (u : Int) (st : SearchState W)
    (e : Edge W) : relaxDist k st.toDist e = (relax k u st e).toDist := by
  unfold relaxDist relax SearchState.toDist
  simp only
  split_ifs <;> rfl

theorem fold_relaxDist_toDist [LinearOrder W] [Zero W] [One W] [Neg W] [Add W]
    (k : W) (u : Int) (l : List (Edge W)) :
    ∀ st : SearchState W,
      l.foldl (relaxDist k) st.toDist = (l.foldl (relax k u) st).toDist := by
  induction l with
  | nil => exact fun _ => rfl
  | cons e l ih =>
    intro st
    rw [List.foldl_cons, List.foldl_cons, relaxDist_toDist k u st e]
    exact ih _

/-- Total correctness of the loop of `findShortestDistances`: with enough fuel it stops,
with an empty queue, in the distance part of a state that satisfies the invariant of the
search loop of `findShortestPath`. -/
theorem distLoop_spec [LinearOrder W] [Zero W] [One W] [Neg W] [Add W]
    (hW : DoubleLaws W) (g : Graph W) (hg : GraphWF g)
    (hnn : NonNegWeights g) (s : Int) (M : W) (hs0 : 0 ≤ s) :
    ∀ (fuel : Nat) (done : List Int) (st : SearchState W), SearchInv g s M done [] st →
      st.pq.length + pendingEdges g done + 1 ≤ fuel →
      ∃ st2 done2, distLoop g fuel st.toDist = some st2.toDist ∧
        SearchInv g s M done2 [] st2 ∧ st2.pq = [] := by
  intro fuel
  induction fuel with
  | zero =>
    intro done st _ h
    omega
  | succ fuel ih =>
    intro done st inv hfuel
    unfold distLoop
    have hpq : st.toDist.pq = st.pq := rfl
    have hds : st.toDist.distances = st.distances := rfl
    rw [hpq]
    cases htop : pqTop st.pq with
    | none =>
      exact ⟨st, done, rfl, inv, pqTop_eq_none st.pq htop⟩
    | some x =>
      obtain ⟨k, u⟩ := x
      obtain ⟨hmem, _⟩ := pqTop_spec st.pq (k, u) htop
      have hlen : (st.pq.erase (k, u)).length + 1 = st.pq.length := by
        rw [List.length_erase_of_mem hmem]
        have : 0 < st.pq.length := List.length_pos_of_mem hmem
        omega
      simp only [pqPop_of_top st.pq (k, u) htop, hds]
      have hst1 : ({ distances := st.distances, pq := st.pq.erase (k, u) } : DistState W) =
          ({ st with pq := st.pq.erase (k, u) } : SearchState W).toDist := rfl
      by_cases hstale : k > readAt st.distances u
      · rw [if_pos hstale]
        exact ih done _ (searchInv_stale g s M done st inv k u hstale) (by simp only; omega)
      · rw [if_neg hstale]
        obtain ⟨hk, u0, u1, hdM, hnd, hopt, inv1⟩ :=
          searchInv_promote hW g hg hnn s M done st inv k u htop hstale
        have hsub : ∀ e ∈ g.getNeighbors u, e ∈ g.getNeighbors u := fun _ h => h
        obtain ⟨inv2, hl2⟩ := searchInv_fold hW g hg hnn s M u done hs0 (g.getNeighbors u)
          { st with pq := st.pq.erase (k, u) } inv1 hsub
        simp only at inv2 hl2
        rw [← hk] at inv2 hl2
        have hp := pendingEdges_cons g done u u0 u1 hnd
        rw [hst1, fold_relaxDist_toDist k u]
        exact ih (u :: done) _ inv2 (by omega)

theorem fold_relaxDist_noop [LinearOrder W] [Zero W] [One W] [Neg W] [Add W]
    (k : W) (l : List (Edge W))
    (st : DistState W)
    (h : ∀ e ∈ l, ¬ (k + e.weight < readAt st.distances e.destination)) :
    l.foldl (relaxDist k) st = st := by
  induction l with
  | nil => rfl
  | cons e l ih =>
    have he : relaxDist k st e = st := by
      unfold relaxDist
      simp only
      rw [if_neg (h e (List.mem_cons_self _ _))]
    rw [List.foldl_cons, he]
    exact ih (fun e' he' => h e' (List.mem_cons_of_mem _ he'))

/-- With a non-positive sentinel nothing is ever relaxed. -/
theorem distLoop_degenerate [LinearOrder W] [Zero W] [One W] [Neg W] [Add W]
    (hW : DoubleLaws W) (g : Graph W) (hg : GraphWF g)
    (hnn : NonNegWeights g) (s : Int) (M : W) (hM : M ≤ 0) (hs0 : 0 ≤ s)
    (hs1 : s < g.numVertices) (fuel : Nat) :
    ∃ st2, distLoop g (fuel + 2)
        { distances := writeAt (List.replicate g.getNumVertices.toNat M) s 0
          pq := pqPush [] (0, s) } = some st2 ∧
      st2.distances = writeAt (List.replicate g.getNumVertices.toNat M) s 0 := by
  have hd0 : readAt (writeAt (List.replicate g.getNumVertices.toNat M) s 0) s = 0 := by
    rw [readAt_init g hg M s hs0 hs1 s hs0 hs1, if_pos rfl]
  have htop : pqTop (pqPush ([] : List (W × Int)) (0, s)) = some (0, s) := rfl
  have hpop : pqPop (pqPush ([] : List (W × Int)) (0, s)) = [] := by
    rw [pqPop_of_top _ _ htop]
    simp [pqPush]
  have hstop : ∀ (f : Nat) (st : DistState W), st.pq = [] →
      distLoop g (f + 1) st = some st := by
    intro f st hst
    unfold distLoop
    rw [hst]
    rfl
  unfold distLoop
  simp only [htop, hpop, hd0, gt_iff_lt, lt_irrefl, if_false]
  rw [fold_relaxDist_noop]
  · exact ⟨_, hstop fuel _ rfl, rfl⟩
  · intro e he hlt
    simp only at hlt
    have hw := weight_nonneg g hg hnn s e he
    have hle := readAt_le_of_mem _ 0 (le_refl _)
      (init_le g.getNumVertices.toNat M 0 s hM (le_refl _)) e.destination
    have : (0 : W) + e.weight < 0 := lt_of_lt_of_le hlt hle
    exact absurd (hW.le_add 0 e.weight (le_refl _) hw) (not_le.2 this)

/-- Functional correctness of `findShortestDistances` for a known source: the entry of the
source is `0`; the entry of another vertex is the least weight of a path from the source
when a path lighter than the sentinel exists, and the sentinel otherwise. -/
theorem findShortestDistances_spec [LinearOrder W] [Zero W] [One W] [Neg W] [Add W]
    (hW : DoubleLaws W) (M : W) (g : Graph W)
    (hg : GraphWF g) (hnn : NonNegWeights g) (source : String)
    (hs : g.getVertexIndex source ≠ -1) (fuel : Nat) (hf : fuelBound g ≤ fuel) :
    ∃ ds, findShortestDistances M g fuel source = some (.ok ds) ∧
      (ds.length : Int) = g.numVertices ∧
      readAt ds (g.getVertexIndex source) = 0 ∧
      ∀ t, 0 ≤ t → t < g.numVertices → t ≠ g.getVertexIndex source →
        ((∃ c, Walk g (g.getVertexIndex source) t c ∧ c < M) →
          Walk g (g.getVertexIndex source) t (readAt ds t) ∧ readAt ds t < M ∧
          ∀ c, Walk g (g.getVertexIndex source) t c → readAt ds t ≤ c) ∧
        ((¬ ∃ c, Walk g (g.getVertexIndex source) t c ∧ c < M) → readAt ds t = M) := by
  obtain ⟨s0, s1, _⟩ := getVertexIndex_spec g hg source hs
  have hfuel : fuelBound g = (g.adjacencyList.map List.length).sum + g.numVertices.toNat + 3 :=
    rfl
  by_cases hM : 0 < M
  · have hinit := searchInv_init g hg (g.getVertexIndex source) M hM s0 s1
    obtain ⟨st2, done2, hrun, hinv, hpq⟩ := distLoop_spec hW g hg hnn (g.getVertexIndex source)
      M s0 fuel [] _ hinit (by
        rw [pendingEdges_nil g hg]
        simp only [pqPush, List.length_cons, List.length_nil]
        omega)
    have hlb : ∀ t c, Walk g (g.getVertexIndex source) t c → readAt st2.distances t ≤ c := by
      intro t c hw
      rcases walk_lower_bound hW g hg hnn _ M done2 st2 hinv t c hw with h | ⟨y, hy, _⟩
      · exact h
      · rw [hpq] at hy
        cases hy
    refine ⟨st2.distances, ?_, hinv.len_d, hinv.d_src, ?_⟩
    · unfold findShortestDistances
      simp only [if_neg hs]
      have e := hrun
      simp only [SearchState.toDist] at e
      rw [e]
    · intro t t0 t1 _
      constructor
      · rintro ⟨c, hc, hcM⟩
        have hlt : readAt st2.distances t < M := lt_of_le_of_lt (hlb t c hc) hcM
        exact ⟨hinv.walk_of_d t t0 t1 hlt, hlt, hlb t⟩
      · intro hno
        have h1 := hinv.d_le t t0 t1
        have h2 : ¬ readAt st2.distances t < M :=
          fun h => hno ⟨_, hinv.walk_of_d t t0 t1 h, h⟩
        exact le_antisymm h1 (not_lt.1 h2)
  · have hM' : M ≤ 0 := not_lt.1 hM
    obtain ⟨f, hf2⟩ : ∃ f, fuel = f + 2 := ⟨fuel - 2, by omega⟩
    obtain ⟨st2, hrun, hd⟩ := distLoop_degenerate hW g hg hnn (g.getVertexIndex source) M hM'
      s0 s1 f
    refine ⟨st2.distances, ?_, ?_, ?_, ?_⟩
    · unfold findShortestDistances
      simp only [if_neg hs, hf2, hrun]
    · rw [hd, length_writeAt, List.length_replicate]
      have := hg.n_nonneg
      simp only [Graph.getNumVertices]
      omega
    · rw [hd, readAt_init g hg M _ s0 s1 _ s0 s1, if_pos rfl]
    · intro t t0 t1 hts
      have hno : ¬ ∃ c, Walk g (g.getVertexIndex source) t c ∧ c < M := by
        rintro ⟨c, hc, hcM⟩
        have := (Walk.nonneg hW hg hnn hc).1
        exact absurd (lt_of_le_of_lt this hcM) (not_lt.2 hM')
      refine ⟨fun h => absurd h hno, fun _ => ?_⟩
      rw [hd, readAt_init g hg M _ s0 s1 _ t0 t1, if_neg hts]

/-- C35: the two entry points agree.  For every graph built with `addVertex`/`addEdge`
whose edge weights are all non-negative, every known vertex `source` and every known vertex
`destination` different from it, both `findShortestPath(source, destination)` and
`findShortestDistances(source)` return (given `fuelBound g` loop iterations); the cost
returned by the former equals the entry for `destination` in the vector returned by the
latter whenever that entry is not the sentinel `numeric_limits<double>::max()`, and is `-1`
exactly when that entry is the sentinel; the entry for `source` is `0`.  This holds for
every addition that satisfies `DoubleLaws`, such as the rounding addition of `double`, and
so for exact arithmetic. -/
theorem entry_points_agree [LinearOrder W] [Zero W] [One W] [Neg W] [Add W]
    (hW : DoubleLaws W) (dblMax : W) (g : Graph W) (hb : Built g)
    (hnn : NonNegWeights g) (source destination : String)
    (hs : g.getVertexIndex source ≠ -1) (ht : g.getVertexIndex destination ≠ -1)
    (hne : source ≠ destination) (fuel : Nat) (hf : fuelBound g ≤ fuel) :
    ∃ cost path ds,
      findShortestPath dblMax g fuel source destination = some (.ok (cost, path)) ∧
      findShortestDistances dblMax g fuel source = some (.ok ds) ∧
      (readAt ds (g.getVertexIndex destination) ≠ dblMax →
        cost = readAt ds (g.getVertexIndex destination)) ∧
      (cost = -1 ↔ readAt ds (g.getVertexIndex destination) = dblMax) ∧
      readAt ds (g.getVertexIndex source) = 0 := by
  have hg := hb.graphWF
  obtain ⟨t0, t1, _⟩ := getVertexIndex_spec g hg destination ht
  have hst : g.getVertexIndex destination ≠ g.getVertexIndex source :=
    fun h => hne (getVertexIndex_injective g hg source destination hs ht h.symm)
  obtain ⟨ds, hrun, _, hsrc, hds⟩ := findShortestDistances_spec hW dblMax g hg hnn source hs fuel hf
  obtain ⟨hlight, hnone⟩ := hds _ t0 t1 hst
  by_cases hw : ∃ c, Walk g (g.getVertexIndex source) (g.getVertexIndex destination) c ∧
      c < dblMax
  · obtain ⟨cost, path, h1, h2, h3, _⟩ :=
      findShortestPath_spec hW dblMax g hg hnn source destination hs ht hne hw fuel hf
    obtain ⟨k1, k2, k3⟩ := hlight hw
    have heq : cost = readAt ds (g.getVertexIndex destination) :=
      le_antisymm (h3 _ k1) (k3 _ h2)
    refine ⟨cost, path, ds, h1, hrun, fun _ => heq, ?_, hsrc⟩
    constructor
    · intro hc
      have := (Walk.nonneg hW hg hnn h2).1
      rw [hc] at this
      exact absurd this (not_le.2 hW.neg_one_lt_zero)
    · intro hc
      exact absurd hc (ne_of_lt k2)
  · have h1 := findShortestPath_unreachable hW dblMax g hg hnn source destination hs ht hne hw
      fuel hf
    have h2 := hnone hw
    exact ⟨-1, [], ds, h1, hrun, fun h => absurd h2 h, ⟨fun _ => h2, fun _ => rfl⟩, hsrc⟩

theorem entry_points_agree_witness :
    findShortestPath dblMaxValue createSampleGraph 40 "A" "F"
      = some (.ok (13, ["A", "C", "B", "D", "E", "F"])) ∧
    findShortestDistances dblMaxValue createSampleGraph 40 "A"
      = some (.ok [0, 3, 2, 8, 10, 13]) ∧
    findShortestPath dblMaxValue islandGraph 10 "A" "C" = some (.ok (-1, [])) ∧
    findShortestDistances dblMaxValue islandGraph 10 "A" = some (.ok [0, 1, dblMaxValue]) ∧
    ∃ cost path ds,
      findShortestPath dblMaxValue createSampleGraph 40 "A" "F" = some (.ok (cost, path)) ∧
      findShortestDistances dblMaxValue createSampleGraph 40 "A" = some (.ok ds) ∧
      (readAt ds (createSampleGraph.getVertexIndex "F") ≠ dblMaxValue →
        cost = readAt ds (createSampleGraph.getVertexIndex "F")) ∧
      (cost = -1 ↔ readAt ds (createSampleGraph.getVertexIndex "F") = dblMaxValue) ∧
      readAt ds (createSampleGraph.getVertexIndex "A") = 0 :=
  ⟨rfl, rfl, rfl, rfl,
    entry_points_agree doubleLaws_int dblMaxValue createSampleGraph built_createSampleGraph
      nonNeg_createSampleGraph "A" "F" (by decide) (by decide) (by decide) 40 (by decide)⟩

end DijkstraImpl

/-! ## Verification of `twoSum` -/

namespace TwoSumImpl

open ArrayImpl

theorem wrapLongLong_eq (x : Int) (h1 : -2 ^ 63 ≤ x) (h2 : x < 2 ^ 63) :
    wrapLongLong x = x := by
  unfold wrapLongLong
  omega

theorem readAt_range (nums : List Int) (hn : ∀ x ∈ nums, -2 ^ 31 ≤ x ∧ x < 2 ^ 31) (i : Int) :
    -2 ^ 31 ≤ readAt nums i ∧ readAt nums i < 2 ^ 31 := by
  unfold readAt
  rw [List.getD_eq_getElem?_getD]
  cases h : nums[i.toNat]? with
  | none => simp
  | some x => exact hn x (List.getElem?_mem h)

theorem wrap_sum (nums : List Int) (hn : ∀ x ∈ nums, -2 ^ 31 ≤ x ∧ x < 2 ^ 31) (i j : Int) :
    wrapLongLong (readAt nums i + readAt nums j) = readAt nums i + readAt nums j := by
  have h1 := readAt_range nums hn i
  have h2 := readAt_range nums hn j
  apply wrapLongLong_eq <;> omega

theorem innerLoop_spec (nums : List Int) (hn : ∀ x ∈ nums, -2 ^ 31 ≤ x ∧ x < 2 ^ 31)
    (target i : Int) :
    ∀ (fuel : Nat) (j : Int), (nums.length : Int) - j ≤ fuel →
      (innerLoop nums target i fuel j = none ∧
        ∀ j', j ≤ j' → j' < nums.length → readAt nums i + readAt nums j' ≠ target) ∨
      (∃ j0, innerLoop nums target i fuel j = some [i, j0] ∧ j ≤ j0 ∧ j0 < nums.length ∧
        readAt nums i + readAt nums j0 = target ∧
        ∀ j', j ≤ j' → j' < j0 → readAt nums i + readAt nums j' ≠ target) := by
  intro fuel
  induction fuel with
  | zero =>
    intro j hj
    left
    exact ⟨rfl, fun j' h1 h2 => by omega⟩
  | succ n ih =>
    intro j hj
    unfold innerLoop
    by_cases hlt : j < nums.length
    · rw [if_pos hlt, wrap_sum nums hn]
      by_cases hit : readAt nums i + readAt nums j = target
      · rw [if_pos hit]
        right
        exact ⟨j, rfl, le_refl _, hlt, hit, fun j' h1 h2 => by omega⟩
      · rw [if_neg hit]
        rcases ih (j + 1) (by omega) with ⟨h1, h2⟩ | ⟨j0, h1, h2, h3, h4, h5⟩
        · left
          refine ⟨h1, fun j' a1 a2 => ?_⟩
          by_cases hj' : j' = j
          · rw [hj']; exact hit
          · exact h2 j' (by omega) a2
        · right
          refine ⟨j0, h1, by omega, h3, h4, fun j' a1 a2 => ?_⟩
          by_cases hj' : j' = j
          · rw [hj']; exact hit
          · exact h5 j' (by omega) a2
    · rw [if_neg hlt]
      left
      exact ⟨rfl, fun j' h1 h2 => by omega⟩

theorem outerLoop_spec (nums : List Int) (hn : ∀ x ∈ nums, -2 ^ 31 ≤ x ∧ x < 2 ^ 31)
    (target : Int) :
    ∀ (fuel : Nat) (i : Int), 0 ≤ i → (nums.length : Int) - i ≤ fuel →
      (outerLoop nums target fuel i = none ∧
        ∀ i' j', i ≤ i' → i' < j' → j' < nums.length →
          readAt nums i' + readAt nums j' ≠ target) ∨
      (∃ i0 j0, outerLoop nums target fuel i = some [i0, j0] ∧ i ≤ i0 ∧ i0 < j0 ∧
        j0 < nums.length ∧ readAt nums i0 + readAt nums j0 = target ∧
        ∀ i' j', i ≤ i' → i' < j' → j' < nums.length →
          readAt nums i' + readAt nums j' = target → i0 < i' ∨ (i0 = i' ∧ j0 ≤ j')) := by
  intro fuel
  induction fuel with
  | zero =>
    intro i hi0 hi
    left
    exact ⟨rfl, fun i' j' h1 h2 h3 => by omega⟩
  | succ n ih =>
    intro i hi0 hi
    unfold outerLoop
    by_cases hlt : i < nums.length
    · rw [if_pos hlt]
      rcases innerLoop_spec nums hn target i nums.length (i + 1) (by omega) with
        ⟨h1, h2⟩ | ⟨j0, h1, h2, h3, h4, h5⟩
      · rw [h1]
        simp only
        rcases ih (i + 1) (by omega) (by omega) with ⟨g1, g2⟩ | ⟨i0, j0, g1, g2, g3, g4, g5, g6⟩
        · left
          refine ⟨g1, fun i' j' a1 a2 a3 => ?_⟩
          by_cases hi' : i' = i
          · rw [hi']; exact h2 j' (by omega) a3
          · exact g2 i' j' (by omega) a2 a3
        · right
          refine ⟨i0, j0, g1, by omega, g3, g4, g5, fun i' j' a1 a2 a3 a4 => ?_⟩
          by_cases hi' : i' = i
          · rw [hi'] at a4 a2
            exact absurd a4 (h2 j' (by omega) a3)
          · exact g6 i' j' (by omega) a2 a3 a4
      · rw [h1]
        simp only
        right
        refine ⟨i, j0, rfl, le_refl _, by omega, h3, h4, fun i' j' a1 a2 a3 a4 => ?_⟩
        by_cases hi' : i' = i
        · right
          refine ⟨hi'.symm, ?_⟩
          by_contra hlt'
          rw [hi'] at a4 a2
          exact h5 j' (by omega) (by omega) a4
        · left; omega
    · rw [if_neg hlt]
      left
      exact ⟨rfl, fun i' j' h1 h2 h3 => by omega⟩

/-- C27: for a vector of 32-bit integers, `twoSum` returns the empty vector exactly when no
pair of indices `i < j` has `nums[i] + nums[j] = target` as exact integers; otherwise it
returns `[i, j]` with `i < j < nums.size()`, `nums[i] + nums[j] = target`, and `(i, j)` the
lexicographically smallest such pair. -/
theorem twoSum_spec (nums : List Int) (target : Int)
    (hn : ∀ x ∈ nums, -2 ^ 31 ≤ x ∧ x < 2 ^ 31) :
    (twoSum nums target = [] ↔
      ¬ ∃ i j : Int, 0 ≤ i ∧ i < j ∧ j < nums.length ∧
        readAt nums i + readAt nums j = target) ∧
    (twoSum nums target ≠ [] →
      ∃ i j : Int, twoSum nums target = [i, j] ∧ 0 ≤ i ∧ i < j ∧ j < nums.length ∧
        readAt nums i + readAt nums j = target ∧
        ∀ i' j' : Int, 0 ≤ i' → i' < j' → j' < nums.length →
          readAt nums i' + readAt nums j' = target → i < i' ∨ (i = i' ∧ j ≤ j')) := by
  unfold twoSum
  rcases outerLoop_spec nums hn target nums.length 0 (le_refl 0) (by omega) with
    ⟨g1, g2⟩ | ⟨i0, j0, g1, g2, g3, g4, g5, g6⟩
  · rw [g1]
    show _ ∧ _
    refine ⟨⟨fun _ => ?_, fun _ => rfl⟩, fun h => absurd rfl h⟩
    rintro ⟨i, j, a1, a2, a3, a4⟩
    exact g2 i j a1 a2 a3 a4
  · rw [g1]
    show _ ∧ _
    refine ⟨⟨fun h => (by cases h), fun h => (h ⟨i0, j0, g2, g3, g4, g5⟩).elim⟩, fun _ => ?_⟩
    exact ⟨i0, j0, rfl, g2, g3, g4, g5, fun i' j' a1 a2 a3 a4 => g6 i' j' a1 a2 a3 a4⟩

theorem twoSum_spec_witness :
    twoSum exampleNums 6 = [0, 4] ∧ twoSum [2147483647, 1] (-2147483648) = [] ∧
    ∃ i j : Int, twoSum exampleNums 6 = [i, j] ∧ 0 ≤ i ∧ i < j ∧
      j < exampleNums.length ∧ readAt exampleNums i + readAt exampleNums j = 6 ∧
      ∀ i' j' : Int, 0 ≤ i' → i' < j' → j' < exampleNums.length →
        readAt exampleNums i' + readAt exampleNums j' = 6 → i < i' ∨ (i = i' ∧ j ≤ j') :=
  ⟨by decide, by decide, (twoSum_spec exampleNums 6 (by decide)).2 (by decide)⟩

end TwoSumImpl

/-! ## Verification of the linked-list `SparseMatrix` -/

namespace LinkedListImpl

namespace SparseMatrix

variable {V : Type}

/-- An in-bounds `insert` returns. -/
theorem insert_returns [Zero V] [DecidableEq V] (m : SparseMatrix V) (row col : Int)
    (value : V) (h : ¬ (row < 0 ∨ row ≥ m.rows ∨ col < 0 ∨ col ≥ m.cols)) :
    ∃ t, insert m row col value = .ok t := by
  unfold insert
  rw [if_neg h]
  by_cases hv : value = 0
  · rw [if_pos hv]
    exact ⟨_, rfl⟩
  · rw [if_neg hv]
    cases m.head with
    | nil => exact ⟨_, rfl⟩
    | cons hd rest =>
      simp only
      split_ifs <;> exact ⟨_, rfl⟩

/-- C28: for every list state and every value, `insert(row,col,value)` throws
`out_of_range` exactly when `row` is outside `[0,rows)` or `col` is outside `[0,cols)`; it
throws nothing else, returns otherwise, and a throwing call leaves the object, hence the
list of stored nodes, as it was. -/
theorem insert_error_iff [Zero V] [DecidableEq V] (m : SparseMatrix V) (row col : Int)
    (value : V) :
    (insert m row col value = .error .outOfRange ↔
      (row < 0 ∨ row ≥ m.rows ∨ col < 0 ∨ col ≥ m.cols)) ∧
    (∀ e, insert m row col value = .error e → e = .outOfRange) ∧
    (¬ (row < 0 ∨ row ≥ m.rows ∨ col < 0 ∨ col ≥ m.cols) →
      ∃ t, insert m row col value = .ok t) ∧
    ((row < 0 ∨ row ≥ m.rows ∨ col < 0 ∨ col ≥ m.cols) →
      afterInsert m row col value = m ∧ (afterInsert m row col value).head = m.head) := by
  have hthrow : (row < 0 ∨ row ≥ m.rows ∨ col < 0 ∨ col ≥ m.cols) →
      insert m row col value = .error .outOfRange := by
    intro h
    unfold insert
    rw [if_pos h]
  refine ⟨⟨fun h => ?_, hthrow⟩, fun e he => ?_, insert_returns m row col value, fun h => ?_⟩
  · by_contra hb
    obtain ⟨t, ht⟩ := insert_returns m row col value hb
    rw [ht] at h
    cases h
  · by_cases hb : row < 0 ∨ row ≥ m.rows ∨ col < 0 ∨ col ≥ m.cols
    · rw [hthrow hb] at he
      injection he with he
      exact he.symm
    · obtain ⟨t, ht⟩ := insert_returns m row col value hb
      rw [ht] at he
      cases he
  · unfold afterInsert
    rw [hthrow h]
    exact ⟨rfl, rfl⟩

theorem insert_error_iff_witness :
    insert exampleList 5 5 1 = .error .outOfRange ∧
    exampleList.head
      = [Node.mk 0 0 1, Node.mk 0 2 2, Node.mk 1 1 3, Node.mk 2 0 4, Node.mk 2 2 5] ∧
    afterInsert exampleList 5 5 1 = exampleList ∧
    (afterInsert exampleList 5 5 1).head = exampleList.head :=
  ⟨rfl, by decide, ((insert_error_iff exampleList 5 5 1).2.2.2 (by decide)).1,
    ((insert_error_iff exampleList 5 5 1).2.2.2 (by decide)).2⟩

/-! ### The sorted-list invariant -/

theorem insertLoop_mem (r c : Int) (v : V) : ∀ (l : List (Node V)), l.Pairwise keyBefore →
    ∀ x : Node V, x ∈ insertLoop r c v l ↔
      x = Node.mk r c v ∨ (x ∈ l ∧ ¬ (x.row = r ∧ x.col = c)) := by
  intro l
  induction l with
  | nil =>
    intro _ x
    simp [insertLoop]
  | cons n rest ih =>
    intro hp x
    rw [List.pairwise_cons] at hp
    obtain ⟨hn, hrest⟩ := hp
    unfold insertLoop
    by_cases h1 : r < n.row ∨ (r = n.row ∧ c < n.col)
    · rw [if_pos h1]
      constructor
      · intro hx
        rcases List.mem_cons.1 hx with hx | hx
        · exact Or.inl hx
        · refine Or.inr ⟨hx, ?_⟩
          rcases List.mem_cons.1 hx with hx | hx
          · rw [hx]
            omega
          · have := hn x hx
            unfold keyBefore at this
            omega
      · rintro (hx | ⟨hx, _⟩)
        · rw [hx]
          exact List.mem_cons_self _ _
        · exact List.mem_cons_of_mem _ hx
    · rw [if_neg h1]
      by_cases h2 : r = n.row ∧ c = n.col
      · rw [if_pos h2]
        have e : ({ n with value := v } : Node V) = Node.mk r c v := by
          rw [h2.1, h2.2]
        rw [e]
        constructor
        · intro hx
          rcases List.mem_cons.1 hx with hx | hx
          · exact Or.inl hx
          · refine Or.inr ⟨List.mem_cons_of_mem _ hx, ?_⟩
            have := hn x hx
            unfold keyBefore at this
            omega
        · rintro (hx | ⟨hx, hk⟩)
          · rw [hx]
            exact List.mem_cons_self _ _
          · rcases List.mem_cons.1 hx with hx | hx
            · exfalso
              apply hk
              rw [hx]
              exact ⟨h2.1.symm, h2.2.symm⟩
            · exact List.mem_cons_of_mem _ hx
      · rw [if_neg h2]
        rw [List.mem_cons, ih hrest x, List.mem_cons]
        constructor
        · rintro (hx | hx | ⟨hx, hk⟩)
          · refine Or.inr ⟨Or.inl hx, ?_⟩
            rw [hx]
            omega
          · exact Or.inl hx
          · exact Or.inr ⟨Or.inr hx, hk⟩
        · rintro (hx | ⟨hx | hx, hk⟩)
          · exact Or.inr (Or.inl hx)
          · exact Or.inl hx
          · exact Or.inr (Or.inr ⟨hx, hk⟩)

theorem insertLoop_sorted (r c : Int) (v : V) : ∀ (l : List (Node V)),
    l.Pairwise keyBefore → (insertLoop r c v l).Pairwise keyBefore := by
  intro l
  induction l with
  | nil =>
    intro _
    simp [insertLoop]
  | cons n rest ih =>
    intro hp
    have hp0 := hp
    rw [List.pairwise_cons] at hp
    obtain ⟨hn, hrest⟩ := hp
    unfold insertLoop
    by_cases h1 : r < n.row ∨ (r = n.row ∧ c < n.col)
    · rw [if_pos h1]
      rw [List.pairwise_cons]
      refine ⟨?_, hp0⟩
      intro x hx
      rcases List.mem_cons.1 hx with hx | hx
      · rw [hx]
        exact h1
      · have := hn x hx
        unfold keyBefore at this ⊢
        simp only
        omega
    · rw [if_neg h1]
      by_cases h2 : r = n.row ∧ c = n.col
      · rw [if_pos h2]
        rw [List.pairwise_cons]
        refine ⟨?_, hrest⟩
        intro x hx
        exact hn x hx
      · rw [if_neg h2]
        rw [List.pairwise_cons]
        refine ⟨?_, ih hrest⟩
        intro x hx
        rcases (insertLoop_mem r c v rest hrest x).1 hx with hx | ⟨hx, _⟩
        · rw [hx]
          unfold keyBefore
          simp only
          omega
        · exact hn x hx

theorem removeLoop_sublist (r c : Int) : ∀ (l : List (Node V)),
    (removeLoop r c l).Sublist l := by
  intro l
  induction l with
  | nil => exact List.Sublist.refl _
  | cons n rest ih =>
    unfold removeLoop
    split_ifs
    · exact List.sublist_cons_self _ _
    · exact ih.cons₂ _

theorem removeLoop_sorted (r c : Int) (l : List (Node V)) (hp : l.Pairwise keyBefore) :
    (removeLoop r c l).Pairwise keyBefore :=
  hp.sublist (removeLoop_sublist r c l)

theorem removeLoop_mem (r c : Int) : ∀ (l : List (Node V)), l.Pairwise keyBefore →
    ∀ x : Node V, x ∈ removeLoop r c l ↔ (x ∈ l ∧ ¬ (x.row = r ∧ x.col = c)) := by
  intro l
  induction l with
  | nil =>
    intro _ x
    simp [removeLoop]
  | cons n rest ih =>
    intro hp x
    rw [List.pairwise_cons] at hp
    obtain ⟨hn, hrest⟩ := hp
    unfold removeLoop
    by_cases h1 : n.row = r ∧ n.col = c
    · rw [if_pos h1]
      constructor
      · intro hx
        refine ⟨List.mem_cons_of_mem _ hx, ?_⟩
        have := hn x hx
        unfold keyBefore at this
        omega
      · rintro ⟨hx, hk⟩
        rcases List.mem_cons.1 hx with hx | hx
        · exfalso
          apply hk
          rw [hx]
          exact h1
        · exact hx
    · rw [if_neg h1]
      rw [List.mem_cons, ih hrest x, List.mem_cons]
      constructor
      · rintro (hx | ⟨hx, hk⟩)
        · refine ⟨Or.inl hx, ?_⟩
          rw [hx]
          exact h1
        · exact ⟨Or.inr hx, hk⟩
      · rintro ⟨hx | hx, hk⟩
        · exact Or.inl hx
        · exact Or.inr ⟨hx, hk⟩

/-- The three cases on `head` in `remove` are the first iteration of its loop. -/
theorem remove_eq (m : SparseMatrix V) (r c : Int) :
    remove m r c = { m with head := removeLoop r c m.head } := by
  unfold remove
  cases hm : m.head with
  | nil =>
    simp only [removeLoop]
    cases m
    simp only at hm
    rw [hm]
  | cons h rest =>
    simp only [removeLoop]
    split_ifs <;> rfl

/-- The cases on `head` in `insert` are the first iteration of its loop. -/
theorem insert_eq [Zero V] [DecidableEq V] (m : SparseMatrix V) (r c : Int) (v : V)
    (hb : ¬ (r < 0 ∨ r ≥ m.rows ∨ c < 0 ∨ c ≥ m.cols)) (hv : v ≠ 0) :
    insert m r c v = .ok { m with head := insertLoop r c v m.head } := by
  unfold insert
  rw [if_neg hb, if_neg hv]
  cases m.head with
  | nil => rfl
  | cons h rest =>
    simp only [insertLoop]
    split_ifs <;> rfl

theorem insert_zero_eq [Zero V] [DecidableEq V] (m : SparseMatrix V) (r c : Int)
    (hb : ¬ (r < 0 ∨ r ≥ m.rows ∨ c < 0 ∨ c ≥ m.cols)) :
    insert m r c 0 = .ok (remove m r c) := by
  unfold insert
  rw [if_neg hb, if_pos rfl]

theorem insert_out_of_bounds [Zero V] [DecidableEq V] (m : SparseMatrix V) (r c : Int) (v : V)
    (hb : r < 0 ∨ r ≥ m.rows ∨ c < 0 ∨ c ≥ m.cols) :
    insert m r c v = .error .outOfRange := by
  unfold insert
  rw [if_pos hb]

theorem clearLoop_eq (l : List (Node V)) : clearLoop l = [] := by
  induction l with
  | nil => rfl
  | cons n rest ih => exact ih

theorem countLoop_eq (l : List (Node V)) : ∀ count : Int,
    countLoop l count = count + l.length := by
  induction l with
  | nil =>
    intro count
    simp [countLoop]
  | cons n rest ih =>
    intro count
    simp only [countLoop, ih, List.length_cons]
    push_cast
    omega

theorem new_sortedList [Zero V] (r c : Int) : SortedList (new r c : SparseMatrix V) :=
  ⟨List.Pairwise.nil, fun _ h => (by cases h), fun _ h => (by cases h)⟩

theorem remove_sortedList [Zero V] (m : SparseMatrix V) (hm : SortedList m) (r c : Int) :
    SortedList (remove m r c) ∧ (remove m r c).rows = m.rows ∧
      (remove m r c).cols = m.cols := by
  rw [remove_eq]
  refine ⟨⟨removeLoop_sorted r c _ hm.sorted, ?_, ?_⟩, rfl, rfl⟩
  · intro n hn
    exact hm.inb n ((removeLoop_sublist r c _).subset hn)
  · intro n hn
    exact hm.nonzero n ((removeLoop_sublist r c _).subset hn)

theorem insert_sortedList [Zero V] [DecidableEq V] (m : SparseMatrix V) (hm : SortedList m)
    (r c : Int) (v : V) :
    SortedList (match insert m r c v with | .ok t => t | .error _ => m) ∧
    (match insert m r c v with | .ok t => t | .error _ => m).rows = m.rows ∧
    (match insert m r c v with | .ok t => t | .error _ => m).cols = m.cols := by
  by_cases hb : r < 0 ∨ r ≥ m.rows ∨ c < 0 ∨ c ≥ m.cols
  · rw [insert_out_of_bounds m r c v hb]
    exact ⟨hm, rfl, rfl⟩
  · by_cases hv : v = 0
    · rw [hv, insert_zero_eq m r c hb]
      exact remove_sortedList m hm r c
    · rw [insert_eq m r c v hb hv]
      refine ⟨⟨insertLoop_sorted r c v _ hm.sorted, ?_, ?_⟩, rfl, rfl⟩
      · intro n hn
        rcases (insertLoop_mem r c v _ hm.sorted n).1 hn with hn | ⟨hn, _⟩
        · rw [hn]
          simp only
          omega
        · exact hm.inb n hn
      · intro n hn
        rcases (insertLoop_mem r c v _ hm.sorted n).1 hn with hn | ⟨hn, _⟩
        · rw [hn]
          exact hv
        · exact hm.nonzero n hn

theorem clear_sortedList [Zero V] (m : SparseMatrix V) : SortedList (clear m) := by
  have e : (clear m).head = [] := clearLoop_eq m.head
  refine ⟨?_, ?_, ?_⟩
  · rw [e]
    exact List.Pairwise.nil
  · intro n hn
    rw [e] at hn
    cases hn
  · intro n hn
    rw [e] at hn
    cases hn

theorem applyOp_sortedList [Zero V] [DecidableEq V] (m : SparseMatrix V) (hm : SortedList m)
    (op : ArrayImpl.SparseMatrixArray.Op V) :
    SortedList (applyOp m op) ∧ (applyOp m op).rows = m.rows ∧
      (applyOp m op).cols = m.cols := by
  cases op with
  | set r c v => exact insert_sortedList m hm r c v
  | insert r c v => exact insert_sortedList m hm r c v
  | remove r c => exact remove_sortedList m hm r c
  | clear => exact ⟨clear_sortedList m, rfl, rfl⟩

theorem runOps_sortedList [Zero V] [DecidableEq V]
    (ops : List (ArrayImpl.SparseMatrixArray.Op V)) :
    ∀ m : SparseMatrix V, SortedList m →
      SortedList (runOps m ops) ∧ (runOps m ops).rows = m.rows ∧
        (runOps m ops).cols = m.cols := by
  induction ops with
  | nil => exact fun m hm => ⟨hm, rfl, rfl⟩
  | cons op ops ih =>
    intro m hm
    obtain ⟨h1, h2, h3⟩ := applyOp_sortedList m hm op
    obtain ⟨k1, k2, k3⟩ := ih (applyOp m op) h1
    exact ⟨k1, k2.trans h2, k3.trans h3⟩

/-- C32: sorted-list invariant.  Starting from an empty matrix, after every sequence of
`insert`/`set`, `remove` (and `clear`) calls the nodes reachable from `head` have strictly
increasing `(row, col)` keys in lexicographic order (so no position occurs twice), every
key is within the matrix bounds and no node has value 0. -/
theorem sorted_list_invariant [Zero V] [DecidableEq V] (r c : Int)
    (ops : List (ArrayImpl.SparseMatrixArray.Op V)) :
    (runOps (new r c) ops).head.Pairwise
      (fun a b => a.row < b.row ∨ (a.row = b.row ∧ a.col < b.col)) ∧
    (∀ (i j : Nat) (a b : Node V), i < j → (runOps (new r c) ops).head[i]? = some a →
      (runOps (new r c) ops).head[j]? = some b → ¬ (a.row = b.row ∧ a.col = b.col)) ∧
    (∀ n ∈ (runOps (new r c) ops).head, 0 ≤ n.row ∧ n.row < r ∧ 0 ≤ n.col ∧ n.col < c) ∧
    (∀ n ∈ (runOps (new r c) ops).head, n.value ≠ 0) := by
  obtain ⟨h, hr, hc⟩ := runOps_sortedList ops (new r c : SparseMatrix V) (new_sortedList r c)
  refine ⟨h.sorted, ?_, ?_, h.nonzero⟩
  · intro i j a b hij ha hb
    obtain ⟨hi, ea⟩ := List.getElem?_eq_some.1 ha
    obtain ⟨hj, eb⟩ := List.getElem?_eq_some.1 hb
    have := (List.pairwise_iff_getElem.1 h.sorted) i j hi hj hij
    rw [ea, eb] at this
    unfold keyBefore at this
    omega
  · intro n hn
    have := h.inb n hn
    rw [hr, hc] at this
    exact this

open ArrayImpl.SparseMatrixArray (Op entries keyLess WF cell)

/-! ### Equivalence with the array representation -/

theorem mem_nodes (m : SparseMatrix V) (r c : Int) (v : V) :
    (r, c, v) ∈ nodes m ↔ Node.mk r c v ∈ m.head := by
  unfold nodes
  rw [List.mem_map]
  constructor
  · rintro ⟨n, hn, he⟩
    obtain ⟨nr, nc, nv⟩ := n
    simp only [toTriple, Prod.mk.injEq] at he
    obtain ⟨e1, e2, e3⟩ := he
    rw [← e1, ← e2, ← e3]
    exact hn
  · intro h
    exact ⟨_, h, rfl⟩

theorem nodes_pairwise (m : SparseMatrix V) (h : m.head.Pairwise keyBefore) :
    (nodes m).Pairwise (fun a b => keyLess (a.1, a.2.1) (b.1, b.2.1)) := by
  unfold nodes
  rw [List.pairwise_map]
  exact h.imp (fun {a b} hab => hab)

/-- Canonical form: two lists of triples with strictly increasing keys and the same
members are equal. -/
theorem triples_eq_of_mem_iff (l1 l2 : List (Int × Int × V))
    (p1 : l1.Pairwise (fun a b => keyLess (a.1, a.2.1) (b.1, b.2.1)))
    (p2 : l2.Pairwise (fun a b => keyLess (a.1, a.2.1) (b.1, b.2.1)))
    (h : ∀ e, e ∈ l1 ↔ e ∈ l2) : l1 = l2 := by
  have hne : ∀ a b : Int × Int × V, keyLess (a.1, a.2.1) (b.1, b.2.1) → a ≠ b := by
    intro a b hab heq
    subst heq
    exact ArrayImpl.SparseMatrixArray.keyLess_irrefl _ hab
  have n1 : l1.Nodup := p1.imp (fun {a b} hab => hne a b hab)
  have n2 : l2.Nodup := p2.imp (fun {a b} hab => hne a b hab)
  have hperm : l1.Perm l2 := (List.perm_ext_iff_of_nodup n1 n2).2 h
  haveI : IsAntisymm (Int × Int × V) (fun a b => keyLess (a.1, a.2.1) (b.1, b.2.1)) :=
    ⟨fun a b h1 h2 => absurd (ArrayImpl.SparseMatrixArray.keyLess_trans h1 h2)
      (ArrayImpl.SparseMatrixArray.keyLess_irrefl _)⟩
  exact List.eq_of_perm_of_sorted hperm p1 p2

theorem getLoop_of_mem [Zero V] (n : Node V) : ∀ (l : List (Node V)), l.Pairwise keyBefore →
    n ∈ l → getLoop n.row n.col l = n.value := by
  intro l
  induction l with
  | nil =>
    intro _ h
    cases h
  | cons n0 rest ih =>
    intro hp hn
    rw [List.pairwise_cons] at hp
    obtain ⟨h0, hrest⟩ := hp
    unfold getLoop
    rcases List.mem_cons.1 hn with hn | hn
    · rw [← hn, if_pos ⟨rfl, rfl⟩]
    · have := h0 n hn
      unfold keyBefore at this
      rw [if_neg (by omega), if_neg (by omega)]
      exact ih hrest hn

theorem getLoop_of_not_mem [Zero V] (r c : Int) : ∀ (l : List (Node V)),
    (∀ n ∈ l, ¬ (n.row = r ∧ n.col = c)) → getLoop r c l = 0 := by
  intro l
  induction l with
  | nil =>
    intro _
    rfl
  | cons n0 rest ih =>
    intro h
    unfold getLoop
    rw [if_neg (h n0 (List.mem_cons_self _ _))]
    split_ifs
    · rfl
    · exact ih (fun n hn => h n (List.mem_cons_of_mem _ hn))

theorem sameMatrix_new [Zero V] (r c : Int) :
    SameMatrix (ArrayImpl.SparseMatrixArray.new r c : ArrayImpl.SparseMatrixArray V)
      (new r c) :=
  ⟨ArrayImpl.SparseMatrixArray.new_wf r c, new_sortedList r c, rfl, rfl, by
    rw [ArrayImpl.SparseMatrixArray.entries_new]
    rfl⟩

theorem sameMatrix_remove [Zero V] [DecidableEq V] {a : ArrayImpl.SparseMatrixArray V}
    {l : SparseMatrix V} (h : SameMatrix a l) (r c : Int) :
    SameMatrix (ArrayImpl.SparseMatrixArray.remove a r c) (remove l r c) := by
  obtain ⟨hw, e1, e2, _, hmem, _⟩ := ArrayImpl.SparseMatrixArray.remove_spec a h.wf r c
  obtain ⟨hs, k1, k2⟩ := remove_sortedList l h.sl r c
  refine ⟨hw, hs, by rw [e1, k1, h.rows], by rw [e2, k2, h.cols], ?_⟩
  apply triples_eq_of_mem_iff _ _ hw.sorted.pairwise (nodes_pairwise _ hs.sorted)
  rintro ⟨r', c', v'⟩
  rw [hmem, h.same, mem_nodes, mem_nodes, remove_eq]
  simp only
  rw [removeLoop_mem r c _ h.sl.sorted]
  simp only [ne_eq, Prod.mk.injEq]

theorem sameMatrix_insert [Zero V] [DecidableEq V] {a : ArrayImpl.SparseMatrixArray V}
    {l : SparseMatrix V} (h : SameMatrix a l) (r c : Int) (v : V) :
    SameMatrix
      (match ArrayImpl.SparseMatrixArray.insert a r c v with | .ok t => t | .error _ => a)
      (match insert l r c v with | .ok t => t | .error _ => l) ∧
    ((match ArrayImpl.SparseMatrixArray.insert a r c v with
        | .ok _ => none | .error e => some e) = some ArrayImpl.Error.outOfRange ↔
      (match insert l r c v with
        | .ok _ => none | .error e => some e) = some Error.outOfRange) ∧
    ((match ArrayImpl.SparseMatrixArray.insert a r c v with
        | .ok _ => none | .error e => some e) = none ↔
      (match insert l r c v with
        | .ok _ => none | .error e => some e) = none) := by
  by_cases hb : r < 0 ∨ r ≥ l.rows ∨ c < 0 ∨ c ≥ l.cols
  · have hb' : r < 0 ∨ r ≥ a.rows ∨ c < 0 ∨ c ≥ a.cols := by
      rw [h.rows, h.cols]
      exact hb
    have ea : ArrayImpl.SparseMatrixArray.insert a r c v = .error .outOfRange := by
      unfold ArrayImpl.SparseMatrixArray.insert
      rw [if_pos hb']
    rw [insert_out_of_bounds l r c v hb, ea]
    exact ⟨h, by simp, by simp⟩
  · have hr := h.rows
    have hc := h.cols
    by_cases hv : v = 0
    · rw [hv, insert_zero_eq l r c hb, ArrayImpl.SparseMatrixArray.insert_zero a r c
        (by omega) (by omega) (by omega) (by omega)]
      exact ⟨sameMatrix_remove h r c, by simp, by simp⟩
    · obtain ⟨t, hins, hw, e1, e2, hmem, _, _⟩ := ArrayImpl.SparseMatrixArray.insert_spec a
        h.wf r c v (by omega) (by omega) (by omega) (by omega) hv
      have hs := insert_sortedList l h.sl r c v
      rw [insert_eq l r c v hb hv] at hs ⊢
      rw [hins]
      simp only at hs ⊢
      refine ⟨⟨hw, hs.1, by rw [e1, hr], by rw [e2, hc], ?_⟩, by simp, by simp⟩
      apply triples_eq_of_mem_iff _ _ hw.sorted.pairwise (nodes_pairwise _ hs.1.sorted)
      rintro ⟨r', c', v'⟩
      rw [hmem, h.same, mem_nodes, mem_nodes]
      simp only
      rw [insertLoop_mem r c v _ h.sl.sorted]
      simp only [ne_eq, Prod.mk.injEq, Node.mk.injEq]

theorem sameMatrix_clear [Zero V] {a : ArrayImpl.SparseMatrixArray V}
    {l : SparseMatrix V} (h : SameMatrix a l) :
    SameMatrix (ArrayImpl.SparseMatrixArray.clear a) (clear l) := by
  refine ⟨ArrayImpl.SparseMatrixArray.clear_wf h.wf, clear_sortedList l, h.rows, h.cols, ?_⟩
  have e : (clear l).head = [] := clearLoop_eq l.head
  unfold nodes
  rw [e]
  simp [ArrayImpl.SparseMatrixArray.entries, ArrayImpl.SparseMatrixArray.clear]

theorem sameMatrix_applyOp [Zero V] [DecidableEq V] {a : ArrayImpl.SparseMatrixArray V}
    {l : SparseMatrix V} (h : SameMatrix a l) (op : Op V) :
    SameMatrix (ArrayImpl.SparseMatrixArray.applyOp a op) (applyOp l op) ∧
    (ArrayImpl.SparseMatrixArray.callError a op = some .outOfRange ↔
      callError l op = some .outOfRange) ∧
    (ArrayImpl.SparseMatrixArray.callError a op = none ↔ callError l op = none) := by
  cases op with
  | set r c v => exact sameMatrix_insert h r c v
  | insert r c v => exact sameMatrix_insert h r c v
  | remove r c =>
    exact ⟨sameMatrix_remove h r c, by simp [callError,
      ArrayImpl.SparseMatrixArray.callError], by simp [callError,
      ArrayImpl.SparseMatrixArray.callError]⟩
  | clear =>
    exact ⟨sameMatrix_clear h, by simp [callError,
      ArrayImpl.SparseMatrixArray.callError], by simp [callError,
      ArrayImpl.SparseMatrixArray.callError]⟩

theorem sameMatrix_runOps [Zero V] [DecidableEq V] (ops : List (Op V)) :
    ∀ {a : ArrayImpl.SparseMatrixArray V} {l : SparseMatrix V}, SameMatrix a l →
      SameMatrix (ArrayImpl.SparseMatrixArray.runOps a ops) (runOps l ops) := by
  induction ops with
  | nil => exact fun h => h
  | cons op ops ih => exact fun h => ih (sameMatrix_applyOp h op).1

theorem sameMatrix_get [Zero V] {a : ArrayImpl.SparseMatrixArray V}
    {l : SparseMatrix V} (h : SameMatrix a l) (r c : Int) :
    (∀ v, ArrayImpl.SparseMatrixArray.get a r c = .ok v ↔ get l r c = .ok v) ∧
    (ArrayImpl.SparseMatrixArray.get a r c = .error .outOfRange ↔
      get l r c = .error .outOfRange) := by
  by_cases hb : r < 0 ∨ r ≥ l.rows ∨ c < 0 ∨ c ≥ l.cols
  · have hb' : r < 0 ∨ r ≥ a.rows ∨ c < 0 ∨ c ≥ a.cols := by
      rw [h.rows, h.cols]
      exact hb
    have ea : ArrayImpl.SparseMatrixArray.get a r c = .error .outOfRange := by
      unfold ArrayImpl.SparseMatrixArray.get
      rw [if_pos hb']
    have el : get l r c = .error .outOfRange := by
      unfold get
      rw [if_pos hb]
    rw [ea, el]
    exact ⟨fun v => ⟨fun x => (by cases x), fun x => (by cases x)⟩, by simp⟩
  · have hr := h.rows
    have hc := h.cols
    have ea := ArrayImpl.SparseMatrixArray.get_eq_cell a r c (by omega) (by omega)
      (by omega) (by omega)
    have el : get l r c = .ok (getLoop r c l.head) := by
      unfold get
      rw [if_neg hb]
    have key : cell a r c = getLoop r c l.head := by
      by_cases hex : ∃ v, Node.mk r c v ∈ l.head
      · obtain ⟨v, hv⟩ := hex
        have h1 := getLoop_of_mem (Node.mk r c v) l.head h.sl.sorted hv
        simp only at h1
        rw [h1]
        apply ArrayImpl.SparseMatrixArray.cell_of_mem h.wf.sorted
        rw [h.same, mem_nodes]
        exact hv
      · have h1 : getLoop r c l.head = 0 := by
          apply getLoop_of_not_mem
          rintro ⟨nr, nc, nv⟩ hn ⟨e1, e2⟩
          simp only at e1 e2
          rw [e1, e2] at hn
          exact hex ⟨nv, hn⟩
        rw [h1]
        apply ArrayImpl.SparseMatrixArray.cell_of_not_mem h.wf.sorted
        intro v hv
        rw [h.same, mem_nodes] at hv
        exact hex ⟨v, hv⟩
    rw [ea, el, key]
    exact ⟨fun v => ⟨fun x => (by cases x; rfl), fun x => (by cases x; rfl)⟩,
      ⟨fun x => (by cases x), fun x => (by cases x)⟩⟩

theorem sameMatrix_count [Zero V] {a : ArrayImpl.SparseMatrixArray V}
    {l : SparseMatrix V} (h : SameMatrix a l) :
    ArrayImpl.SparseMatrixArray.getNonZeroCount a = getNonZeroCount l := by
  unfold getNonZeroCount ArrayImpl.SparseMatrixArray.getNonZeroCount
  rw [countLoop_eq]
  have e := congrArg List.length h.same
  rw [ArrayImpl.SparseMatrixArray.entries_length] at e
  unfold nodes at e
  rw [List.length_map] at e
  have := h.wf.alloc.size_nonneg
  omega

/-- C33: the two sparse-matrix representations are observationally equivalent.  For every
shape and every sequence of `insert`/`set`, `remove` (and `clear`) calls applied to a new
array-backed matrix and to a new linked-list matrix of that shape: each call throws
`out_of_range` in one exactly when it does in the other (and returns in one exactly when
it returns in the other); after the sequence the array's stored triples in index order
equal the list's nodes in link order; `get` returns the same value, or throws
`out_of_range`, on both; and `getNonZeroCount` returns the same number on both. -/
theorem representations_equivalent [Zero V] [DecidableEq V] (r c : Int) (ops : List (Op V)) :
    (∀ (pre post : List (Op V)) (op : Op V), ops = pre ++ op :: post →
      (ArrayImpl.SparseMatrixArray.callError
          (ArrayImpl.SparseMatrixArray.runOps (ArrayImpl.SparseMatrixArray.new r c) pre) op =
            some .outOfRange ↔
        callError (runOps (new r c) pre) op = some .outOfRange) ∧
      (ArrayImpl.SparseMatrixArray.callError
          (ArrayImpl.SparseMatrixArray.runOps (ArrayImpl.SparseMatrixArray.new r c) pre) op =
            none ↔
        callError (runOps (new r c) pre) op = none)) ∧
    entries (ArrayImpl.SparseMatrixArray.runOps (ArrayImpl.SparseMatrixArray.new r c) ops) =
      nodes (runOps (new r c) ops) ∧
    (∀ (row col : Int) (v : V),
      ArrayImpl.SparseMatrixArray.get
          (ArrayImpl.SparseMatrixArray.runOps (ArrayImpl.SparseMatrixArray.new r c) ops)
          row col = .ok v ↔
        get (runOps (new r c) ops) row col = .ok v) ∧
    (∀ row col : Int,
      ArrayImpl.SparseMatrixArray.get
          (ArrayImpl.SparseMatrixArray.runOps (ArrayImpl.SparseMatrixArray.new r c) ops)
          row col = .error .outOfRange ↔
        get (runOps (new r c) ops) row col = .error .outOfRange) ∧
    ArrayImpl.SparseMatrixArray.getNonZeroCount
        (ArrayImpl.SparseMatrixArray.runOps (ArrayImpl.SparseMatrixArray.new r c) ops) =
      getNonZeroCount (runOps (new r c) ops) := by
  have h0 : SameMatrix (ArrayImpl.SparseMatrixArray.new r c : ArrayImpl.SparseMatrixArray V)
      (new r c) := sameMatrix_new r c
  have h := sameMatrix_runOps ops h0
  refine ⟨?_, h.same, fun row col v => (sameMatrix_get h row col).1 v,
    fun row col => (sameMatrix_get h row col).2, sameMatrix_count h⟩
  intro pre post op _
  have hp := sameMatrix_applyOp (sameMatrix_runOps pre h0) op
  exact ⟨hp.2.1, hp.2.2⟩

theorem sorted_list_invariant_witness :
    nodes (runOps (new 3 3) exampleCalls) = [(0, 0, 1), (1, 1, 7), (2, 2, 5)] ∧
    (runOps (new 3 3) exampleCalls).head.Pairwise
      (fun a b => a.row < b.row ∨ (a.row = b.row ∧ a.col < b.col)) ∧
    (∀ n ∈ (runOps (new 3 3) exampleCalls).head, n.value ≠ 0) :=
  ⟨by decide, (sorted_list_invariant 3 3 exampleCalls).1,
    (sorted_list_invariant 3 3 exampleCalls).2.2.2⟩

theorem representations_equivalent_witness :
    callError (runOps (new 3 3) (exampleCalls.take 5)) (Op.insert 3 0 6) =
      some .outOfRange ∧
    nodes (runOps (new 3 3) exampleCalls) = [(0, 0, 1), (1, 1, 7), (2, 2, 5)] ∧
    entries (ArrayImpl.SparseMatrixArray.runOps (ArrayImpl.SparseMatrixArray.new 3 3)
      exampleCalls) = nodes (runOps (new 3 3) exampleCalls) ∧
    ArrayImpl.SparseMatrixArray.getNonZeroCount
        (ArrayImpl.SparseMatrixArray.runOps (ArrayImpl.SparseMatrixArray.new 3 3)
          exampleCalls) = 3 :=
  ⟨by decide, by decide, (representations_equivalent 3 3 exampleCalls).2.1,
    by decide⟩

end SparseMatrix

end LinkedListImpl

/-! ## Verification of `StringMatcher` -/

namespace LcsImpl

open ArrayImpl StringMatcher

/-! ### Loop rule and table accesses -/

/-- Invariant rule for a pair of nested counting-up loops. -/
theorem forUp_nested_inv {σ : Type} (hi1 hi2 lo2 : Int) (body : Int → Int → σ → σ)
    (P : Int → Int → σ → Prop) (fuel1 fuel2 : Nat) (i0 : Int) (st : σ)
    (h2 : lo2 ≤ hi2) (hf2 : hi2 - lo2 ≤ (fuel2 : Int)) (h1 : i0 ≤ hi1)
    (hf1 : hi1 - i0 ≤ (fuel1 : Int)) (hP : P i0 lo2 st)
    (hcell : ∀ i j t, i0 ≤ i → i < hi1 → lo2 ≤ j → j < hi2 → P i j t → P i (j + 1) (body i j t))
    (hrow : ∀ i t, i0 ≤ i → i < hi1 → P i hi2 t → P (i + 1) lo2 t) :
    P hi1 lo2
      (forUp hi1 (fun i s => forUp hi2 (fun j s => body i j s) fuel2 lo2 s) fuel1 i0 st) := by
  apply forUp_inv hi1 _ (fun i s => P i lo2 s) fuel1 i0 st h1 hf1 hP
  intro i t hi0 hi hPi
  apply hrow i _ hi0 hi
  exact forUp_inv hi2 _ (fun j s => P i j s) fuel2 lo2 t h2 hf2 hPi
    (fun j s hj0 hj hPj => hcell i j s hi0 hi hj0 hj hPj)

theorem tableSet_shape (T : List (List Int)) (rows cols : Int) (hT : TableShape T rows cols)
    (i j v : Int) : TableShape (tableSet T i j v) rows cols := by
  obtain ⟨h1, h2⟩ := hT
  unfold tableSet
  refine ⟨by rw [List.length_set]; exact h1, ?_⟩
  intro r hr
  rcases List.mem_or_eq_of_mem_set hr with h | h
  · exact h2 r h
  · rw [h, length_writeAt]
    rw [List.getD_eq_getElem?_getD]
    cases hg : T[i.toNat]? with
    | none =>
      -- the row does not exist: `set` left the table unchanged
      rw [List.getElem?_eq_none_iff] at hg
      rw [List.set_eq_of_length_le hg] at hr
      have := h2 r hr
      rw [h, length_writeAt, List.getD_eq_getElem?_getD,
        List.getElem?_eq_none_iff.2 hg] at this
      exact this
    | some row => exact h2 row (List.getElem?_mem hg)

theorem tableAt_tableSet (T : List (List Int)) (rows cols : Int) (hT : TableShape T rows cols)
    (i j v i' j' : Int) (hi0 : 0 ≤ i) (hi : i ≤ rows) (hj0 : 0 ≤ j) (hj : j ≤ cols)
    (hi0' : 0 ≤ i') (hj0' : 0 ≤ j') :
    tableAt (tableSet T i j v) i' j' = if i' = i ∧ j' = j then v else tableAt T i' j' := by
  obtain ⟨h1, h2⟩ := hT
  have hlt : i.toNat < T.length := by omega
  unfold tableAt tableSet
  rw [List.getD_eq_getElem?_getD, List.getElem?_set]
  by_cases hii : i' = i
  · subst hii
    have hrow : (T.getD i'.toNat []) ∈ T := by
      rw [List.getD_eq_getElem?_getD, List.getElem?_eq_getElem hlt]
      exact List.getElem_mem _
    have hlen := h2 _ hrow
    simp only [if_true, if_pos hlt, Option.getD_some, true_and]
    exact readAt_writeAt _ j j' v hj0 hj0' (by omega)
  · have hne : i.toNat ≠ i'.toNat := by omega
    rw [if_neg hne, if_neg (fun h => hii h.1), List.getD_eq_getElem?_getD]

theorem commonSuffix_zero_right (t1 t2 : List Char) (i : Nat) : commonSuffix t1 t2 i 0 = 0 := by
  cases i <;> rfl

theorem commonSuffix_succ (t1 t2 : List Char) (i j : Nat) :
    commonSuffix t1 t2 (i + 1) (j + 1)
      = if t1.getD i default = t2.getD j default then commonSuffix t1 t2 i j + 1 else 0 := rfl

theorem commonSuffix_le (t1 t2 : List Char) :
    ∀ i j : Nat, commonSuffix t1 t2 i j ≤ i ∧ commonSuffix t1 t2 i j ≤ j := by
  intro i
  induction i with
  | zero => intro j; exact ⟨le_refl 0, Nat.zero_le _⟩
  | succ n ih =>
    intro j
    cases j with
    | zero => exact ⟨Nat.zero_le _, le_refl 0⟩
    | succ k =>
      rw [commonSuffix_succ]
      split_ifs
      · have := ih k
        omega
      · exact ⟨Nat.zero_le _, Nat.zero_le _⟩

/-! ### Common suffixes and substrings -/

theorem substr_occurs (t : List Char) (p l : Int) : substr t p l <:+: t := by
  have h1 := List.take_prefix l.toNat (t.drop p.toNat)
  have h2 := List.drop_suffix p.toNat t
  exact h1.isInfix.trans h2.isInfix

theorem substr_length (t : List Char) (p l : Int) (hp : 0 ≤ p) (hl : 0 ≤ l)
    (h : p + l ≤ t.length) : ((substr t p l).length : Int) = l := by
  unfold substr
  rw [List.length_take, List.length_drop]
  omega

theorem getElem?_eq_getD (t : List Char) (i : Nat) (h : i < t.length) :
    t[i]? = some (t.getD i default) := by
  rw [List.getD_eq_getElem?_getD, List.getElem?_eq_getElem h]
  rfl

/-- The common suffix that `commonSuffix` measures is a substring of both texts. -/
theorem commonSuffix_substr (t1 t2 : List Char) :
    ∀ i j : Nat, i ≤ t1.length → j ≤ t2.length →
      (t1.drop (i - commonSuffix t1 t2 i j)).take (commonSuffix t1 t2 i j)
        = (t2.drop (j - commonSuffix t1 t2 i j)).take (commonSuffix t1 t2 i j) := by
  intro i
  induction i with
  | zero => intro j _ _; rfl
  | succ n ih =>
    intro j hi hj
    cases j with
    | zero => rfl
    | succ k =>
      rw [commonSuffix_succ]
      by_cases hc : t1.getD n default = t2.getD k default
      · rw [if_pos hc]
        have hle := commonSuffix_le t1 t2 n k
        have e1 : n + 1 - (commonSuffix t1 t2 n k + 1) = n - commonSuffix t1 t2 n k := by omega
        have e2 : k + 1 - (commonSuffix t1 t2 n k + 1) = k - commonSuffix t1 t2 n k := by omega
        rw [e1, e2, List.take_succ, List.take_succ, ih k (by omega) (by omega),
          List.getElem?_drop, List.getElem?_drop]
        have e3 : n - commonSuffix t1 t2 n k + commonSuffix t1 t2 n k = n := by omega
        have e4 : k - commonSuffix t1 t2 n k + commonSuffix t1 t2 n k = k := by omega
        rw [e3, e4, getElem?_eq_getD t1 n (by omega), getElem?_eq_getD t2 k (by omega), hc]
      · rw [if_neg hc]
        rfl

theorem getD_mid (a w b : List Char) (c : Char) :
    (a ++ (w ++ [c]) ++ b).getD (a.length + w.length) default = c := by
  have e : a ++ (w ++ [c]) ++ b = (a ++ w) ++ (c :: b) := by simp
  rw [e, List.getD_eq_getElem?_getD, List.getElem?_append_right (by simp)]
  simp

/-- A common substring is no longer than the common suffix at the positions where its
two occurrences end. -/
theorem infix_le_commonSuffix (t1 t2 : List Char) :
    ∀ (w a b a' b' : List Char), t1 = a ++ w ++ b → t2 = a' ++ w ++ b' →
      w.length ≤ commonSuffix t1 t2 (a.length + w.length) (a'.length + w.length) := by
  intro w
  induction w using List.reverseRecOn with
  | nil => intro a b a' b' _ _; exact Nat.zero_le _
  | append_singleton w c ih =>
    intro a b a' b' h1 h2
    have ih' := ih a (c :: b) a' (c :: b') (by rw [h1]; simp) (by rw [h2]; simp)
    rw [List.length_append, List.length_singleton, ← Nat.add_assoc, ← Nat.add_assoc,
      commonSuffix_succ]
    have g1 : t1.getD (a.length + w.length) default = c := by
      rw [h1]; exact getD_mid a w b c
    have g2 : t2.getD (a'.length + w.length) default = c := by
      rw [h2]; exact getD_mid a' w b' c
    rw [g1, g2, if_pos rfl]
    omega

/-! ### The loops that fill the table -/

theorem tableAt_replicate (n k : Nat) (i j : Int) :
    tableAt (List.replicate n (List.replicate k 0)) i j = 0 := by
  unfold tableAt readAt
  simp only [List.getD_eq_getElem?_getD, List.getElem?_replicate]
  split_ifs <;> simp

theorem before_succ (cols i j i' j' : Int) :
    Before cols i (j + 1) i' j' ↔
      Before cols i j i' j' ∨ (1 ≤ i' ∧ 1 ≤ j' ∧ j' ≤ cols ∧ i' = i ∧ j' = j) := by
  unfold Before
  constructor
  · rintro ⟨h1, h2, h3, h4⟩
    by_cases h : i' = i ∧ j' = j
    · exact Or.inr ⟨h1, h2, h3, h.1, h.2⟩
    · refine Or.inl ⟨h1, h2, h3, ?_⟩
      omega
  · rintro (⟨h1, h2, h3, h4⟩ | ⟨h1, h2, h3, h4, h5⟩)
    · exact ⟨h1, h2, h3, by omega⟩
    · exact ⟨h1, h2, h3, by omega⟩

theorem before_row (cols i i' j' : Int) :
    Before cols (i + 1) 1 i' j' ↔ Before cols i (cols + 1) i' j' := by
  unfold Before
  constructor <;> rintro ⟨h1, h2, h3, h4⟩ <;> exact ⟨h1, h2, h3, by omega⟩

theorem fillInv_init (t1 t2 : List Char) :
    FillInv t1 t2 1 1
      { new t1 t2 with longestMatch := 0, foundMatches := [], matchLocations := [] } := by
  refine ⟨rfl, rfl, rfl, rfl, ?_, ?_, le_refl 0, ?_, Or.inl rfl⟩
  · refine ⟨?_, ?_⟩
    · simp only [new, List.length_replicate]
      omega
    · intro r hr
      simp only [new] at hr
      rw [List.eq_of_mem_replicate hr, List.length_replicate]
      omega
  · intro i' j' h1 h2 h3 h4 h5
    simp only [new]
    rw [tableAt_replicate]
    have : i' = 0 ∨ j' = 0 := by omega
    rcases this with h | h
    · rw [h]; rfl
    · rw [h]
      simp [commonSuffix_zero_right]
  · intro i' j' hb
    unfold Before at hb
    omega

theorem fillInv_step (t1 t2 : List Char) (i j : Int) (m : StringMatcher)
    (inv : FillInv t1 t2 i j m) (hi0 : 1 ≤ i) (hi : i ≤ t1.length) (hj0 : 1 ≤ j)
    (hj : j ≤ t2.length) : FillInv t1 t2 i (j + 1) (fillCell i j m) := by
  have ea : i.toNat = (i - 1).toNat + 1 := by omega
  have eb : j.toNat = (j - 1).toNat + 1 := by omega
  have hprev := inv.known (i - 1) (j - 1) (by omega) (by omega) (by omega) (by omega)
    (Or.inr (Or.inr (Or.inl (by omega))))
  have hcs : (commonSuffix t1 t2 i.toNat j.toNat : Int)
      = if charAt t1 (i - 1) = charAt t2 (j - 1) then tableAt m.table (i - 1) (j - 1) + 1
        else 0 := by
    rw [ea, eb, commonSuffix_succ, hprev]
    unfold charAt
    split_ifs <;> simp
  have hset : ∀ v i' j', 0 ≤ i' → 0 ≤ j' →
      tableAt (tableSet m.table i j v) i' j'
        = if i' = i ∧ j' = j then v else tableAt m.table i' j' :=
    fun v i' j' a b => tableAt_tableSet m.table _ _ inv.shape i j v i' j' (by omega) hi
      (by omega) hj a b
  have hknown : ∀ v : Int, v = commonSuffix t1 t2 i.toNat j.toNat →
      ∀ i' j' : Int, 0 ≤ i' → i' ≤ t1.length → 0 ≤ j' → j' ≤ t2.length →
      (i' = 0 ∨ j' = 0 ∨ i' < i ∨ (i' = i ∧ j' < j + 1)) →
      tableAt (tableSet m.table i j v) i' j' = commonSuffix t1 t2 i'.toNat j'.toNat := by
    intro v hv i' j' a1 a2 a3 a4 a5
    rw [hset v i' j' a1 a3]
    by_cases h : i' = i ∧ j' = j
    · rw [if_pos h, h.1, h.2, hv]
    · rw [if_neg h]
      exact inv.known i' j' a1 a2 a3 a4 (by omega)
  unfold fillCell
  rw [inv.text1, inv.text2]
  by_cases hc : charAt t1 (i - 1) = charAt t2 (j - 1)
  · rw [if_pos hc] at hcs
    rw [if_pos hc]
    have hself : tableAt (tableSet m.table i j (tableAt m.table (i - 1) (j - 1) + 1)) i j
        = tableAt m.table (i - 1) (j - 1) + 1 := by
      rw [hset _ i j (by omega) (by omega), if_pos ⟨rfl, rfl⟩]
    have hpos : (0 : Int) ≤ tableAt m.table (i - 1) (j - 1) := by
      rw [hprev]; exact Int.natCast_nonneg _
    refine ⟨rfl, rfl, inv.found, inv.locs, tableSet_shape _ _ _ inv.shape _ _ _,
      hknown _ hcs.symm, ?_, ?_, ?_⟩
    · simp only
      exact le_trans inv.best_nonneg (le_max_left _ _)
    · intro i' j' hb
      simp only
      rw [hself]
      rcases (before_succ _ _ _ _ _).1 hb with h | ⟨_, _, _, h4, h5⟩
      · exact le_trans (inv.best_ub i' j' h) (le_max_left _ _)
      · rw [h4, h5, hcs]
        exact le_max_right _ _
    · simp only
      rw [hself]
      right
      rcases le_total (tableAt m.table (i - 1) (j - 1) + 1) m.longestMatch with hle | hle
      · rw [max_eq_left hle]
        rcases inv.best_attained with h0 | ⟨i', j', hb, he⟩
        · omega
        · exact ⟨i', j', (before_succ _ _ _ _ _).2 (Or.inl hb), he⟩
      · rw [max_eq_right hle]
        exact ⟨i, j, (before_succ _ _ _ _ _).2 (Or.inr ⟨hi0, hj0, hj, rfl, rfl⟩), hcs⟩
  · rw [if_neg hc] at hcs
    rw [if_neg hc]
    refine ⟨rfl, rfl, inv.found, inv.locs, tableSet_shape _ _ _ inv.shape _ _ _,
      hknown _ hcs.symm, inv.best_nonneg, ?_, ?_⟩
    · intro i' j' hb
      rcases (before_succ _ _ _ _ _).1 hb with h | ⟨_, _, _, h4, h5⟩
      · exact inv.best_ub i' j' h
      · rw [h4, h5, hcs]
        exact inv.best_nonneg
    · rcases inv.best_attained with h0 | ⟨i', j', hb, he⟩
      · exact Or.inl h0
      · exact Or.inr ⟨i', j', (before_succ _ _ _ _ _).2 (Or.inl hb), he⟩

theorem fillInv_row (t1 t2 : List Char) (i : Int) (m : StringMatcher)
    (inv : FillInv t1 t2 i ((t2.length : Int) + 1) m) :
    FillInv t1 t2 (i + 1) 1 m := by
  refine ⟨inv.text1, inv.text2, inv.found, inv.locs, inv.shape, ?_, inv.best_nonneg, ?_, ?_⟩
  · intro i' j' a1 a2 a3 a4 a5
    exact inv.known i' j' a1 a2 a3 a4 (by omega)
  · intro i' j' hb
    exact inv.best_ub i' j' ((before_row _ _ _ _).1 hb)
  · rcases inv.best_attained with h0 | ⟨i', j', hb, he⟩
    · exact Or.inl h0
    · exact Or.inr ⟨i', j', (before_row _ _ _ _).2 hb, he⟩

/-! ### The loops that collect the matches -/

theorem collectInv_init (t1 t2 : List Char) (m : StringMatcher) (h1 : m.text1 = t1)
    (h2 : m.text2 = t2) (h3 : m.foundMatches = []) (h4 : m.matchLocations = []) :
    CollectInv t1 t2 m.table m.longestMatch 1 1 (m, []) := by
  refine ⟨h1, h2, rfl, rfl, ?_, ?_, ?_, ?_⟩
  · intro w
    simp only [h3]
  · simp only [h3]
    exact List.nodup_nil
  · intro w
    simp only [h3, List.not_mem_nil, false_iff]
    rintro ⟨i', j', hb, _⟩
    unfold Before at hb
    omega
  · simp only [h3, h4, List.length_nil]

theorem collectInv_step (t1 t2 : List Char) (T : List (List Int)) (L i j : Int)
    (st : StringMatcher × List (List Char)) (inv : CollectInv t1 t2 T L i j st)
    (hi0 : 1 ≤ i) (hj0 : 1 ≤ j) (hj : j ≤ t2.length) :
    CollectInv t1 t2 T L i (j + 1) (collectCell i j st) := by
  have hmem_old : ∀ w, w ∈ st.1.foundMatches → ∃ i' j' : Int, Before t2.length i (j + 1) i' j' ∧
      tableAt T i' j' = L ∧ 0 < L ∧ w = substr t1 (i' - L) L := by
    intro w hw
    obtain ⟨i', j', hb, h⟩ := (inv.mem w).1 hw
    exact ⟨i', j', (before_succ _ _ _ _ _).2 (Or.inl hb), h⟩
  unfold collectCell
  rw [inv.table_eq, inv.best_eq, inv.text1]
  by_cases hc : tableAt T i j = L ∧ L > 0
  · rw [if_pos hc]
    simp only
    by_cases hnew : substr t1 (i - L) L ∉ st.2
    · rw [if_pos hnew]
      refine ⟨inv.text1, inv.text2, inv.table_eq, inv.best_eq, ?_, ?_, ?_, ?_⟩
      · intro w
        simp only [List.mem_cons, List.mem_append, List.mem_singleton]
        rw [inv.uniq w]
        tauto
      · simp only
        rw [List.nodup_append]
        refine ⟨inv.nodup, List.nodup_singleton _, ?_⟩
        intro a ha hb
        rw [List.mem_singleton] at hb
        rw [hb] at ha
        exact hnew ((inv.uniq _).2 ha)
      · intro w
        simp only [List.mem_append, List.mem_singleton]
        constructor
        · rintro (hw | hw)
          · exact hmem_old w hw
          · exact ⟨i, j, (before_succ _ _ _ _ _).2 (Or.inr ⟨hi0, hj0, hj, rfl, rfl⟩),
              hc.1, hc.2, hw⟩
        · rintro ⟨i', j', hb, ht, hL, hw⟩
          rcases (before_succ _ _ _ _ _).1 hb with h | ⟨_, _, _, h4, h5⟩
          · exact Or.inl ((inv.mem w).2 ⟨i', j', h, ht, hL, hw⟩)
          · right
            rw [hw, h4]
      · simp only [List.length_append, List.length_singleton, inv.locs]
    · rw [if_neg hnew]
      rw [not_not] at hnew
      refine ⟨inv.text1, inv.text2, inv.table_eq, inv.best_eq, inv.uniq, inv.nodup, ?_,
        inv.locs⟩
      intro w
      constructor
      · exact hmem_old w
      · rintro ⟨i', j', hb, ht, hL, hw⟩
        rcases (before_succ _ _ _ _ _).1 hb with h | ⟨_, _, _, h4, h5⟩
        · exact (inv.mem w).2 ⟨i', j', h, ht, hL, hw⟩
        · rw [hw, h4]
          exact (inv.uniq _).1 hnew
  · rw [if_neg hc]
    refine ⟨inv.text1, inv.text2, inv.table_eq, inv.best_eq, inv.uniq, inv.nodup, ?_,
      inv.locs⟩
    intro w
    constructor
    · exact hmem_old w
    · rintro ⟨i', j', hb, ht, hL, hw⟩
      rcases (before_succ _ _ _ _ _).1 hb with h | ⟨_, _, _, h4, h5⟩
      · exact (inv.mem w).2 ⟨i', j', h, ht, hL, hw⟩
      · rw [h4, h5] at ht
        exact absurd ⟨ht, hL⟩ hc

theorem collectInv_row (t1 t2 : List Char) (T : List (List Int)) (L i : Int)
    (st : StringMatcher × List (List Char))
    (inv : CollectInv t1 t2 T L i ((t2.length : Int) + 1) st) :
    CollectInv t1 t2 T L (i + 1) 1 st := by
  refine ⟨inv.text1, inv.text2, inv.table_eq, inv.best_eq, inv.uniq, inv.nodup, ?_, inv.locs⟩
  intro w
  rw [inv.mem w]
  constructor <;> rintro ⟨i', j', hb, h⟩
  · exact ⟨i', j', (before_row _ _ _ _).2 hb, h⟩
  · exact ⟨i', j', (before_row _ _ _ _).1 hb, h⟩

/-- What `findMatches` computes on a newly constructed matcher, in terms of the common
suffix lengths. -/
theorem findMatches_spec (t1 t2 : List Char) :
    0 ≤ (findMatches (new t1 t2)).longestMatch ∧
    (∀ i j : Int, 1 ≤ i → i ≤ t1.length → 1 ≤ j → j ≤ t2.length →
      (commonSuffix t1 t2 i.toNat j.toNat : Int) ≤ (findMatches (new t1 t2)).longestMatch) ∧
    ((findMatches (new t1 t2)).longestMatch = 0 ∨
      ∃ i j : Int, 1 ≤ i ∧ i ≤ t1.length ∧ 1 ≤ j ∧ j ≤ t2.length ∧
        (commonSuffix t1 t2 i.toNat j.toNat : Int) = (findMatches (new t1 t2)).longestMatch) ∧
    (findMatches (new t1 t2)).foundMatches.Nodup ∧
    (∀ w, w ∈ (findMatches (new t1 t2)).foundMatches ↔
      0 < (findMatches (new t1 t2)).longestMatch ∧
      ∃ i j : Int, 1 ≤ i ∧ i ≤ t1.length ∧ 1 ≤ j ∧ j ≤ t2.length ∧
        (commonSuffix t1 t2 i.toNat j.toNat : Int) = (findMatches (new t1 t2)).longestMatch ∧
        w = substr t1 (i - (findMatches (new t1 t2)).longestMatch)
          (findMatches (new t1 t2)).longestMatch) := by
  have hfill := forUp_nested_inv ((t1.length : Int) + 1) ((t2.length : Int) + 1) 1
    fillCell (FillInv t1 t2) (t1.length : Int).toNat (t2.length : Int).toNat 1
    { new t1 t2 with longestMatch := 0, foundMatches := [], matchLocations := [] }
    (by omega) (by omega) (by omega) (by omega) (fillInv_init t1 t2)
    (fun i j t a1 a2 a3 a4 h => fillInv_step t1 t2 i j t h a1 (by omega) a3 (by omega))
    (fun i t _ _ h => fillInv_row t1 t2 i t h)
  generalize hm1 : forUp ((t1.length : Int) + 1)
    (fun i s => forUp ((t2.length : Int) + 1) (fun j s => fillCell i j s)
      (t2.length : Int).toNat 1 s) (t1.length : Int).toNat 1
    ({ new t1 t2 with longestMatch := 0, foundMatches := [], matchLocations := [] } :
      StringMatcher) = m1 at hfill
  have hcol := forUp_nested_inv ((t1.length : Int) + 1) ((t2.length : Int) + 1) 1
    collectCell (CollectInv t1 t2 m1.table m1.longestMatch) (t1.length : Int).toNat
    (t2.length : Int).toNat 1 (m1, [])
    (by omega) (by omega) (by omega) (by omega)
    (collectInv_init t1 t2 m1 hfill.text1 hfill.text2 hfill.found hfill.locs)
    (fun i j t a1 a2 a3 a4 h => collectInv_step t1 t2 _ _ i j t h a1 a3 (by omega))
    (fun i t _ _ h => collectInv_row t1 t2 _ _ i t h)
  have hres : findMatches (new t1 t2) = (forUp ((t1.length : Int) + 1)
      (fun i s => forUp ((t2.length : Int) + 1) (fun j s => collectCell i j s)
        (t2.length : Int).toNat 1 s) (t1.length : Int).toNat 1 (m1, [])).1 := by
    rw [← hm1]
    rfl
  rw [hres]
  generalize forUp ((t1.length : Int) + 1)
      (fun i s => forUp ((t2.length : Int) + 1) (fun j s => collectCell i j s)
        (t2.length : Int).toNat 1 s) (t1.length : Int).toNat 1 (m1, []) = st2 at hcol
  have hB : ∀ i j : Int, Before t2.length ((t1.length : Int) + 1) 1 i j ↔
      (1 ≤ i ∧ i ≤ t1.length ∧ 1 ≤ j ∧ j ≤ t2.length) := by
    intro i j
    unfold Before
    constructor
    · rintro ⟨a, b, c, d⟩; exact ⟨a, by omega, b, c⟩
    · rintro ⟨a, b, c, d⟩; exact ⟨a, c, d, by omega⟩
  rw [hcol.best_eq]
  refine ⟨hfill.best_nonneg, ?_, ?_, hcol.nodup, ?_⟩
  · intro i j a1 a2 a3 a4
    exact hfill.best_ub i j ((hB i j).2 ⟨a1, a2, a3, a4⟩)
  · rcases hfill.best_attained with h | ⟨i, j, hb, he⟩
    · exact Or.inl h
    · obtain ⟨a1, a2, a3, a4⟩ := (hB i j).1 hb
      exact Or.inr ⟨i, j, a1, a2, a3, a4, he⟩
  · intro w
    rw [hcol.mem w]
    constructor
    · rintro ⟨i, j, hb, ht, hL, hw⟩
      obtain ⟨a1, a2, a3, a4⟩ := (hB i j).1 hb
      refine ⟨hL, i, j, a1, a2, a3, a4, ?_, hw⟩
      rw [← ht]
      exact (hfill.known i j (by omega) a2 (by omega) a4 (by omega)).symm
    · rintro ⟨hL, i, j, a1, a2, a3, a4, he, hw⟩
      refine ⟨i, j, (hB i j).2 ⟨a1, a2, a3, a4⟩, ?_, hL, hw⟩
      rw [← he]
      exact hfill.known i j (by omega) a2 (by omega) a4 (by omega)

/-! ### Contract of `findMatches` -/

/-- A cell whose common suffix has length `L` gives a common substring of length `L`:
the one that `findMatches` collects at that cell. -/
theorem substr_common (t1 t2 : List Char) (i j L : Int) (hi0 : 1 ≤ i) (hi : i ≤ t1.length)
    (hj0 : 1 ≤ j) (hj : j ≤ t2.length)
    (he : (commonSuffix t1 t2 i.toNat j.toNat : Int) = L) :
    substr t1 (i - L) L <:+: t1 ∧ substr t1 (i - L) L <:+: t2 ∧
    ((substr t1 (i - L) L).length : Int) = L := by
  have hle := commonSuffix_le t1 t2 i.toNat j.toNat
  have hsub := commonSuffix_substr t1 t2 i.toNat j.toNat (by omega) (by omega)
  have e1 : L.toNat = commonSuffix t1 t2 i.toNat j.toNat := by omega
  have e2 : (i - L).toNat = i.toNat - commonSuffix t1 t2 i.toNat j.toNat := by omega
  refine ⟨substr_occurs _ _ _, ?_, substr_length t1 _ _ (by omega) (by omega) (by omega)⟩
  have : substr t1 (i - L) L = substr t2 (j - L) L := by
    unfold substr
    have e3 : (j - L).toNat = j.toNat - commonSuffix t1 t2 i.toNat j.toNat := by omega
    rw [e1, e2, e3]
    exact hsub
  rw [this]
  exact substr_occurs _ _ _

/-- C25: after `findMatches()` on a matcher for `text1` and `text2`, `getMaxLength()` is the
largest length of a string that occurs contiguously in both texts: some common substring
has that length and no common substring is longer; it is `0` when either text is empty or
the texts share no character. -/
theorem maxLength_is_longest (text1 text2 : List Char) :
    (∃ w : List Char, (w.length : Int) = getMaxLength (findMatches (new text1 text2)) ∧
      w <:+: text1 ∧ w <:+: text2) ∧
    (∀ w : List Char, w <:+: text1 → w <:+: text2 →
      (w.length : Int) ≤ getMaxLength (findMatches (new text1 text2))) ∧
    ((text1 = [] ∨ text2 = [] ∨ ∀ c, c ∈ text1 → c ∉ text2) →
      getMaxLength (findMatches (new text1 text2)) = 0) := by
  obtain ⟨h0, hub, hatt, _, _⟩ := findMatches_spec text1 text2
  unfold getMaxLength
  have hex : ∃ w : List Char, (w.length : Int) = (findMatches (new text1 text2)).longestMatch ∧
      w <:+: text1 ∧ w <:+: text2 := by
    rcases hatt with h | ⟨i, j, a1, a2, a3, a4, he⟩
    · have hnil : ∀ l : List Char, [] <:+: l := fun _ => List.nil_infix
      exact ⟨[], by rw [h]; rfl, hnil _, hnil _⟩
    · obtain ⟨b1, b2, b3⟩ := substr_common text1 text2 i j _ a1 a2 a3 a4 he
      exact ⟨_, b3, b1, b2⟩
  refine ⟨hex, ?_, ?_⟩
  · intro w h1 h2
    obtain ⟨a, b, ha⟩ := h1
    obtain ⟨a', b', ha'⟩ := h2
    by_cases hw : w = []
    · rw [hw]; exact h0
    · have hlen : 0 < w.length := List.length_pos.2 hw
      have hcs := infix_le_commonSuffix text1 text2 w a b a' b' ha.symm ha'.symm
      have l1 : text1.length = a.length + w.length + b.length := by
        rw [← ha]; simp; omega
      have l2 : text2.length = a'.length + w.length + b'.length := by
        rw [← ha']; simp; omega
      have := hub ((a.length + w.length : Nat) : Int) ((a'.length + w.length : Nat) : Int)
        (by omega) (by omega) (by omega) (by omega)
      simp only [Int.toNat_ofNat] at this
      omega
  · intro h
    by_contra hne
    obtain ⟨w, hw, h1, h2⟩ := hex
    have hpos : 0 < w.length := by omega
    obtain ⟨c, rest, hc⟩ := List.exists_cons_of_length_pos hpos
    have hc1 : c ∈ text1 := h1.subset (by rw [hc]; exact List.mem_cons_self _ _)
    have hc2 : c ∈ text2 := h2.subset (by rw [hc]; exact List.mem_cons_self _ _)
    rcases h with h | h | h
    · rw [h] at hc1; cases hc1
    · rw [h] at hc2; cases hc2
    · exact h c hc1 hc2

set_option maxRecDepth 4000 in
theorem maxLength_is_longest_witness :
    getMaxLength (findMatches (new "ABAB".toList "BABA".toList)) = 3 ∧
    getMaxLength (findMatches (new "ABC".toList "XYZ".toList)) = 0 ∧
    ∀ w : List Char, w <:+: "ABAB".toList → w <:+: "BABA".toList →
      (w.length : Int) ≤ getMaxLength (findMatches (new "ABAB".toList "BABA".toList)) :=
  ⟨by decide, by decide, (maxLength_is_longest "ABAB".toList "BABA".toList).2.1⟩

/-- C26: after `findMatches()` on a matcher for `text1` and `text2`, `getResult()` occurs
contiguously in `text1` and in `text2`, its length is `getMaxLength()`, and it is the empty
string exactly when `getMaxLength()` is `0`. -/
theorem result_is_common_substring (text1 text2 : List Char) :
    getResult (findMatches (new text1 text2)) <:+: text1 ∧
    getResult (findMatches (new text1 text2)) <:+: text2 ∧
    ((getResult (findMatches (new text1 text2))).length : Int)
      = getMaxLength (findMatches (new text1 text2)) ∧
    (getResult (findMatches (new text1 text2)) = [] ↔
      getMaxLength (findMatches (new text1 text2)) = 0) := by
  obtain ⟨h0, _, hatt, _, hmem⟩ := findMatches_spec text1 text2
  unfold getMaxLength getResult
  cases hfm : (findMatches (new text1 text2)).foundMatches with
  | nil =>
    simp only
    have hL : (findMatches (new text1 text2)).longestMatch = 0 := by
      rcases hatt with h | ⟨i, j, a1, a2, a3, a4, he⟩
      · exact h
      · by_contra hne
        have := (hmem _).2 ⟨by omega, i, j, a1, a2, a3, a4, he, rfl⟩
        rw [hfm] at this
        cases this
    have hnil : ∀ l : List Char, [] <:+: l := fun _ => List.nil_infix
    exact ⟨hnil _, hnil _, by rw [hL]; rfl, fun _ => hL, fun _ => trivial⟩
  | cons first rest =>
    simp only
    obtain ⟨hpos, i, j, a1, a2, a3, a4, he, hw⟩ :=
      (hmem first).1 (by rw [hfm]; exact List.mem_cons_self _ _)
    obtain ⟨b1, b2, b3⟩ := substr_common text1 text2 i j _ a1 a2 a3 a4 he
    rw [← hw] at b1 b2 b3
    refine ⟨b1, b2, b3, fun h => ?_, fun h => ?_⟩
    · rw [h] at b3
      simp only [List.length_nil, Nat.cast_zero] at b3
      omega
    · omega

set_option maxRecDepth 4000 in
theorem result_is_common_substring_witness :
    getResult (findMatches (new "ABAB".toList "BABA".toList)) = "ABA".toList ∧
    getResult (findMatches (new "ABC".toList "XYZ".toList)) = [] ∧
    getResult (findMatches (new "ABAB".toList "BABA".toList)) <:+: "BABA".toList :=
  ⟨by decide, by decide, (result_is_common_substring "ABAB".toList "BABA".toList).2.1⟩

/-! ### The recorded locations -/

theorem locInv_step (t1 t2 : List Char) (T : List (List Int)) (L i j : Int)
    (st : StringMatcher × List (List Char)) (inv : LocInv t1 t2 T L st)
    (hi0 : 1 ≤ i) (hi : i ≤ t1.length) (hj0 : 1 ≤ j) (hj : j ≤ t2.length) :
    LocInv t1 t2 T L (collectCell i j st) := by
  unfold collectCell
  rw [inv.table_eq, inv.best_eq, inv.text1]
  by_cases hc : tableAt T i j = L ∧ L > 0
  · rw [if_pos hc]
    simp only
    by_cases hnew : substr t1 (i - L) L ∉ st.2
    · rw [if_pos hnew]
      refine ⟨inv.text1, inv.table_eq, inv.best_eq, ?_⟩
      simp only
      apply List.rel_append inv.pairs
      exact List.Forall₂.cons ⟨i, j, hi0, hi, hj0, hj, hc.1, hc.2, rfl, rfl⟩ List.Forall₂.nil
    · rw [if_neg hnew]
      exact inv
  · rw [if_neg hc]
    exact inv

/-- The two slices that end at a cell with common suffix length `L` are equal. -/
theorem substr_eq_of_commonSuffix (t1 t2 : List Char) (i j L : Int) (hi0 : 1 ≤ i)
    (hi : i ≤ t1.length) (hj0 : 1 ≤ j) (hj : j ≤ t2.length)
    (he : (commonSuffix t1 t2 i.toNat j.toNat : Int) = L) :
    substr t1 (i - L) L = substr t2 (j - L) L ∧ 0 ≤ i - L ∧ 0 ≤ j - L ∧
      (i - L) + L ≤ t1.length ∧ (j - L) + L ≤ t2.length := by
  have hle := commonSuffix_le t1 t2 i.toNat j.toNat
  have hsub := commonSuffix_substr t1 t2 i.toNat j.toNat (by omega) (by omega)
  have e1 : L.toNat = commonSuffix t1 t2 i.toNat j.toNat := by omega
  have e2 : (i - L).toNat = i.toNat - commonSuffix t1 t2 i.toNat j.toNat := by omega
  have e3 : (j - L).toNat = j.toNat - commonSuffix t1 t2 i.toNat j.toNat := by omega
  refine ⟨?_, by omega, by omega, by omega, by omega⟩
  unfold substr
  rw [e1, e2, e3]
  exact hsub

/-- What `findMatches` records in `matchLocations` on a newly constructed matcher: the
`k`-th location is a pair of start positions of the `k`-th match in the two texts. -/
theorem findMatches_locs (t1 t2 : List Char) :
    List.Forall₂ (fun (w : List Char) (p : Int × Int) =>
      0 ≤ p.1 ∧ p.1 + (findMatches (new t1 t2)).longestMatch ≤ t1.length ∧
      0 ≤ p.2 ∧ p.2 + (findMatches (new t1 t2)).longestMatch ≤ t2.length ∧
      substr t1 p.1 (findMatches (new t1 t2)).longestMatch = w ∧
      substr t2 p.2 (findMatches (new t1 t2)).longestMatch = w)
    (findMatches (new t1 t2)).foundMatches (findMatches (new t1 t2)).matchLocations := by
  have hfill := forUp_nested_inv ((t1.length : Int) + 1) ((t2.length : Int) + 1) 1
    fillCell (FillInv t1 t2) (t1.length : Int).toNat (t2.length : Int).toNat 1
    { new t1 t2 with longestMatch := 0, foundMatches := [], matchLocations := [] }
    (by omega) (by omega) (by omega) (by omega) (fillInv_init t1 t2)
    (fun i j t a1 a2 a3 a4 h => fillInv_step t1 t2 i j t h a1 (by omega) a3 (by omega))
    (fun i t _ _ h => fillInv_row t1 t2 i t h)
  generalize hm1 : forUp ((t1.length : Int) + 1)
    (fun i s => forUp ((t2.length : Int) + 1) (fun j s => fillCell i j s)
      (t2.length : Int).toNat 1 s) (t1.length : Int).toNat 1
    ({ new t1 t2 with longestMatch := 0, foundMatches := [], matchLocations := [] } :
      StringMatcher) = m1 at hfill
  have hinit : LocInv t1 t2 m1.table m1.longestMatch (m1, []) := by
    refine ⟨hfill.text1, rfl, rfl, ?_⟩
    simp only [hfill.found, hfill.locs]
    exact List.Forall₂.nil
  have hcol := forUp_nested_inv ((t1.length : Int) + 1) ((t2.length : Int) + 1) 1
    collectCell (fun _ _ st => LocInv t1 t2 m1.table m1.longestMatch st)
    (t1.length : Int).toNat (t2.length : Int).toNat 1 (m1, [])
    (by omega) (by omega) (by omega) (by omega) hinit
    (fun i j t a1 a2 a3 a4 h => locInv_step t1 t2 _ _ i j t h a1 (by omega) a3 (by omega))
    (fun i t _ _ h => h)
  have hres : findMatches (new t1 t2) = (forUp ((t1.length : Int) + 1)
      (fun i s => forUp ((t2.length : Int) + 1) (fun j s => collectCell i j s)
        (t2.length : Int).toNat 1 s) (t1.length : Int).toNat 1 (m1, [])).1 := by
    rw [← hm1]
    rfl
  rw [hres]
  generalize forUp ((t1.length : Int) + 1)
      (fun i s => forUp ((t2.length : Int) + 1) (fun j s => collectCell i j s)
        (t2.length : Int).toNat 1 s) (t1.length : Int).toNat 1 (m1, []) = st2 at hcol
  rw [hcol.best_eq]
  refine hcol.pairs.imp ?_
  rintro w p ⟨i, j, a1, a2, a3, a4, ht, hL, hw, hp⟩
  have hk := hfill.known i j (by omega) a2 (by omega) a4 (by omega)
  rw [ht] at hk
  obtain ⟨e, b1, b2, b3, b4⟩ := substr_eq_of_commonSuffix t1 t2 i j _ a1 a2 a3 a4 hk.symm
  rw [hp]
  simp only
  exact ⟨b1, b3, b2, b4, hw.symm, by rw [← e]; exact hw.symm⟩

/-- C36: completeness of the match list.  When `getMaxLength() = L > 0` after
`findMatches()`, the list of found matches contains exactly the strings of length `L` that
occur contiguously in both texts, each of them once; there are as many recorded locations
as matches, and the `k`-th location `(p1, p2)` satisfies
`text1[p1..p1+L) = text2[p2..p2+L) =` the `k`-th match. -/
theorem matches_complete (text1 text2 : List Char)
    (hL : 0 < getMaxLength (findMatches (new text1 text2))) :
    (∀ w : List Char, w ∈ (findMatches (new text1 text2)).foundMatches ↔
      ((w.length : Int) = getMaxLength (findMatches (new text1 text2)) ∧
        w <:+: text1 ∧ w <:+: text2)) ∧
    (findMatches (new text1 text2)).foundMatches.Nodup ∧
    (findMatches (new text1 text2)).matchLocations.length =
      (findMatches (new text1 text2)).foundMatches.length ∧
    ∀ (k : Nat) (w : List Char) (p : Int × Int),
      (findMatches (new text1 text2)).foundMatches[k]? = some w →
      (findMatches (new text1 text2)).matchLocations[k]? = some p →
      0 ≤ p.1 ∧ p.1 + getMaxLength (findMatches (new text1 text2)) ≤ text1.length ∧
      0 ≤ p.2 ∧ p.2 + getMaxLength (findMatches (new text1 text2)) ≤ text2.length ∧
      substr text1 p.1 (getMaxLength (findMatches (new text1 text2))) = w ∧
      substr text2 p.2 (getMaxLength (findMatches (new text1 text2))) = w := by
  obtain ⟨h0, hub, _, hnd, hmem⟩ := findMatches_spec text1 text2
  have hloc := findMatches_locs text1 text2
  unfold getMaxLength at hL ⊢
  refine ⟨?_, hnd, hloc.length_eq.symm, ?_⟩
  · intro w
    rw [hmem w]
    constructor
    · rintro ⟨_, i, j, a1, a2, a3, a4, he, hw⟩
      obtain ⟨b1, b2, b3⟩ := substr_common text1 text2 i j _ a1 a2 a3 a4 he
      rw [← hw] at b1 b2 b3
      exact ⟨b3, b1, b2⟩
    · rintro ⟨hlen, h1, h2⟩
      obtain ⟨a, b, ha⟩ := h1
      obtain ⟨a', b', ha'⟩ := h2
      refine ⟨hL, ((a.length + w.length : Nat) : Int), ((a'.length + w.length : Nat) : Int),
        ?_⟩
      have hcs := infix_le_commonSuffix text1 text2 w a b a' b' ha.symm ha'.symm
      have l1 : text1.length = a.length + w.length + b.length := by
        rw [← ha]; simp; omega
      have l2 : text2.length = a'.length + w.length + b'.length := by
        rw [← ha']; simp; omega
      have hu := hub ((a.length + w.length : Nat) : Int) ((a'.length + w.length : Nat) : Int)
        (by omega) (by omega) (by omega) (by omega)
      simp only [Int.toNat_ofNat] at hu ⊢
      refine ⟨by omega, by omega, by omega, by omega, by omega, ?_⟩
      unfold substr
      rw [← hlen]
      have e1 : ((((a.length + w.length : Nat) : Int)) - (w.length : Int)).toNat = a.length := by
        omega
      rw [e1, Int.toNat_ofNat, ← ha]
      simp
  · intro k w p hw hp
    rw [List.forall₂_iff_get] at hloc
    obtain ⟨k1, ew⟩ := List.getElem?_eq_some.1 hw
    obtain ⟨k2, ep⟩ := List.getElem?_eq_some.1 hp
    have := hloc.2 k k1 k2
    simp only [List.get_eq_getElem] at this
    rw [ew, ep] at this
    exact this

set_option maxRecDepth 4000 in
theorem matches_complete_witness :
    0 < getMaxLength (findMatches (new "ABAB".toList "BABA".toList)) ∧
    (findMatches (new "ABAB".toList "BABA".toList)).foundMatches =
      ["ABA".toList, "BAB".toList] ∧
    (findMatches (new "ABAB".toList "BABA".toList)).matchLocations = [(0, 1), (1, 0)] ∧
    (∀ w : List Char, w ∈ (findMatches (new "ABAB".toList "BABA".toList)).foundMatches ↔
      ((w.length : Int) = getMaxLength (findMatches (new "ABAB".toList "BABA".toList)) ∧
        w <:+: "ABAB".toList ∧ w <:+: "BABA".toList)) :=
  ⟨by decide, by decide, by decide,
    (matches_complete "ABAB".toList "BABA".toList (by decide)).1⟩

end LcsImpl

/-! ## Verification of `HuffmanCoding` -/

namespace HuffmanImpl

open ArrayImpl HuffmanNode HuffmanCoding

/-! ### The loops of `buildTree` -/

theorem compareNodes_false (a b : HuffmanNode) :
    CompareNodes a b = false ↔ a.frequency ≤ b.frequency := by
  unfold CompareNodes
  simp

/-- Invariant rule for the merge loop of `buildTree`: a property of the multiset of queued
nodes that every merge of two least-frequency nodes preserves holds for the single node
that is left when the loop ends, and the loop does end. -/
theorem mergeLoop_inv {Q : Type} (pq : PriorityQueue Q) (elems : Q → Multiset HuffmanNode)
    (hl : QueueLaws pq elems) (I : Multiset HuffmanNode → Prop)
    (hstep : ∀ (ts : Multiset HuffmanNode) (l r : HuffmanNode), I ts → l ∈ ts →
      (∀ x ∈ ts, l.frequency ≤ x.frequency) → r ∈ ts.erase l →
      (∀ x ∈ ts.erase l, r.frequency ≤ x.frequency) →
      I (internalNode (wrapInt (l.frequency + r.frequency)) l r ::ₘ (ts.erase l).erase r)) :
    ∀ (fuel : Nat) (q : Q), I (elems q) → 1 ≤ Multiset.card (elems q) →
      Multiset.card (elems q) ≤ fuel →
      ∃ q', mergeLoop pq fuel q = some q' ∧ Multiset.card (elems q') = 1 ∧ I (elems q') := by
  intro fuel
  induction fuel with
  | zero => intro q _ h1 h2; omega
  | succ n ih =>
    intro q hI h1 h2
    unfold mergeLoop
    rw [hl.size_eq]
    by_cases hgt : Multiset.card (elems q) > 1
    · rw [if_pos hgt]
      simp only
      have hne : elems q ≠ 0 := by
        intro h; rw [h] at hgt; simp at hgt
      have hl1 := hl.top_mem q hne
      have hp1 := hl.elems_pop q hne
      have hc1 : Multiset.card (elems (pq.pop q)) = Multiset.card (elems q) - 1 := by
        rw [hp1, Multiset.card_erase_of_mem hl1]; rfl
      have hne1 : elems (pq.pop q) ≠ 0 := by
        intro h; rw [h] at hc1; simp at hc1; omega
      have hl2 := hl.top_mem (pq.pop q) hne1
      have hp2 := hl.elems_pop (pq.pop q) hne1
      have hc2 : Multiset.card (elems (pq.pop (pq.pop q))) = Multiset.card (elems q) - 2 := by
        rw [hp2, Multiset.card_erase_of_mem hl2, hc1]; rfl
      have hI' := hstep (elems q) (pq.top q) (pq.top (pq.pop q)) hI hl1
        (fun x hx => (compareNodes_false _ _).1 (hl.top_first q x hx))
        (by rw [← hp1]; exact hl2)
        (fun x hx => (compareNodes_false _ _).1 (hl.top_first (pq.pop q) x (by rw [hp1]; exact hx)))
      rw [← hp1, ← hp2, ← hl.elems_push] at hI'
      apply ih _ hI'
      · rw [hl.elems_push, Multiset.card_cons]; omega
      · rw [hl.elems_push, Multiset.card_cons, hc2]; omega
    · rw [if_neg hgt]
      exact ⟨q, rfl, by omega, hI⟩

theorem zip_eq_range_map (characters : List Char) (frequencies : List Int)
    (hlen : frequencies.length = characters.length) :
    (List.range characters.length).map
        (fun (k : Nat) => leafNode (charAt characters (k : Int)) (readAt frequencies (k : Int)))
      = leafList characters frequencies := by
  unfold leafList
  apply List.ext_getElem
  · simp [hlen]
  · intro n h1 h2
    simp only [List.length_map, List.length_range] at h1
    simp only [List.getElem_map, List.getElem_range, List.getElem_zip]
    unfold charAt readAt
    simp only [Int.toNat_ofNat, List.getD_eq_getElem?_getD]
    rw [List.getElem?_eq_getElem h1, List.getElem?_eq_getElem (by omega)]
    rfl

/-- The first loop of `buildTree` queues the leaf nodes of the input. -/
theorem pushLoop_elems {Q : Type} (pq : PriorityQueue Q) (elems : Q → Multiset HuffmanNode)
    (hl : QueueLaws pq elems) (characters : List Char) (frequencies : List Int)
    (hlen : frequencies.length = characters.length) :
    elems (forUp characters.length
      (fun i minHeap => pq.push minHeap (leafNode (charAt characters i) (readAt frequencies i)))
      characters.length 0 pq.empty) = ↑(leafList characters frequencies) := by
  have h := forUp_inv (characters.length : Int)
    (fun i minHeap => pq.push minHeap (leafNode (charAt characters i) (readAt frequencies i)))
    (fun i q => elems q = ↑((List.range i.toNat).map
        (fun (k : Nat) => leafNode (charAt characters (k : Int)) (readAt frequencies (k : Int)))))
    characters.length 0 pq.empty (by omega) (by omega)
    (by simp only [Int.toNat_zero, List.range_zero, List.map_nil]; exact hl.elems_empty)
    (by
      intro j t hj0 hj ht
      simp only
      rw [hl.elems_push, ht]
      have e : (j + 1).toNat = j.toNat + 1 := by omega
      rw [e, List.range_succ, List.map_append, List.map_singleton]
      have e2 : ((j.toNat : Nat) : Int) = j := by omega
      rw [e2, ← Multiset.coe_add, Multiset.coe_singleton, add_comm,
        Multiset.singleton_add])
  simp only [Int.toNat_ofNat] at h
  rw [h, zip_eq_range_map characters frequencies hlen]

/-- Invariant rule for `buildTree`: on a non-empty input with one frequency per character
it returns, and the root of the tree satisfies every property that holds for the leaf
nodes of the input and is preserved by a merge of two least-frequency nodes. -/
theorem buildTree_inv {Q : Type} (pq : PriorityQueue Q) (elems : Q → Multiset HuffmanNode)
    (hl : QueueLaws pq elems) (I : Multiset HuffmanNode → Prop)
    (hstep : ∀ (ts : Multiset HuffmanNode) (l r : HuffmanNode), I ts → l ∈ ts →
      (∀ x ∈ ts, l.frequency ≤ x.frequency) → r ∈ ts.erase l →
      (∀ x ∈ ts.erase l, r.frequency ≤ x.frequency) →
      I (internalNode (wrapInt (l.frequency + r.frequency)) l r ::ₘ (ts.erase l).erase r))
    (hc : HuffmanCoding) (characters : List Char) (frequencies : List Int)
    (hne : characters ≠ []) (hlen : frequencies.length = characters.length)
    (h0 : I ↑(leafList characters frequencies)) :
    ∃ t, buildTree pq hc characters frequencies
        = some { root := t, huffmanCodes := generateCodes t [] hc.huffmanCodes } ∧
      I {t} := by
  have hpush := pushLoop_elems pq elems hl characters frequencies hlen
  unfold buildTree
  simp only
  generalize forUp (characters.length : Int)
      (fun i minHeap => pq.push minHeap (leafNode (charAt characters i) (readAt frequencies i)))
      characters.length 0 pq.empty = q0 at hpush
  have hcard : Multiset.card (elems q0) = characters.length := by
    rw [hpush, Multiset.coe_card, leafList, List.length_map, List.length_zip, hlen]
    simp
  have hpos : 0 < characters.length := List.length_pos.2 hne
  obtain ⟨q', hrun, hc1, hI⟩ := mergeLoop_inv pq elems hl I hstep (pq.size q0 + 1) q0
    (by rw [hpush]; exact h0) (by omega) (by rw [hl.size_eq]; omega)
  rw [hrun]
  simp only
  rw [hl.size_eq, if_neg (by omega)]
  have hne' : elems q' ≠ 0 := by
    intro h; rw [h] at hc1; simp at hc1
  have htop := hl.top_mem q' hne'
  obtain ⟨a, ha⟩ := Multiset.card_eq_one.1 hc1
  rw [ha, Multiset.mem_singleton] at htop
  rw [ha, ← htop] at hI
  exact ⟨pq.top q', rfl, hI⟩

/-! ### Codes of the leaves -/

theorem mapFind_mapAssign (m : List (Char × List Char)) (k k' : Char) (v : List Char) :
    mapFind (mapAssign m k v) k' = if k' = k then some v else mapFind m k' := by
  induction m with
  | nil =>
    simp only [mapAssign, mapFind]
    by_cases h : k' = k
    · rw [if_pos h.symm, if_pos h]
    · rw [if_neg (Ne.symm h), if_neg h]
  | cons p rest ih =>
    obtain ⟨k0, v0⟩ := p
    simp only [mapAssign]
    by_cases h0 : k0 = k
    · rw [if_pos h0]
      simp only [mapFind]
      by_cases h : k' = k
      · rw [if_pos h.symm, if_pos h]
      · rw [if_neg (Ne.symm h), if_neg h, if_neg (by rw [h0]; exact Ne.symm h)]
    · rw [if_neg h0]
      simp only [mapFind]
      by_cases h1 : k0 = k'
      · rw [if_pos h1, if_neg (by rw [← h1]; exact h0), if_pos h1]
      · rw [if_neg h1, ih, if_neg h1]

theorem generateCodes_eq (t : HuffmanNode) :
    ∀ (code : List Char) (m : List (Char × List Char)),
      generateCodes t code m
        = (leafCodes t code).foldl (fun m p => mapAssign m p.1 p.2) m := by
  induction t with
  | null => intro code m; rfl
  | mk data f l r isLeaf ihl ihr =>
    intro code m
    unfold generateCodes leafCodes
    by_cases h : isLeaf = true
    · rw [if_pos h, if_pos h]
      rfl
    · rw [if_neg h, if_neg h, List.foldl_append, ihl, ihr]

theorem preorderTraversal_eq (t : HuffmanNode) :
    ∀ (codes : List (List Char)) (code : List Char),
      preorderTraversal t codes code = codes ++ (leafCodes t code).map Prod.snd := by
  induction t with
  | null => intro codes code; simp [preorderTraversal, leafCodes]
  | mk data f l r isLeaf ihl ihr =>
    intro codes code
    unfold preorderTraversal leafCodes
    by_cases h : isLeaf = true
    · rw [if_pos h, if_pos h]
      rfl
    · rw [if_neg h, if_neg h, ihr, ihl, List.map_append, List.append_assoc]

theorem leafCodes_keys (t : HuffmanNode) :
    ∀ code : List Char, (leafCodes t code).map Prod.fst = (leaves t).map Prod.fst := by
  induction t with
  | null => intro code; rfl
  | mk data f l r isLeaf ihl ihr =>
    intro code
    unfold leafCodes leaves
    by_cases h : isLeaf = true
    · rw [if_pos h, if_pos h]; rfl
    · rw [if_neg h, if_neg h, List.map_append, List.map_append, ihl, ihr]

theorem mapFind_foldl_of_not_mem (L : List (Char × List Char)) (c : Char)
    (h : c ∉ L.map Prod.fst) :
    ∀ m, mapFind (L.foldl (fun m p => mapAssign m p.1 p.2) m) c = mapFind m c := by
  induction L with
  | nil => intro m; rfl
  | cons p rest ih =>
    intro m
    simp only [List.map_cons, List.mem_cons, not_or] at h
    rw [List.foldl_cons, ih h.2, mapFind_mapAssign, if_neg h.1]

theorem mapFind_foldl_of_mem (L : List (Char × List Char)) (hnd : (L.map Prod.fst).Nodup)
    (c : Char) (code : List Char) (h : (c, code) ∈ L) :
    ∀ m, mapFind (L.foldl (fun m p => mapAssign m p.1 p.2) m) c = some code := by
  induction L with
  | nil => cases h
  | cons p rest ih =>
    intro m
    simp only [List.map_cons, List.nodup_cons] at hnd
    rw [List.foldl_cons]
    rcases List.mem_cons.1 h with h1 | h1
    · rw [← h1] at hnd ⊢
      rw [mapFind_foldl_of_not_mem rest c hnd.1, mapFind_mapAssign, if_pos rfl]
    · exact ih hnd.2 h1 _

/-- With pairwise distinct leaf characters `getCode` returns, for the character of a leaf,
the code of that leaf. -/
theorem getCode_of_mem (t : HuffmanNode) (hnd : ((leaves t).map Prod.fst).Nodup) (c : Char)
    (code : List Char) (h : (c, code) ∈ leafCodes t []) :
    (getCode { root := t, huffmanCodes := generateCodes t [] [] } c).1 = code := by
  unfold getCode
  simp only
  rw [generateCodes_eq, mapFind_foldl_of_mem _ (by rw [leafCodes_keys]; exact hnd) c code h]

/-- Every code of a subtree extends the code of its root, and no code of a leaf is a prefix
of the code of another leaf. -/
theorem leafCodes_prefix_free (t : HuffmanNode) :
    ∀ code : List Char,
      (∀ p ∈ leafCodes t code, code <+: p.2) ∧
      (leafCodes t code).Pairwise (fun a b => ¬ a.2 <+: b.2 ∧ ¬ b.2 <+: a.2) := by
  induction t with
  | null => intro code; exact ⟨fun p hp => (by cases hp), List.Pairwise.nil⟩
  | mk data f l r isLeaf ihl ihr =>
    intro code
    unfold leafCodes
    by_cases h : isLeaf = true
    · rw [if_pos h]
      refine ⟨fun p hp => ?_, List.pairwise_singleton _ _⟩
      rw [List.mem_singleton] at hp
      rw [hp]
    · rw [if_neg h]
      obtain ⟨l1, l2⟩ := ihl (code ++ ['0'])
      obtain ⟨r1, r2⟩ := ihr (code ++ ['1'])
      have hcross : ∀ a b : List Char, code ++ ['0'] <+: a → code ++ ['1'] <+: b →
          ¬ a <+: b ∧ ¬ b <+: a := by
        intro a b ha hb
        have key : ¬ ∃ w, code ++ ['0'] <+: w ∧ code ++ ['1'] <+: w := by
          rintro ⟨w, h0, h1⟩
          have := List.prefix_of_prefix_length_le h0 h1 (by simp)
          have e := this.eq_of_length (by simp)
          have e' := List.append_cancel_left e
          simp at e'
        exact ⟨fun hab => key ⟨b, ha.trans hab, hb⟩, fun hba => key ⟨a, ha, hb.trans hba⟩⟩
      refine ⟨fun p hp => ?_, ?_⟩
      · rcases List.mem_append.1 hp with hp | hp
        · exact (List.prefix_append _ _).trans (l1 p hp)
        · exact (List.prefix_append _ _).trans (r1 p hp)
      · rw [List.pairwise_append]
        exact ⟨l2, r2, fun a ha b hb => hcross a.2 b.2 (l1 a ha) (r1 b hb)⟩

theorem leafCodes_mem_of_leaf (t : HuffmanNode) (c : Char) :
    ∀ code : List Char, c ∈ (leaves t).map Prod.fst → ∃ w, (c, w) ∈ leafCodes t code := by
  intro code h
  rw [← leafCodes_keys t code] at h
  obtain ⟨p, hp, rfl⟩ := List.mem_map.1 h
  exact ⟨p.2, hp⟩

/-! ### Structure of the tree -/

theorem wrapInt_eq (x : Int) (h1 : -2 ^ 31 ≤ x) (h2 : x < 2 ^ 31) : wrapInt x = x := by
  unfold wrapInt
  omega

theorem listTop_spec : ∀ q : List HuffmanNode, q ≠ [] →
    listTop q ∈ q ∧ ∀ x ∈ q, (listTop q).frequency ≤ x.frequency := by
  intro q
  induction q with
  | nil => intro h; exact absurd rfl h
  | cons a rest ih =>
    intro _
    cases rest with
    | nil =>
      refine ⟨List.mem_singleton.2 rfl, fun x hx => ?_⟩
      rw [List.mem_singleton.1 hx]
      exact le_refl _
    | cons b rest' =>
      obtain ⟨h1, h2⟩ := ih (List.cons_ne_nil _ _)
      have e : listTop (a :: b :: rest')
          = if CompareNodes a (listTop (b :: rest')) then listTop (b :: rest') else a := rfl
      rw [e]
      by_cases hc : CompareNodes a (listTop (b :: rest')) = true
      · rw [if_pos hc]
        refine ⟨List.mem_cons_of_mem _ h1, fun x hx => ?_⟩
        rcases List.mem_cons.1 hx with hx | hx
        · rw [hx]
          unfold CompareNodes at hc
          simp only [decide_eq_true_eq] at hc
          omega
        · exact h2 x hx
      · rw [if_neg hc]
        have hc' := (compareNodes_false _ _).1 (Bool.eq_false_iff.2 hc)
        refine ⟨List.mem_cons_self _ _, fun x hx => ?_⟩
        rcases List.mem_cons.1 hx with hx | hx
        · rw [hx]
        · exact le_trans hc' (h2 x hx)

/-! ### The heap of libstdc++: fuel of its loops -/

/-- The loop of `std::__push_heap` ends within `holeIndex` iterations: more fuel does not
change the result. -/
theorem pushHeapLoop_fuel (value : HuffmanNode) (topIndex : Nat) :
    ∀ (fuel1 fuel2 : Nat) (c : List HuffmanNode) (holeIndex : Nat),
      holeIndex ≤ fuel1 → holeIndex ≤ fuel2 →
      pushHeapLoop value topIndex fuel1 c holeIndex =
        pushHeapLoop value topIndex fuel2 c holeIndex := by
  intro fuel1
  induction fuel1 with
  | zero =>
    intro fuel2 c h h1 _
    have h0 : h = 0 := by omega
    subst h0
    cases fuel2 with
    | zero => rfl
    | succ m =>
      simp only [pushHeapLoop]
      rw [if_neg (by omega)]
  | succ n ih =>
    intro fuel2 c h h1 h2
    cases fuel2 with
    | zero =>
      have h0 : h = 0 := by omega
      subst h0
      simp only [pushHeapLoop]
      rw [if_neg (by omega)]
    | succ m =>
      simp only [pushHeapLoop]
      split_ifs with hc
      · exact ih m _ _ (by omega) (by omega)
      · rfl

/-- The loop of `std::__adjust_heap` ends within `len - secondChild` iterations: more fuel
does not change the result. -/
theorem adjustHeapLoop_fuel (len : Nat) :
    ∀ (fuel1 fuel2 : Nat) (st : List HuffmanNode × Nat × Nat),
      len - st.2.2 ≤ fuel1 → len - st.2.2 ≤ fuel2 →
      adjustHeapLoop len fuel1 st = adjustHeapLoop len fuel2 st := by
  intro fuel1
  induction fuel1 with
  | zero =>
    intro fuel2 st h1 _
    obtain ⟨c, hole, sc⟩ := st
    simp only at h1
    cases fuel2 with
    | zero => rfl
    | succ m =>
      simp only [adjustHeapLoop]
      rw [if_neg (by omega)]
  | succ n ih =>
    intro fuel2 st h1 h2
    obtain ⟨c, hole, sc⟩ := st
    simp only at h1 h2
    cases fuel2 with
    | zero =>
      simp only [adjustHeapLoop]
      rw [if_neg (by omega)]
    | succ m =>
      simp only [adjustHeapLoop]
      split_ifs with hc hcmp
      · exact ih m _ (by simp only; omega) (by simp only; omega)
      · exact ih m _ (by simp only; omega) (by simp only; omega)
      · rfl

/-- The list queue satisfies the contract of `priority_queue`. -/
theorem listQueue_laws : QueueLaws listQueue (fun q => (↑q : Multiset HuffmanNode)) := by
  refine ⟨rfl, fun q x => rfl, fun q => rfl, ?_, ?_, ?_⟩
  · intro q hq
    have : q ≠ [] := by
      intro h; apply hq; rw [h]; rfl
    exact (listTop_spec q this).1
  · intro q x hx
    have hx' : x ∈ q := hx
    have : q ≠ [] := List.ne_nil_of_mem hx'
    exact (compareNodes_false _ _).2 ((listTop_spec q this).2 x hx')
  · intro q _
    rfl

theorem sumTree_frequency (t : HuffmanNode) (h : SumTree t) : t.frequency = weight t := by
  induction t with
  | null => rfl
  | mk data f l r isLeaf ihl ihr =>
    unfold SumTree at h
    unfold weight leaves
    by_cases hleaf : isLeaf = true
    · rw [if_pos hleaf]
      simp [frequency]
    · rw [if_neg hleaf] at h ⊢
      rw [List.map_append, List.sum_append]
      show f = weight l + weight r
      rw [← ihl h.2.1, ← ihr h.2.2]
      exact h.1

theorem natAbs_sum_le (l : List Int) : (l.sum).natAbs ≤ (l.map Int.natAbs).sum := by
  induction l with
  | nil => simp
  | cons a rest ih =>
    simp only [List.sum_cons, List.map_cons]
    exact le_trans (Int.natAbs_add_le _ _) (Nat.add_le_add_left ih _)

theorem natAbs_weight_le (t : HuffmanNode) : (weight t).natAbs ≤ absWeight t := by
  unfold weight absWeight
  have := natAbs_sum_le ((leaves t).map Prod.snd)
  rw [List.map_map] at this
  exact this

theorem leaves_internalNode (f : Int) (l r : HuffmanNode) :
    leaves (internalNode f l r) = leaves l ++ leaves r := rfl

theorem leaves_leafNode (c : Char) (f : Int) : leaves (leafNode c f) = [(c, f)] := rfl

/-- The leaf nodes of the input satisfy the invariant of the merge loop. -/
theorem structInv_init (characters : List Char) (frequencies : List Int) :
    StructInv characters frequencies ↑(leafList characters frequencies) := by
  unfold StructInv leafList
  refine ⟨?_, ?_⟩
  · intro t ht
    rw [Multiset.mem_coe, List.mem_map] at ht
    obtain ⟨p, _, rfl⟩ := ht
    refine ⟨?_, ?_, fun _ => ?_⟩
    · simp [leafNode, FullTree]
    · simp [leafNode, MergeOrdered]
    · simp [leafNode, SumTree]
  · induction characters.zip frequencies with
    | nil => rfl
    | cons p rest ih =>
      rw [List.map_cons, ← Multiset.cons_coe, Multiset.cons_bind, ih, leaves_leafNode]
      rfl

/-- Total of the absolute frequencies of the queued trees. -/
theorem structInv_abs (characters : List Char) (frequencies : List Int)
    (hlen : frequencies.length = characters.length) (ts : Multiset HuffmanNode)
    (h : StructInv characters frequencies ts) :
    (ts.map absWeight).sum = (frequencies.map Int.natAbs).sum := by
  have h2 := congrArg (fun m => (Multiset.map (fun p : Char × Int => p.2.natAbs) m).sum) h.2
  simp only [Multiset.map_bind, Multiset.sum_bind, Multiset.map_coe, Multiset.sum_coe] at h2
  have e : (characters.zip frequencies).map (fun p => p.2.natAbs)
      = frequencies.map Int.natAbs := by
    have e1 : (characters.zip frequencies).map (fun p => p.2.natAbs)
        = ((characters.zip frequencies).map Prod.snd).map Int.natAbs := by
      rw [List.map_map]; rfl
    rw [e1, List.map_snd_zip]
    omega
  rw [e] at h2
  rw [← h2]
  rfl

/-- A merge of two least-frequency nodes preserves the invariant of the merge loop. -/
theorem structInv_step (characters : List Char) (frequencies : List Int)
    (hlen : frequencies.length = characters.length) (ts : Multiset HuffmanNode)
    (l r : HuffmanNode) (h : StructInv characters frequencies ts) (hl : l ∈ ts)
    (hmin : ∀ x ∈ ts, l.frequency ≤ x.frequency) (hr : r ∈ ts.erase l) :
    StructInv characters frequencies
      (internalNode (wrapInt (l.frequency + r.frequency)) l r ::ₘ (ts.erase l).erase r) := by
  have hts : ts = l ::ₘ r ::ₘ (ts.erase l).erase r := by
    rw [Multiset.cons_erase hr, Multiset.cons_erase hl]
  have hr' : r ∈ ts := Multiset.mem_of_mem_erase hr
  obtain ⟨fl, ml, sl⟩ := h.1 l hl
  obtain ⟨fr, mr, sr⟩ := h.1 r hr'
  refine ⟨?_, ?_⟩
  · intro t ht
    rcases Multiset.mem_cons.1 ht with ht | ht
    · rw [ht]
      refine ⟨?_, ?_, fun hno => ?_⟩
      · simp only [internalNode, FullTree]
        exact ⟨fl, fr⟩
      · simp only [internalNode, MergeOrdered]
        exact ⟨hmin r hr', ml, mr⟩
      · have habs := structInv_abs characters frequencies hlen ts h
        rw [hts, Multiset.map_cons, Multiset.map_cons, Multiset.sum_cons,
          Multiset.sum_cons] at habs
        have h1 := natAbs_weight_le l
        have h2 := natAbs_weight_le r
        rw [← sumTree_frequency l (sl hno)] at h1
        rw [← sumTree_frequency r (sr hno)] at h2
        unfold NoOverflow at hno
        have hw : wrapInt (l.frequency + r.frequency) = l.frequency + r.frequency := by
          apply wrapInt_eq <;> omega
        rw [hw]
        simp only [internalNode, SumTree]
        exact ⟨trivial, sl hno, sr hno⟩
    · exact h.1 t (Multiset.mem_of_mem_erase (Multiset.mem_of_mem_erase ht))
  · have h2 := h.2
    rw [hts, Multiset.cons_bind, Multiset.cons_bind] at h2
    rw [Multiset.cons_bind, leaves_internalNode, ← Multiset.coe_add, add_assoc]
    exact h2

/-- Structure of the tree that `buildTree` builds on a non-empty input with one frequency
per character. -/
theorem buildTree_struct {Q : Type} (pq : PriorityQueue Q) (elems : Q → Multiset HuffmanNode)
    (hl : QueueLaws pq elems) (hc : HuffmanCoding) (characters : List Char)
    (frequencies : List Int) (hne : characters ≠ [])
    (hlen : frequencies.length = characters.length) :
    ∃ t, buildTree pq hc characters frequencies
        = some { root := t, huffmanCodes := generateCodes t [] hc.huffmanCodes } ∧
      FullTree t ∧ MergeOrdered t ∧ (NoOverflow frequencies → SumTree t) ∧
      (leaves t).Perm (characters.zip frequencies) := by
  obtain ⟨t, hrun, hI⟩ := buildTree_inv pq elems hl (StructInv characters frequencies)
    (fun ts l r hI h1 h2 h3 _ => structInv_step characters frequencies hlen ts l r hI h1 h2 h3)
    hc characters frequencies hne hlen (structInv_init characters frequencies)
  obtain ⟨h1, h2⟩ := hI
  obtain ⟨a, b, c⟩ := h1 t (Multiset.mem_singleton_self t)
  refine ⟨t, hrun, a, b, c, ?_⟩
  rw [Multiset.singleton_bind] at h2
  exact Multiset.coe_eq_coe.1 h2

/-! ### Contract: single character and prefix-free codes -/

theorem fullTree_ne_null (t : HuffmanNode) (h : FullTree t) : t ≠ .null := by
  intro e
  rw [e] at h
  exact h

theorem fullTree_leaves_ne_nil (t : HuffmanNode) (h : FullTree t) : leaves t ≠ [] := by
  induction t with
  | null => exact absurd h (by simp [FullTree])
  | mk data f l r isLeaf ihl ihr =>
    unfold FullTree at h
    unfold leaves
    by_cases hleaf : isLeaf = true
    · rw [if_pos hleaf]; simp
    · rw [if_neg hleaf] at h ⊢
      intro e
      exact ihl h.1 (List.append_eq_nil.1 e).1

/-- C24: for a one-character input `buildTree` produces a tree that is the single leaf of
that character, `getCode` of the character is the empty string and `getCodesInPreorder`
returns exactly one code, the empty string. -/
theorem single_character {Q : Type} (pq : PriorityQueue Q) (elems : Q → Multiset HuffmanNode)
    (hl : QueueLaws pq elems) (c : Char) (f : Int) :
    ∃ hc, buildTree pq HuffmanCoding.new [c] [f] = some hc ∧ hc.root = leafNode c f ∧
      (getCode hc c).1 = [] ∧ getCodesInPreorder hc = [[]] := by
  obtain ⟨t, hrun, hI⟩ := buildTree_inv pq elems hl (fun ts => ts = {leafNode c f})
    (fun ts l r hI h1 _ h3 _ => by
      rw [hI, Multiset.mem_singleton] at h1
      rw [hI, h1, Multiset.erase_singleton] at h3
      cases h3)
    HuffmanCoding.new [c] [f] (List.cons_ne_nil _ _) rfl rfl
  have ht : t = leafNode c f := Multiset.singleton_inj.1 hI
  rw [ht] at hrun
  refine ⟨_, hrun, rfl, ?_, ?_⟩
  · simp [getCode, HuffmanCoding.new, generateCodes, leafNode, mapAssign, mapFind]
  · simp [getCodesInPreorder, leafNode, preorderTraversal]

theorem single_character_witness :
    buildTree listQueue HuffmanCoding.new ['a'] [10]
      = some { root := leafNode 'a' 10, huffmanCodes := [('a', [])] } ∧
    ∃ hc, buildTree listQueue HuffmanCoding.new ['a'] [10] = some hc ∧
      hc.root = leafNode 'a' 10 ∧ (getCode hc 'a').1 = [] ∧ getCodesInPreorder hc = [[]] :=
  ⟨by decide, single_character listQueue _ listQueue_laws 'a' 10⟩

/-- C21: for a non-empty string of pairwise distinct characters with one frequency per
character `buildTree` returns; the codes that `getCode` gives to two different characters
of the input are different and neither is a prefix of the other; with two or more
characters every code is non-empty; and in the tree every internal node has exactly two
children. -/
theorem codes_prefix_free {Q : Type} (pq : PriorityQueue Q) (elems : Q → Multiset HuffmanNode)
    (hl : QueueLaws pq elems) (characters : List Char) (frequencies : List Int)
    (hne : characters ≠ []) (hnd : characters.Nodup)
    (hlen : frequencies.length = characters.length) :
    ∃ hc, buildTree pq HuffmanCoding.new characters frequencies = some hc ∧
      FullTree hc.root ∧
      (∀ c1 ∈ characters, ∀ c2 ∈ characters, c1 ≠ c2 →
        (getCode hc c1).1 ≠ (getCode hc c2).1 ∧
        ¬ (getCode hc c1).1 <+: (getCode hc c2).1 ∧
        ¬ (getCode hc c2).1 <+: (getCode hc c1).1) ∧
      (2 ≤ characters.length → ∀ c ∈ characters, (getCode hc c).1 ≠ []) := by
  obtain ⟨t, hrun, hfull, _, _, hperm⟩ :=
    buildTree_struct pq elems hl HuffmanCoding.new characters frequencies hne hlen
  have hkeys : ((leaves t).map Prod.fst).Perm characters := by
    have := hperm.map Prod.fst
    rw [List.map_fst_zip] at this
    · exact this
    · omega
  have hnd' : ((leaves t).map Prod.fst).Nodup := hkeys.nodup_iff.2 hnd
  have hcode : ∀ c ∈ characters, ∃ w, (c, w) ∈ leafCodes t [] ∧
      (getCode { root := t, huffmanCodes := generateCodes t [] HuffmanCoding.new.huffmanCodes }
        c).1 = w := by
    intro c hc
    obtain ⟨w, hw⟩ := leafCodes_mem_of_leaf t c [] (hkeys.mem_iff.2 hc)
    exact ⟨w, hw, getCode_of_mem t hnd' c w hw⟩
  obtain ⟨hpre, hpair⟩ := leafCodes_prefix_free t []
  refine ⟨_, hrun, hfull, ?_, ?_⟩
  · intro c1 h1 c2 h2 hne12
    obtain ⟨w1, m1, e1⟩ := hcode c1 h1
    obtain ⟨w2, m2, e2⟩ := hcode c2 h2
    rw [e1, e2]
    have hsym : Symmetric (fun a b : Char × List Char => ¬ a.2 <+: b.2 ∧ ¬ b.2 <+: a.2) :=
      fun a b h => ⟨h.2, h.1⟩
    have := hpair.forall hsym m1 m2 (fun h => hne12 (congrArg Prod.fst h))
    exact ⟨fun h => this.1 (by rw [h]), this.1, this.2⟩
  · intro h2 c hc
    obtain ⟨w, m, e⟩ := hcode c hc
    rw [e]
    have hlen2 : 2 ≤ (leaves t).length := by
      rw [hperm.length_eq, List.length_zip, hlen]
      simpa using h2
    cases t with
    | null => exact absurd hfull (by simp [FullTree])
    | mk data f l r isLeaf =>
      unfold leaves at hlen2
      unfold leafCodes at m
      by_cases hleaf : isLeaf = true
      · rw [if_pos hleaf] at hlen2
        simp at hlen2
      · rw [if_neg hleaf] at m
        intro hw
        rw [hw] at m
        rcases List.mem_append.1 m with m | m
        · have := (leafCodes_prefix_free l ([] ++ ['0'])).1 _ m
          simp at this
        · have := (leafCodes_prefix_free r ([] ++ ['1'])).1 _ m
          simp at this

theorem codes_prefix_free_witness :
    (buildTree listQueue HuffmanCoding.new "abcdef".toList [5, 9, 12, 13, 16, 45]).map
        (fun hc => "abcdef".toList.map (fun c => (getCode hc c).1))
      = some ["1100".toList, "1101".toList, "100".toList, "101".toList, "111".toList,
          "0".toList] ∧
    ∃ hc, buildTree listQueue HuffmanCoding.new "abcdef".toList [5, 9, 12, 13, 16, 45]
        = some hc ∧
      FullTree hc.root ∧
      (∀ c1 ∈ "abcdef".toList, ∀ c2 ∈ "abcdef".toList, c1 ≠ c2 →
        (getCode hc c1).1 ≠ (getCode hc c2).1 ∧
        ¬ (getCode hc c1).1 <+: (getCode hc c2).1 ∧
        ¬ (getCode hc c2).1 <+: (getCode hc c1).1) ∧
      (2 ≤ "abcdef".toList.length → ∀ c ∈ "abcdef".toList, (getCode hc c).1 ≠ []) :=
  ⟨by decide, codes_prefix_free listQueue _ listQueue_laws "abcdef".toList
    [5, 9, 12, 13, 16, 45] (by decide) (by decide) (by decide)⟩

/-! ### Contract: merge order -/

/-- C23 fails in the code: for the characters "ab" with the frequencies `2^30` and `2^30`
the `int` sum `left->frequency + right->frequency` overflows; with the heap of libstdc++
`buildTree` builds the tree with `a` on the left and `b` on the right whose root has the
frequency `-2^31`, not the sum `2^31` of the frequencies of its two children. -/
theorem merge_order_counterexample :
    ∃ hc, buildTree heapQueue HuffmanCoding.new ['a', 'b'] [1073741824, 1073741824] = some hc ∧
      hc.root = internalNode (-2147483648) (leafNode 'a' 1073741824) (leafNode 'b' 1073741824) ∧
      hc.root.frequency = -2147483648 ∧
      (leafNode 'a' 1073741824).frequency + (leafNode 'b' 1073741824).frequency = 2147483648 ∧
      ¬ SumTree hc.root :=
  ⟨{ root := internalNode (-2147483648) (leafNode 'a' 1073741824) (leafNode 'b' 1073741824),
     huffmanCodes := [('a', ['0']), ('b', ['1'])] },
    by decide, rfl, rfl, rfl, by simp [SumTree, internalNode, leafNode, frequency]⟩

/-- C23, as far as the code meets it: for a non-empty input with one frequency per
character, in the tree that `buildTree` builds the left child of every internal node has a
frequency less than or equal to that of its right child, and `getCodesInPreorder` lists the
codes of the leaves from left to right (for pairwise distinct characters: the `getCode` of
the leaf characters from left to right); when the absolute values of the frequencies sum to
at most `INT_MAX`, so that no sum overflows, every internal node has the sum of the
frequencies of its two children as frequency. -/
theorem merge_order {Q : Type} (pq : PriorityQueue Q) (elems : Q → Multiset HuffmanNode)
    (hl : QueueLaws pq elems) (characters : List Char) (frequencies : List Int)
    (hne : characters ≠ []) (hlen : frequencies.length = characters.length) :
    ∃ hc, buildTree pq HuffmanCoding.new characters frequencies = some hc ∧
      MergeOrdered hc.root ∧
      (NoOverflow frequencies → SumTree hc.root) ∧
      getCodesInPreorder hc = (leafCodes hc.root []).map Prod.snd ∧
      (characters.Nodup →
        getCodesInPreorder hc = (leaves hc.root).map (fun p => (getCode hc p.1).1)) := by
  obtain ⟨t, hrun, hfull, hord, hsum, hperm⟩ :=
    buildTree_struct pq elems hl HuffmanCoding.new characters frequencies hne hlen
  have hpre : getCodesInPreorder
      { root := t, huffmanCodes := generateCodes t [] HuffmanCoding.new.huffmanCodes }
        = (leafCodes t []).map Prod.snd := by
    unfold getCodesInPreorder
    simp only
    rw [if_pos (fullTree_ne_null t hfull), preorderTraversal_eq, List.nil_append]
  refine ⟨_, hrun, hord, hsum, hpre, fun hnd => ?_⟩
  rw [hpre]
  have hkeys : ((leaves t).map Prod.fst).Perm characters := by
    have := hperm.map Prod.fst
    rw [List.map_fst_zip] at this
    · exact this
    · omega
  have hnd' : ((leaves t).map Prod.fst).Nodup := hkeys.nodup_iff.2 hnd
  have e1 : (leaves t).map (fun p => (getCode
      { root := t, huffmanCodes := generateCodes t [] HuffmanCoding.new.huffmanCodes } p.1).1)
      = ((leaves t).map Prod.fst).map (fun c => (getCode
      { root := t, huffmanCodes := generateCodes t [] HuffmanCoding.new.huffmanCodes } c).1) := by
    rw [List.map_map]; rfl
  show _ = (leaves t).map (fun p => (getCode
      { root := t, huffmanCodes := generateCodes t [] HuffmanCoding.new.huffmanCodes } p.1).1)
  rw [e1, ← leafCodes_keys t [], List.map_map]
  apply List.map_congr_left
  intro q hq
  exact (getCode_of_mem t hnd' q.1 q.2 hq).symm

theorem merge_order_witness :
    (buildTree heapQueue HuffmanCoding.new "abcdef".toList [5, 9, 12, 13, 16, 45]).map
        getCodesInPreorder
      = some ["0".toList, "100".toList, "101".toList, "1100".toList, "1101".toList,
          "111".toList] ∧
    (buildTree listQueue HuffmanCoding.new "abcdef".toList [5, 9, 12, 13, 16, 45]).map
        getCodesInPreorder
      = some ["0".toList, "100".toList, "101".toList, "1100".toList, "1101".toList,
          "111".toList] ∧
    (buildTree listQueue HuffmanCoding.new "abcdef".toList [5, 9, 12, 13, 16, 45]).map
        (fun hc => (leaves hc.root).map Prod.fst) = some "fcdabe".toList ∧
    NoOverflow [5, 9, 12, 13, 16, 45] ∧
    ∃ hc, buildTree listQueue HuffmanCoding.new "abcdef".toList [5, 9, 12, 13, 16, 45]
        = some hc ∧
      MergeOrdered hc.root ∧
      (NoOverflow [5, 9, 12, 13, 16, 45] → SumTree hc.root) ∧
      getCodesInPreorder hc = (leafCodes hc.root []).map Prod.snd ∧
      ("abcdef".toList.Nodup →
        getCodesInPreorder hc = (leaves hc.root).map (fun p => (getCode hc p.1).1)) :=
  ⟨by decide, by decide, by decide, by unfold NoOverflow; decide,
    merge_order listQueue _ listQueue_laws "abcdef".toList [5, 9, 12, 13, 16, 45]
      (by decide) (by decide)⟩

/-! ### Depth multisets of proper trees and the exchange argument -/

theorem realizable_inv (D : Multiset Nat) (h : Realizable D) :
    D = {0} ∨ ∃ d D', D = (d + 1) ::ₘ (d + 1) ::ₘ D' ∧ Realizable (d ::ₘ D') ∧
      ∀ e ∈ D', e ≤ d + 1 := by
  cases h with
  | single => exact Or.inl rfl
  | split d D' h1 h2 => exact Or.inr ⟨d, D', rfl, h1, h2⟩

theorem realizable_singleton (d : Nat) (h : Realizable {d}) : d = 0 := by
  rcases realizable_inv _ h with h | ⟨a, D', h, _, _⟩
  · exact Multiset.singleton_inj.1 h
  · have := congrArg Multiset.card h
    simp at this

theorem realizable_split_of_two (D : Multiset Nat) (h : Realizable D)
    (hc : 2 ≤ Multiset.card D) :
    ∃ d D', D = (d + 1) ::ₘ (d + 1) ::ₘ D' ∧ Realizable (d ::ₘ D') ∧ ∀ e ∈ D', e ≤ d + 1 := by
  rcases realizable_inv _ h with h | h
  · rw [h] at hc
    simp at hc
  · exact h

theorem combine_step (a : Nat) (A B : Multiset Nat)
    (hIH : Realizable (((a ::ₘ A) + B).map Nat.succ)) (hA : ∀ e ∈ A, e ≤ a + 1)
    (hB : ∀ e ∈ B, e ≤ a + 1) :
    Realizable ((((a + 1) ::ₘ (a + 1) ::ₘ A) + B).map Nat.succ) := by
  have e1 : (((a + 1) ::ₘ (a + 1) ::ₘ A) + B).map Nat.succ
      = (a + 1 + 1) ::ₘ (a + 1 + 1) ::ₘ ((A + B).map Nat.succ) := by
    simp [Multiset.cons_add]
  have e2 : ((a ::ₘ A) + B).map Nat.succ = (a + 1) ::ₘ ((A + B).map Nat.succ) := by
    simp [Multiset.cons_add]
  rw [e1]
  rw [e2] at hIH
  apply Realizable.split (a + 1) _ hIH
  intro e he
  obtain ⟨e', he', rfl⟩ := Multiset.mem_map.1 he
  rcases Multiset.mem_add.1 he' with h | h
  · have := hA e' h; omega
  · have := hB e' h; omega

/-- The depths of the leaves of two proper trees, hung below a new root, are the depths of
the leaves of a proper tree. -/
theorem realizable_combine :
    ∀ (n : Nat) (A B : Multiset Nat), Multiset.card A + Multiset.card B = n →
      Realizable A → Realizable B → Realizable ((A + B).map Nat.succ) := by
  intro n
  induction n using Nat.strong_induction_on with
  | _ n ih =>
    intro A B hn hA hB
    rcases realizable_inv A hA with hA0 | ⟨a, A', hAe, hA1, hA2⟩
    · rcases realizable_inv B hB with hB0 | ⟨b, B', hBe, hB1, hB2⟩
      · rw [hA0, hB0]
        exact Realizable.split 0 0 Realizable.single (fun e he => by cases he)
      · rw [add_comm, hBe]
        apply combine_step b B' A
        · rw [add_comm]
          exact ih (Multiset.card A + Multiset.card (b ::ₘ B'))
            (by rw [← hn, hBe]; simp) A (b ::ₘ B') rfl hA hB1
        · exact hB2
        · intro e he
          rw [hA0, Multiset.mem_singleton] at he
          omega
    · rcases realizable_inv B hB with hB0 | ⟨b, B', hBe, hB1, hB2⟩
      · rw [hAe]
        apply combine_step a A' B
        · exact ih (Multiset.card (a ::ₘ A') + Multiset.card B)
            (by rw [← hn, hAe]; simp) (a ::ₘ A') B rfl hA1 hB
        · exact hA2
        · intro e he
          rw [hB0, Multiset.mem_singleton] at he
          omega
      · by_cases hab : b ≤ a
        · rw [hAe]
          apply combine_step a A' B
          · exact ih (Multiset.card (a ::ₘ A') + Multiset.card B)
              (by rw [← hn, hAe]; simp) (a ::ₘ A') B rfl hA1 hB
          · exact hA2
          · intro e he
            rw [hBe] at he
            simp only [Multiset.mem_cons] at he
            rcases he with he | he | he
            · omega
            · omega
            · have := hB2 e he; omega
        · rw [add_comm, hBe]
          apply combine_step b B' A
          · rw [add_comm]
            exact ih (Multiset.card A + Multiset.card (b ::ₘ B'))
              (by rw [← hn, hBe]; simp) A (b ::ₘ B') rfl hA hB1
          · exact hB2
          · intro e he
            rw [hAe] at he
            simp only [Multiset.mem_cons] at he
            rcases he with he | he | he
            · omega
            · omega
            · have := hA2 e he; omega

theorem pairCost_cons (q : Int × Nat) (M : Multiset (Int × Nat)) :
    pairCost (q ::ₘ M) = q.1 * (q.2 : Int) + pairCost M := by
  unfold pairCost
  rw [Multiset.map_cons, Multiset.sum_cons]

/-- Exchange step: the least frequency can be moved to a deepest leaf without raising the
cost. -/
theorem swap_min (x : Int) (h : Nat) (M : Multiset (Int × Nat)) (a : Int) (V : Multiset Int)
    (hW : x ::ₘ M.map Prod.fst = a ::ₘ V) (ha : ∀ v ∈ V, a ≤ v) (hd : ∀ p ∈ M, p.2 ≤ h) :
    ∃ M' : Multiset (Int × Nat), M'.map Prod.fst = V ∧ M'.map Prod.snd = M.map Prod.snd ∧
      pairCost ((a, h) ::ₘ M') ≤ pairCost ((x, h) ::ₘ M) := by
  by_cases hx : x = a
  · rw [hx] at hW ⊢
    exact ⟨M, (Multiset.cons_inj_right a).1 hW, rfl, le_refl _⟩
  · have hmem : a ∈ x ::ₘ M.map Prod.fst := by
      rw [hW]; exact Multiset.mem_cons_self _ _
    rcases Multiset.mem_cons.1 hmem with h1 | h1
    · exact absurd h1.symm hx
    · obtain ⟨p, hp, hpa⟩ := Multiset.mem_map.1 h1
      have hM : M = p ::ₘ M.erase p := (Multiset.cons_erase hp).symm
      have hV : V = x ::ₘ (M.erase p).map Prod.fst := by
        rw [hM, Multiset.map_cons, hpa, Multiset.cons_swap] at hW
        exact ((Multiset.cons_inj_right a).1 hW).symm
      refine ⟨(x, p.2) ::ₘ M.erase p, ?_, ?_, ?_⟩
      · rw [Multiset.map_cons, hV]
      · conv_rhs => rw [hM]
        rw [Multiset.map_cons, Multiset.map_cons]
      · conv_rhs => rw [hM]
        rw [pairCost_cons, pairCost_cons, pairCost_cons, pairCost_cons]
        have h2 : a ≤ x := ha x (by rw [hV]; exact Multiset.mem_cons_self _ _)
        have h3 : (p.2 : Int) ≤ h := by exact_mod_cast hd p hp
        simp only
        rw [hpa]
        nlinarith [mul_nonneg (sub_nonneg.2 h2) (sub_nonneg.2 h3)]

/-- Exchange argument: a proper tree whose two least leaf frequencies are `a` and `b`
costs at least `a + b` more than some proper tree over the other frequencies and
`a + b`. -/
theorem exchange (P : Multiset (Int × Nat)) (a b : Int) (W : Multiset Int)
    (hW : P.map Prod.fst = a ::ₘ b ::ₘ W) (ha : ∀ x ∈ b ::ₘ W, a ≤ x) (hb : ∀ x ∈ W, b ≤ x)
    (hR : Realizable (P.map Prod.snd)) :
    ∃ P' : Multiset (Int × Nat), P'.map Prod.fst = (a + b) ::ₘ W ∧
      Realizable (P'.map Prod.snd) ∧ pairCost P' + a + b ≤ pairCost P := by
  have hcard : 2 ≤ Multiset.card (P.map Prod.snd) := by
    have := congrArg Multiset.card hW
    simp only [Multiset.card_map, Multiset.card_cons] at this ⊢
    omega
  obtain ⟨d, D', hD, hR', hmax⟩ := realizable_split_of_two _ hR hcard
  obtain ⟨p1, hp1, hp1d, hrest1⟩ := (Multiset.map_eq_cons Prod.snd P _ _).2 hD
  obtain ⟨p2, hp2, hp2d, hrest2⟩ := (Multiset.map_eq_cons Prod.snd (P.erase p1) _ _).2 hrest1
  have hP : P = p1 ::ₘ p2 ::ₘ (P.erase p1).erase p2 := by
    rw [Multiset.cons_erase hp2, Multiset.cons_erase hp1]
  generalize (P.erase p1).erase p2 = M at hP hrest2
  obtain ⟨x, d1⟩ := p1
  obtain ⟨y, d2⟩ := p2
  simp only at hp1d hp2d
  subst hp1d hp2d
  rw [hP, Multiset.map_cons] at hW
  -- move `a` to the first deepest leaf
  obtain ⟨M1, hM1f, hM1s, hM1c⟩ := swap_min x (d + 1) ((y, d + 1) ::ₘ M) a (b ::ₘ W) hW ha
    (by
      intro p hp
      rcases Multiset.mem_cons.1 hp with h | h
      · rw [h]
      · exact hmax p.2 (by rw [← hrest2]; exact Multiset.mem_map_of_mem _ h))
  rw [Multiset.map_cons, hrest2] at hM1s
  obtain ⟨q, hq, hqd, hrestq⟩ := (Multiset.map_eq_cons Prod.snd M1 _ _).2 hM1s
  have hM1 : M1 = q ::ₘ M1.erase q := (Multiset.cons_erase hq).symm
  generalize M1.erase q = M2 at hM1 hrestq
  obtain ⟨y', dq⟩ := q
  simp only at hqd
  subst hqd
  rw [hM1, Multiset.map_cons] at hM1f
  -- move `b` to its sibling
  obtain ⟨M3, hM3f, hM3s, hM3c⟩ := swap_min y' (d + 1) M2 b W hM1f hb
    (by
      intro p hp
      exact hmax p.2 (by rw [← hrestq]; exact Multiset.mem_map_of_mem _ hp))
  refine ⟨(a + b, d) ::ₘ M3, ?_, ?_, ?_⟩
  · rw [Multiset.map_cons, hM3f]
  · rw [Multiset.map_cons, hM3s, hrestq]
    exact hR'
  · rw [hP]
    rw [hM1] at hM1c
    simp only [pairCost_cons] at hM3c hM1c ⊢
    push_cast at hM3c hM1c ⊢
    linarith

/-! ### Cost of trees -/

theorem weight_mk (data : Char) (f : Int) (l r : HuffmanNode) (isLeaf : Bool) :
    weight (.mk data f l r isLeaf) = if isLeaf then f else weight l + weight r := by
  have e : leaves (.mk data f l r isLeaf)
      = if isLeaf then [(data, f)] else leaves l ++ leaves r := rfl
  unfold weight
  rw [e]
  by_cases h : isLeaf = true
  · rw [if_pos h, if_pos h]; simp
  · rw [if_neg h, if_neg h, List.map_append, List.sum_append]

theorem costAt_succ (t : HuffmanNode) :
    ∀ d : Nat, costAt (d + 1) t = costAt d t + weight t := by
  induction t with
  | null => intro d; rfl
  | mk data f l r isLeaf ihl ihr =>
    intro d
    rw [weight_mk]
    unfold costAt
    by_cases h : isLeaf = true
    · rw [if_pos h, if_pos h, if_pos h]
      push_cast
      ring
    · rw [if_neg h, if_neg h, if_neg h, ihl (d + 1), ihr (d + 1)]
      ring

theorem cost_internalNode (f : Int) (l r : HuffmanNode) :
    cost (internalNode f l r) = cost l + cost r + weight l + weight r := by
  unfold cost internalNode
  show costAt (0 + 1) l + costAt (0 + 1) r = _
  rw [costAt_succ, costAt_succ]
  ring

theorem pairCost_add (A B : Multiset (Int × Nat)) :
    pairCost (A + B) = pairCost A + pairCost B := by
  unfold pairCost
  rw [Multiset.map_add, Multiset.sum_add]

theorem pairCost_depthPairs (t : HuffmanNode) :
    ∀ d : Nat, pairCost (depthPairs d t) = costAt d t := by
  induction t with
  | null => intro d; rfl
  | mk data f l r isLeaf ihl ihr =>
    intro d
    unfold depthPairs costAt
    by_cases h : isLeaf = true
    · rw [if_pos h, if_pos h]
      simp [pairCost]
    · rw [if_neg h, if_neg h, pairCost_add, ihl, ihr]

theorem depthPairs_succ (t : HuffmanNode) :
    ∀ d : Nat, (depthPairs (d + 1) t).map Prod.snd
      = ((depthPairs d t).map Prod.snd).map Nat.succ := by
  induction t with
  | null => intro d; rfl
  | mk data f l r isLeaf ihl ihr =>
    intro d
    unfold depthPairs
    by_cases h : isLeaf = true
    · rw [if_pos h, if_pos h]
      rfl
    · rw [if_neg h, if_neg h, Multiset.map_add, Multiset.map_add, Multiset.map_add,
        ihl (d + 1), ihr (d + 1)]

theorem depthPairs_fst (t : HuffmanNode) :
    ∀ d : Nat, (depthPairs d t).map Prod.fst = ↑((leaves t).map Prod.snd) := by
  induction t with
  | null => intro d; rfl
  | mk data f l r isLeaf ihl ihr =>
    intro d
    unfold depthPairs leaves
    by_cases h : isLeaf = true
    · rw [if_pos h, if_pos h]
      rfl
    · rw [if_neg h, if_neg h, Multiset.map_add, ihl, ihr, List.map_append,
        Multiset.coe_add]

/-- The depths of the leaves of a proper tree. -/
theorem realizable_depthPairs (t : HuffmanNode) (h : FullTree t) :
    Realizable ((depthPairs 0 t).map Prod.snd) := by
  induction t with
  | null => exact absurd h (by simp [FullTree])
  | mk data f l r isLeaf ihl ihr =>
    unfold FullTree at h
    unfold depthPairs
    by_cases hleaf : isLeaf = true
    · rw [if_pos hleaf]
      exact Realizable.single
    · rw [if_neg hleaf] at h ⊢
      rw [Multiset.map_add, depthPairs_succ, depthPairs_succ, ← Multiset.map_add]
      exact realizable_combine _ _ _ rfl (ihl h.1) (ihr h.2)

theorem costAt_of_leaves_nil (t : HuffmanNode) (h : leaves t = []) :
    ∀ d : Nat, costAt d t = 0 := by
  induction t with
  | null => intro d; rfl
  | mk data f l r isLeaf ihl ihr =>
    intro d
    unfold leaves at h
    unfold costAt
    by_cases hleaf : isLeaf = true
    · rw [if_pos hleaf] at h
      cases h
    · rw [if_neg hleaf] at h ⊢
      rw [ihl (List.append_eq_nil.1 h).1, ihr (List.append_eq_nil.1 h).2]
      rfl

theorem weight_nonneg_of_leaves (t : HuffmanNode) (h : ∀ p ∈ leaves t, 0 ≤ p.2) : 0 ≤ weight t := by
  unfold weight
  apply List.sum_nonneg
  intro x hx
  obtain ⟨p, hp, rfl⟩ := List.mem_map.1 hx
  exact h p hp

/-- Any tree with a leaf and non-negative leaf frequencies can be turned into a proper tree
with the same leaves that costs no more. -/
theorem exists_fullTree (u : HuffmanNode) :
    (∀ p ∈ leaves u, 0 ≤ p.2) → leaves u ≠ [] →
      ∃ u', FullTree u' ∧ leaves u' = leaves u ∧ ∀ d : Nat, costAt d u' ≤ costAt d u := by
  induction u with
  | null => intro _ h; exact absurd rfl h
  | mk data f l r isLeaf ihl ihr =>
    intro hnn hne
    by_cases hleaf : isLeaf = true
    · refine ⟨leafNode data f, by simp [leafNode, FullTree], ?_, fun d => ?_⟩
      · simp [leafNode, leaves, hleaf]
      · simp [leafNode, costAt, hleaf]
    · have hlv : leaves (.mk data f l r isLeaf) = leaves l ++ leaves r := by
        simp [leaves, hleaf]
      have hcost : ∀ d, costAt d (.mk data f l r isLeaf)
          = costAt (d + 1) l + costAt (d + 1) r := by
        intro d; simp [costAt, hleaf]
      rw [hlv] at hnn hne ⊢
      have hnl : ∀ p ∈ leaves l, 0 ≤ p.2 := fun p hp => hnn p (List.mem_append_left _ hp)
      have hnr : ∀ p ∈ leaves r, 0 ≤ p.2 := fun p hp => hnn p (List.mem_append_right _ hp)
      by_cases hl : leaves l = []
      · have hr : leaves r ≠ [] := by
          intro h; apply hne; rw [hl, h]; rfl
        obtain ⟨r', f1, f2, f3⟩ := ihr hnr hr
        refine ⟨r', f1, by rw [f2, hl, List.nil_append], fun d => ?_⟩
        rw [hcost, costAt_of_leaves_nil l hl, zero_add]
        have := costAt_succ r d
        have := weight_nonneg_of_leaves r hnr
        have := f3 d
        omega
      · by_cases hr : leaves r = []
        · obtain ⟨l', f1, f2, f3⟩ := ihl hnl hl
          refine ⟨l', f1, by rw [f2, hr, List.append_nil], fun d => ?_⟩
          rw [hcost, costAt_of_leaves_nil r hr, add_zero]
          have := costAt_succ l d
          have := weight_nonneg_of_leaves l hnl
          have := f3 d
          omega
        · obtain ⟨l', f1, f2, f3⟩ := ihl hnl hl
          obtain ⟨r', g1, g2, g3⟩ := ihr hnr hr
          refine ⟨internalNode 0 l' r', by simp [internalNode, FullTree, f1, g1], ?_,
            fun d => ?_⟩
          · rw [leaves_internalNode, f2, g2]
          · rw [hcost]
            have e : costAt d (internalNode 0 l' r')
                = costAt (d + 1) l' + costAt (d + 1) r' := rfl
            rw [e]
            exact add_le_add (f3 _) (g3 _)

/-! ### Contract: optimality -/

/-- Under the invariant, when no sum overflows, the `int` sum of the frequencies of two
queued nodes is their exact sum. -/
theorem structInv_no_wrap (characters : List Char) (frequencies : List Int)
    (hlen : frequencies.length = characters.length) (hno : NoOverflow frequencies)
    (ts : Multiset HuffmanNode) (l r : HuffmanNode) (h : StructInv characters frequencies ts)
    (hl : l ∈ ts) (hr : r ∈ ts.erase l) :
    wrapInt (l.frequency + r.frequency) = l.frequency + r.frequency := by
  have hts : ts = l ::ₘ r ::ₘ (ts.erase l).erase r := by
    rw [Multiset.cons_erase hr, Multiset.cons_erase hl]
  have hr' : r ∈ ts := Multiset.mem_of_mem_erase hr
  have habs := structInv_abs characters frequencies hlen ts h
  rw [hts, Multiset.map_cons, Multiset.map_cons, Multiset.sum_cons, Multiset.sum_cons] at habs
  have h1 := natAbs_weight_le l
  have h2 := natAbs_weight_le r
  rw [← sumTree_frequency l ((h.1 l hl).2.2 hno)] at h1
  rw [← sumTree_frequency r ((h.1 r hr').2.2 hno)] at h2
  unfold NoOverflow at hno
  apply wrapInt_eq <;> omega

theorem frequency_leafNode (c : Char) (f : Int) : (leafNode c f).frequency = f := rfl

theorem cost_leafNode (c : Char) (f : Int) : cost (leafNode c f) = 0 := by
  simp [cost, costAt, leafNode]

/-- The leaf nodes of the input satisfy the optimality invariant for the cost of any
proper tree over the leaves of the input. -/
theorem optInv_init (characters : List Char) (frequencies : List Int) (u : HuffmanNode)
    (hu : FullTree u) (hperm : (leaves u).Perm (characters.zip frequencies)) :
    OptInv characters frequencies (cost u) ↑(leafList characters frequencies) := by
  refine ⟨structInv_init characters frequencies, depthPairs 0 u, ?_,
    realizable_depthPairs u hu, ?_⟩
  · rw [depthPairs_fst, leafList, Multiset.map_coe, List.map_map]
    apply Multiset.coe_eq_coe.2
    exact hperm.map Prod.snd
  · rw [pairCost_depthPairs]
    have : (Multiset.map cost ↑(leafList characters frequencies)).sum = 0 := by
      apply Multiset.sum_eq_zero
      intro x hx
      rw [leafList, Multiset.map_coe, Multiset.mem_coe, List.map_map] at hx
      obtain ⟨p, _, rfl⟩ := List.mem_map.1 hx
      exact cost_leafNode _ _
    rw [this, zero_add]
    exact le_refl _

/-- A merge of two least-frequency nodes preserves the optimality invariant. -/
theorem optInv_step (characters : List Char) (frequencies : List Int)
    (hlen : frequencies.length = characters.length) (hno : NoOverflow frequencies)
    (bound : Int) (ts : Multiset HuffmanNode) (l r : HuffmanNode)
    (h : OptInv characters frequencies bound ts) (hl : l ∈ ts)
    (hmin : ∀ x ∈ ts, l.frequency ≤ x.frequency) (hr : r ∈ ts.erase l)
    (hmin2 : ∀ x ∈ ts.erase l, r.frequency ≤ x.frequency) :
    OptInv characters frequencies bound
      (internalNode (wrapInt (l.frequency + r.frequency)) l r ::ₘ (ts.erase l).erase r) := by
  obtain ⟨hS, P, hPf, hPR, hPc⟩ := h
  have hts : ts = l ::ₘ r ::ₘ (ts.erase l).erase r := by
    rw [Multiset.cons_erase hr, Multiset.cons_erase hl]
  have her : ts.erase l = r ::ₘ (ts.erase l).erase r := (Multiset.cons_erase hr).symm
  have hr' : r ∈ ts := Multiset.mem_of_mem_erase hr
  have hw := structInv_no_wrap characters frequencies hlen hno ts l r hS hl hr
  refine ⟨structInv_step characters frequencies hlen ts l r hS hl hmin hr, ?_⟩
  generalize (ts.erase l).erase r = rest at hts her ⊢
  have hPf' : P.map Prod.fst = l.frequency ::ₘ r.frequency ::ₘ rest.map frequency := by
    rw [hPf, hts, Multiset.map_cons, Multiset.map_cons]
  obtain ⟨P', hP'f, hP'R, hP'c⟩ := exchange P l.frequency r.frequency (rest.map frequency)
    hPf'
    (by
      intro x hx
      rw [← Multiset.map_cons frequency] at hx
      obtain ⟨y, hy, rfl⟩ := Multiset.mem_map.1 hx
      exact hmin y (Multiset.mem_of_mem_erase (by rw [her]; exact hy)))
    (by
      intro x hx
      obtain ⟨y, hy, rfl⟩ := Multiset.mem_map.1 hx
      exact hmin2 y (by rw [her]; exact Multiset.mem_cons_of_mem hy))
    hPR
  refine ⟨P', ?_, hP'R, ?_⟩
  · rw [hP'f, Multiset.map_cons]
    show _ = wrapInt (l.frequency + r.frequency) ::ₘ _
    rw [hw]
  · rw [hts, Multiset.map_cons, Multiset.map_cons, Multiset.sum_cons, Multiset.sum_cons] at hPc
    rw [Multiset.map_cons, Multiset.sum_cons, cost_internalNode,
      ← sumTree_frequency l ((hS.1 l hl).2.2 hno), ← sumTree_frequency r ((hS.1 r hr').2.2 hno)]
    linarith

theorem natAbs_sum_of_pos (l : List Int) (h : ∀ f ∈ l, 0 < f) :
    ((l.map Int.natAbs).sum : Int) = l.sum := by
  induction l with
  | nil => rfl
  | cons a rest ih =>
    simp only [List.map_cons, List.sum_cons, Nat.cast_add]
    rw [ih (fun f hf => h f (List.mem_cons_of_mem _ hf))]
    have := h a (List.mem_cons_self _ _)
    omega

/-- C22 fails in the code: for four characters of frequency `2^30` the `int` sums
`left->frequency + right->frequency` overflow; with the heap of libstdc++ `buildTree` builds
a tree with the leaves `a`, `c`, `d`, `b` at the depths 3, 3, 2, 1, of weighted code length
`9 * 2^30`, while the tree with all four leaves at depth 2 has the weighted code length
`8 * 2^30`. -/
theorem huffman_optimal_counterexample :
    (∀ f ∈ ([1073741824, 1073741824, 1073741824, 1073741824] : List Int), 0 < f) ∧
    ∃ hc u, buildTree heapQueue HuffmanCoding.new ['a', 'b', 'c', 'd']
        [1073741824, 1073741824, 1073741824, 1073741824] = some hc ∧
      hc.root = internalNode 0
        (internalNode (-1073741824)
          (internalNode (-2147483648) (leafNode 'a' 1073741824) (leafNode 'c' 1073741824))
          (leafNode 'd' 1073741824))
        (leafNode 'b' 1073741824) ∧
      FullTree u ∧
      (leaves u).Perm (['a', 'b', 'c', 'd'].zip
        [1073741824, 1073741824, 1073741824, 1073741824]) ∧
      cost hc.root = 9663676416 ∧ cost u = 8589934592 ∧ cost u < cost hc.root :=
  ⟨by decide,
    { root := internalNode 0
        (internalNode (-1073741824)
          (internalNode (-2147483648) (leafNode 'a' 1073741824) (leafNode 'c' 1073741824))
          (leafNode 'd' 1073741824))
        (leafNode 'b' 1073741824),
      huffmanCodes := [('a', ['0', '0', '0']), ('c', ['0', '0', '1']), ('d', ['0', '1']),
        ('b', ['1'])] },
    internalNode 0 (internalNode 0 (leafNode 'a' 1073741824) (leafNode 'b' 1073741824))
      (internalNode 0 (leafNode 'c' 1073741824) (leafNode 'd' 1073741824)),
    by decide, rfl, by simp [FullTree, internalNode, leafNode], List.Perm.refl _, by decide,
    by decide, by decide⟩

/-- C22, as far as the code meets it: for a non-empty list of characters with positive
frequencies whose sum is at most `INT_MAX`, so that no sum overflows, one frequency per
character, `buildTree` builds a proper tree over the characters of the input with their
frequencies, and its weighted code length (the sum over the leaves of frequency times
depth) is less than or equal to that of every binary tree over the same leaves and
frequencies. -/
theorem huffman_optimal {Q : Type} (pq : PriorityQueue Q) (elems : Q → Multiset HuffmanNode)
    (hl : QueueLaws pq elems) (characters : List Char) (frequencies : List Int)
    (hne : characters ≠ []) (hlen : frequencies.length = characters.length)
    (hpos : ∀ f ∈ frequencies, 0 < f) (hsum : frequencies.sum < 2 ^ 31) :
    ∃ hc, buildTree pq HuffmanCoding.new characters frequencies = some hc ∧
      FullTree hc.root ∧ (leaves hc.root).Perm (characters.zip frequencies) ∧
      ∀ u : HuffmanNode, (leaves u).Perm (characters.zip frequencies) →
        cost hc.root ≤ cost u := by
  have hno : NoOverflow frequencies := by
    unfold NoOverflow
    have := natAbs_sum_of_pos frequencies hpos
    omega
  obtain ⟨t, hrun, hfull, _, _, hperm⟩ :=
    buildTree_struct pq elems hl HuffmanCoding.new characters frequencies hne hlen
  refine ⟨_, hrun, hfull, hperm, fun u hu => ?_⟩
  have hzip : characters.zip frequencies ≠ [] := by
    cases characters with
    | nil => exact absurd rfl hne
    | cons c cs =>
      cases frequencies with
      | nil => simp at hlen
      | cons f fs => simp
  have hnn : ∀ p ∈ leaves u, 0 ≤ p.2 := by
    intro p hp
    have hp' := hu.mem_iff.1 hp
    exact le_of_lt (hpos p.2 (List.of_mem_zip hp').2)
  have hune : leaves u ≠ [] := by
    intro h
    rw [h] at hu
    exact hzip hu.symm.eq_nil
  obtain ⟨u', hu'f, hu'l, hu'c⟩ := exists_fullTree u hnn hune
  obtain ⟨t', hrun', hI⟩ := buildTree_inv pq elems hl
    (OptInv characters frequencies (cost u'))
    (fun ts l r hI h1 h2 h3 h4 =>
      optInv_step characters frequencies hlen hno (cost u') ts l r hI h1 h2 h3 h4)
    HuffmanCoding.new characters frequencies hne hlen
    (optInv_init characters frequencies u' hu'f (by rw [hu'l]; exact hu))
  rw [hrun] at hrun'
  have ht : t = t' := by
    injection hrun' with e
    injection e
  rw [← ht] at hI
  obtain ⟨_, P, hPf, hPR, hPc⟩ := hI
  rw [Multiset.map_singleton] at hPf hPc
  obtain ⟨q, hq, hqf⟩ := Multiset.map_eq_singleton.1 hPf
  rw [hq, Multiset.map_singleton] at hPR
  have hd := realizable_singleton _ hPR
  rw [hq, Multiset.sum_singleton] at hPc
  have hP0 : pairCost {q} = 0 := by
    simp [pairCost, hd]
  rw [hP0, add_zero] at hPc
  exact le_trans hPc (hu'c 0)

theorem huffman_optimal_witness :
    (buildTree listQueue HuffmanCoding.new "abcdef".toList [5, 9, 12, 13, 16, 45]).map
        (fun hc => cost hc.root) = some 224 ∧
    ∃ hc, buildTree listQueue HuffmanCoding.new "abcdef".toList [5, 9, 12, 13, 16, 45]
        = some hc ∧
      FullTree hc.root ∧
      (leaves hc.root).Perm ("abcdef".toList.zip [5, 9, 12, 13, 16, 45]) ∧
      ∀ u : HuffmanNode, (leaves u).Perm ("abcdef".toList.zip [5, 9, 12, 13, 16, 45]) →
        cost hc.root ≤ cost u :=
  ⟨by decide, huffman_optimal listQueue _ listQueue_laws "abcdef".toList
    [5, 9, 12, 13, 16, 45] (by decide) (by decide) (by decide) (by decide)⟩

end HuffmanImpl
